import Mathlib

/-!
Shallow embedding of hector_calibration: the objective-function engine of the
camera-lidar calibration and the registration loop of the lidar calibration.

The C++ sources embedded here are

* `hector_camera_lidar_calibration/src/mutual_information_cost.cpp` (histogram
  construction, density estimation, mutual-information cost),
* `hector_camera_lidar_calibration/src/optimizer.cpp` (the driver of the solver),
* `lidar_calibration/src/lidar_calibration.cpp` (registration loop,
  correspondence search, convergence check),
* `lidar_calibration/src/cloud_aggregator.cpp` (the cloud aggregator).

Conventions of the embedding:

* `float`/`double` values are elements of a linearly ordered field `F`.  Everything
  is generic in `F`, so the definitions run on `ℚ` and the theorems also hold on `ℝ`.
  The evaluation exists in two forms.  The first definitions compute in exact
  arithmetic, with `int` counters that do not overflow and a conversion to `uchar`
  that is a fault outside `0..255`.  The definitions whose names end in `Machine`
  follow the same statements in machine arithmetic: every result stored in a
  `float` or `double` is rounded to the nearest binary32 or binary64 value (ties to
  even, subnormal numbers included; overflow to infinity is not modelled), `int`
  counters wrap at 32 bits, the conversion to `uchar` keeps the low eight bits, and
  a logarithm of a cell that is not positive is not a number.
* `int` values are `Int`; `/` on two `int`s is `Int.tdiv` (rounding toward
  zero) and is a fault when the divisor is zero.
* `cv::Mat` arrays of `float` are lists (one row) or lists of rows.
* Library calls whose code is outside the repository (camera projection, image
  interpolation, `std::sqrt`, `std::pow`, `cv::log`, `cv::GaussianBlur`, the
  k-d tree, moving least squares) are fields of a record of external operations.
* Logging, publishers and debug images do not influence any value modelled here
  and are left out.
-/

namespace hector_calibration

/-- Statements of the C++ code that have no defined result. -/
inductive Fault where
  /-- An `int / int` division whose divisor is zero. -/
  | intDivByZero
  /-- A floating value converted to `uchar` whose truncation is not in `0..255`. -/
  | ucharOutOfRange
  /-- An element access outside the allocated array. -/
  | indexOutOfRange
  deriving DecidableEq, Repr

/-- A `cv::Mat` of `float` cells, stored row by row. -/
abbrev Mat (F : Type) := List (List F)

/-- The method `cv::Mat::empty()`: the array has no element. -/
def Mat.empty {F : Type} (m : Mat F) : Bool :=
  decide ((m.map List.length).sum = 0)

/-- An `Eigen::Affine3d`: linear part and translation. -/
structure Affine3 (F : Type) where
  linear : Matrix (Fin 3) (Fin 3) F
  translation : Fin 3 → F

/-- The call `pcl::transformPoint(point_in, point_out, transform)`. -/
def transformPoint {F : Type} [Field F] (point_in : Fin 3 → F) (transform : Affine3 F) :
    Fin 3 → F :=
  transform.linear.mulVec point_in + transform.translation

/-- An `int / int` division: rounding toward zero, undefined for a zero divisor. -/
def intDiv (a b : Int) : Except Fault Int :=
  if b = 0 then .error .intDivByZero else .ok (Int.tdiv a b)

/-- The expression `row.at<float>(i)` read on a one-row array. -/
def readAt {F : Type} (row : List F) (i : Nat) : Except Fault F :=
  match row[i]? with
  | some v => .ok v
  | none => .error .indexOutOfRange

/-- The expression `m.at<float>(i, j)` read. -/
def readAt2 {F : Type} (m : Mat F) (i j : Nat) : Except Fault F :=
  match m[i]? with
  | some row => readAt row j
  | none => .error .indexOutOfRange

/-- The statement `row.at<float>(i) = v` on a one-row array. -/
def writeAt {F : Type} (row : List F) (i : Nat) (v : F) : Except Fault (List F) :=
  if i < row.length then .ok (row.set i v) else .error .indexOutOfRange

/-- The statement `m.at<float>(i, j) = v`. -/
def writeAt2 {F : Type} (m : Mat F) (i j : Nat) (v : F) : Except Fault (Mat F) :=
  match m[i]? with
  | some row => (writeAt row j v).map (fun row1 => m.set i row1)
  | none => .error .indexOutOfRange

namespace camera_lidar_calibration

/-- A `pcl::PointXYZI`: position and reflectance (`intensity` in PCL's naming). -/
structure PointXYZI (F : Type) where
  x : F
  y : F
  z : F
  intensity : F

/-- The struct `CameraObservation` as `mutual_information_cost.cpp` uses it: camera
name, grayscale image, validity mask, transform from the camera head to this camera.
The colour image only feeds the debug output. -/
structure CameraObservation (F : Type) where
  name : String
  cv_image : Mat F
  cv_mask : Mat F
  transform : Affine3 F

/-- The struct `Observation`: one scan and the images taken with it. -/
structure Observation (F : Type) where
  scan : List (PointXYZI F)
  cam_observations : List (CameraObservation F)

/-- The struct `Histogram` of `mutual_information_cost.h`. -/
structure Histogram (F : Type) where
  joint_hist : Mat F
  reflectance_hist : List F
  intensity_hist : List F
  count : Int
  intensity_sum : Int
  reflectance_sum : Int

/-- The constructor `Histogram(int size)`: `size x size` zeros, two `1 x size` rows of
zeros, zero count and sums. A negative size, which OpenCV rejects, is not told apart
from size 0. -/
def Histogram.new {F : Type} [Zero F] (size : Int) : Histogram F where
  joint_hist := List.replicate size.toNat (List.replicate size.toNat 0)
  reflectance_hist := List.replicate size.toNat 0
  intensity_hist := List.replicate size.toNat 0
  count := 0
  intensity_sum := 0
  reflectance_sum := 0

/-- The struct `Probability` of `mutual_information_cost.h`. -/
structure Probability (F : Type) where
  joint_prob : Mat F
  reflectance_prob : List F
  intensity_prob : List F
  count : Int

/-- The constructor `Probability(int size)`. -/
def Probability.new {F : Type} [Zero F] (size : Int) : Probability F where
  joint_prob := List.replicate size.toNat (List.replicate size.toNat 0)
  reflectance_prob := List.replicate size.toNat 0
  intensity_prob := List.replicate size.toNat 0
  count := 0

/-- Operations that `mutual_information_cost.cpp` calls and that are defined outside
the repository sources at hand. -/
structure Externals (F : Type) where
  /-- The call `camera_model_.getCamera(name).worldToPixel(point_cam, pixel)`: `none` when
  it returns false, the pixel when it returns true. -/
  worldToPixel : String → (Fin 3 → F) → Option (Fin 2 → F)
  /-- The helper `interpolate(image, pixel)` (bilinear sub-pixel sampling). -/
  interpolate : Mat F → (Fin 2 → F) → F
  /-- The function `std::sqrt`. -/
  sqrt : F → F
  /-- The function `std::pow`. -/
  pow : F → F → F
  /-- The natural logarithm that `cv::log` applies to each cell. -/
  log : F → F
  /-- The call `cv::GaussianBlur(src, dst, cv::Size(0, 0), sigmaX, sigmaY)`; `sigmaX` is the
  deviation along a row (over the column index), `sigmaY` the one along a column, and
  `sigmaY = 0` stands for the omitted argument. -/
  GaussianBlur : Mat F → F → F → Mat F

/-- Conversion of a floating value to `uchar`: the fraction is discarded (toward zero);
the conversion is undefined when the result is not in `0..255`. -/
def toUchar {F : Type} [LinearOrderedField F] [FloorRing F] (x : F) : Except Fault Nat :=
  let t : Int := if 0 ≤ x then Int.floor x else Int.ceil x
  if 0 ≤ t ∧ t ≤ 255 then .ok t.toNat else .error .ucharOutOfRange

/-- The statement `row.at<float>(i) += 1` on a one-row array. -/
def incrAt {F : Type} [Zero F] [One F] [Add F] (row : List F) (i : Nat) :
    Except Fault (List F) :=
  if i < row.length then .ok (row.set i (row.getD i 0 + 1)) else .error .indexOutOfRange

/-- The statement `m.at<float>(i, j) += 1`. -/
def incrAt2 {F : Type} [Zero F] [One F] [Add F] (m : Mat F) (i j : Nat) :
    Except Fault (Mat F) :=
  if i < m.length ∧ j < (m.getD i []).length then
    .ok (m.set i ((m.getD i []).set j ((m.getD i []).getD j 0 + 1)))
  else .error .indexOutOfRange

/-- The object state of `NumericDiffMutualInformationCost` that the cost computation reads. -/
structure NumericDiffMutualInformationCost (F : Type) where
  observations_ : List (Observation F)
  bin_count_ : Int
  bin_fraction_ : Int

/-- The constructor: stores the observations and sets `bin_count_ = 256 / bin_fraction`
(an `int` division). The observations are given as `readData` stored them; `construct`
is the constructor together with `readData`. -/
def NumericDiffMutualInformationCost.new {F : Type} (observations : List (Observation F))
    (bin_fraction : Int) : Except Fault (NumericDiffMutualInformationCost F) :=
  (intDiv 256 bin_fraction).map (fun bin_count =>
    { observations_ := observations
      bin_count_ := bin_count
      bin_fraction_ := bin_fraction })

section histogram

variable {F : Type} [LinearOrderedField F] [FloorRing F]

/-- The body of the innermost loop of `computeHistogram` (lines 136-168): one point of
the scan, already moved to the camera head frame, against one camera. -/
def accumulate (ext : Externals F) (bin_fraction_ : Int) (point : PointXYZI F)
    (point_transformed : Fin 3 → F) (histogram : Histogram F)
    (cam_obs : CameraObservation F) : Except Fault (Histogram F) :=
  let point_cam := transformPoint point_transformed cam_obs.transform
  match ext.worldToPixel cam_obs.name point_cam with
  | none => .ok histogram
  | some pixel =>
    if cam_obs.cv_mask.empty = true ∨ ext.interpolate cam_obs.cv_mask pixel > 0 then do
      let intensity ← toUchar (ext.interpolate cam_obs.cv_image pixel / (bin_fraction_ : F))
      let reflectance ← toUchar (point.intensity / (bin_fraction_ : F))
      let intensity_hist ← incrAt histogram.intensity_hist intensity
      let reflectance_hist ← incrAt histogram.reflectance_hist reflectance
      let joint_hist ← incrAt2 histogram.joint_hist intensity reflectance
      pure { joint_hist := joint_hist
             reflectance_hist := reflectance_hist
             intensity_hist := intensity_hist
             count := histogram.count + 1
             intensity_sum := histogram.intensity_sum + intensity
             reflectance_sum := histogram.reflectance_sum + reflectance }
    else .ok histogram

/-- The loop over the points of one scan (lines 128-170). -/
def accumulateScan (ext : Externals F) (bin_fraction_ : Int) (cam_transform : Affine3 F)
    (observation : Observation F) (histogram : Histogram F) : Except Fault (Histogram F) :=
  observation.scan.foldlM
    (fun hist point =>
      let point_transformed := transformPoint ![point.x, point.y, point.z] cam_transform
      observation.cam_observations.foldlM
        (accumulate ext bin_fraction_ point point_transformed) hist)
    histogram

/-- The method `computeHistogram`. -/
def NumericDiffMutualInformationCost.computeHistogram (self : NumericDiffMutualInformationCost F)
    (ext : Externals F) (cam_transform : Affine3 F) : Except Fault (Histogram F) :=
  self.observations_.foldlM
    (fun hist observation => accumulateScan ext self.bin_fraction_ cam_transform observation hist)
    (Histogram.new self.bin_count_)

end histogram

section probability

variable {F : Type} [LinearOrderedField F]

/-- One pass of the inner loop of `computeProbability` (line 216): cell `(i, j)` of the
joint array. -/
def normalizeJointCell (histogram : Histogram F) (i : Nat) (joint_prob : Mat F) (j : Nat) :
    Except Fault (Mat F) := do
  let c ← readAt2 histogram.joint_hist i j
  writeAt2 joint_prob i j (c / (histogram.count : F))

/-- One pass of the outer loop of `computeProbability` (lines 207-218). The state is
`(sigma_intensity, sigma_reflectance, prob)`. -/
def normalizeBin (ext : Externals F) (bin_count_ : Int) (histogram : Histogram F)
    (mu_intensity mu_reflectance : F) (st : F × F × Probability F) (i : Nat) :
    Except Fault (F × F × Probability F) := do
  let (sigma_intensity, sigma_reflectance, prob) := st
  let hi ← readAt histogram.intensity_hist i
  let hr ← readAt histogram.reflectance_hist i
  let sigma_intensity := sigma_intensity + hi * ext.pow ((i : F) - mu_intensity) 2
  let sigma_reflectance := sigma_reflectance + hr * ext.pow ((i : F) - mu_reflectance) 2
  let intensity_prob ← writeAt prob.intensity_prob i (hi / (histogram.count : F))
  let reflectance_prob ← writeAt prob.reflectance_prob i (hr / (histogram.count : F))
  let joint_prob ← (List.range bin_count_.toNat).foldlM (normalizeJointCell histogram i)
    prob.joint_prob
  pure (sigma_intensity, sigma_reflectance,
    { prob with intensity_prob := intensity_prob
                reflectance_prob := reflectance_prob
                joint_prob := joint_prob })

/-- The call `cv::GaussianBlur(row, row, cv::Size(0, 0), sigma)` on a one-row array. -/
def blurRow (ext : Externals F) (row : List F) (sigma : F) : List F :=
  (ext.GaussianBlur [row] sigma 0).getD 0 []

/-- The method `computeProbability`. The first statement divides two `int`s. -/
def NumericDiffMutualInformationCost.computeProbability
    (self : NumericDiffMutualInformationCost F) (ext : Externals F)
    (histogram : Histogram F) : Except Fault (Probability F) := do
  let mu_intensity : F := ((← intDiv histogram.intensity_sum histogram.count) : Int)
  let mu_reflectance : F := ((← intDiv histogram.reflectance_sum histogram.count) : Int)
  let (sigma_intensity, sigma_reflectance, prob) ←
    (List.range self.bin_count_.toNat).foldlM
      (normalizeBin ext self.bin_count_ histogram mu_intensity mu_reflectance)
      (0, 0, Probability.new self.bin_count_)
  let sigma_intensity := sigma_intensity / (histogram.count : F)
  let sigma_reflectance := sigma_reflectance / (histogram.count : F)
  let sigma_intensity := 1.06 * ext.sqrt sigma_intensity / ext.pow (histogram.count : F) 0.2
  let sigma_reflectance := 1.06 * ext.sqrt sigma_reflectance / ext.pow (histogram.count : F) 0.2
  pure { intensity_prob := blurRow ext prob.intensity_prob sigma_intensity
         reflectance_prob := blurRow ext prob.reflectance_prob sigma_reflectance
         joint_prob := ext.GaussianBlur prob.joint_prob sigma_intensity sigma_reflectance
         count := histogram.count }

/-- Lines 254-259 on one row: a copy in which every cell equal to zero is set to `1e-7`. -/
def rowNoZero (row : List F) : List F :=
  row.map (fun p => if p = 0 then 1e-7 else p)

/-- Lines 262-273 on one row: `cv::log` of the copy without zeros, then `cv::multiply`
with the probabilities. -/
def rowEntropy (ext : Externals F) (row : List F) : List F :=
  List.zipWith (fun p l => p * l) row ((rowNoZero row).map ext.log)

/-- The call `cv::norm(row, cv::NORM_L1)` on one row: the sum of the absolute values. -/
def rowNormL1 (row : List F) : F :=
  (row.map (fun v => |v|)).sum

/-- The joint array after lines 258-273: each row treated as `rowEntropy` does. -/
def matEntropy (ext : Externals F) (m : Mat F) : Mat F :=
  m.map (rowEntropy ext)

/-- The call `cv::norm(m, cv::NORM_L1)`. -/
def matNormL1 (m : Mat F) : F :=
  (m.map rowNormL1).sum

/-- The local `Hx` of `computeMutualInformationCost` (line 279). -/
def Hx (ext : Externals F) (prob : Probability F) : F :=
  rowNormL1 (rowEntropy ext prob.intensity_prob)

/-- The local `Hy` of `computeMutualInformationCost` (line 280). -/
def Hy (ext : Externals F) (prob : Probability F) : F :=
  rowNormL1 (rowEntropy ext prob.reflectance_prob)

/-- The local `Hxy` of `computeMutualInformationCost` (line 281). -/
def Hxy (ext : Externals F) (prob : Probability F) : F :=
  matNormL1 (matEntropy ext prob.joint_prob)

/-- Lines 250-288 of `computeMutualInformationCost`: from the probability estimate to
the returned value. -/
def costOfProbability (ext : Externals F) (prob : Probability F) : F :=
  let intensity_entropy := rowEntropy ext prob.intensity_prob
  let reflectance_entropy := rowEntropy ext prob.reflectance_prob
  let joint_entropy := matEntropy ext prob.joint_prob
  let Hx := rowNormL1 intensity_entropy
  let Hy := rowNormL1 reflectance_entropy
  let Hxy := matNormL1 joint_entropy
  let mi := Hx + Hy - Hxy
  let cost := -mi
  cost

/-- One summand of the entropy as the specification words it: `p * log(p1)`, where `p1`
is `p` with a zero replaced by `1e-7`. -/
def entropyTerm (log : F → F) (p : F) : F :=
  p * log (if p = 0 then 1e-7 else p)

/-- The entropy of a row as the specification words it: `H = -sum(p * log(p1))`. -/
def specEntropy (log : F → F) (row : List F) : F :=
  -(row.map (entropyTerm log)).sum

/-- The entropy of a two-dimensional array as the specification words it: the same sum
over all cells. -/
def specEntropy2 (log : F → F) (m : Mat F) : F :=
  -(m.map (fun row => (row.map (entropyTerm log)).sum)).sum

/-- Column sums of an array with `n` columns. -/
def colSums (n : Nat) (m : Mat F) : List F :=
  (List.range n).map (fun j => (m.map (fun row => row.getD j 0)).sum)

/-- Row sums of an array. -/
def rowSums (m : Mat F) : List F :=
  m.map List.sum

end probability

section cost

variable {F : Type} [LinearOrderedField F] [FloorRing F]

/-- The method `computeMutualInformationCost`. -/
def NumericDiffMutualInformationCost.computeMutualInformationCost
    (self : NumericDiffMutualInformationCost F) (ext : Externals F)
    (cam_transform : Affine3 F) : Except Fault F := do
  let hist ← self.computeHistogram ext cam_transform
  let prob ← self.computeProbability ext hist
  pure (costOfProbability ext prob)

end cost

/-- The arrays of a histogram all have side `n`. -/
def Histogram.hasSide {F : Type} (h : Histogram F) (n : Nat) : Prop :=
  h.joint_hist.length = n ∧ (∀ row ∈ h.joint_hist, row.length = n) ∧
    h.intensity_hist.length = n ∧ h.reflectance_hist.length = n

/-! Concrete data on which the definitions are evaluated. -/

/-- External operations over `ℚ`: every projection succeeds at pixel `(0, 0)`, every
image samples to `v`, smoothing is the identity. -/
def sampleExternals (v : ℚ) : Externals ℚ where
  worldToPixel := fun _ _ => some ![0, 0]
  interpolate := fun _ _ => v
  sqrt := fun x => x
  pow := fun x _ => x
  log := fun x => x - 1
  GaussianBlur := fun m _ _ => m

/-- External operations over any field with a given logarithm; projection fails and
smoothing is the identity. -/
def externalsOfLog {F : Type} [Zero F] (log : F → F) : Externals F where
  worldToPixel := fun _ _ => none
  interpolate := fun _ _ => 0
  sqrt := fun x => x
  pow := fun x _ => x
  log := log
  GaussianBlur := fun m _ _ => m

/-- External operations over `ℚ` whose projection always fails. -/
def blindExternals : Externals ℚ where
  worldToPixel := fun _ _ => none
  interpolate := fun _ _ => 0
  sqrt := fun x => x
  pow := fun x _ => x
  log := fun x => x - 1
  GaussianBlur := fun m _ _ => m

/-- A camera without mask, placed at the camera head. -/
def sampleCamera : CameraObservation ℚ :=
  { name := "cam", cv_image := [[255]], cv_mask := [], transform := ⟨1, 0⟩ }

/-- One scan with a single point of reflectance `r`, seen by `sampleCamera`. -/
def sampleObservation (r : ℚ) : Observation ℚ :=
  { scan := [⟨1, 0, 0, r⟩], cam_observations := [sampleCamera] }

end camera_lidar_calibration

/-! ## lidar_calibration.cpp -/

/-- A `pcl::PointXYZ`. -/
structure PointXYZ (F : Type) where
  x : F
  y : F
  z : F

/-- A `pcl::PointNormal`: a point with its surface normal and curvature. -/
structure PointNormal (F : Type) where
  x : F
  y : F
  z : F
  normal_x : F
  normal_y : F
  normal_z : F
  curvature : F

/-- Modelled from the spec: the struct `Calibration` is declared in
`lidar_calibration/calibration.h`, which is not among the sources. The specification
describes the calibration parameters as the 6-tuple translation x, y, z and rotation
roll, pitch, yaw; `lidar_calibration.cpp` reads `x`, `y`, `roll`, `pitch` and `yaw`. -/
structure Calibration (F : Type) where
  x : F
  y : F
  z : F
  roll : F
  pitch : F
  yaw : F

/-- Modelled from the spec: the default constructor `Calibration()` of the missing header
`lidar_calibration/calibration.h`, taken to be the identity (all parameters zero), the
seed the specification names for a missing initial guess. -/
def Calibration.default {F : Type} [Zero F] : Calibration F :=
  { x := 0, y := 0, z := 0, roll := 0, pitch := 0, yaw := 0 }

/-- Operations that `lidar_calibration.cpp` calls and whose code is outside the
repository. -/
structure PclExternals (F : Type) where
  /-- The sine used by `Eigen::AngleAxisd`. -/
  sin : F → F
  /-- The cosine used by `Eigen::AngleAxisd`. -/
  cos : F → F
  /-- The call `mls.process(normals)` of `pcl::MovingLeastSquares` on the given input
  cloud, with the settings of `computeNormals`. -/
  mlsProcess : List (PointXYZ F) → List (PointNormal F)
  /-- The call `kdtree.nearestKSearch(point, k, index, sqrt_dist)` on a tree whose input
  cloud is the first argument: `some j` when the call returns a positive number, `j`
  being `index[0]` afterwards, and `none` when it returns no neighbour. -/
  nearestKSearch : List (PointXYZ F) → PointXYZ F → Nat → Option Int

namespace LidarCalibration

/-- The struct `CalibrationOptions` of `lidar_calibration.h`. -/
structure CalibrationOptions (F : Type) where
  max_iterations : Nat
  max_sqrt_neighbor_dist : F
  sqrt_convergence_diff_thres : F
  normals_radius : F
  detect_ground_plane : Bool
  detect_ceiling : Bool
  init_calibration : Calibration F

/-- The constructor `CalibrationOptions()`. -/
def CalibrationOptions.new {F : Type} [Field F] : CalibrationOptions F where
  max_iterations := 20
  max_sqrt_neighbor_dist := 0.1
  sqrt_convergence_diff_thres := 1e-6
  normals_radius := 0.07
  detect_ground_plane := false
  detect_ceiling := false
  init_calibration := Calibration.default

/-- The member functions that `calibrate` calls, as entries of a call trace. -/
inductive Call where
  | applyCalibration
  | computeNormals
  | findNeighbors
  | optimize_calibration
  | check_convergence
  deriving DecidableEq, Repr

section registration

variable {F : Type} [Field F]

/-- The rotation `Eigen::AngleAxisd(angle, Eigen::Vector3d::UnitZ())` as a matrix. -/
def AngleAxisUnitZ (ext : PclExternals F) (angle : F) : Matrix (Fin 3) (Fin 3) F :=
  !![ext.cos angle, -ext.sin angle, 0; ext.sin angle, ext.cos angle, 0; 0, 0, 1]

/-- The rotation `Eigen::AngleAxisd(angle, Eigen::Vector3d::UnitY())` as a matrix. -/
def AngleAxisUnitY (ext : PclExternals F) (angle : F) : Matrix (Fin 3) (Fin 3) F :=
  !![ext.cos angle, 0, ext.sin angle; 0, 1, 0; -ext.sin angle, 0, ext.cos angle]

/-- The rotation `Eigen::AngleAxisd(angle, Eigen::Vector3d::UnitX())` as a matrix. -/
def AngleAxisUnitX (ext : PclExternals F) (angle : F) : Matrix (Fin 3) (Fin 3) F :=
  !![1, 0, 0; 0, ext.cos angle, -ext.sin angle; 0, ext.sin angle, ext.cos angle]

/-- The call `pcl::transformPointCloud(cloud, cloud, transform)`. -/
def transformPointCloud (cloud : List (PointXYZ F)) (transform : Affine3 F) :
    List (PointXYZ F) :=
  cloud.map (fun p =>
    let q := transformPoint ![p.x, p.y, p.z] transform
    { x := q 0, y := q 1, z := q 2 })

/-- The transform that `applyCalibration` builds (lines 68-71). -/
def calibrationTransform (ext : PclExternals F) (calibration : Calibration F) : Affine3 F where
  linear := AngleAxisUnitZ ext calibration.yaw * AngleAxisUnitY ext calibration.pitch
    * AngleAxisUnitX ext calibration.roll
  translation := ![calibration.x, calibration.y, 0]

/-- The method `applyCalibration`; the two clouds are changed in place, the result is
their new contents. -/
def applyCalibration (ext : PclExternals F) (cloud1 cloud2 : List (PointXYZ F))
    (calibration : Calibration F) : List (PointXYZ F) × List (PointXYZ F) :=
  let transform := calibrationTransform ext calibration
  (transformPointCloud cloud1 transform, transformPointCloud cloud2 transform)

/-- The method `computeNormals`. -/
def computeNormals (ext : PclExternals F) (cloud : List (PointXYZ F)) : List (PointNormal F) :=
  ext.mlsProcess cloud

/-- The loop of `findNeighbors` (lines 109-115) from index `i` on. -/
def findNeighborsLoop (ext : PclExternals F) (cloud1 cloud2 : List (PointXYZ F)) (i : Nat)
    (mapping : List Int) : List Int :=
  if h : i < cloud1.length then
    match ext.nearestKSearch cloud2 cloud1[i] 1 with
    | some index0 => findNeighborsLoop ext cloud1 cloud2 (i + 1) (mapping.set i index0)
    | none => findNeighborsLoop ext cloud1 cloud2 (i + 1) (mapping.set i (-1))
  else mapping
termination_by cloud1.length - i

/-- The method `findNeighbors`. -/
def findNeighbors (ext : PclExternals F) (cloud1 cloud2 : List (PointXYZ F)) : List Int :=
  findNeighborsLoop ext cloud1 cloud2 0 (List.replicate cloud1.length (-1))

/-- The method `optimize_calibration`. -/
def optimize_calibration (_normals : List (PointNormal F)) (_neighbor_mapping : List Int) :
    Calibration F :=
  Calibration.default

/-- The method `check_convergence`. -/
def check_convergence (_prev_calibration _current_calibration : Calibration F) : Bool :=
  false

/-- The variables of `calibrate` that its loop changes, and the trace of calls made. -/
structure CalibrateState (F : Type) where
  cloud1 : List (PointXYZ F)
  cloud2 : List (PointXYZ F)
  calibrations : List (Calibration F)
  calls : List Call

/-- The body of the loop of `calibrate` up to `iteration_counter++` (lines 52-58). -/
def iteration (ext : PclExternals F) (st : CalibrateState F) :
    Except Fault (CalibrateState F) := do
  let last ← readAt st.calibrations (st.calibrations.length - 1)
  let (cloud1, cloud2) := applyCalibration ext st.cloud1 st.cloud2 last
  let normals := computeNormals ext cloud1
  let neighbor_mapping := findNeighbors ext cloud1 cloud2
  pure { cloud1 := cloud1
         cloud2 := cloud2
         calibrations := st.calibrations ++ [optimize_calibration normals neighbor_mapping]
         calls := st.calls ++ [Call.applyCalibration, Call.computeNormals, Call.findNeighbors,
           Call.optimize_calibration] }

/-- The `do ... while` loop of `calibrate` (lines 51-61), entered with the given value of
`iteration_counter`; the result is the final counter and the final variables. -/
def calibrateLoop (ext : PclExternals F) (max_iterations : Nat) (iteration_counter : Nat)
    (st : CalibrateState F) : Except Fault (Nat × CalibrateState F) :=
  match iteration ext st with
  | .error e => .error e
  | .ok st1 =>
    if h : iteration_counter + 1 < max_iterations then
      if iteration_counter + 1 < 2 then
        calibrateLoop ext max_iterations (iteration_counter + 1) st1
      else
        let st2 := { st1 with calls := st1.calls ++ [Call.check_convergence] }
        match readAt st1.calibrations (st1.calibrations.length - 2),
              readAt st1.calibrations (st1.calibrations.length - 1) with
        | .ok prev, .ok current =>
          if check_convergence prev current = true then .ok (iteration_counter + 1, st2)
          else calibrateLoop ext max_iterations (iteration_counter + 1) st2
        | .error e, _ => .error e
        | _, .error e => .error e
    else .ok (iteration_counter + 1, st1)
termination_by max_iterations - iteration_counter

/-- The method `calibrate`. -/
def calibrate (ext : PclExternals F) (options_ : CalibrationOptions F)
    (cloud1 cloud2 : List (PointXYZ F)) (init_calibration : Calibration F) :
    Except Fault (Nat × CalibrateState F) :=
  calibrateLoop ext options_.max_iterations 0
    { cloud1 := cloud1, cloud2 := cloud2, calibrations := [init_calibration], calls := [] }

end registration

/-- An entry of a neighbour mapping: the sentinel `-1` or an index into a cloud of `n`
points. -/
def validEntry (n : Nat) (e : Int) : Prop :=
  e = -1 ∨ (0 ≤ e ∧ e < n)

/-- External operations over `ℚ`: the k-d tree reports point 0 of a cloud that has a
point and nothing on an empty cloud; moving least squares returns no normal. -/
def samplePcl : PclExternals ℚ where
  sin := fun _ => 0
  cos := fun _ => 1
  mlsProcess := fun _ => []
  nearestKSearch := fun cloud _ _ =>
    match cloud with
    | [] => none
    | _ :: _ => some 0

/-- The default options with another iteration bound. -/
def sampleOptions (max_iterations : Nat) : CalibrationOptions ℚ :=
  { (CalibrationOptions.new : CalibrationOptions ℚ) with max_iterations := max_iterations }

end LidarCalibration

end hector_calibration

/-! ## Further stages of the cost evaluation, the adapter and the driver -/

namespace hector_calibration

namespace camera_lidar_calibration

section probability_stages

variable {F : Type} [LinearOrderedField F]

/-- A marginal mean as `computeProbability` forms it (lines 197 and 199): the quotient of
two `int`s, converted to `float` afterwards. -/
def marginalMean (sum count : Int) : Except Fault F := do
  let q ← intDiv sum count
  pure ((q : Int) : F)

/-- The loop of `computeProbability` (lines 205-218) on its own: the state
`(sigma_intensity, sigma_reflectance, prob)` before the division of the two sums and
before any smoothing. -/
def NumericDiffMutualInformationCost.normalizeHistogram
    (self : NumericDiffMutualInformationCost F) (ext : Externals F) (histogram : Histogram F)
    (mu_intensity mu_reflectance : F) : Except Fault (F × F × Probability F) :=
  (List.range self.bin_count_.toNat).foldlM
    (normalizeBin ext self.bin_count_ histogram mu_intensity mu_reflectance)
    (0, 0, Probability.new self.bin_count_)

/-- The bandwidth of lines 220-225: the accumulated sum divided by the count, then
Silverman's rule. -/
def bandwidth (ext : Externals F) (sigma : F) (count : Int) : F :=
  1.06 * ext.sqrt (sigma / (count : F)) / ext.pow (count : F) 0.2

/-- The counts of a histogram are non-negative and the three arrays all total the
count. -/
def Histogram.consistent (h : Histogram F) : Prop :=
  (∀ x ∈ h.intensity_hist, 0 ≤ x) ∧ (∀ x ∈ h.reflectance_hist, 0 ≤ x) ∧
    (∀ row ∈ h.joint_hist, ∀ x ∈ row, 0 ≤ x) ∧
    h.intensity_hist.sum = (h.count : F) ∧ h.reflectance_hist.sum = (h.count : F) ∧
    (rowSums h.joint_hist).sum = (h.count : F)

/-- The arrays of a probability estimate after `k` passes of the loop of
`computeProbability`: all of side `n`, and the first `k` cells and rows hold counts
divided by the count. -/
def normalizedUpTo (histogram : Histogram F) (n k : Nat) (st : F × F × Probability F) : Prop :=
  st.2.2.intensity_prob.length = n ∧ st.2.2.reflectance_prob.length = n ∧
    (st.2.2.joint_prob.length = n ∧ ∀ r ∈ st.2.2.joint_prob, r.length = n) ∧
    (∀ i < k, st.2.2.intensity_prob.getD i 0
      = histogram.intensity_hist.getD i 0 / (histogram.count : F)) ∧
    (∀ i < k, st.2.2.reflectance_prob.getD i 0
      = histogram.reflectance_hist.getD i 0 / (histogram.count : F)) ∧
    (∀ i < k, ∀ j < n, (st.2.2.joint_prob.getD i []).getD j 0
      = (histogram.joint_hist.getD i []).getD j 0 / (histogram.count : F))

end probability_stages

end camera_lidar_calibration

/-- The rotation matrix of `Eigen::AngleAxisd(angle, axis)` (`toRotationMatrix`), for a
given sine and cosine. -/
def AngleAxis {F : Type} [Field F] (sin cos : F → F) (angle : F) (axis : Fin 3 → F) :
    Matrix (Fin 3) (Fin 3) F :=
  let s := sin angle
  let c := cos angle
  let ux := axis 0
  let uy := axis 1
  let uz := axis 2
  !![(1 - c) * ux * ux + c, (1 - c) * ux * uy - s * uz, (1 - c) * ux * uz + s * uy;
     (1 - c) * ux * uy + s * uz, (1 - c) * uy * uy + c, (1 - c) * uy * uz - s * ux;
     (1 - c) * ux * uz - s * uy, (1 - c) * uy * uz + s * ux, (1 - c) * uz * uz + c]

/-- The vector `Eigen::Vector3d::UnitX()`. -/
def UnitX {F : Type} [Field F] : Fin 3 → F := ![1, 0, 0]

/-- The vector `Eigen::Vector3d::UnitY()`. -/
def UnitY {F : Type} [Field F] : Fin 3 → F := ![0, 1, 0]

/-- The vector `Eigen::Vector3d::UnitZ()`. -/
def UnitZ {F : Type} [Field F] : Fin 3 → F := ![0, 0, 1]

/-- Operations of Eigen that `optimizer.cpp` and `operator()` call. -/
structure EigenOps (F : Type) where
  /-- The sine used by `Eigen::AngleAxisd`. -/
  sin : F → F
  /-- The cosine used by `Eigen::AngleAxisd`. -/
  cos : F → F
  /-- The call `linear.eulerAngles(2, 1, 0)`: the angles about z, about y and about x, in
  this order. -/
  eulerAngles210 : Matrix (Fin 3) (Fin 3) F → (Fin 3 → F)

namespace camera_lidar_calibration

/-- Operations of the ceres solver that the adapter and the driver call. -/
structure CeresOps (F : Type) where
  /-- The call `cost_function_->Evaluate(parameters, cost, jacobian)` of the
  `ceres::NumericDiffCostFunction` that wraps a functor; the last argument tells whether a
  jacobian is requested. The result is the flag returned, the cost and the gradient. -/
  costFunctionEvaluate : ((Fin 6 → F) → Except Fault (Bool × F)) → (Fin 6 → F) → Bool →
    Except Fault (Bool × F × (Fin 6 → F))
  /-- The call `ceres::Solve(options, problem, parameters, &summary)` for a problem given
  by its `Evaluate`: the parameters it leaves behind. -/
  Solve : ((Fin 6 → F) → Bool → Except Fault (Bool × F × (Fin 6 → F))) → (Fin 6 → F) →
    Except Fault (Fin 6 → F)

/-- A stand-in for `cv::GaussianBlur` that keeps its two directions apart: when `sigmaX`
exceeds 1/2 every row is replaced by the constant row of its mean (smoothing along x, over
the column index), and when `sigmaY` exceeds 1/2 every column is replaced by its mean
(smoothing along y, over the row index). -/
def meanBlur (m : Mat ℚ) (sigmaX sigmaY : ℚ) : Mat ℚ :=
  let m1 := if 1 / 2 < sigmaX then
      m.map (fun row => List.replicate row.length (row.sum / (row.length : ℚ)))
    else m
  if 1 / 2 < sigmaY then
    m1.map (fun row => (colSums row.length m1).map (fun s => s / (m1.length : ℚ)))
  else m1

/-- External operations over `ℚ` with `meanBlur` for the smoothing, the identity for the
square root and a power that squares for exponent 2 and is 1 otherwise. -/
def axisExternals : Externals ℚ where
  worldToPixel := fun _ _ => some ![0, 0]
  interpolate := fun _ _ => 0
  sqrt := fun x => x
  pow := fun x y => if y = 2 then x * x else 1
  log := fun x => x - 1
  GaussianBlur := meanBlur

/-- The histogram of the three pairs (intensity bin, reflectance bin) = (0, 0), (1, 0),
(1, 1) on a grid of side 2. -/
def threePairHistogram : Histogram ℚ :=
  { joint_hist := [[1, 0], [1, 1]], reflectance_hist := [2, 1], intensity_hist := [1, 2],
    count := 3, intensity_sum := 2, reflectance_sum := 1 }

section adapter

variable {F : Type} [LinearOrderedField F] [FloorRing F]

/-- The transform that `operator()` builds from the parameters (lines 102-105). Eigen
forms the product of the three rotations through unit quaternions, which for a true sine
and cosine is the product of the three rotation matrices. -/
def parametersToTransform (eig : EigenOps F) (parameters : Fin 6 → F) : Affine3 F where
  linear := AngleAxis eig.sin eig.cos (parameters 5) UnitZ
    * AngleAxis eig.sin eig.cos (parameters 4) UnitY
    * AngleAxis eig.sin eig.cos (parameters 3) UnitX
  translation := ![parameters 0, parameters 1, parameters 2]

/-- The method `NumericDiffMutualInformationCost::operator()`: the flag it returns and
the cost it stores in `cost[0]`. -/
def NumericDiffMutualInformationCost.operatorCall (self : NumericDiffMutualInformationCost F)
    (eig : EigenOps F) (ext : Externals F) (parameters : Fin 6 → F) :
    Except Fault (Bool × F) := do
  let calibration := parametersToTransform eig parameters
  let cost ← self.computeMutualInformationCost ext calibration
  pure (true, cost)

/-- The method `MutualInformationCost::Evaluate`; `wantGradient` stands for
`gradient != NULL`. Both branches return false when the wrapped cost function does and
true otherwise. -/
def MutualInformationCost.Evaluate (cost_function_ : NumericDiffMutualInformationCost F)
    (ceres : CeresOps F) (eig : EigenOps F) (ext : Externals F) (parameters : Fin 6 → F)
    (wantGradient : Bool) : Except Fault (Bool × F × (Fin 6 → F)) := do
  let (ok, cost, gradient) ←
    ceres.costFunctionEvaluate (cost_function_.operatorCall eig ext) parameters wantGradient
  if wantGradient then
    if !ok then pure (false, cost, gradient) else pure (true, cost, gradient)
  else
    if !ok then pure (false, cost, gradient) else pure (true, cost, gradient)

/-- One element of `data_`: the recorded initial transform and the scan with its images.
The fields of the ROS message are taken as `readData` extracts them. -/
structure CameraLidarCalibrationData (F : Type) where
  cam_transform : Affine3 F
  observation : Observation F

/-- The members of `Optimizer` that `run` reads. -/
structure Optimizer (F : Type) where
  data_ : List (CameraLidarCalibrationData F)
  bin_fraction_ : Int
  scan_sample_size_ : Int

/-- What `Optimizer::run` does that is visible from outside, in order. -/
inductive RunEvent where
  | info (message : String)
  | error (message : String)
  | constructCost
  | solve
  | report
  deriving DecidableEq, Repr

/-- The outcome of `Optimizer::run`: the events and, when the solver ran, the parameters
it left. -/
structure RunResult (F : Type) where
  events : List RunEvent
  parameters : Option (Fin 6 → F)

/-- The initial parameters that `run` builds (lines 48-55): `parameters[i] = xyz(i)` and
`parameters[i + 3] = ypr(2 - i)` for `i = 0, 1, 2`. -/
def initialParameters (eig : EigenOps F) (init_transform : Affine3 F) : Fin 6 → F :=
  let ypr := eig.eulerAngles210 init_transform.linear
  let xyz := init_transform.translation
  ![xyz 0, xyz 1, xyz 2, ypr 2, ypr 1, ypr 0]

/-- The method `Optimizer::run`. The cost object is built from the data and the bin
fraction with the constructor of `mutual_information_cost.cpp`, which has no parameter for
the fourth argument `scan_sample_size_` that `run` passes. -/
def Optimizer.run (self : Optimizer F) (ceres : CeresOps F) (eig : EigenOps F)
    (ext : Externals F) : Except Fault (RunResult F) :=
  if self.data_.isEmpty then
    .ok { events := [RunEvent.info "Starting optimization",
                     RunEvent.error "Calibration data vector is empty."]
          parameters := none }
  else do
    let first ← readAt self.data_ 0
    let parameters := initialParameters eig first.cam_transform
    let cost ← NumericDiffMutualInformationCost.new
      (self.data_.map (fun d => d.observation)) self.bin_fraction_
    let solved ← ceres.Solve (MutualInformationCost.Evaluate cost ceres eig ext) parameters
    pure { events := [RunEvent.info "Starting optimization",
                      RunEvent.info "Initial calibration", RunEvent.constructCost,
                      RunEvent.solve, RunEvent.report, RunEvent.info "Optimization result"]
           parameters := some solved }

end adapter

/-- A ceres stand-in: the cost function evaluates the functor once and hands its flag and
cost on with a zero gradient; the solver evaluates the problem once at the initial
parameters and leaves them as they are. -/
def directCeres {F : Type} [Zero F] : CeresOps F where
  costFunctionEvaluate := fun functor parameters _ =>
    (functor parameters).map (fun r => (r.1, r.2, fun _ => 0))
  Solve := fun evaluate parameters => (evaluate parameters true).map (fun _ => parameters)

/-- Eigen operations from a sine and a cosine, with an Euler decomposition that always
answers zero angles. -/
def eigenOfTrig {F : Type} [Zero F] (sin cos : F → F) : EigenOps F where
  sin := sin
  cos := cos
  eulerAngles210 := fun _ => ![0, 0, 0]

end camera_lidar_calibration

end hector_calibration

/-! ## Marginals of the histogram and the cloud aggregator -/

namespace hector_calibration

namespace camera_lidar_calibration

section histogram_marginals

variable {F : Type} [LinearOrderedField F]

/-- The marginal arrays of a histogram with `n` bins per axis agree with its joint
array: every intensity cell is the sum of its joint row, every reflectance cell the sum
of its joint column, and `intensity_sum` and `reflectance_sum` are the bin indices
weighted by the cells of the marginal arrays. -/
def Histogram.marginalsOfJoint (h : Histogram F) (n : Nat) : Prop :=
  (∀ i < n, h.intensity_hist.getD i 0 = (h.joint_hist.getD i []).sum) ∧
    (∀ j < n, h.reflectance_hist.getD j 0 = (h.joint_hist.map (fun row => row.getD j 0)).sum) ∧
    (h.intensity_sum : F) = ∑ i ∈ Finset.range n, (i : F) * h.intensity_hist.getD i 0 ∧
    (h.reflectance_sum : F) = ∑ j ∈ Finset.range n, (j : F) * h.reflectance_hist.getD j 0

end histogram_marginals

end camera_lidar_calibration

/-- What `cloudCallback` reads of a `sensor_msgs::PointCloud2`: the frame and stamp of the
header and the points that `pcl::fromROSMsg` extracts. -/
structure PointCloud2 (F : Type) where
  frame_id : String
  stamp : Nat
  points : List (PointXYZ F)

/-- Operations of the `tf::TransformListener` that `cloudCallback` calls, each on target
frame, source frame and stamp. -/
structure TfOps (F : Type) where
  /-- The call `tfl_->waitForTransform(target, source, stamp, wait_duration_)`. -/
  waitForTransform : String → String → Nat → Bool
  /-- The roll that `tf::Matrix3x3(transform.getRotation()).getRPY(roll, pitch, yaw)`
  yields for the transform of `tfl_->lookupTransform(target, source, stamp, transform)`. -/
  lookupRoll : String → String → Nat → F

/-- The typedef `pc_roll_tuple` of `cloud_aggregator.h`: a cloud with its roll angle. -/
abbrev pc_roll_tuple (F : Type) : Type := List (PointXYZ F) × F

/-- The constant `M_PI` of `math.h`. -/
def M_PI {F : Type} [Field F] : F := 3.14159265358979323846

/-- The state of a `CalibrationCloudAggregator`. `request_scans_srv_` tells whether the
service is advertised, `cloud1_` and `cloud2_` hold the points of the two messages, and
`point_cloud1_pub_` and `point_cloud2_pub_` list what was published on each topic. The
counter `captured_clouds_` is an `unsigned int` that never leaves `0 .. 3`. -/
structure CalibrationCloudAggregator (F : Type) where
  p_target_frame_ : String
  prior_roll_angle_ : F
  captured_clouds_ : Nat
  cloud_agg1_ : List (pc_roll_tuple F)
  cloud_agg2_ : List (pc_roll_tuple F)
  cloud1_ : List (PointXYZ F)
  cloud2_ : List (PointXYZ F)
  request_scans_srv_ : Bool
  point_cloud1_pub_ : List (List (PointXYZ F))
  point_cloud2_pub_ : List (List (PointXYZ F))

namespace CalibrationCloudAggregator

section aggregator

variable {F : Type} [LinearOrderedField F]

/-- The constructor (lines 4-20); `target_frame` is the value of the parameter of that
name on the parameter server, if it is set. -/
def new (target_frame : Option String) : CalibrationCloudAggregator F where
  p_target_frame_ := target_frame.getD "base_link"
  prior_roll_angle_ := 0
  captured_clouds_ := 0
  cloud_agg1_ := []
  cloud_agg2_ := []
  cloud1_ := []
  cloud2_ := []
  request_scans_srv_ := false
  point_cloud1_pub_ := []
  point_cloud2_pub_ := []

/-- The method `publishClouds` (lines 22-28). -/
def publishClouds (self : CalibrationCloudAggregator F) : CalibrationCloudAggregator F :=
  if self.captured_clouds_ < 3 then self
  else { self with point_cloud1_pub_ := self.point_cloud1_pub_ ++ [self.cloud1_]
                   point_cloud2_pub_ := self.point_cloud2_pub_ ++ [self.cloud2_] }

/-- The method `transformCloud` (lines 36-50): every cloud of the aggregator is rotated
about the x axis by its roll angle and the results are concatenated. -/
def transformCloud (eig : EigenOps F) (cloud_agg : List (pc_roll_tuple F)) :
    List (PointXYZ F) :=
  cloud_agg.foldl (fun tmp_agg_cloud t =>
    let sensor_to_actuator : Affine3 F :=
      { linear := AngleAxis eig.sin eig.cos t.2 UnitX, translation := 0 }
    let pc_tmp := LidarCalibration.transformPointCloud t.1 sensor_to_actuator
    if tmp_agg_cloud.isEmpty then pc_tmp else tmp_agg_cloud ++ pc_tmp) []

/-- The method `resetClouds` (lines 76-83). -/
def resetClouds (self : CalibrationCloudAggregator F) : CalibrationCloudAggregator F :=
  { self with cloud_agg1_ := [], cloud_agg2_ := [], captured_clouds_ := 0,
              prior_roll_angle_ := 0, request_scans_srv_ := false }

/-- The test of lines 126-127 on the stored and the current roll angle. -/
def rollCrossed (prior_roll_angle_ roll : F) : Prop :=
  (prior_roll_angle_ < -M_PI * 0.5 ∧ roll > -M_PI * 0.5) ∨
    (prior_roll_angle_ < M_PI * 0.5 ∧ roll > M_PI * 0.5)

instance (prior_roll_angle_ roll : F) : Decidable (rollCrossed prior_roll_angle_ roll) := by
  unfold rollCrossed
  infer_instance

/-- The method `cloudCallback` (lines 114-163). The `return` of line 139 leaves the
callback before the assignment of line 157; the throttled error message of the last
branch is left out. -/
def cloudCallback (tfl : TfOps F) (eig : EigenOps F) (self : CalibrationCloudAggregator F)
    (cloud_in : PointCloud2 F) : CalibrationCloudAggregator F :=
  if self.captured_clouds_ > 2 then self
  else if tfl.waitForTransform self.p_target_frame_ cloud_in.frame_id cloud_in.stamp then
    let roll := tfl.lookupRoll self.p_target_frame_ cloud_in.frame_id cloud_in.stamp
    if rollCrossed self.prior_roll_angle_ roll then
      let marked := { self with captured_clouds_ := self.captured_clouds_ + 1 }
      let done :=
        if marked.captured_clouds_ = 3 then
          publishClouds { marked with request_scans_srv_ := true
                                      cloud1_ := transformCloud eig marked.cloud_agg1_
                                      cloud2_ := transformCloud eig marked.cloud_agg2_ }
        else marked
      { done with prior_roll_angle_ := roll }
    else if self.captured_clouds_ = 0 then self
    else
      let added :=
        if self.captured_clouds_ = 1 then
          { self with cloud_agg1_ := self.cloud_agg1_ ++ [(cloud_in.points, roll)] }
        else if self.captured_clouds_ = 2 then
          { self with cloud_agg2_ := self.cloud_agg2_ ++ [(cloud_in.points, roll)] }
        else self
      { added with prior_roll_angle_ := roll }
  else self

/-- The callbacks through which the node changes its state: a cloud on `cloud`, a reset
(`resetCallback` and `resetSrvCallback` both call `resetClouds`) and the timer
(`timerCallback` calls `publishClouds`). `requestScansCallback` only reads the state. -/
inductive Callback (F : Type) where
  | cloud (cloud_in : PointCloud2 F)
  | reset
  | timer

/-- One callback on the state. -/
def dispatch (tfl : TfOps F) (eig : EigenOps F) (self : CalibrationCloudAggregator F) :
    Callback F → CalibrationCloudAggregator F
  | .cloud cloud_in => cloudCallback tfl eig self cloud_in
  | .reset => resetClouds self
  | .timer => publishClouds self

/-- A sequence of callbacks on the state, in order. -/
def run (tfl : TfOps F) (eig : EigenOps F) (self : CalibrationCloudAggregator F)
    (events : List (Callback F)) : CalibrationCloudAggregator F :=
  events.foldl (dispatch tfl eig) self

/-- Whether a callback is a reset. -/
def Callback.isReset : Callback F → Bool
  | .reset => true
  | _ => false

/-- The roll angle that `cloudCallback` reads for a cloud, when it gets that far: the
counter is at most 2 and the transform is available. -/
def processedRoll (tfl : TfOps F) (self : CalibrationCloudAggregator F)
    (cloud_in : PointCloud2 F) : Option F :=
  if self.captured_clouds_ > 2 then none
  else if tfl.waitForTransform self.p_target_frame_ cloud_in.frame_id cloud_in.stamp then
    some (tfl.lookupRoll self.p_target_frame_ cloud_in.frame_id cloud_in.stamp)
  else none

/-- One callback on the state together with the roll of the cloud processed last since
the initial or reset state, which is what the specification calls the previously
processed cloud. -/
def track (tfl : TfOps F) (eig : EigenOps F)
    (p : CalibrationCloudAggregator F × Option F) (e : Callback F) :
    CalibrationCloudAggregator F × Option F :=
  (dispatch tfl eig p.1 e,
    match e with
    | .cloud cloud_in =>
      match processedRoll tfl p.1 cloud_in with
      | some roll => some roll
      | none => p.2
    | .reset => none
    | .timer => p.2)

/-- A sequence of callbacks from a state in which no cloud was processed yet. -/
def runTracked (tfl : TfOps F) (eig : EigenOps F) (self : CalibrationCloudAggregator F)
    (events : List (Callback F)) : CalibrationCloudAggregator F × Option F :=
  events.foldl (track tfl eig) (self, none)

/-- The states that the node reaches from its constructor by callbacks. -/
def Reachable (tfl : TfOps F) (eig : EigenOps F) (self : CalibrationCloudAggregator F) : Prop :=
  ∃ target_frame events, self = run tfl eig (new target_frame) events

end aggregator

/-- A listener over `ℚ` that knows the transform at stamp `k` when `rolls` has an entry
`k`, whose roll is that entry. -/
def sampleTf (rolls : List ℚ) : TfOps ℚ where
  waitForTransform := fun _ _ stamp => decide (stamp < rolls.length)
  lookupRoll := fun _ _ stamp => rolls.getD stamp 0

/-- A cloud of one point in the frame `laser`, with the given stamp. -/
def sampleCloud (stamp : Nat) : PointCloud2 ℚ where
  frame_id := "laser"
  stamp := stamp
  points := [{ x := 1, y := 0, z := 0 }]

/-- Eigen operations over `ℚ` with the sine and cosine of the angle zero everywhere. -/
def sampleEigen : EigenOps ℚ where
  sin := fun _ => 0
  cos := fun _ => 1
  eulerAngles210 := fun _ => ![0, 0, 0]

/-- Roll angles of five clouds: above `π/2`, below `-π/2`, above `-π/2`, zero, above
`π/2`. -/
def sampleRolls : List ℚ := [2, -2, -1, 0, 2]

/-- The clouds with stamps 0 to 4, in order. -/
def sampleEvents : List (Callback ℚ) :=
  [.cloud (sampleCloud 0), .cloud (sampleCloud 1), .cloud (sampleCloud 2),
   .cloud (sampleCloud 3), .cloud (sampleCloud 4)]

end CalibrationCloudAggregator

end hector_calibration

/-! ## Machine arithmetic: binary32 and binary64 values, 32-bit counters -/

namespace hector_calibration

section machine_arithmetic

variable {F : Type} [LinearOrderedField F] [FloorRing F]

/-- Rounding to the nearest integer, a tie going to the even neighbour. -/
def roundHalfEven (x : F) : Int :=
  if x - (Int.floor x : F) < 1 / 2 then Int.floor x
  else if 1 / 2 < x - (Int.floor x : F) then Int.floor x + 1
  else if Int.floor x % 2 = 0 then Int.floor x else Int.floor x + 1

/-- A positive number rounded to a significand of `p` bits with the least exponent `emin`:
the nearest multiple of `2 ^ (e - p + 1)`, where `2 ^ e` is the largest power of two not
above the number, or `2 ^ emin` when the number is below it, which gives the even spacing
of the subnormal numbers. -/
def roundPositive (p : Nat) (emin : Int) (x : F) : F :=
  (roundHalfEven (x / 2 ^ (max (Int.log 2 x) emin - (p : Int) + 1)) : F)
    * 2 ^ (max (Int.log 2 x) emin - (p : Int) + 1)

/-- Rounding to the nearest binary floating-point number with a significand of `p` bits
and the least exponent `emin`, ties to even, subnormal numbers included. The exponent is
not bounded above: overflow to infinity is not modelled. -/
def roundBinary (p : Nat) (emin : Int) (x : F) : F :=
  if x = 0 then 0 else if 0 < x then roundPositive p emin x else -roundPositive p emin (-x)

/-- The value that a `float` (binary32) variable or `CV_32FC1` cell stores for the exact
result `x` of an operation: 24 bits, least exponent -126. -/
def round32 (x : F) : F :=
  roundBinary 24 (-126) x

/-- The value that a `double` (binary64) variable stores for the exact result `x` of an
operation: 53 bits, least exponent -1022. -/
def round64 (x : F) : F :=
  roundBinary 53 (-1022) x

/-- The value that an `int` stores for the exact result `x` of an addition: 32 bits in
two's complement. Signed overflow is undefined in C++; the compiled code wraps. -/
def wrapInt (x : Int) : Int :=
  (x + 2147483648) % 4294967296 - 2147483648

/-- Conversion of a floating value to `uchar` as the compiled code does it on x86-64:
truncation toward zero to a 32-bit integer, of which the low 8 bits are kept; a value
outside the 32-bit range gives the low 8 bits of `0x80000000`, which are 0. The C++
standard leaves the conversion undefined when the truncated value is not in `0..255`. -/
def toUcharMachine (x : F) : Nat :=
  let t : Int := if 0 ≤ x then Int.floor x else Int.ceil x
  if -2147483648 ≤ t ∧ t ≤ 2147483647 then (t % 256).toNat else 0

end machine_arithmetic

end hector_calibration

namespace hector_calibration

namespace camera_lidar_calibration

section machine_histogram

variable {F : Type} [LinearOrderedField F] [FloorRing F]

/-- The statement `row.at<float>(i) += 1` with the sum stored in a binary32 cell. -/
def incrAtMachine (row : List F) (i : Nat) : Except Fault (List F) :=
  if i < row.length then .ok (row.set i (round32 (row.getD i 0 + 1)))
  else .error .indexOutOfRange

/-- The statement `m.at<float>(i, j) += 1` with the sum stored in a binary32 cell. -/
def incrAt2Machine (m : Mat F) (i j : Nat) : Except Fault (Mat F) :=
  if i < m.length ∧ j < (m.getD i []).length then
    .ok (m.set i ((m.getD i []).set j (round32 ((m.getD i []).getD j 0 + 1))))
  else .error .indexOutOfRange

/-- The quantization of lines 148-149 in machine arithmetic: the division of a `float` by
the `int` bin fraction is a binary32 division, and its quotient is converted to `uchar`.
The result of `interpolate` is taken to be a `float`, as `point.intensity` is. -/
def quantizeMachine (bin_fraction_ : Int) (v : F) : Nat :=
  toUcharMachine (round32 (v / round32 (bin_fraction_ : F)))

/-- The body of the innermost loop of `computeHistogram` (lines 136-168) in machine
arithmetic: binary32 cells, `int` counters of 32 bits, the conversion to `uchar` as
compiled. -/
def accumulateMachine (ext : Externals F) (bin_fraction_ : Int) (point : PointXYZI F)
    (point_transformed : Fin 3 → F) (histogram : Histogram F)
    (cam_obs : CameraObservation F) : Except Fault (Histogram F) :=
  let point_cam := transformPoint point_transformed cam_obs.transform
  match ext.worldToPixel cam_obs.name point_cam with
  | none => .ok histogram
  | some pixel =>
    if cam_obs.cv_mask.empty = true ∨ ext.interpolate cam_obs.cv_mask pixel > 0 then do
      let intensity := quantizeMachine bin_fraction_ (ext.interpolate cam_obs.cv_image pixel)
      let reflectance := quantizeMachine bin_fraction_ point.intensity
      let intensity_hist ← incrAtMachine histogram.intensity_hist intensity
      let reflectance_hist ← incrAtMachine histogram.reflectance_hist reflectance
      let joint_hist ← incrAt2Machine histogram.joint_hist intensity reflectance
      pure { joint_hist := joint_hist
             reflectance_hist := reflectance_hist
             intensity_hist := intensity_hist
             count := wrapInt (histogram.count + 1)
             intensity_sum := wrapInt (histogram.intensity_sum + intensity)
             reflectance_sum := wrapInt (histogram.reflectance_sum + reflectance) }
    else .ok histogram

/-- The loop over the points of one scan (lines 128-170) in machine arithmetic. -/
def accumulateScanMachine (ext : Externals F) (bin_fraction_ : Int)
    (cam_transform : Affine3 F) (observation : Observation F) (histogram : Histogram F) :
    Except Fault (Histogram F) :=
  observation.scan.foldlM
    (fun hist point =>
      let point_transformed := transformPoint ![point.x, point.y, point.z] cam_transform
      observation.cam_observations.foldlM
        (accumulateMachine ext bin_fraction_ point point_transformed) hist)
    histogram

/-- The method `computeHistogram` in machine arithmetic. -/
def NumericDiffMutualInformationCost.computeHistogramMachine
    (self : NumericDiffMutualInformationCost F) (ext : Externals F)
    (cam_transform : Affine3 F) : Except Fault (Histogram F) :=
  self.observations_.foldlM
    (fun hist observation =>
      accumulateScanMachine ext self.bin_fraction_ cam_transform observation hist)
    (Histogram.new self.bin_count_)

/-- The number of point/camera pairs that `computeHistogram` visits. -/
def NumericDiffMutualInformationCost.pairCount (self : NumericDiffMutualInformationCost F) :
    Nat :=
  (self.observations_.map
    (fun observation => observation.scan.length * observation.cam_observations.length)).sum

/-- A histogram after one pair counted at intensity bin `a` and reflectance bin `r` with
no rounding and no overflow: the three cells and the count raised by 1, the sums raised by
`a` and by `r`. -/
def Histogram.bump (h : Histogram F) (a r : Nat) : Histogram F where
  joint_hist := h.joint_hist.set a
    ((h.joint_hist.getD a []).set r ((h.joint_hist.getD a []).getD r 0 + 1))
  reflectance_hist := h.reflectance_hist.set r (h.reflectance_hist.getD r 0 + 1)
  intensity_hist := h.intensity_hist.set a (h.intensity_hist.getD a 0 + 1)
  count := h.count + 1
  intensity_sum := h.intensity_sum + a
  reflectance_sum := h.reflectance_sum + r

/-- Every cell of the three arrays holds a whole number, and the counters are within the
range that `count` pairs with bins of at most 255 can produce. -/
def Histogram.whole (h : Histogram F) : Prop :=
  (∀ x ∈ h.intensity_hist, ∃ k : Nat, x = (k : F)) ∧
    (∀ x ∈ h.reflectance_hist, ∃ k : Nat, x = (k : F)) ∧
    (∀ row ∈ h.joint_hist, ∀ x ∈ row, ∃ k : Nat, x = (k : F)) ∧
    0 ≤ h.count ∧ 0 ≤ h.intensity_sum ∧ h.intensity_sum ≤ 255 * h.count ∧
    0 ≤ h.reflectance_sum ∧ h.reflectance_sum ≤ 255 * h.count

/-- A histogram of side `n` whose counts are whole, consistent with its count, and whose
marginal arrays and sums agree with its joint array. -/
def Histogram.sound (h : Histogram F) (n : Nat) : Prop :=
  h.hasSide n ∧ h.consistent ∧ h.marginalsOfJoint n ∧ h.whole

end machine_histogram

/-- The histogram with one bin per axis after `k` pairs in machine arithmetic: the cells
stop at `2 ^ 24`. -/
def saturatedHistogram (k : Nat) : Histogram ℚ :=
  { joint_hist := [[((min k 16777216 : Nat) : ℚ)]]
    reflectance_hist := [((min k 16777216 : Nat) : ℚ)]
    intensity_hist := [((min k 16777216 : Nat) : ℚ)]
    count := k, intensity_sum := 0, reflectance_sum := 0 }

/-- A cost object with bin fraction 256, so one bin per axis, and one scan of `k` equal
points of reflectance 0 seen by `sampleCamera`. -/
def repeatedPointCost (k : Nat) : NumericDiffMutualInformationCost ℚ :=
  { observations_ := [{ scan := List.replicate k ⟨1, 0, 0, 0⟩,
                        cam_observations := [sampleCamera] }]
    bin_count_ := 1, bin_fraction_ := 256 }

end camera_lidar_calibration

end hector_calibration

namespace hector_calibration

namespace camera_lidar_calibration

section machine_probability

variable {F : Type} [LinearOrderedField F] [FloorRing F]

/-- A marginal mean as `computeProbability` forms it (lines 197 and 199) in machine
arithmetic: the quotient of two `int`s, stored in a `float`. -/
def marginalMeanMachine (sum count : Int) : Except Fault F := do
  let q ← intDiv sum count
  pure (round32 ((q : Int) : F))

/-- The quotient `cell / histogram.count` of lines 213-216 in machine arithmetic: the
`int` count is converted to `float` and the binary32 quotient is stored. -/
def quotient32 (cell : F) (count : Int) : F :=
  round32 (cell / round32 (count : F))

/-- One pass of the inner loop of `computeProbability` (line 216) in machine
arithmetic. -/
def normalizeJointCellMachine (histogram : Histogram F) (i : Nat) (joint_prob : Mat F)
    (j : Nat) : Except Fault (Mat F) := do
  let c ← readAt2 histogram.joint_hist i j
  writeAt2 joint_prob i j (quotient32 c histogram.count)

/-- One pass of the outer loop of `computeProbability` (lines 207-218) in machine
arithmetic. The two sums are `double`s: the `float` difference `i - mu` is passed to
`std::pow`, whose `double` result is multiplied with the cell and added. -/
def normalizeBinMachine (ext : Externals F) (bin_count_ : Int) (histogram : Histogram F)
    (mu_intensity mu_reflectance : F) (st : F × F × Probability F) (i : Nat) :
    Except Fault (F × F × Probability F) := do
  let (sigma_intensity, sigma_reflectance, prob) := st
  let hi ← readAt histogram.intensity_hist i
  let hr ← readAt histogram.reflectance_hist i
  let sigma_intensity :=
    round64 (sigma_intensity + round64 (hi * ext.pow (round32 ((i : F) - mu_intensity)) 2))
  let sigma_reflectance :=
    round64 (sigma_reflectance + round64 (hr * ext.pow (round32 ((i : F) - mu_reflectance)) 2))
  let intensity_prob ← writeAt prob.intensity_prob i (quotient32 hi histogram.count)
  let reflectance_prob ← writeAt prob.reflectance_prob i (quotient32 hr histogram.count)
  let joint_prob ← (List.range bin_count_.toNat).foldlM
    (normalizeJointCellMachine histogram i) prob.joint_prob
  pure (sigma_intensity, sigma_reflectance,
    { prob with intensity_prob := intensity_prob
                reflectance_prob := reflectance_prob
                joint_prob := joint_prob })

/-- The loop of `computeProbability` (lines 205-218) in machine arithmetic: the state
`(sigma_intensity, sigma_reflectance, prob)` before the division of the two sums and
before any smoothing. -/
def NumericDiffMutualInformationCost.normalizeHistogramMachine
    (self : NumericDiffMutualInformationCost F) (ext : Externals F) (histogram : Histogram F)
    (mu_intensity mu_reflectance : F) : Except Fault (F × F × Probability F) :=
  (List.range self.bin_count_.toNat).foldlM
    (normalizeBinMachine ext self.bin_count_ histogram mu_intensity mu_reflectance)
    (0, 0, Probability.new self.bin_count_)

/-- The arrays of a probability estimate after `k` passes of the loop of
`computeProbability` in machine arithmetic: all of side `n`, and the first `k` cells and
rows hold the binary32 quotients of the counts by the count. -/
def normalizedUpToMachine (histogram : Histogram F) (n k : Nat)
    (st : F × F × Probability F) : Prop :=
  st.2.2.intensity_prob.length = n ∧ st.2.2.reflectance_prob.length = n ∧
    (st.2.2.joint_prob.length = n ∧ ∀ r ∈ st.2.2.joint_prob, r.length = n) ∧
    (∀ i < k, st.2.2.intensity_prob.getD i 0
      = quotient32 (histogram.intensity_hist.getD i 0) histogram.count) ∧
    (∀ i < k, st.2.2.reflectance_prob.getD i 0
      = quotient32 (histogram.reflectance_hist.getD i 0) histogram.count) ∧
    (∀ i < k, ∀ j < n, (st.2.2.joint_prob.getD i []).getD j 0
      = quotient32 ((histogram.joint_hist.getD i []).getD j 0) histogram.count)

end machine_probability

end camera_lidar_calibration

end hector_calibration

namespace hector_calibration

namespace camera_lidar_calibration

section machine_cost

variable {F : Type} [LinearOrderedField F] [FloorRing F]

/-- The call `cv::log` on one binary32 cell: a number for a positive cell; for a zero cell
the result is minus infinity and for a negative cell it is not a number, which `none`
stands for. -/
def logCell (ext : Externals F) (x : F) : Option F :=
  if 0 < x then some (ext.log x) else none

/-- Lines 254-273 on one cell `p` in machine arithmetic: the cell of the copy is `1e-7`
stored as a `float` when `p` is zero, `cv::log` is taken of it, and `cv::multiply` stores
the binary32 product with `p`. A product with a logarithm that is not a number is not a
number. -/
def entropyCellMachine (ext : Externals F) (p : F) : Option F :=
  (logCell ext (if p = 0 then round32 1e-7 else p)).map (fun l => round32 (p * l))

/-- Lines 254-273 on one row in machine arithmetic. -/
def rowEntropyMachine (ext : Externals F) : List F → Option (List F)
  | [] => some []
  | p :: row => do
    let cell ← entropyCellMachine ext p
    let rest ← rowEntropyMachine ext row
    pure (cell :: rest)

/-- Lines 258-273 on the joint array in machine arithmetic. -/
def matEntropyMachine (ext : Externals F) : Mat F → Option (Mat F)
  | [] => some []
  | row :: m => do
    let cells ← rowEntropyMachine ext row
    let rest ← matEntropyMachine ext m
    pure (cells :: rest)

/-- The accumulation of `cv::norm(., cv::NORM_L1)` over binary32 cells: the magnitudes
are added in a `double`, taken here one after the other from the left. -/
def sumAbs64 (cells : List F) : F :=
  cells.foldl (fun s v => round64 (s + |v|)) 0

/-- The statement `float H = cv::norm(cells, cv::NORM_L1)`: the `double` that `cv::norm`
returns is stored in a `float`. -/
def normL1Machine (cells : List F) : F :=
  round32 (sumAbs64 cells)

/-- Lines 250-288 of `computeMutualInformationCost` in machine arithmetic: from the
probability estimate to the returned value, `none` when it is not a number. The joint
array is traversed row by row. -/
def costOfProbabilityMachine (ext : Externals F) (prob : Probability F) : Option F := do
  let intensity_entropy ← rowEntropyMachine ext prob.intensity_prob
  let reflectance_entropy ← rowEntropyMachine ext prob.reflectance_prob
  let joint_entropy ← matEntropyMachine ext prob.joint_prob
  let Hx := normL1Machine intensity_entropy
  let Hy := normL1Machine reflectance_entropy
  let Hxy := normL1Machine joint_entropy.flatten
  let mi := round32 (round32 (Hx + Hy) - Hxy)
  let cost := -mi
  pure cost

/-- One product of the entropy in machine arithmetic when the logarithm is a number:
`p * log(p1)` stored in a `float`, where `p1` is `p` with a zero replaced by `1e-7`. -/
def entropyTermMachine (log : F → F) (p : F) : F :=
  round32 (p * log (if p = 0 then round32 1e-7 else p))

/-- The cells for which every product of the entropy is zero or lies in the normal range
of `float`: zero, one, or a number from `2 ^ (-100)` up to the largest `float` below
one. -/
def inEntropyRange (p : F) : Prop :=
  p = 0 ∨ p = 1 ∨ ((2 : F) ^ (-(100 : Int)) ≤ p ∧ p ≤ 1 - 2 ^ (-(24 : Int)))

instance (p : F) : Decidable (inEntropyRange p) := by
  unfold inEntropyRange
  infer_instance

/-- The relative error bound of a result of the normal range stored in a `float`. -/
def eps32 : F := 2 ^ (-(24 : Int))

/-- The relative error bound of a result of the normal range stored in a `double`. -/
def eps64 : F := 2 ^ (-(53 : Int))

/-- The factor by which an entropy in machine arithmetic over at most `K` cells is at
least the exact entropy, for a logarithm of relative accuracy `u`: two results stored in
a `float`, the logarithm, and `K` additions in a `double`. -/
def entropyFactorLow (u : F) (K : Nat) : F :=
  (1 - eps32) ^ 2 * (1 - u) * (1 - eps64) ^ K

/-- The factor by which an entropy in machine arithmetic over at most `K` cells is at
most the exact entropy, for a logarithm of relative accuracy `u`. -/
def entropyFactorHigh (u : F) (K : Nat) : F :=
  (1 + eps32) ^ 2 * (1 + u) * (1 + eps64) ^ K

/-- The multiple of the exact joint entropy by which the mutual information in machine
arithmetic can fall below zero. -/
def miTolerance (u : F) (K : Nat) : F :=
  (1 + eps32) * (entropyFactorHigh u K - (1 - eps32) * entropyFactorLow u K)

/-- The multiple of the sum of the three exact entropies by which the mutual information
in machine arithmetic can differ from the exact one. -/
def miError (u : F) (K : Nat) : F :=
  (1 + eps32) *
    (1 + ((1 + eps32) * entropyFactorHigh u K - (1 - eps32) * entropyFactorLow u K)) - 1

end machine_cost

/-- A probability estimate of two bins per axis whose joint array is the product of its
marginals `[1/16, 15/16]` and `[1/4, 3/4]`; every cell is a `float`. -/
def dyadicProbability {F : Type} [Field F] : Probability F where
  joint_prob := [[1 / 64, 3 / 64], [15 / 64, 45 / 64]]
  reflectance_prob := [1 / 4, 3 / 4]
  intensity_prob := [1 / 16, 15 / 16]
  count := 64

end camera_lidar_calibration

end hector_calibration

namespace hector_calibration

namespace camera_lidar_calibration

section read_data

variable {F : Type} [Field F]

end read_data

end camera_lidar_calibration

end hector_calibration

namespace hector_calibration

namespace LidarCalibration

section registration_bound

variable {F : Type} [Field F]

/-- The `do ... while` loop of `calibrate` (lines 51-61) with the convergence test as a
parameter `conv`; `calibrateLoop` is this loop at `check_convergence`. -/
def calibrateLoopWith (conv : Calibration F → Calibration F → Bool) (ext : PclExternals F)
    (max_iterations : Nat) (iteration_counter : Nat) (st : CalibrateState F) :
    Except Fault (Nat × CalibrateState F) :=
  match iteration ext st with
  | .error e => .error e
  | .ok st1 =>
    if h : iteration_counter + 1 < max_iterations then
      if iteration_counter + 1 < 2 then
        calibrateLoopWith conv ext max_iterations (iteration_counter + 1) st1
      else
        let st2 := { st1 with calls := st1.calls ++ [Call.check_convergence] }
        match readAt st1.calibrations (st1.calibrations.length - 2),
              readAt st1.calibrations (st1.calibrations.length - 1) with
        | .ok prev, .ok current =>
          if conv prev current = true then .ok (iteration_counter + 1, st2)
          else calibrateLoopWith conv ext max_iterations (iteration_counter + 1) st2
        | .error e, _ => .error e
        | _, .error e => .error e
    else .ok (iteration_counter + 1, st1)
termination_by max_iterations - iteration_counter

/-- The method `calibrate` with the convergence test as a parameter `conv`; `calibrate`
is this method at `check_convergence`. -/
def calibrateWith (conv : Calibration F → Calibration F → Bool) (ext : PclExternals F)
    (options_ : CalibrationOptions F) (cloud1 cloud2 : List (PointXYZ F))
    (init_calibration : Calibration F) : Except Fault (Nat × CalibrateState F) :=
  calibrateLoopWith conv ext options_.max_iterations 0
    { cloud1 := cloud1, cloud2 := cloud2, calibrations := [init_calibration], calls := [] }

end registration_bound

end LidarCalibration

end hector_calibration

namespace hector_calibration

namespace camera_lidar_calibration

end camera_lidar_calibration

end hector_calibration

/-! ## Theorems -/

namespace hector_calibration

/-- A successful `foldlM` in `Except` keeps every invariant that each step keeps. -/
theorem foldlM_except_invariant {α β ε : Type} (P : β → Prop) (f : β → α → Except ε β)
    (hf : ∀ b a b1, P b → f b a = .ok b1 → P b1) :
    ∀ (l : List α) (b b1 : β), P b → l.foldlM f b = .ok b1 → P b1 := by
  intro l
  induction l with
  | nil =>
    intro b b1 hb h
    simp only [List.foldlM_nil, pure, Except.pure, Except.ok.injEq] at h
    exact h ▸ hb
  | cons a l ih =>
    intro b b1 hb h
    rw [List.foldlM_cons] at h
    cases hfa : f b a with
    | error e => rw [hfa] at h; cases h
    | ok b2 =>
      rw [hfa] at h
      exact ih b2 b1 (hf b a b2 hb hfa) h

/-- A bind in `Except` succeeds exactly when both of its parts do. -/
theorem except_bind_eq_ok {ε α β : Type} (x : Except ε α) (f : α → Except ε β) (b : β) :
    (x >>= f) = .ok b ↔ ∃ a, x = .ok a ∧ f a = .ok b := by
  cases x <;> simp [bind, Except.bind]

namespace camera_lidar_calibration

section histogram_facts

variable {F : Type} [LinearOrderedField F]

/-- The `uchar` obtained from the quotient of two natural numbers is their integer quotient. -/
theorem toUchar_natCast_div [FloorRing F] (v b : ℕ) (h : v / b ≤ 255) :
    toUchar ((v : F) / (b : F)) = .ok (v / b) := by
  have h0 : (0 : F) ≤ (v : F) / (b : F) := by positivity
  have hfl : Int.floor ((v : F) / (b : F)) = ((v / b : ℕ) : ℤ) := by
    rw [← Nat.floor_div_eq_div (α := F), Int.natCast_floor_eq_floor h0]
  unfold toUchar
  simp only [h0, if_true, hfl]
  have h1 : (0 : ℤ) ≤ ((v / b : ℕ) : ℤ) ∧ ((v / b : ℕ) : ℤ) ≤ 255 := by
    constructor
    · exact Int.natCast_nonneg _
    · exact_mod_cast h
  rw [if_pos h1, Int.toNat_natCast]

/-- When the bin fraction divides 256, every value of `0..255` gets a bin below the bin
count. -/
theorem quantize_lt_of_dvd (b v : ℕ) (hb : b ∣ 256) (hv : v ≤ 255) : v / b < 256 / b := by
  obtain ⟨k, hk⟩ := hb
  rcases Nat.eq_zero_or_pos b with h0 | hpos
  · subst h0; simp at hk
  · have hk2 : 256 / b = k := by rw [hk]; exact Nat.mul_div_cancel_left k hpos
    rw [hk2]
    apply Nat.div_lt_of_lt_mul
    omega

theorem Histogram.new_hasSide (size : Int) : (Histogram.new size : Histogram F).hasSide size.toNat := by
  refine ⟨?_, ?_, ?_, ?_⟩
  · simp [Histogram.new]
  · intro row hrow
    simp only [Histogram.new, List.mem_replicate] at hrow
    rw [hrow.2, List.length_replicate]
  · simp [Histogram.new]
  · simp [Histogram.new]

theorem incrAt_length (row row1 : List F) (i : Nat) (h : incrAt row i = .ok row1) :
    row1.length = row.length := by
  unfold incrAt at h
  split at h
  · cases h; simp
  · cases h

theorem incrAt2_length (m m1 : Mat F) (i j : Nat) (h : incrAt2 m i j = .ok m1) :
    m1.length = m.length := by
  unfold incrAt2 at h
  split at h
  · cases h; simp
  · cases h

theorem incrAt2_row_length (m m1 : Mat F) (i j n : Nat) (h : incrAt2 m i j = .ok m1)
    (hm : ∀ row ∈ m, row.length = n) : ∀ row ∈ m1, row.length = n := by
  unfold incrAt2 at h
  split at h
  · rename_i hij
    cases h
    intro row hrow
    rcases List.mem_or_eq_of_mem_set hrow with hmem | heq
    · exact hm row hmem
    · rw [heq, List.length_set]
      apply hm
      rw [List.getD_eq_getElem m [] hij.1]
      exact List.getElem_mem _
  · cases h

theorem incrAt_ok (row : List F) (i : Nat) (h : i < row.length) :
    ∃ row1, incrAt row i = .ok row1 := by
  unfold incrAt
  rw [if_pos h]
  exact ⟨_, rfl⟩

theorem incrAt2_ok (m : Mat F) (i j n : Nat) (hm : m.length = n)
    (hrows : ∀ row ∈ m, row.length = n) (hi : i < n) (hj : j < n) :
    ∃ m1, incrAt2 m i j = .ok m1 := by
  unfold incrAt2
  have hi1 : i < m.length := by rw [hm]; exact hi
  have hrow : (m.getD i []).length = n := by
    apply hrows
    rw [List.getD_eq_getElem m [] hi1]
    exact List.getElem_mem _
  rw [if_pos ⟨hi1, by rw [hrow]; exact hj⟩]
  exact ⟨_, rfl⟩

/-- One accepted or rejected pair keeps the side of the arrays. -/
theorem accumulate_hasSide [FloorRing F] (ext : Externals F) (b : Int) (point : PointXYZI F)
    (pt : Fin 3 → F) (n : Nat) (h : Histogram F) (cam : CameraObservation F) (h1 : Histogram F)
    (hn : h.hasSide n) (hacc : accumulate ext b point pt h cam = .ok h1) : h1.hasSide n := by
  unfold accumulate at hacc
  simp only at hacc
  split at hacc
  · cases hacc; exact hn
  · split at hacc
    · simp only [except_bind_eq_ok, pure, Except.pure, Except.ok.injEq] at hacc
      obtain ⟨iv, -, rv, -, ih, hA, rh, hB, jh, hC, hacc⟩ := hacc
      subst hacc
      obtain ⟨hj, hrows, hi, hr⟩ := hn
      refine ⟨?_, ?_, ?_, ?_⟩
      · show jh.length = n
        rw [incrAt2_length _ _ _ _ hC, hj]
      · exact incrAt2_row_length _ _ _ _ n hC hrows
      · show ih.length = n
        rw [incrAt_length _ _ _ hA, hi]
      · show rh.length = n
        rw [incrAt_length _ _ _ hB, hr]
    · cases hacc; exact hn

/-- A whole scan keeps the side of the arrays. -/
theorem accumulateScan_hasSide [FloorRing F] (ext : Externals F) (b : Int) (T : Affine3 F)
    (observation : Observation F) (n : Nat) (h h1 : Histogram F) (hn : h.hasSide n)
    (hacc : accumulateScan ext b T observation h = .ok h1) : h1.hasSide n := by
  unfold accumulateScan at hacc
  refine foldlM_except_invariant (fun x => Histogram.hasSide x n) _ ?_ _ h h1 hn hacc
  intro hist point hist1 hhist hstep
  refine foldlM_except_invariant (fun x => Histogram.hasSide x n) _ ?_ _ hist hist1 hhist hstep
  intro x cam x1 hx hx1
  exact accumulate_hasSide ext b point _ n x cam x1 hx hx1

/-- The histogram that `computeHistogram` returns has side `bin_count_`. -/
theorem computeHistogram_hasSide [FloorRing F] (self : NumericDiffMutualInformationCost F)
    (ext : Externals F) (T : Affine3 F) (h : Histogram F)
    (hc : self.computeHistogram ext T = .ok h) : h.hasSide self.bin_count_.toNat := by
  unfold NumericDiffMutualInformationCost.computeHistogram at hc
  refine foldlM_except_invariant (fun x => Histogram.hasSide x self.bin_count_.toNat) _ ?_ _ _ h
    (Histogram.new_hasSide _) hc
  intro hist observation hist1 hhist hstep
  exact accumulateScan_hasSide ext _ T observation _ hist hist1 hhist hstep

end histogram_facts

end camera_lidar_calibration

end hector_calibration

namespace hector_calibration

/-- A `foldlM` in `Except` succeeds, and keeps an invariant, when every step on an
element of the list does. -/
theorem foldlM_except_total {α β ε : Type} (P : β → Prop) (f : β → α → Except ε β) :
    ∀ (l : List α), (∀ b, ∀ a ∈ l, P b → ∃ b1, f b a = .ok b1 ∧ P b1) →
      ∀ b, P b → ∃ b1, l.foldlM f b = .ok b1 ∧ P b1 := by
  intro l
  induction l with
  | nil =>
    intro _ b hb
    exact ⟨b, rfl, hb⟩
  | cons a l ih =>
    intro hf b hb
    obtain ⟨b1, hb1, hP1⟩ := hf b a (List.mem_cons_self a l) hb
    obtain ⟨b2, hb2, hP2⟩ := ih (fun b a1 ha1 => hf b a1 (List.mem_cons_of_mem a ha1)) b1 hP1
    refine ⟨b2, ?_, hP2⟩
    rw [List.foldlM_cons, hb1]
    exact hb2

namespace camera_lidar_calibration

section histogram_total

variable {F : Type} [LinearOrderedField F] [FloorRing F]

/-- A value of `[0, b * k)` divided by `b` is converted to a bin below `k`. -/
theorem toUchar_div_lt (x : F) (b k : ℕ) (hb : 0 < b) (hk : k ≤ 256) (hx0 : 0 ≤ x)
    (hx : x < (b : F) * (k : F)) : ∃ iv, toUchar (x / ((b : Int) : F)) = .ok iv ∧ iv < k := by
  have hbF : (0 : F) < (b : F) := by exact_mod_cast hb
  have hq0 : (0 : F) ≤ x / (b : F) := div_nonneg hx0 (le_of_lt hbF)
  have hqk : x / (b : F) < (k : F) := by
    rw [div_lt_iff₀ hbF]
    linarith [mul_comm (b : F) (k : F)]
  have hfl0 : 0 ≤ Int.floor (x / (b : F)) := Int.floor_nonneg.mpr hq0
  have hflk : Int.floor (x / (b : F)) < (k : ℤ) := by
    rw [Int.floor_lt]
    exact_mod_cast hqk
  refine ⟨(Int.floor (x / (b : F))).toNat, ?_, ?_⟩
  · unfold toUchar
    simp only [Int.cast_natCast, hq0, if_true]
    rw [if_pos]
    constructor
    · exact hfl0
    · have : (k : ℤ) ≤ 256 := by exact_mod_cast hk
      omega
  · omega

/-- One pair is processed without fault when both samples lie in `[0, b * k)` and the
arrays have side `k`. -/
theorem accumulate_ok_of_in_range (ext : Externals F) (b k : ℕ) (hb : 0 < b) (hk : k ≤ 256)
    (hext : ∀ img px, 0 ≤ ext.interpolate img px ∧ ext.interpolate img px < (b : F) * (k : F))
    (point : PointXYZI F) (hpoint : 0 ≤ point.intensity ∧ point.intensity < (b : F) * (k : F))
    (pt : Fin 3 → F) (h : Histogram F) (cam : CameraObservation F) (hn : h.hasSide k) :
    ∃ h1, accumulate ext (b : Int) point pt h cam = .ok h1 ∧ h1.hasSide k := by
  have key : ∀ r, accumulate ext (b : Int) point pt h cam = r →
      ∃ h1, r = .ok h1 := by
    intro r hr
    unfold accumulate at hr
    simp only at hr
    split at hr
    · exact ⟨h, hr.symm⟩
    · rename_i pixel _
      split at hr
      · obtain ⟨iv, hiv, hivk⟩ := toUchar_div_lt (ext.interpolate cam.cv_image pixel) b k hb hk
          (hext _ _).1 (hext _ _).2
        obtain ⟨rv, hrv, hrvk⟩ := toUchar_div_lt point.intensity b k hb hk hpoint.1 hpoint.2
        obtain ⟨hj, hrows, hi, hr1⟩ := hn
        obtain ⟨ih, hih⟩ := incrAt_ok h.intensity_hist iv (by rw [hi]; exact hivk)
        obtain ⟨rh, hrh⟩ := incrAt_ok h.reflectance_hist rv (by rw [hr1]; exact hrvk)
        obtain ⟨jh, hjh⟩ := incrAt2_ok h.joint_hist iv rv k hj hrows hivk hrvk
        simp only [hiv, hrv, hih, hrh, hjh, bind, Except.bind] at hr
        exact ⟨_, hr.symm⟩
      · exact ⟨h, hr.symm⟩
  obtain ⟨h1, hh1⟩ := key _ rfl
  exact ⟨h1, hh1, accumulate_hasSide ext _ point pt k h cam h1 hn hh1⟩

/-- When the bin fraction `b` divides 256, the bin count is `256 / b` and all samples lie
in `[0, 256)`, `computeHistogram` returns a histogram. -/
theorem computeHistogram_ok_of_in_range (self : NumericDiffMutualInformationCost F)
    (ext : Externals F) (T : Affine3 F) (b k : ℕ) (hb : 0 < b) (hbk : b * k = 256)
    (hfrac : self.bin_fraction_ = b) (hcount : self.bin_count_ = k)
    (hext : ∀ img px, 0 ≤ ext.interpolate img px ∧ ext.interpolate img px < 256)
    (hscan : ∀ obs ∈ self.observations_, ∀ p ∈ obs.scan, 0 ≤ p.intensity ∧ p.intensity < 256) :
    ∃ h, self.computeHistogram ext T = .ok h ∧ h.hasSide k := by
  have hk : k ≤ 256 := by
    rcases Nat.eq_zero_or_pos k with h0 | hpos
    · omega
    · calc k = 1 * k := (Nat.one_mul k).symm
        _ ≤ b * k := Nat.mul_le_mul_right k hb
        _ = 256 := hbk
  have h256 : (b : F) * (k : F) = 256 := by exact_mod_cast congrArg (Nat.cast : ℕ → F) hbk
  unfold NumericDiffMutualInformationCost.computeHistogram
  rw [hfrac, hcount]
  apply foldlM_except_total (fun x => Histogram.hasSide x k)
  · intro hist obs hobs hhist
    unfold accumulateScan
    apply foldlM_except_total (fun x => Histogram.hasSide x k)
    · intro hist1 point hpoint hhist1
      apply foldlM_except_total (fun x => Histogram.hasSide x k)
      · intro hist2 cam _ hhist2
        exact accumulate_ok_of_in_range ext b k hb hk (by rw [h256]; exact hext) point
          (by rw [h256]; exact hscan obs hobs point hpoint) _ hist2 cam hhist2
      · exact hhist1
    · exact hhist
  · have := Histogram.new_hasSide (F := F) (k : Int)
    simpa using this

end histogram_total

end camera_lidar_calibration

end hector_calibration

namespace hector_calibration

namespace camera_lidar_calibration

theorem toUchar_255_div_3 : toUchar ((255 : ℚ) / 3) = .ok 85 := by
  have h := toUchar_natCast_div (F := ℚ) 255 3 (by decide)
  simpa using h

theorem toUchar_zero_rat : toUchar (0 : ℚ) = .ok 0 := by
  have h := toUchar_natCast_div (F := ℚ) 0 1 (by decide)
  simpa using h

theorem tdiv_256_3 : Int.tdiv 256 3 = 85 := by decide

/-- C1: with bin fraction 3 the value 255 is quantized to bin 85 while the constructor
allocates arrays of side 256 / 3 = 85, so the bin is not below the bin count and the
increment of the intensity array in `computeHistogram` falls outside the array. -/
theorem quantized_bin_reaches_bin_count :
    toUchar ((255 : ℚ) / ((3 : Int) : ℚ)) = .ok 85 ∧
    (NumericDiffMutualInformationCost.new [sampleObservation 0] 3).map (fun self => self.bin_count_)
      = .ok 85 ∧
    (NumericDiffMutualInformationCost.new [sampleObservation 0] 3 >>= fun self =>
      self.computeHistogram (sampleExternals 255) ⟨1, 0⟩) = .error .indexOutOfRange := by
  refine ⟨by simpa using toUchar_255_div_3, ?_, ?_⟩
  · simp [NumericDiffMutualInformationCost.new, intDiv, Except.map, tdiv_256_3]
  · simp [NumericDiffMutualInformationCost.new, intDiv, Except.map, bind, Except.bind,
      NumericDiffMutualInformationCost.computeHistogram, accumulateScan, sampleObservation,
      accumulate, sampleExternals, sampleCamera, Mat.empty, toUchar_255_div_3, toUchar_zero_rat,
      tdiv_256_3, incrAt, Histogram.new]

theorem tdiv_256_128 : Int.tdiv 256 128 = 2 := by decide

theorem toUchar_255_div_128 : toUchar ((255 : ℚ) / 128) = .ok 1 := by
  have h := toUchar_natCast_div (F := ℚ) 255 128 (by decide)
  simpa using h

/-- The histogram of one accepted pair with bin fraction 128: intensity 255 in bin 1,
reflectance 0 in bin 0. -/
theorem computeHistogram_sample :
    (NumericDiffMutualInformationCost.computeHistogram
      { observations_ := [sampleObservation 0], bin_count_ := 2, bin_fraction_ := 128 }
      (sampleExternals 255) ⟨1, 0⟩)
    = .ok { joint_hist := [[0, 0], [1, 0]], reflectance_hist := [1, 0],
            intensity_hist := [0, 1], count := 1, intensity_sum := 1, reflectance_sum := 0 } := by
  simp [bind, Except.bind, pure, Except.pure,
    NumericDiffMutualInformationCost.computeHistogram, accumulateScan, sampleObservation,
    accumulate, sampleExternals, sampleCamera, Mat.empty, toUchar_255_div_128, toUchar_zero_rat,
    incrAt, incrAt2, Histogram.new]

/-- C9: for a bin fraction `b ≥ 1` the constructor succeeds with bin count `256 / b`, and
every histogram that `computeHistogram` returns has a joint grid of `256 / b` rows of
length `256 / b` and two marginal arrays of length `256 / b`; the side is 256 for `b = 1`
and 64 for `b = 4`. When `b` divides 256 and all samples lie in `[0, 256)` a histogram is
returned. -/
theorem histogram_side_is_bin_count {F : Type} [LinearOrderedField F] [FloorRing F]
    (b : Int) (hb : 1 ≤ b) (observations : List (Observation F)) :
    ∃ self, NumericDiffMutualInformationCost.new observations b = .ok self ∧
      self.bin_count_ = 256 / b ∧
      (∀ ext T h, self.computeHistogram ext T = .ok h → h.hasSide (256 / b).toNat) ∧
      (b = 1 → ∀ ext T h, self.computeHistogram ext T = .ok h → h.hasSide 256) ∧
      (b = 4 → ∀ ext T h, self.computeHistogram ext T = .ok h → h.hasSide 64) ∧
      (b ∣ 256 → ∀ (ext : Externals F) T,
        (∀ img px, 0 ≤ ext.interpolate img px ∧ ext.interpolate img px < 256) →
        (∀ obs ∈ observations, ∀ p ∈ obs.scan, 0 ≤ p.intensity ∧ p.intensity < 256) →
        ∃ h, self.computeHistogram ext T = .ok h ∧ h.hasSide (256 / b).toNat) := by
  have hb0 : b ≠ 0 := by omega
  have hdiv : Int.tdiv 256 b = 256 / b := Int.tdiv_eq_ediv (by decide) (by omega)
  refine ⟨{ observations_ := observations, bin_count_ := 256 / b, bin_fraction_ := b }, ?_, rfl,
    ?_, ?_, ?_, ?_⟩
  · simp [NumericDiffMutualInformationCost.new, intDiv, hb0, Except.map, hdiv]
  · intro ext T h hh
    exact computeHistogram_hasSide _ ext T h hh
  · intro h1 ext T h hh
    subst h1
    exact computeHistogram_hasSide _ ext T h hh
  · intro h4 ext T h hh
    subst h4
    exact computeHistogram_hasSide _ ext T h hh
  · rintro ⟨c, hc⟩ ext T hext hscan
    have hq : (256 : Int) / b = c := by
      rw [hc]; exact Int.mul_ediv_cancel_left c hb0
    have hc0 : 0 ≤ c := by
      by_contra hneg
      have : b * c ≤ 0 := Int.mul_nonpos_of_nonneg_of_nonpos (by omega) (by omega)
      omega
    have hbk : b.toNat * c.toNat = 256 := by
      have h1 : ((b.toNat * c.toNat : ℕ) : ℤ) = 256 := by
        rw [Nat.cast_mul, Int.toNat_of_nonneg (by omega : 0 ≤ b), Int.toNat_of_nonneg hc0, ← hc]
      exact_mod_cast h1
    rw [hq]
    exact computeHistogram_ok_of_in_range _ ext T b.toNat c.toNat (by omega) hbk
      (by simp [Int.toNat_of_nonneg (by omega : 0 ≤ b)])
      (by simp [hq, Int.toNat_of_nonneg hc0]) hext hscan

/-- C9 at bin fraction 128 on one accepted pair: the histogram returned has side 2. -/
theorem histogram_side_is_bin_count_witness :
    (1 : Int) ≤ 128 ∧
    ∃ self, NumericDiffMutualInformationCost.new [sampleObservation 0] 128 = .ok self ∧
      ∃ h, self.computeHistogram (sampleExternals 255) ⟨1, 0⟩ = .ok h ∧ h.hasSide 2 := by
  refine ⟨by decide, ?_⟩
  obtain ⟨self, hnew, -, hside, -, -, -⟩ :=
    histogram_side_is_bin_count (F := ℚ) 128 (by decide) [sampleObservation 0]
  refine ⟨self, hnew, ?_⟩
  have hrun := computeHistogram_sample
  simp only [NumericDiffMutualInformationCost.new, intDiv, Except.map, tdiv_256_128,
    Except.ok.injEq] at hnew
  rw [if_neg (by decide)] at hnew
  simp only [Except.ok.injEq] at hnew
  rw [hnew] at hrun
  exact ⟨_, hrun, hside _ _ _ hrun⟩

/-- C10: a pair whose projection fails, or whose non-empty mask interpolates to a value
that is not positive at the projected pixel, leaves the histogram as it is: joint grid,
both marginal arrays, both running sums and the count. -/
theorem rejected_pair_leaves_histogram {F : Type} [LinearOrderedField F] [FloorRing F]
    (ext : Externals F) (bin_fraction_ : Int) (point : PointXYZI F)
    (point_transformed : Fin 3 → F) (histogram : Histogram F) (cam_obs : CameraObservation F)
    (hrej : ext.worldToPixel cam_obs.name (transformPoint point_transformed cam_obs.transform)
        = none ∨
      ∃ pixel, ext.worldToPixel cam_obs.name
          (transformPoint point_transformed cam_obs.transform) = some pixel ∧
        cam_obs.cv_mask.empty = false ∧ ext.interpolate cam_obs.cv_mask pixel ≤ 0) :
    accumulate ext bin_fraction_ point point_transformed histogram cam_obs = .ok histogram := by
  unfold accumulate
  rcases hrej with hnone | ⟨pixel, hsome, hmask, hval⟩
  · simp only [hnone]
  · simp only [hsome]
    rw [if_neg]
    rintro (h | h)
    · rw [hmask] at h; cases h
    · exact absurd h (not_lt.mpr hval)

/-- C10 on two concrete pairs: one whose projection fails, one masked out. -/
theorem rejected_pair_leaves_histogram_witness :
    accumulate blindExternals 1 ⟨1, 0, 0, 7⟩ ![1, 0, 0] (Histogram.new 256) sampleCamera
      = .ok (Histogram.new 256) ∧
    accumulate (sampleExternals 0) 1 ⟨1, 0, 0, 7⟩ ![1, 0, 0] (Histogram.new 256)
      { sampleCamera with cv_mask := [[0]] } = .ok (Histogram.new 256) :=
  ⟨rejected_pair_leaves_histogram blindExternals 1 _ _ _ sampleCamera (Or.inl rfl),
   rejected_pair_leaves_histogram (sampleExternals 0) 1 _ _ _ _
    (Or.inr ⟨![0, 0], rfl, by decide, le_refl _⟩)⟩

/-- C3: on a histogram whose count is 0 the first statement of `computeProbability`
divides the intensity sum by the count, an `int` division by zero: the call has no
defined result, it neither reports a failure of its own nor avoids the division. The same
holds for the whole cost evaluation when no observation is present. -/
theorem computeProbability_divides_by_zero_count {F : Type} [LinearOrderedField F]
    [FloorRing F] (self : NumericDiffMutualInformationCost F) (ext : Externals F)
    (histogram : Histogram F) (T : Affine3 F) :
    self.computeProbability ext { histogram with count := 0 } = .error .intDivByZero ∧
    intDiv histogram.intensity_sum 0 = .error .intDivByZero ∧
    NumericDiffMutualInformationCost.computeMutualInformationCost
      { self with observations_ := [] } ext T = .error .intDivByZero := by
  refine ⟨?_, ?_, ?_⟩
  · simp [NumericDiffMutualInformationCost.computeProbability, intDiv, bind, Except.bind]
  · simp [intDiv]
  · simp [NumericDiffMutualInformationCost.computeMutualInformationCost,
      NumericDiffMutualInformationCost.computeHistogram,
      NumericDiffMutualInformationCost.computeProbability, intDiv, bind, Except.bind,
      pure, Except.pure, Histogram.new]

/-- C5: the value that `computeMutualInformationCost` returns is `-(Hx + Hy - Hxy)` for
the probability estimate it computed, `Hx`, `Hy` and `Hxy` being the three L1 norms it
takes of the intensity, reflectance and joint entropy arrays. -/
theorem cost_is_negated_mutual_information {F : Type} [LinearOrderedField F] [FloorRing F]
    (self : NumericDiffMutualInformationCost F) (ext : Externals F) (T : Affine3 F)
    (prob : Probability F) :
    costOfProbability ext prob = -(Hx ext prob + Hy ext prob - Hxy ext prob) ∧
    self.computeMutualInformationCost ext T =
      (self.computeHistogram ext T >>= self.computeProbability ext).map
        (fun prob => -(Hx ext prob + Hy ext prob - Hxy ext prob)) := by
  refine ⟨rfl, ?_⟩
  unfold NumericDiffMutualInformationCost.computeMutualInformationCost
  cases h1 : self.computeHistogram ext T with
  | error e => rfl
  | ok hist =>
    cases h2 : self.computeProbability ext hist with
    | error e => simp [bind, Except.bind, Except.map, h2]
    | ok prob1 =>
      simp only [bind, Except.bind, Except.map, h2, pure, Except.pure, Except.ok.injEq]
      rfl

end camera_lidar_calibration

end hector_calibration

namespace hector_calibration

/-- A read inside the array yields the element. -/
theorem readAt_of_lt {α : Type} (l : List α) (i : Nat) (h : i < l.length) :
    readAt l i = .ok l[i] := by
  simp [readAt, List.getElem?_eq_getElem h]

namespace LidarCalibration

section registration_facts

variable {F : Type}

/-- The loop of `findNeighbors` keeps the length of the mapping and the validity of its
entries. -/
theorem findNeighborsLoop_spec (ext : PclExternals F) (cloud1 cloud2 : List (PointXYZ F))
    (hsearch : ∀ p ∈ cloud1, ∀ j, ext.nearestKSearch cloud2 p 1 = some j →
      0 ≤ j ∧ j < cloud2.length) :
    ∀ (k i : Nat) (mapping : List Int), cloud1.length - i = k →
      (∀ e ∈ mapping, validEntry cloud2.length e) →
      (findNeighborsLoop ext cloud1 cloud2 i mapping).length = mapping.length ∧
      ∀ e ∈ findNeighborsLoop ext cloud1 cloud2 i mapping, validEntry cloud2.length e := by
  intro k
  induction k with
  | zero =>
    intro i mapping hk hvalid
    rw [findNeighborsLoop]
    have hi : ¬ i < cloud1.length := by omega
    rw [dif_neg hi]
    exact ⟨rfl, hvalid⟩
  | succ k ih =>
    intro i mapping hk hvalid
    rw [findNeighborsLoop]
    have hi : i < cloud1.length := by omega
    rw [dif_pos hi]
    cases hs : ext.nearestKSearch cloud2 cloud1[i] 1 with
    | none =>
      simp only
      have hv : ∀ e ∈ mapping.set i (-1), validEntry cloud2.length e := by
        intro e he
        rcases List.mem_or_eq_of_mem_set he with h | h
        · exact hvalid e h
        · exact Or.inl h
      have := ih (i + 1) (mapping.set i (-1)) (by omega) hv
      rw [List.length_set] at this
      exact this
    | some j =>
      simp only
      have hv : ∀ e ∈ mapping.set i j, validEntry cloud2.length e := by
        intro e he
        rcases List.mem_or_eq_of_mem_set he with h | h
        · exact hvalid e h
        · exact Or.inr (h ▸ hsearch cloud1[i] (List.getElem_mem _) j hs)
      have := ih (i + 1) (mapping.set i j) (by omega) hv
      rw [List.length_set] at this
      exact this

variable [Field F]

/-- The body of the loop of `calibrate` succeeds whenever a calibration is present; it
appends the placeholder result and one call of `optimize_calibration`. -/
theorem iteration_spec (ext : PclExternals F) (st : CalibrateState F)
    (hne : st.calibrations ≠ []) :
    ∃ st1, iteration ext st = .ok st1 ∧
      st1.calibrations = st.calibrations ++ [Calibration.default] ∧
      st1.calls.count Call.optimize_calibration = st.calls.count Call.optimize_calibration + 1 := by
  have hlen : st.calibrations.length - 1 < st.calibrations.length := by
    have := List.length_pos.mpr hne
    omega
  unfold iteration
  rw [readAt_of_lt _ _ hlen]
  refine ⟨_, rfl, rfl, ?_⟩
  simp [List.count_append]

/-- The loop of `calibrate` entered with counter `c` ends with counter `max (c + 1)
max_iterations`, having called `optimize_calibration` once per pass. -/
theorem calibrateLoop_spec (ext : PclExternals F) (max_iterations : Nat) :
    ∀ (k c : Nat) (st : CalibrateState F), max_iterations - c = k → st.calibrations ≠ [] →
      ∃ st1, calibrateLoop ext max_iterations c st = .ok (max (c + 1) max_iterations, st1) ∧
        st1.calls.count Call.optimize_calibration =
          st.calls.count Call.optimize_calibration + (max (c + 1) max_iterations - c) ∧
        st1.calibrations = st.calibrations ++
          List.replicate (max (c + 1) max_iterations - c) Calibration.default := by
  intro k
  induction k using Nat.strong_induction_on with
  | _ k ih =>
    intro c st hk hne
    obtain ⟨st1, hit, hcal, hcount⟩ := iteration_spec ext st hne
    rw [calibrateLoop, hit]
    simp only
    by_cases hlt : c + 1 < max_iterations
    · have hmax : max (c + 1) max_iterations = max_iterations := by omega
      have hmax2 : max (c + 1 + 1) max_iterations = max_iterations := by omega
      have hne1 : st1.calibrations ≠ [] := by rw [hcal]; simp
      simp only [hlt, dite_true]
      by_cases h2 : c + 1 < 2
      · simp only [h2, if_true]
        obtain ⟨st3, hrun, hc3, hcal3⟩ := ih (max_iterations - (c + 1)) (by omega) (c + 1) st1 rfl hne1
        refine ⟨st3, ?_, ?_, ?_⟩
        · rw [hrun, hmax, hmax2]
        · rw [hc3, hcount, hmax, hmax2]; omega
        · rw [hcal3, hcal, hmax, hmax2, List.append_assoc]
          congr 1
          rw [show max_iterations - c = 1 + (max_iterations - (c + 1)) by omega,
            List.replicate_add]
          rfl
      · simp only [h2, if_false]
        have hl1 : st1.calibrations.length = st.calibrations.length + 1 := by
          rw [hcal]; simp
        have hpos := List.length_pos.mpr hne
        rw [readAt_of_lt _ _ (by omega : st1.calibrations.length - 2 < st1.calibrations.length),
          readAt_of_lt _ _ (by omega : st1.calibrations.length - 1 < st1.calibrations.length)]
        simp only [check_convergence, Bool.false_eq_true, if_false]
        obtain ⟨st3, hrun, hc3, hcal3⟩ := ih (max_iterations - (c + 1)) (by omega) (c + 1)
          { st1 with calls := st1.calls ++ [Call.check_convergence] } rfl hne1
        refine ⟨st3, ?_, ?_, ?_⟩
        · rw [hrun, hmax, hmax2]
        · rw [hc3, hmax, hmax2]
          simp only [List.count_append]
          rw [hcount]
          simp
          omega
        · rw [hcal3, hcal, hmax, hmax2, List.append_assoc]
          congr 1
          rw [show max_iterations - c = 1 + (max_iterations - (c + 1)) by omega,
            List.replicate_add]
          rfl
    · have hmax : max (c + 1) max_iterations = c + 1 := by omega
      simp only [hlt, dite_false]
      refine ⟨st1, ?_, ?_, ?_⟩
      · rw [hmax]
      · rw [hcount, hmax]; omega
      · rw [hcal, hmax]
        simp

/-- The method `calibrate` makes `max 1 max_iterations` passes. -/
theorem calibrate_spec (ext : PclExternals F) (options_ : CalibrationOptions F)
    (cloud1 cloud2 : List (PointXYZ F)) (init_calibration : Calibration F) :
    ∃ st, calibrate ext options_ cloud1 cloud2 init_calibration
        = .ok (max 1 options_.max_iterations, st) ∧
      st.calls.count Call.optimize_calibration = max 1 options_.max_iterations ∧
      st.calibrations = init_calibration ::
        List.replicate (max 1 options_.max_iterations) Calibration.default := by
  obtain ⟨st, hrun, hcount, hcal⟩ := calibrateLoop_spec ext options_.max_iterations
    (options_.max_iterations - 0) 0
    { cloud1 := cloud1, cloud2 := cloud2, calibrations := [init_calibration], calls := [] }
    rfl (by simp)
  refine ⟨st, ?_, ?_, ?_⟩
  · simpa [calibrate] using hrun
  · simpa using hcount
  · simpa using hcal

end registration_facts

/-- The mapping of two points searched in a cloud of one point, and in an empty cloud. -/
theorem findNeighbors_sample :
    findNeighbors samplePcl [⟨1, 0, 0⟩, ⟨2, 0, 0⟩] [⟨0, 1, 0⟩] = [0, 0] ∧
    findNeighbors samplePcl [⟨1, 0, 0⟩, ⟨2, 0, 0⟩] [] = [-1, -1] := by
  constructor <;> simp [findNeighbors, findNeighborsLoop, samplePcl]

/-- C2 (as stated, refuted): with `max_iterations = 0` the loop body of `calibrate` runs
once, so `optimize_calibration` is called once, more often than `max_iterations`. -/
theorem calibrate_zero_bound_still_optimizes :
    ∃ st, calibrate samplePcl (sampleOptions 0) [] [] Calibration.default = .ok (1, st) ∧
      st.calls = [Call.applyCalibration, Call.computeNormals, Call.findNeighbors,
        Call.optimize_calibration] ∧
      st.calls.count Call.optimize_calibration = 1 ∧
      ¬ st.calls.count Call.optimize_calibration ≤ (sampleOptions 0).max_iterations := by
  refine ⟨{ cloud1 := [], cloud2 := [],
            calibrations := [Calibration.default, Calibration.default],
            calls := [Call.applyCalibration, Call.computeNormals, Call.findNeighbors,
              Call.optimize_calibration] }, ?_, rfl, by decide, by decide⟩
  rw [calibrate, calibrateLoop]
  simp [iteration, readAt, applyCalibration, transformPointCloud, optimize_calibration,
    sampleOptions, bind, Except.bind, pure, Except.pure]

/-- C4: `check_convergence` answers false for every pair of calibrations, two equal ones
included, whatever the threshold; so `calibrate`, started on the calibration that every
pass reproduces, still makes all 5 of 5 allowed passes over calibrations that are all
equal. -/
theorem check_convergence_never_holds {F : Type} [Field F] :
    (∀ prev current : Calibration F, check_convergence prev current = false) ∧
    (∀ c : Calibration F, check_convergence c c = false) ∧
    ∃ st, calibrate samplePcl (sampleOptions 5) [] [] Calibration.default = .ok (5, st) ∧
      st.calibrations = List.replicate 6 Calibration.default := by
  refine ⟨fun _ _ => rfl, fun _ => rfl, ?_⟩
  obtain ⟨st, hrun, -, hcal⟩ :=
    calibrate_spec samplePcl (sampleOptions 5) [] [] Calibration.default
  exact ⟨st, hrun, hcal⟩

/-- C8: provided the nearest-neighbour search, when it reports a hit for a point of
`cloud1`, returns an index of a point of `cloud2`, the mapping that `findNeighbors`
returns has one entry per point of `cloud1`, each of them the sentinel `-1` or an index
`i` with `0 ≤ i < cloud2.size()`. -/
theorem findNeighbors_mapping_valid {F : Type} (ext : PclExternals F)
    (cloud1 cloud2 : List (PointXYZ F))
    (hsearch : ∀ p ∈ cloud1, ∀ j, ext.nearestKSearch cloud2 p 1 = some j →
      0 ≤ j ∧ j < cloud2.length) :
    (findNeighbors ext cloud1 cloud2).length = cloud1.length ∧
    ∀ e ∈ findNeighbors ext cloud1 cloud2, e = -1 ∨ (0 ≤ e ∧ e < cloud2.length) := by
  have h := findNeighborsLoop_spec ext cloud1 cloud2 hsearch (cloud1.length - 0) 0
    (List.replicate cloud1.length (-1)) rfl
    (by
      intro e he
      exact Or.inl (List.eq_of_mem_replicate he))
  rw [List.length_replicate] at h
  exact h

/-- C8 on a cloud of two points searched in a cloud of one point, where the mapping is
`[0, 0]`. -/
theorem findNeighbors_mapping_valid_witness :
    findNeighbors samplePcl [⟨1, 0, 0⟩, ⟨2, 0, 0⟩] [⟨0, 1, 0⟩] = [0, 0] ∧
    (findNeighbors samplePcl [⟨1, 0, 0⟩, ⟨2, 0, 0⟩] [⟨0, 1, 0⟩]).length = 2 ∧
    ∀ e ∈ findNeighbors samplePcl [⟨1, 0, 0⟩, ⟨2, 0, 0⟩] [⟨0, 1, 0⟩],
      e = -1 ∨ (0 ≤ e ∧ e < (1 : Nat)) :=
  ⟨findNeighbors_sample.1,
    findNeighbors_mapping_valid samplePcl [⟨1, 0, 0⟩, ⟨2, 0, 0⟩] [⟨0, 1, 0⟩]
      (by
        intro p _ j hj
        simp only [samplePcl, Option.some.injEq] at hj
        subst hj
        exact ⟨le_refl _, by decide⟩)⟩

end LidarCalibration

end hector_calibration

namespace hector_calibration

namespace camera_lidar_calibration

section entropy_facts

variable {F : Type} [LinearOrderedField F]

theorem eps_pos : (0 : F) < 1e-7 := by norm_num

theorem eps_le_one : (1e-7 : F) ≤ 1 := by norm_num

/-- A summand of the entropy is not positive when the probability lies in `[0, 1]`. -/
theorem entropyTerm_nonpos (log : F → F) (hlog : ∀ x, 0 < x → x ≤ 1 → log x ≤ 0) (p : F)
    (h0 : 0 ≤ p) (h1 : p ≤ 1) : entropyTerm log p ≤ 0 := by
  unfold entropyTerm
  split_ifs with hp
  · simp [hp]
  · exact mul_nonpos_of_nonneg_of_nonpos h0 (hlog p (lt_of_le_of_ne h0 (Ne.symm hp)) h1)

/-- A zero probability contributes nothing. -/
theorem entropyTerm_zero (log : F → F) : entropyTerm log 0 = 0 := by
  simp [entropyTerm]

/-- The array that `cv::multiply` produces holds the summands of the entropy. -/
theorem rowEntropy_eq_map (ext : Externals F) (row : List F) :
    rowEntropy ext row = row.map (entropyTerm ext.log) := by
  induction row with
  | nil => rfl
  | cons p row ih =>
    simp only [rowEntropy, rowNoZero, List.map_cons, List.zipWith_cons_cons] at ih ⊢
    rw [ih]
    rfl

/-- The L1 norm of values that are not positive is minus their sum. -/
theorem sum_abs_of_nonpos (l : List F) (h : ∀ x ∈ l, x ≤ 0) :
    (l.map (fun v => |v|)).sum = -l.sum := by
  induction l with
  | nil => simp
  | cons a l ih =>
    have ha : a ≤ 0 := h a (List.mem_cons_self a l)
    have hl : ∀ x ∈ l, x ≤ 0 := fun x hx => h x (List.mem_cons_of_mem a hx)
    simp only [List.map_cons, List.sum_cons, ih hl, abs_of_nonpos ha]
    ring

/-- The entropy of one row, as the code computes it, is the entropy of the specification. -/
theorem rowNormL1_rowEntropy (ext : Externals F)
    (hlog : ∀ x, 0 < x → x ≤ 1 → ext.log x ≤ 0) (row : List F)
    (h01 : ∀ p ∈ row, 0 ≤ p ∧ p ≤ 1) :
    rowNormL1 (rowEntropy ext row) = specEntropy ext.log row := by
  unfold rowNormL1 specEntropy
  rw [rowEntropy_eq_map]
  apply sum_abs_of_nonpos
  intro x hx
  obtain ⟨p, hp, rfl⟩ := List.mem_map.mp hx
  exact entropyTerm_nonpos ext.log hlog p (h01 p hp).1 (h01 p hp).2

/-- The entropy of a two-dimensional array, as the code computes it, is the entropy of
the specification. -/
theorem matNormL1_matEntropy (ext : Externals F)
    (hlog : ∀ x, 0 < x → x ≤ 1 → ext.log x ≤ 0) (m : Mat F)
    (h01 : ∀ row ∈ m, ∀ p ∈ row, 0 ≤ p ∧ p ≤ 1) :
    matNormL1 (matEntropy ext m) = specEntropy2 ext.log m := by
  induction m with
  | nil => simp [matNormL1, matEntropy, specEntropy2]
  | cons row m ih =>
    have hrow := rowNormL1_rowEntropy ext hlog row (h01 row (List.mem_cons_self row m))
    have hrest := ih (fun r hr => h01 r (List.mem_cons_of_mem row hr))
    simp only [matNormL1, matEntropy, specEntropy2, specEntropy, List.map_cons, List.sum_cons,
      List.map_map] at hrow hrest ⊢
    rw [hrow]
    linarith

/-- A logarithm below `x - 1` is not positive on `(0, 1]`. -/
theorem log_nonpos_of_le_sub_one (log : F → F) (hle : ∀ x, 0 < x → log x ≤ x - 1) (x : F)
    (h0 : 0 < x) (h1 : x ≤ 1) : log x ≤ 0 := by
  linarith [hle x h0]

/-- The summand of the mutual information at one cell is bounded below. -/
theorem cell_bound (log : F → F)
    (hmul : ∀ x y, 0 < x → 0 < y → log (x * y) = log x + log y)
    (hle : ∀ x, 0 < x → log x ≤ x - 1) (J s c : F) (hJ : 0 ≤ J) (hs : J ≤ s) (hc : J ≤ c) :
    J - s * c ≤ entropyTerm log J - J * log (if s = 0 then 1e-7 else s)
      - J * log (if c = 0 then 1e-7 else c) := by
  rcases eq_or_lt_of_le hJ with h0 | hpos
  · subst h0
    have : 0 ≤ s * c := mul_nonneg hs hc
    simp [entropyTerm]
    linarith
  · have hs0 : 0 < s := lt_of_lt_of_le hpos hs
    have hc0 : 0 < c := lt_of_lt_of_le hpos hc
    have hJne : J ≠ 0 := ne_of_gt hpos
    simp only [entropyTerm, if_neg hJne, if_neg (ne_of_gt hs0), if_neg (ne_of_gt hc0)]
    have hq : 0 < s * c / J := div_pos (mul_pos hs0 hc0) hpos
    have h1 : log (J * (s * c / J)) = log J + log (s * c / J) := hmul _ _ hpos hq
    have h2 : J * (s * c / J) = s * c := by field_simp
    rw [h2, hmul s c hs0 hc0] at h1
    have h3 := hle _ hq
    have h4 : J * log (s * c / J) ≤ J * (s * c / J - 1) := mul_le_mul_of_nonneg_left h3 hJ
    have h5 : J * (s * c / J - 1) = s * c - J := by field_simp
    rw [h5] at h4
    have h6 : log (s * c / J) = log s + log c - log J := by linarith
    rw [h6] at h4
    nlinarith [h4]

/-- Non-negativity of the mutual information of a joint distribution given as a function
on a grid, with its marginals as row and column sums. -/
theorem mutual_information_core (log : F → F)
    (hmul : ∀ x y, 0 < x → 0 < y → log (x * y) = log x + log y)
    (hle : ∀ x, 0 < x → log x ≤ x - 1) (m n : ℕ) (J : ℕ → ℕ → F)
    (hJ : ∀ i < m, ∀ j < n, 0 ≤ J i j)
    (htot : ∑ i ∈ Finset.range m, ∑ j ∈ Finset.range n, J i j = 1) :
    0 ≤ ∑ i ∈ Finset.range m, |entropyTerm log (∑ j ∈ Finset.range n, J i j)|
      + ∑ j ∈ Finset.range n, |entropyTerm log (∑ i ∈ Finset.range m, J i j)|
      - ∑ i ∈ Finset.range m, ∑ j ∈ Finset.range n, |entropyTerm log (J i j)| := by
  have hlog : ∀ x, 0 < x → x ≤ 1 → log x ≤ 0 := log_nonpos_of_le_sub_one log hle
  set px : ℕ → F := fun i => ∑ j ∈ Finset.range n, J i j with hpx
  set py : ℕ → F := fun j => ∑ i ∈ Finset.range m, J i j with hpy
  have htot2 : ∑ j ∈ Finset.range n, py j = 1 := by
    rw [← htot]; exact Finset.sum_comm
  have hJ0 : ∀ i ∈ Finset.range m, ∀ j ∈ Finset.range n, 0 ≤ J i j :=
    fun i hi j hj => hJ i (Finset.mem_range.mp hi) j (Finset.mem_range.mp hj)
  have hpx0 : ∀ i ∈ Finset.range m, 0 ≤ px i := fun i hi => Finset.sum_nonneg (hJ0 i hi)
  have hpy0 : ∀ j ∈ Finset.range n, 0 ≤ py j :=
    fun j hj => Finset.sum_nonneg (fun i hi => hJ0 i hi j hj)
  have hpx1 : ∀ i ∈ Finset.range m, px i ≤ 1 := by
    intro i hi
    rw [← htot]
    exact Finset.single_le_sum (f := px) hpx0 hi
  have hpy1 : ∀ j ∈ Finset.range n, py j ≤ 1 := by
    intro j hj
    rw [← htot2]
    exact Finset.single_le_sum (f := py) hpy0 hj
  have hJpx : ∀ i ∈ Finset.range m, ∀ j ∈ Finset.range n, J i j ≤ px i :=
    fun i hi j hj => Finset.single_le_sum (f := fun j => J i j) (hJ0 i hi) hj
  have hJpy : ∀ i ∈ Finset.range m, ∀ j ∈ Finset.range n, J i j ≤ py j :=
    fun i hi j hj => Finset.single_le_sum (f := fun i => J i j) (fun i hi => hJ0 i hi j hj) hi
  have habs : ∀ x : F, 0 ≤ x → x ≤ 1 → |entropyTerm log x| = -entropyTerm log x := by
    intro x h0 h1
    apply abs_of_nonpos
    unfold entropyTerm
    split_ifs with hx
    · simp [hx]
    · exact mul_nonpos_of_nonneg_of_nonpos h0 (hlog x (lt_of_le_of_ne h0 (Ne.symm hx)) h1)
  have e1 : ∑ i ∈ Finset.range m, |entropyTerm log (px i)|
      = -∑ i ∈ Finset.range m, ∑ j ∈ Finset.range n,
          J i j * log (if px i = 0 then 1e-7 else px i) := by
    rw [← Finset.sum_neg_distrib]
    apply Finset.sum_congr rfl
    intro i hi
    rw [habs _ (hpx0 i hi) (hpx1 i hi), ← Finset.sum_mul]
    rfl
  have e2 : ∑ j ∈ Finset.range n, |entropyTerm log (py j)|
      = -∑ i ∈ Finset.range m, ∑ j ∈ Finset.range n,
          J i j * log (if py j = 0 then 1e-7 else py j) := by
    rw [Finset.sum_comm, ← Finset.sum_neg_distrib]
    apply Finset.sum_congr rfl
    intro j hj
    rw [habs _ (hpy0 j hj) (hpy1 j hj), ← Finset.sum_mul]
    rfl
  have e3 : ∑ i ∈ Finset.range m, ∑ j ∈ Finset.range n, |entropyTerm log (J i j)|
      = -∑ i ∈ Finset.range m, ∑ j ∈ Finset.range n, entropyTerm log (J i j) := by
    rw [← Finset.sum_neg_distrib]
    apply Finset.sum_congr rfl
    intro i hi
    rw [← Finset.sum_neg_distrib]
    apply Finset.sum_congr rfl
    intro j hj
    exact habs _ (hJ0 i hi j hj) (le_trans (hJpx i hi j hj) (hpx1 i hi))
  have hprod : ∑ i ∈ Finset.range m, ∑ j ∈ Finset.range n, px i * py j = 1 := by
    simp_rw [← Finset.mul_sum]
    rw [← Finset.sum_mul, htot2]
    simp only [mul_one]
    exact htot
  have hbound : ∑ i ∈ Finset.range m, ∑ j ∈ Finset.range n, (J i j - px i * py j)
      ≤ ∑ i ∈ Finset.range m, ∑ j ∈ Finset.range n,
          (entropyTerm log (J i j) - J i j * log (if px i = 0 then 1e-7 else px i)
            - J i j * log (if py j = 0 then 1e-7 else py j)) := by
    apply Finset.sum_le_sum
    intro i hi
    apply Finset.sum_le_sum
    intro j hj
    exact cell_bound log hmul hle (J i j) (px i) (py j) (hJ0 i hi j hj) (hJpx i hi j hj)
      (hJpy i hi j hj)
  simp only [Finset.sum_sub_distrib] at hbound
  rw [htot, hprod] at hbound
  rw [e1, e2, e3]
  linarith


/-- The sum of a mapped list as a sum over its indices. -/
theorem sum_map_eq_sum_range {α : Type} (l : List α) (d : α) (f : α → F) :
    (l.map f).sum = ∑ j ∈ Finset.range l.length, f (l.getD j d) := by
  induction l with
  | nil => simp
  | cons a l ih =>
    rw [List.map_cons, List.sum_cons, List.length_cons, Finset.sum_range_succ', ih]
    simp only [List.getD_cons_succ, List.getD_cons_zero]
    ring

/-- The sum of a function mapped over `List.range n`. -/
theorem sum_map_range (n : ℕ) (f : ℕ → F) :
    ((List.range n).map f).sum = ∑ j ∈ Finset.range n, f j := by
  induction n with
  | zero => simp
  | succ n ih => rw [List.range_succ, List.map_append, List.sum_append, ih,
      Finset.sum_range_succ]; simp

/-- The row with index below the number of rows is a row of the array. -/
theorem getD_mem_of_lt {α : Type} (l : List α) (d : α) (i : ℕ) (h : i < l.length) :
    l.getD i d ∈ l := by
  rw [List.getD_eq_getElem l d h]
  exact List.getElem_mem _

/-- The three entropies of a probability estimate whose marginals are the row and column
sums of a rectangular joint array, as sums over the grid. -/
theorem entropies_as_grid_sums (ext : Externals F) (prob : Probability F) (n : ℕ)
    (hrect : ∀ row ∈ prob.joint_prob, row.length = n)
    (hint : prob.intensity_prob = rowSums prob.joint_prob)
    (hrefl : prob.reflectance_prob = colSums n prob.joint_prob) :
    Hx ext prob = ∑ i ∈ Finset.range prob.joint_prob.length,
        |entropyTerm ext.log (∑ j ∈ Finset.range n, (prob.joint_prob.getD i []).getD j 0)| ∧
    Hy ext prob = ∑ j ∈ Finset.range n,
        |entropyTerm ext.log
          (∑ i ∈ Finset.range prob.joint_prob.length, (prob.joint_prob.getD i []).getD j 0)| ∧
    Hxy ext prob = ∑ i ∈ Finset.range prob.joint_prob.length, ∑ j ∈ Finset.range n,
        |entropyTerm ext.log ((prob.joint_prob.getD i []).getD j 0)| ∧
    (rowSums prob.joint_prob).sum = ∑ i ∈ Finset.range prob.joint_prob.length,
        ∑ j ∈ Finset.range n, (prob.joint_prob.getD i []).getD j 0 := by
  have hrow : ∀ i ∈ Finset.range prob.joint_prob.length,
      (prob.joint_prob.getD i []).length = n := fun i hi =>
    hrect _ (getD_mem_of_lt _ _ _ (Finset.mem_range.mp hi))
  have hrowsum : ∀ i ∈ Finset.range prob.joint_prob.length,
      (prob.joint_prob.getD i []).sum
        = ∑ j ∈ Finset.range n, (prob.joint_prob.getD i []).getD j 0 := by
    intro i hi
    have h := sum_map_eq_sum_range (prob.joint_prob.getD i []) (0 : F) id
    rw [List.map_id, hrow i hi] at h
    exact h
  refine ⟨?_, ?_, ?_, ?_⟩
  · unfold Hx rowNormL1
    rw [rowEntropy_eq_map, hint, rowSums, List.map_map, List.map_map,
      sum_map_eq_sum_range _ ([] : List F)]
    apply Finset.sum_congr rfl
    intro i hi
    simp only [Function.comp_apply]
    rw [hrowsum i hi]
  · unfold Hy rowNormL1
    rw [rowEntropy_eq_map, hrefl, colSums, List.map_map, List.map_map, sum_map_range]
    apply Finset.sum_congr rfl
    intro j _
    simp only [Function.comp_apply]
    rw [sum_map_eq_sum_range _ ([] : List F)]
  · unfold Hxy matNormL1 matEntropy
    rw [List.map_map, sum_map_eq_sum_range _ ([] : List F)]
    apply Finset.sum_congr rfl
    intro i hi
    simp only [Function.comp_apply]
    unfold rowNormL1
    rw [rowEntropy_eq_map, List.map_map, sum_map_eq_sum_range _ (0 : F), hrow i hi]
    rfl
  · rw [rowSums, sum_map_eq_sum_range _ ([] : List F)]
    exact Finset.sum_congr rfl hrowsum

end entropy_facts

end camera_lidar_calibration

end hector_calibration

namespace hector_calibration

/-- Reading the cell that was just written. -/
theorem getD_set_self {α : Type} (l : List α) (i : Nat) (v d : α) (h : i < l.length) :
    (l.set i v).getD i d = v := by
  simp [List.getD_eq_getElem?_getD, List.getElem?_set_self h]

/-- Reading another cell than the one written. -/
theorem getD_set_ne {α : Type} (l : List α) (i j : Nat) (v d : α) (h : i ≠ j) :
    (l.set i v).getD j d = l.getD j d := by
  simp [List.getD_eq_getElem?_getD, List.getElem?_set_ne h]

namespace camera_lidar_calibration

section stage_facts

variable {F : Type} [LinearOrderedField F]

/-- The method `computeProbability` in stages: the two means, the loop, the two
bandwidths, the three smoothing calls. -/
theorem computeProbability_stages (self : NumericDiffMutualInformationCost F)
    (ext : Externals F) (histogram : Histogram F) :
    self.computeProbability ext histogram = (do
      let mu_intensity ← marginalMean histogram.intensity_sum histogram.count
      let mu_reflectance ← marginalMean histogram.reflectance_sum histogram.count
      let st ← self.normalizeHistogram ext histogram mu_intensity mu_reflectance
      pure { intensity_prob := blurRow ext st.2.2.intensity_prob
               (bandwidth ext st.1 histogram.count)
             reflectance_prob := blurRow ext st.2.2.reflectance_prob
               (bandwidth ext st.2.1 histogram.count)
             joint_prob := ext.GaussianBlur st.2.2.joint_prob
               (bandwidth ext st.1 histogram.count) (bandwidth ext st.2.1 histogram.count)
             count := histogram.count }) := by
  unfold NumericDiffMutualInformationCost.computeProbability marginalMean
    NumericDiffMutualInformationCost.normalizeHistogram bandwidth
  cases h1 : intDiv histogram.intensity_sum histogram.count with
  | error e => rfl
  | ok q1 =>
    cases h2 : intDiv histogram.reflectance_sum histogram.count with
    | error e => rfl
    | ok q2 =>
      simp only [bind, Except.bind, pure, Except.pure]


end stage_facts

end camera_lidar_calibration

end hector_calibration

namespace hector_calibration

namespace camera_lidar_calibration

theorem toUchar_300_div_2 : toUchar ((300 : ℚ) / 2) = .ok 150 := by
  have h := toUchar_natCast_div (F := ℚ) 300 2 (by decide)
  simpa using h

theorem toUchar_255_div_2 : toUchar ((255 : ℚ) / 2) = .ok 127 := by
  have h := toUchar_natCast_div (F := ℚ) 255 2 (by decide)
  simpa using h

theorem tdiv_256_2 : Int.tdiv 256 2 = 128 := by decide

/-- A marginal mean is the truncated quotient of sum and count. -/
theorem marginalMean_eq_tdiv {F : Type} [LinearOrderedField F] (sum count : Int)
    (hc : count ≠ 0) : (marginalMean sum count : Except Fault F) = .ok ((Int.tdiv sum count : Int) : F) := by
  simp [marginalMean, intDiv, hc, bind, Except.bind, pure, Except.pure]

/-- The histogram of two accepted pairs with bin fraction 128: intensities 255 and 255,
reflectances 7 and 200. -/
theorem computeHistogram_two_samples :
    (NumericDiffMutualInformationCost.computeHistogram
      { observations_ := [sampleObservation 7, sampleObservation 200], bin_count_ := 2,
        bin_fraction_ := 128 }
      (sampleExternals 255) ⟨1, 0⟩)
    = .ok { joint_hist := [[0, 0], [1, 1]], reflectance_hist := [1, 1],
            intensity_hist := [0, 2], count := 2, intensity_sum := 2, reflectance_sum := 1 } := by
  have h7 : toUchar ((7 : ℚ) / 128) = .ok 0 := by
    have h := toUchar_natCast_div (F := ℚ) 7 128 (by decide)
    simpa using h
  have h200 : toUchar ((200 : ℚ) / 128) = .ok 1 := by
    have h := toUchar_natCast_div (F := ℚ) 200 128 (by decide)
    simpa using h
  simp [bind, Except.bind, pure, Except.pure,
    NumericDiffMutualInformationCost.computeHistogram, accumulateScan, sampleObservation,
    accumulate, sampleExternals, sampleCamera, Mat.empty, toUchar_255_div_128, h7, h200,
    incrAt, incrAt2, Histogram.new]
  norm_num

/-- C14: the means that `computeProbability` uses are quotients of two `int`s, truncated
before the conversion to `float`. For the histogram of two pairs with reflectance bins 0
and 1 (reflectance sum 1, count 2) the reflectance mean used is 0, not 1/2. -/
theorem marginal_mean_is_truncated :
    (NumericDiffMutualInformationCost.computeHistogram
      { observations_ := [sampleObservation 7, sampleObservation 200], bin_count_ := 2,
        bin_fraction_ := 128 }
      (sampleExternals 255) ⟨1, 0⟩).map (fun h => (h.reflectance_sum, h.count)) = .ok (1, 2) ∧
    (marginalMean 1 2 : Except Fault ℚ) = .ok 0 ∧
    (0 : ℚ) ≠ (1 : ℚ) / 2 ∧
    (marginalMean 7 2 : Except Fault ℚ) = .ok 3 := by
  refine ⟨?_, ?_, by norm_num, ?_⟩
  · rw [computeHistogram_two_samples]; rfl
  · rw [marginalMean_eq_tdiv 1 2 (by decide)]
    have : Int.tdiv 1 2 = 0 := by decide
    rw [this]; simp
  · rw [marginalMean_eq_tdiv 7 2 (by decide)]
    have : Int.tdiv 7 2 = 3 := by decide
    rw [this]; simp

end camera_lidar_calibration

namespace LidarCalibration

/-- The matrices of `AngleAxisUnitZ`, `AngleAxisUnitY` and `AngleAxisUnitX` are the
rotation matrices of `Eigen::AngleAxisd` about the three unit vectors. -/
theorem AngleAxisUnit_eq_AngleAxis {F : Type} [Field F] (ext : PclExternals F) (angle : F) :
    AngleAxisUnitZ ext angle = AngleAxis ext.sin ext.cos angle UnitZ ∧
    AngleAxisUnitY ext angle = AngleAxis ext.sin ext.cos angle UnitY ∧
    AngleAxisUnitX ext angle = AngleAxis ext.sin ext.cos angle UnitX := by
  refine ⟨?_, ?_, ?_⟩ <;>
    · ext i j
      fin_cases i <;> fin_cases j <;>
        simp [AngleAxisUnitZ, AngleAxisUnitY, AngleAxisUnitX, AngleAxis, UnitX, UnitY, UnitZ]

/-- C18: the transform that `applyCalibration` applies has translation `(x, y, 0)` and
rotation `Rz(yaw) * Ry(pitch) * Rx(roll)`; it is the same for two calibrations that
differ only in `z`, and the one transform moves both clouds. -/
theorem applyCalibration_transform {F : Type} [Field F] (ext : PclExternals F)
    (calibration : Calibration F) (cloud1 cloud2 : List (PointXYZ F)) :
    (calibrationTransform ext calibration).translation = ![calibration.x, calibration.y, 0] ∧
    (calibrationTransform ext calibration).linear =
      AngleAxis ext.sin ext.cos calibration.yaw UnitZ
        * AngleAxis ext.sin ext.cos calibration.pitch UnitY
        * AngleAxis ext.sin ext.cos calibration.roll UnitX ∧
    (calibrationTransform ext calibration).linear =
      !![ext.cos calibration.yaw, -ext.sin calibration.yaw, 0;
         ext.sin calibration.yaw, ext.cos calibration.yaw, 0;
         0, 0, 1]
      * !![ext.cos calibration.pitch, 0, ext.sin calibration.pitch;
           0, 1, 0;
           -ext.sin calibration.pitch, 0, ext.cos calibration.pitch]
      * !![1, 0, 0;
           0, ext.cos calibration.roll, -ext.sin calibration.roll;
           0, ext.sin calibration.roll, ext.cos calibration.roll] ∧
    (∀ z : F, calibrationTransform ext { calibration with z := z }
      = calibrationTransform ext calibration) ∧
    applyCalibration ext cloud1 cloud2 calibration =
      (transformPointCloud cloud1 (calibrationTransform ext calibration),
       transformPointCloud cloud2 (calibrationTransform ext calibration)) ∧
    (∀ z : F, applyCalibration ext cloud1 cloud2 { calibration with z := z }
      = applyCalibration ext cloud1 cloud2 calibration) := by
  refine ⟨rfl, ?_, rfl, fun _ => rfl, rfl, fun _ => rfl⟩
  show AngleAxisUnitZ ext calibration.yaw * AngleAxisUnitY ext calibration.pitch
      * AngleAxisUnitX ext calibration.roll = _
  rw [(AngleAxisUnit_eq_AngleAxis ext calibration.yaw).1,
    (AngleAxisUnit_eq_AngleAxis ext calibration.pitch).2.1,
    (AngleAxisUnit_eq_AngleAxis ext calibration.roll).2.2]

/-- C20: `optimize_calibration` returns the default-constructed calibration whatever the
normals and the neighbour mapping are; two calls give the same result. -/
theorem optimize_calibration_is_placeholder {F : Type} [Field F]
    (normals1 normals2 : List (PointNormal F)) (mapping1 mapping2 : List Int) :
    optimize_calibration normals1 mapping1 = (Calibration.default : Calibration F) ∧
    optimize_calibration normals1 mapping1
      = (optimize_calibration normals2 mapping2 : Calibration F) :=
  ⟨rfl, rfl⟩

end LidarCalibration

end hector_calibration

namespace hector_calibration

namespace camera_lidar_calibration

section adapter_facts

variable {F : Type} [LinearOrderedField F] [FloorRing F]

/-- Without observations the cost evaluation divides by a zero count. -/
theorem computeMutualInformationCost_no_observation (bin_count_ bin_fraction_ : Int)
    (ext : Externals F) (T : Affine3 F) :
    NumericDiffMutualInformationCost.computeMutualInformationCost
      { observations_ := [], bin_count_ := bin_count_, bin_fraction_ := bin_fraction_ } ext T
      = .error .intDivByZero := by
  simp [NumericDiffMutualInformationCost.computeMutualInformationCost,
    NumericDiffMutualInformationCost.computeHistogram,
    NumericDiffMutualInformationCost.computeProbability, intDiv, bind, Except.bind,
    pure, Except.pure, Histogram.new]

/-- When `run` has data and returns, the cost function was constructed and the solver was
invoked. -/
theorem run_with_data_events (self : Optimizer F) (ceres : CeresOps F) (eig : EigenOps F)
    (ext : Externals F) (hdata : self.data_ ≠ []) (r : RunResult F)
    (hrun : self.run ceres eig ext = .ok r) :
    RunEvent.constructCost ∈ r.events ∧ RunEvent.solve ∈ r.events := by
  unfold Optimizer.run at hrun
  have hne : self.data_.isEmpty = false := by
    cases hd : self.data_ with
    | nil => exact absurd hd hdata
    | cons a l => rfl
  rw [hne] at hrun
  simp only [Bool.false_eq_true, if_false, except_bind_eq_ok, pure, Except.pure,
    Except.ok.injEq] at hrun
  obtain ⟨_, _, _, _, _, _, hr⟩ := hrun
  subst hr
  simp

end adapter_facts

/-- C16: `operator()` returns true whenever the cost evaluation returns at all, so it
never reports a failure; when the histogram is empty, here because no point projects into
an image or because there is no observation, the evaluation divides by the zero count and
neither `operator()` nor `Evaluate` has a defined result, in particular not false. -/
theorem operatorCall_never_returns_false {F : Type} [LinearOrderedField F] [FloorRing F]
    (self : NumericDiffMutualInformationCost F) (eig : EigenOps F) (ext : Externals F)
    (parameters : Fin 6 → F) (wantGradient : Bool) :
    self.operatorCall eig ext parameters =
      (self.computeMutualInformationCost ext (parametersToTransform eig parameters)).map
        (fun cost => (true, cost)) ∧
    NumericDiffMutualInformationCost.operatorCall
      { self with observations_ := [] } eig ext parameters = .error .intDivByZero ∧
    MutualInformationCost.Evaluate { self with observations_ := [] } directCeres eig ext
      parameters wantGradient = .error .intDivByZero ∧
    NumericDiffMutualInformationCost.operatorCall
      { observations_ := [sampleObservation 0], bin_count_ := 2, bin_fraction_ := 128 }
      (eigenOfTrig (fun _ => 0) (fun _ => 1)) blindExternals (fun _ => 0)
      = .error .intDivByZero := by
  refine ⟨?_, ?_, ?_, ?_⟩
  · show (self.computeMutualInformationCost ext (parametersToTransform eig parameters)
        >>= fun cost => pure (true, cost)) = _
    cases self.computeMutualInformationCost ext (parametersToTransform eig parameters) <;> rfl
  · show (NumericDiffMutualInformationCost.computeMutualInformationCost
        { observations_ := [], bin_count_ := self.bin_count_,
          bin_fraction_ := self.bin_fraction_ } ext (parametersToTransform eig parameters)
        >>= fun cost => pure (true, cost)) = _
    rw [computeMutualInformationCost_no_observation]
    rfl
  · have hop : NumericDiffMutualInformationCost.operatorCall
        { self with observations_ := [] } eig ext parameters = .error .intDivByZero := by
      show (NumericDiffMutualInformationCost.computeMutualInformationCost
          { observations_ := [], bin_count_ := self.bin_count_,
            bin_fraction_ := self.bin_fraction_ } ext (parametersToTransform eig parameters)
          >>= fun cost => pure (true, cost)) = _
      rw [computeMutualInformationCost_no_observation]
      rfl
    unfold MutualInformationCost.Evaluate
    simp only [directCeres, hop]
    rfl
  · simp [NumericDiffMutualInformationCost.operatorCall,
      NumericDiffMutualInformationCost.computeMutualInformationCost,
      NumericDiffMutualInformationCost.computeHistogram,
      NumericDiffMutualInformationCost.computeProbability, accumulateScan, accumulate,
      sampleObservation, blindExternals, intDiv, bind, Except.bind, pure, Except.pure,
      Histogram.new]

/-- C17: with an empty data sequence `Optimizer::run` logs the error "Calibration data
vector is empty." and returns; the outcome is the same for every solver, every camera
model and every Eigen operation, no cost function is constructed and the solver is not
invoked. -/
theorem run_without_data {F : Type} [LinearOrderedField F] [FloorRing F]
    (self : Optimizer F) (ceres : CeresOps F) (eig : EigenOps F) (ext : Externals F) :
    Optimizer.run { self with data_ := [] } ceres eig ext
      = .ok { events := [RunEvent.info "Starting optimization",
                         RunEvent.error "Calibration data vector is empty."]
              parameters := none } ∧
    RunEvent.constructCost ∉ [RunEvent.info "Starting optimization",
      RunEvent.error "Calibration data vector is empty."] ∧
    RunEvent.solve ∉ [RunEvent.info "Starting optimization",
      RunEvent.error "Calibration data vector is empty."] :=
  ⟨rfl, by decide, by decide⟩

end camera_lidar_calibration

end hector_calibration

namespace hector_calibration

/-- A loop over `0 .. n-1` in `Except` succeeds and establishes `P n` when every pass
`k` leads from `P k` to `P (k + 1)`. -/
theorem foldlM_range_invariant {β ε : Type} (P : ℕ → β → Prop) (f : β → ℕ → Except ε β) :
    ∀ n, (∀ k < n, ∀ b, P k b → ∃ b1, f b k = .ok b1 ∧ P (k + 1) b1) →
      ∀ b0, P 0 b0 → ∃ b1, (List.range n).foldlM f b0 = .ok b1 ∧ P n b1 := by
  intro n
  induction n with
  | zero =>
    intro _ b0 h0
    exact ⟨b0, rfl, h0⟩
  | succ n ih =>
    intro hstep b0 h0
    obtain ⟨b1, hb1, hP1⟩ := ih (fun k hk b hb => hstep k (Nat.lt_succ_of_lt hk) b hb) b0 h0
    obtain ⟨b2, hb2, hP2⟩ := hstep n (Nat.lt_succ_self n) b1 hP1
    refine ⟨b2, ?_, hP2⟩
    rw [List.range_succ, List.foldlM_append, hb1]
    simp only [bind, Except.bind, List.foldlM_cons, List.foldlM_nil, hb2]
    rfl

/-- A property of all cells that are read by index holds for all members. -/
theorem forall_mem_of_forall_getD {α : Type} (l : List α) (d : α) (Q : α → Prop)
    (h : ∀ i < l.length, Q (l.getD i d)) : ∀ x ∈ l, Q x := by
  intro x hx
  obtain ⟨i, hi, rfl⟩ := List.getElem_of_mem hx
  have := h i hi
  rwa [List.getD_eq_getElem l d hi] at this

/-- A read inside a two-dimensional array yields the cell. -/
theorem readAt2_of_lt {F : Type} [Zero F] (m : Mat F) (i j : Nat) (hi : i < m.length)
    (hj : j < (m.getD i []).length) : readAt2 m i j = .ok ((m.getD i []).getD j 0) := by
  have hrow : m.getD i [] = m[i] := List.getD_eq_getElem m [] hi
  rw [hrow] at hj ⊢
  simp only [readAt2, List.getElem?_eq_getElem hi, readAt_of_lt _ _ hj,
    List.getD_eq_getElem _ _ hj]

/-- A write inside a two-dimensional array replaces the cell. -/
theorem writeAt2_of_lt {F : Type} (m : Mat F) (i j : Nat) (v : F) (hi : i < m.length)
    (hj : j < (m.getD i []).length) :
    writeAt2 m i j v = .ok (m.set i ((m.getD i []).set j v)) := by
  have hrow : m.getD i [] = m[i] := List.getD_eq_getElem m [] hi
  rw [hrow] at hj ⊢
  simp only [writeAt2, List.getElem?_eq_getElem hi, writeAt, if_pos hj, Except.map]

end hector_calibration

namespace hector_calibration

namespace camera_lidar_calibration

/-- Replacing a row by a row of the same length keeps the side of an array. -/
theorem set_row_side {F : Type} (m : Mat F) (i n : Nat) (row : List F)
    (hm : m.length = n ∧ ∀ r ∈ m, r.length = n) (hrow : row.length = n) :
    (m.set i row).length = n ∧ ∀ r ∈ m.set i row, r.length = n := by
  refine ⟨by rw [List.length_set]; exact hm.1, ?_⟩
  intro r hr
  rcases List.mem_or_eq_of_mem_set hr with h | h
  · exact hm.2 r h
  · rw [h]; exact hrow

section normalize_facts

variable {F : Type} [LinearOrderedField F]

/-- The inner loop of `computeProbability` on row `i`: the row receives the counts of row
`i` of the joint histogram divided by the count, the other rows stay. -/
theorem normalizeJointRow (histogram : Histogram F) (i n : Nat) (dst : Mat F) (hi : i < n)
    (hh : histogram.joint_hist.length = n ∧ ∀ r ∈ histogram.joint_hist, r.length = n)
    (hd : dst.length = n ∧ ∀ r ∈ dst, r.length = n) :
    ∃ d, (List.range n).foldlM (normalizeJointCell histogram i) dst = .ok d ∧
      (d.length = n ∧ ∀ r ∈ d, r.length = n) ∧
      (∀ i1, i1 ≠ i → d.getD i1 [] = dst.getD i1 []) ∧
      ∀ j < n, (d.getD i []).getD j 0
        = (histogram.joint_hist.getD i []).getD j 0 / (histogram.count : F) := by
  have hhi : i < histogram.joint_hist.length := by rw [hh.1]; exact hi
  have hhrow : (histogram.joint_hist.getD i []).length = n :=
    hh.2 _ (getD_mem_of_lt _ _ _ hhi)
  obtain ⟨d, hd1, hside, hother, hrow⟩ := foldlM_range_invariant
    (fun k (d : Mat F) => (d.length = n ∧ ∀ r ∈ d, r.length = n) ∧
      (∀ i1, i1 ≠ i → d.getD i1 [] = dst.getD i1 []) ∧
      ∀ j < k, (d.getD i []).getD j 0
        = (histogram.joint_hist.getD i []).getD j 0 / (histogram.count : F))
    (normalizeJointCell histogram i) n
    (by
      intro k hk d ⟨hside, hother, hrow⟩
      have hdi : i < d.length := by rw [hside.1]; exact hi
      have hdrow : (d.getD i []).length = n := hside.2 _ (getD_mem_of_lt _ _ _ hdi)
      have hkd : k < (d.getD i []).length := by rw [hdrow]; exact hk
      refine ⟨d.set i ((d.getD i []).set k
        ((histogram.joint_hist.getD i []).getD k 0 / (histogram.count : F))), ?_, ?_, ?_, ?_⟩
      · unfold normalizeJointCell
        rw [readAt2_of_lt _ _ _ hhi (by rw [hhrow]; exact hk)]
        exact writeAt2_of_lt _ _ _ _ hdi hkd
      · exact set_row_side d i n _ hside (by rw [List.length_set]; exact hdrow)
      · intro i1 hi1
        rw [getD_set_ne _ _ _ _ _ (Ne.symm hi1)]
        exact hother i1 hi1
      · intro j hj
        rw [getD_set_self _ _ _ _ hdi]
        by_cases hjk : j = k
        · subst hjk
          rw [getD_set_self _ _ _ _ hkd]
        · rw [getD_set_ne _ _ _ _ _ (Ne.symm hjk)]
          exact hrow j (by omega))
    dst ⟨hd, fun _ _ => rfl, fun j hj => absurd hj (Nat.not_lt_zero j)⟩
  exact ⟨d, hd1, hside, hother, hrow⟩

/-- One pass of the loop of `computeProbability`. -/
theorem normalizeBin_step (ext : Externals F) (bin_count_ : Int) (histogram : Histogram F)
    (mu_intensity mu_reflectance : F) (k : Nat) (hk : k < bin_count_.toNat)
    (hside : histogram.hasSide bin_count_.toNat) (st : F × F × Probability F)
    (hst : normalizedUpTo histogram bin_count_.toNat k st) :
    ∃ st1, normalizeBin ext bin_count_ histogram mu_intensity mu_reflectance st k = .ok st1 ∧
      normalizedUpTo histogram bin_count_.toNat (k + 1) st1 := by
  obtain ⟨si, sr, prob⟩ := st
  obtain ⟨hpi, hpr, hpj, hci, hcr, hcj⟩ := hst
  simp only at hpi hpr hpj hci hcr hcj
  obtain ⟨hj, hrows, hi, hr⟩ := hside
  have hki : k < histogram.intensity_hist.length := by rw [hi]; exact hk
  have hkr : k < histogram.reflectance_hist.length := by rw [hr]; exact hk
  have hkpi : k < prob.intensity_prob.length := by rw [hpi]; exact hk
  have hkpr : k < prob.reflectance_prob.length := by rw [hpr]; exact hk
  obtain ⟨d, hd, hdside, hdother, hdrow⟩ :=
    normalizeJointRow histogram k bin_count_.toNat prob.joint_prob hk ⟨hj, hrows⟩ hpj
  refine ⟨(si + histogram.intensity_hist[k] * ext.pow ((k : F) - mu_intensity) 2,
    sr + histogram.reflectance_hist[k] * ext.pow ((k : F) - mu_reflectance) 2,
    { prob with
      intensity_prob := prob.intensity_prob.set k
        (histogram.intensity_hist[k] / (histogram.count : F))
      reflectance_prob := prob.reflectance_prob.set k
        (histogram.reflectance_hist[k] / (histogram.count : F))
      joint_prob := d }), ?_, ?_⟩
  · unfold normalizeBin
    simp only [readAt_of_lt _ _ hki, readAt_of_lt _ _ hkr, writeAt, if_pos hkpi, if_pos hkpr,
      hd, bind, Except.bind, pure, Except.pure]
  · refine ⟨?_, ?_, hdside, ?_, ?_, ?_⟩
    · show (prob.intensity_prob.set k _).length = _
      rw [List.length_set]; exact hpi
    · show (prob.reflectance_prob.set k _).length = _
      rw [List.length_set]; exact hpr
    · intro i hik
      show (prob.intensity_prob.set k _).getD i 0 = _
      by_cases h : i = k
      · subst h
        rw [getD_set_self _ _ _ _ hkpi, List.getD_eq_getElem _ _ hki]
      · rw [getD_set_ne _ _ _ _ _ (Ne.symm h)]
        exact hci i (by omega)
    · intro i hik
      show (prob.reflectance_prob.set k _).getD i 0 = _
      by_cases h : i = k
      · subst h
        rw [getD_set_self _ _ _ _ hkpr, List.getD_eq_getElem _ _ hkr]
      · rw [getD_set_ne _ _ _ _ _ (Ne.symm h)]
        exact hcr i (by omega)
    · intro i hik j hjn
      show (d.getD i []).getD j 0 = _
      by_cases h : i = k
      · subst h
        exact hdrow j hjn
      · rw [hdother i h]
        exact hcj i (by omega) j hjn

/-- The loop of `computeProbability` on a histogram of side `bin_count_` returns, and all
cells then hold counts divided by the count. -/
theorem normalizeHistogram_spec (self : NumericDiffMutualInformationCost F)
    (ext : Externals F) (histogram : Histogram F) (mu_intensity mu_reflectance : F)
    (hside : histogram.hasSide self.bin_count_.toNat) :
    ∃ st, self.normalizeHistogram ext histogram mu_intensity mu_reflectance = .ok st ∧
      normalizedUpTo histogram self.bin_count_.toNat self.bin_count_.toNat st := by
  unfold NumericDiffMutualInformationCost.normalizeHistogram
  apply foldlM_range_invariant (fun k st => normalizedUpTo histogram self.bin_count_.toNat k st)
  · intro k hk st hst
    exact normalizeBin_step ext self.bin_count_ histogram mu_intensity mu_reflectance k hk
      hside st hst
  · refine ⟨?_, ?_, ⟨?_, ?_⟩, ?_, ?_, ?_⟩
    · simp [Probability.new]
    · simp [Probability.new]
    · simp [Probability.new]
    · intro r hr
      simp only [Probability.new, List.mem_replicate] at hr
      rw [hr.2, List.length_replicate]
    · intro i hi; exact absurd hi (Nat.not_lt_zero i)
    · intro i hi; exact absurd hi (Nat.not_lt_zero i)
    · intro i hi; exact absurd hi (Nat.not_lt_zero i)

end normalize_facts

end camera_lidar_calibration

end hector_calibration

namespace hector_calibration

namespace camera_lidar_calibration

section consistency_facts

variable {F : Type} [LinearOrderedField F]

/-- Adding `d` to one cell adds `d` to the sum. -/
theorem sum_set_add (l : List F) (i : Nat) (d : F) (h : i < l.length) :
    (l.set i (l.getD i 0 + d)).sum = l.sum + d := by
  induction l generalizing i with
  | nil => simp at h
  | cons a l ih =>
    cases i with
    | zero => simp only [List.set_cons_zero, List.getD_cons_zero, List.sum_cons]; ring
    | succ i =>
      have hi : i < l.length := by simpa using h
      simp only [List.set_cons_succ, List.getD_cons_succ, List.sum_cons, ih i hi]
      ring

/-- Adding 1 to a cell of non-negative counts leaves the counts non-negative. -/
theorem nonneg_set_add_one (l : List F) (i : Nat) (h : ∀ x ∈ l, 0 ≤ x) :
    ∀ x ∈ l.set i (l.getD i 0 + 1), 0 ≤ x := by
  intro x hx
  rcases List.mem_or_eq_of_mem_set hx with hmem | heq
  · exact h x hmem
  · rw [heq]
    by_cases hi : i < l.length
    · have := h _ (getD_mem_of_lt l 0 i hi)
      linarith
    · rw [List.getD_eq_default _ _ (not_lt.mp hi)]
      norm_num

/-- What a pair that is processed without fault does to the histogram: nothing, or one
increment of each array at bins within the arrays. -/
theorem accumulate_ok_cases [FloorRing F] (ext : Externals F) (b : Int) (point : PointXYZI F)
    (pt : Fin 3 → F) (h h1 : Histogram F) (cam : CameraObservation F)
    (hacc : accumulate ext b point pt h cam = .ok h1) :
    h1 = h ∨ ∃ a r, a < h.intensity_hist.length ∧ r < h.reflectance_hist.length ∧
      a < h.joint_hist.length ∧ r < (h.joint_hist.getD a []).length ∧
      h1 = { joint_hist := h.joint_hist.set a
               ((h.joint_hist.getD a []).set r ((h.joint_hist.getD a []).getD r 0 + 1))
             reflectance_hist := h.reflectance_hist.set r (h.reflectance_hist.getD r 0 + 1)
             intensity_hist := h.intensity_hist.set a (h.intensity_hist.getD a 0 + 1)
             count := h.count + 1
             intensity_sum := h.intensity_sum + a
             reflectance_sum := h.reflectance_sum + r } := by
  unfold accumulate at hacc
  simp only at hacc
  split at hacc
  · cases hacc; exact Or.inl rfl
  · split at hacc
    · simp only [except_bind_eq_ok, pure, Except.pure, Except.ok.injEq] at hacc
      obtain ⟨a, -, r, -, ih, hA, rh, hB, jh, hC, hacc⟩ := hacc
      right
      unfold incrAt at hA hB
      unfold incrAt2 at hC
      split at hA
      · rename_i ha
        split at hB
        · rename_i hr
          split at hC
          · rename_i hj
            cases hA; cases hB; cases hC
            exact ⟨a, r, ha, hr, hj.1, hj.2, hacc.symm⟩
          · cases hC
        · cases hB
      · cases hA
    · cases hacc; exact Or.inl rfl

/-- One pair keeps the counts consistent. -/
theorem accumulate_consistent [FloorRing F] (ext : Externals F) (b : Int)
    (point : PointXYZI F) (pt : Fin 3 → F) (h h1 : Histogram F) (cam : CameraObservation F)
    (hc : h.consistent) (hacc : accumulate ext b point pt h cam = .ok h1) : h1.consistent := by
  rcases accumulate_ok_cases ext b point pt h h1 cam hacc with rfl | ⟨a, r, ha, hr, haj, hrj, rfl⟩
  · exact hc
  · obtain ⟨hi0, hr0, hj0, his, hrs, hjs⟩ := hc
    have hrow0 : ∀ x ∈ h.joint_hist.getD a [], 0 ≤ x := hj0 _ (getD_mem_of_lt _ _ _ haj)
    refine ⟨nonneg_set_add_one _ a hi0, nonneg_set_add_one _ r hr0, ?_, ?_, ?_, ?_⟩
    · intro row hrow
      rcases List.mem_or_eq_of_mem_set hrow with hmem | heq
      · exact hj0 row hmem
      · rw [heq]; exact nonneg_set_add_one _ r hrow0
    · show (h.intensity_hist.set a _).sum = ((h.count + 1 : Int) : F)
      rw [sum_set_add _ _ _ ha, his]; push_cast; ring
    · show (h.reflectance_hist.set r _).sum = ((h.count + 1 : Int) : F)
      rw [sum_set_add _ _ _ hr, hrs]; push_cast; ring
    · show (rowSums (h.joint_hist.set a _)).sum = ((h.count + 1 : Int) : F)
      have hlen : a < (rowSums h.joint_hist).length := by
        simp only [rowSums, List.length_map]; exact haj
      have hget : (rowSums h.joint_hist).getD a 0 = (h.joint_hist.getD a []).sum := by
        rw [List.getD_eq_getElem _ _ hlen, List.getD_eq_getElem _ _ haj]
        simp [rowSums]
      have hset : rowSums (h.joint_hist.set a
          ((h.joint_hist.getD a []).set r ((h.joint_hist.getD a []).getD r 0 + 1)))
          = (rowSums h.joint_hist).set a ((rowSums h.joint_hist).getD a 0 + 1) := by
        rw [hget, ← sum_set_add _ _ _ hrj]
        simp [rowSums, List.map_set]
      rw [hset, sum_set_add _ _ _ hlen, hjs]; push_cast; ring

/-- The histogram that `computeHistogram` returns has consistent counts. -/
theorem computeHistogram_consistent [FloorRing F] (self : NumericDiffMutualInformationCost F)
    (ext : Externals F) (T : Affine3 F) (h : Histogram F)
    (hc : self.computeHistogram ext T = .ok h) : h.consistent := by
  unfold NumericDiffMutualInformationCost.computeHistogram at hc
  refine foldlM_except_invariant (fun x => Histogram.consistent x) _ ?_ _ _ h ?_ hc
  · intro hist observation hist1 hhist hstep
    unfold accumulateScan at hstep
    refine foldlM_except_invariant (fun x => Histogram.consistent x) _ ?_ _ hist hist1 hhist hstep
    intro hist2 point hist3 hhist2 hstep2
    refine foldlM_except_invariant (fun x => Histogram.consistent x) _ ?_ _ hist2 hist3 hhist2
      hstep2
    intro x cam x1 hx hx1
    exact accumulate_consistent ext _ point _ x x1 cam hx hx1
  · refine ⟨?_, ?_, ?_, ?_, ?_, ?_⟩
    · intro x hx
      simp only [Histogram.new, List.mem_replicate] at hx
      rw [hx.2]
    · intro x hx
      simp only [Histogram.new, List.mem_replicate] at hx
      rw [hx.2]
    · intro row hrow x hx
      simp only [Histogram.new, List.mem_replicate] at hrow
      rw [hrow.2] at hx
      simp only [List.mem_replicate] at hx
      rw [hx.2]
    · simp [Histogram.new]
    · simp [Histogram.new]
    · simp [Histogram.new, rowSums]

end consistency_facts

end camera_lidar_calibration

end hector_calibration

namespace hector_calibration

namespace camera_lidar_calibration

section normalized_sums

variable {F : Type} [LinearOrderedField F]

/-- The sum of a list as a sum over its indices. -/
theorem sum_eq_sum_range_getD (l : List F) :
    l.sum = ∑ i ∈ Finset.range l.length, l.getD i 0 := by
  have h := sum_map_eq_sum_range l (0 : F) id
  rw [List.map_id] at h
  exact h

/-- A list whose cells are the cells of another list divided by `c` sums to the other
sum divided by `c`. -/
theorem sum_of_getD_div (l a : List F) (n : Nat) (c : F) (hl : l.length = n)
    (ha : a.length = n) (h : ∀ i < n, l.getD i 0 = a.getD i 0 / c) :
    l.sum = a.sum / c := by
  rw [sum_eq_sum_range_getD l, sum_eq_sum_range_getD a, hl, ha, Finset.sum_div]
  exact Finset.sum_congr rfl (fun i hi => h i (Finset.mem_range.mp hi))

/-- A list whose cells are non-negative cells divided by a positive `c` is
non-negative. -/
theorem nonneg_of_getD_div (l a : List F) (n : Nat) (c : F) (hc : 0 < c) (hl : l.length = n)
    (ha : a.length = n) (ha0 : ∀ x ∈ a, 0 ≤ x) (h : ∀ i < n, l.getD i 0 = a.getD i 0 / c) :
    ∀ x ∈ l, 0 ≤ x := by
  apply forall_mem_of_forall_getD l 0
  intro i hi
  rw [hl] at hi
  rw [h i hi]
  exact div_nonneg (ha0 _ (getD_mem_of_lt a 0 i (by rw [ha]; exact hi))) (le_of_lt hc)

/-- The arrays after the loop of `computeProbability` on a consistent histogram with a
positive count: non-negative, each of total 1. -/
theorem normalizedUpTo_sums (histogram : Histogram F) (n : Nat) (st : F × F × Probability F)
    (hside : histogram.hasSide n) (hcons : histogram.consistent) (hcount : 0 < histogram.count)
    (hst : normalizedUpTo histogram n n st) :
    (∀ x ∈ st.2.2.intensity_prob, 0 ≤ x) ∧ (∀ x ∈ st.2.2.reflectance_prob, 0 ≤ x) ∧
    (∀ row ∈ st.2.2.joint_prob, ∀ x ∈ row, 0 ≤ x) ∧
    st.2.2.intensity_prob.sum = 1 ∧ st.2.2.reflectance_prob.sum = 1 ∧
    (rowSums st.2.2.joint_prob).sum = 1 := by
  obtain ⟨hj, hrows, hi, hr⟩ := hside
  obtain ⟨hi0, hr0, hj0, his, hrs, hjs⟩ := hcons
  obtain ⟨hpi, hpr, hpj, hci, hcr, hcj⟩ := hst
  have hc : (0 : F) < (histogram.count : F) := by exact_mod_cast hcount
  have hcne : (histogram.count : F) ≠ 0 := ne_of_gt hc
  have hrowlen : ∀ i < n, (st.2.2.joint_prob.getD i []).length = n := fun i hi1 =>
    hpj.2 _ (getD_mem_of_lt _ _ _ (by rw [hpj.1]; exact hi1))
  have hhrowlen : ∀ i < n, (histogram.joint_hist.getD i []).length = n := fun i hi1 =>
    hrows _ (getD_mem_of_lt _ _ _ (by rw [hj]; exact hi1))
  refine ⟨?_, ?_, ?_, ?_, ?_, ?_⟩
  · exact nonneg_of_getD_div _ _ n _ hc hpi hi hi0 hci
  · exact nonneg_of_getD_div _ _ n _ hc hpr hr hr0 hcr
  · apply forall_mem_of_forall_getD st.2.2.joint_prob []
    intro i hi1
    rw [hpj.1] at hi1
    exact nonneg_of_getD_div _ _ n _ hc (hrowlen i hi1) (hhrowlen i hi1)
      (hj0 _ (getD_mem_of_lt _ _ _ (by rw [hj]; exact hi1))) (hcj i hi1)
  · rw [sum_of_getD_div _ _ n _ hpi hi hci, his, div_self hcne]
  · rw [sum_of_getD_div _ _ n _ hpr hr hcr, hrs, div_self hcne]
  · have hrs1 : (rowSums st.2.2.joint_prob).length = n := by
      simp only [rowSums, List.length_map]; exact hpj.1
    have hrs2 : (rowSums histogram.joint_hist).length = n := by
      simp only [rowSums, List.length_map]; exact hj
    rw [sum_of_getD_div (rowSums st.2.2.joint_prob) (rowSums histogram.joint_hist) n
      (histogram.count : F) hrs1 hrs2 ?_, hjs, div_self hcne]
    intro i hi1
    have h1 : (rowSums st.2.2.joint_prob).getD i 0 = (st.2.2.joint_prob.getD i []).sum := by
      rw [List.getD_eq_getElem _ _ (by rw [hrs1]; exact hi1),
        List.getD_eq_getElem _ _ (by rw [hpj.1]; exact hi1)]
      simp [rowSums]
    have h2 : (rowSums histogram.joint_hist).getD i 0
        = (histogram.joint_hist.getD i []).sum := by
      rw [List.getD_eq_getElem _ _ (by rw [hrs2]; exact hi1),
        List.getD_eq_getElem _ _ (by rw [hj]; exact hi1)]
      simp [rowSums]
    rw [h1, h2]
    exact sum_of_getD_div _ _ n _ (hrowlen i hi1) (hhrowlen i hi1) (hcj i hi1)

end normalized_sums

end camera_lidar_calibration

end hector_calibration

namespace hector_calibration

namespace camera_lidar_calibration

/-- The state after the loop of `computeProbability` on `threePairHistogram`: both
accumulated sums and the arrays before smoothing. -/
theorem normalizeHistogram_threePair :
    NumericDiffMutualInformationCost.normalizeHistogram
      { observations_ := [], bin_count_ := 2, bin_fraction_ := 128 } axisExternals
      threePairHistogram 0 0
    = .ok (2, 1, { joint_prob := [[1 / 3, 0], [1 / 3, 1 / 3]], reflectance_prob := [2 / 3, 1 / 3],
                   intensity_prob := [1 / 3, 2 / 3], count := 0 }) := by
  simp [NumericDiffMutualInformationCost.normalizeHistogram, normalizeBin, normalizeJointCell,
    readAt, readAt2, writeAt, writeAt2, Probability.new, List.range_succ, bind, Except.bind,
    pure, Except.pure, Except.map, axisExternals, threePairHistogram]

/-- C15: on `threePairHistogram` the intensity bandwidth is 53/75 and the reflectance
bandwidth 53/150. With a smoothing that acts along a direction exactly when the deviation
for that direction exceeds 1/2, `computeProbability` smooths the intensity marginal and
leaves the reflectance marginal, but in the joint array it smooths within each row, i.e.
within one intensity bin over the reflectance bins, and not over the intensity bins: the
intensity bandwidth is applied along the reflectance axis. The smoothing with the two
bandwidths exchanged is the one whose row sums and column sums agree with the smoothed
marginals. -/
theorem joint_smoothing_axes_swapped :
    bandwidth axisExternals 2 3 = 53 / 75 ∧ bandwidth axisExternals 1 3 = 53 / 150 ∧
    NumericDiffMutualInformationCost.computeProbability
      { observations_ := [], bin_count_ := 2, bin_fraction_ := 128 } axisExternals
      threePairHistogram
    = .ok { joint_prob := [[1 / 6, 1 / 6], [1 / 3, 1 / 3]], reflectance_prob := [2 / 3, 1 / 3],
            intensity_prob := [1 / 2, 1 / 2], count := 3 } ∧
    meanBlur [[1 / 3, 0], [1 / 3, 1 / 3]] (53 / 75) (53 / 150)
      = [[1 / 6, 1 / 6], [1 / 3, 1 / 3]] ∧
    meanBlur [[1 / 3, 0], [1 / 3, 1 / 3]] (53 / 150) (53 / 75)
      = [[1 / 3, 1 / 6], [1 / 3, 1 / 6]] ∧
    rowSums [[1 / 3, 1 / 6], [1 / 3, 1 / 6]] = ([1 / 2, 1 / 2] : List ℚ) ∧
    rowSums [[1 / 6, 1 / 6], [1 / 3, 1 / 3]] ≠ ([1 / 2, 1 / 2] : List ℚ) := by
  have hb1 : bandwidth axisExternals 2 3 = 53 / 75 := by
    norm_num [bandwidth, axisExternals]
  have hb2 : bandwidth axisExternals 1 3 = 53 / 150 := by
    norm_num [bandwidth, axisExternals]
  have hm1 : meanBlur [[1 / 3, 0], [1 / 3, 1 / 3]] (53 / 75) (53 / 150)
      = [[1 / 6, 1 / 6], [1 / 3, 1 / 3]] := by
    norm_num [meanBlur, List.replicate]
  have hm2 : meanBlur [[1 / 3, 0], [1 / 3, 1 / 3]] (53 / 150) (53 / 75)
      = [[1 / 3, 1 / 6], [1 / 3, 1 / 6]] := by
    norm_num [meanBlur, colSums, List.range_succ]
  refine ⟨hb1, hb2, ?_, hm1, hm2, by norm_num [rowSums], by norm_num [rowSums]⟩
  rw [computeProbability_stages]
  have hmu1 : (marginalMean threePairHistogram.intensity_sum threePairHistogram.count :
      Except Fault ℚ) = .ok 0 := by
    rw [marginalMean_eq_tdiv _ _ (by decide)]
    have : Int.tdiv threePairHistogram.intensity_sum threePairHistogram.count = 0 := by decide
    rw [this]; simp
  have hmu2 : (marginalMean threePairHistogram.reflectance_sum threePairHistogram.count :
      Except Fault ℚ) = .ok 0 := by
    rw [marginalMean_eq_tdiv _ _ (by decide)]
    have : Int.tdiv threePairHistogram.reflectance_sum threePairHistogram.count = 0 := by decide
    rw [this]; simp
  rw [hmu1, hmu2]
  simp only [bind, Except.bind, normalizeHistogram_threePair, pure, Except.pure]
  have hc : threePairHistogram.count = 3 := rfl
  rw [hc, hb1, hb2]
  have hi : blurRow axisExternals [1 / 3, 2 / 3] (53 / 75) = [1 / 2, 1 / 2] := by
    norm_num [blurRow, axisExternals, meanBlur, List.replicate]
  have hr : blurRow axisExternals [2 / 3, 1 / 3] (53 / 150) = [2 / 3, 1 / 3] := by
    norm_num [blurRow, axisExternals, meanBlur]
  have hj : axisExternals.GaussianBlur [[1 / 3, 0], [1 / 3, 1 / 3]] (53 / 75) (53 / 150)
      = [[1 / 6, 1 / 6], [1 / 3, 1 / 3]] := hm1
  rw [hi, hr, hj]

end camera_lidar_calibration

end hector_calibration

namespace hector_calibration

/-- Writing back the value that a cell holds leaves the list as it is. -/
theorem set_getD_same {α : Type} (l : List α) (i : Nat) (d : α) :
    l.set i (l.getD i d) = l := by
  induction l generalizing i with
  | nil => rfl
  | cons a l ih =>
    cases i with
    | zero => rfl
    | succ i => simp only [List.set_cons_succ, List.getD_cons_succ, ih]

/-- Reading a cell of a mapped list inside its length. -/
theorem getD_map_of_lt {α β : Type} (f : α → β) (l : List α) (i : Nat) (d : α) (e : β)
    (h : i < l.length) : (l.map f).getD i e = f (l.getD i d) := by
  simp [List.getD_eq_getElem?_getD, List.getElem?_eq_getElem h]

namespace camera_lidar_calibration

section marginals

variable {F : Type} [LinearOrderedField F]

/-- Every cell of a list after one cell was raised by one. -/
theorem getD_set_add_one (l : List F) (a i : Nat) (h : a < l.length) :
    (l.set a (l.getD a 0 + 1)).getD i 0 = l.getD i 0 + if i = a then 1 else 0 := by
  by_cases hi : i = a
  · subst hi
    rw [getD_set_self _ _ _ _ h]
    simp
  · rw [getD_set_ne _ _ _ _ _ (Ne.symm hi)]
    simp [hi]

/-- Raising cell `a` by one raises the index-weighted sum by `a`. -/
theorem weighted_sum_set_add_one (l : List F) (n a : Nat) (h : a < l.length) (hn : a < n) :
    ∑ i ∈ Finset.range n, (i : F) * (l.set a (l.getD a 0 + 1)).getD i 0
      = ∑ i ∈ Finset.range n, (i : F) * l.getD i 0 + a := by
  simp only [getD_set_add_one l a _ h, mul_add, Finset.sum_add_distrib, mul_ite, mul_one,
    mul_zero]
  rw [Finset.sum_ite_eq']
  simp [hn]

/-- The empty histogram has matching marginals. -/
theorem Histogram.new_marginalsOfJoint (size : Int) :
    (Histogram.new size : Histogram F).marginalsOfJoint size.toNat := by
  refine ⟨?_, ?_, ?_, ?_⟩
  · intro i hi
    simp [Histogram.new, List.getD_eq_getElem?_getD, List.getElem?_replicate, hi]
  · intro j hj
    simp [Histogram.new, List.getD_eq_getElem?_getD, List.getElem?_replicate, hj]
  · show ((0 : Int) : F)
      = ∑ i ∈ Finset.range size.toNat, (i : F) * (List.replicate size.toNat (0 : F)).getD i 0
    rw [Finset.sum_eq_zero]
    · simp
    · intro i _
      rw [List.getD_eq_getElem?_getD, List.getElem?_getD_replicate_default_eq, mul_zero]
  · show ((0 : Int) : F)
      = ∑ j ∈ Finset.range size.toNat, (j : F) * (List.replicate size.toNat (0 : F)).getD j 0
    rw [Finset.sum_eq_zero]
    · simp
    · intro j _
      rw [List.getD_eq_getElem?_getD, List.getElem?_getD_replicate_default_eq, mul_zero]

/-- One pair keeps the marginals matching the joint array. -/
theorem accumulate_marginalsOfJoint [FloorRing F] (ext : Externals F) (b : Int)
    (point : PointXYZI F) (pt : Fin 3 → F) (n : Nat) (h h1 : Histogram F)
    (cam : CameraObservation F) (hn : h.hasSide n) (hm : h.marginalsOfJoint n)
    (hacc : accumulate ext b point pt h cam = .ok h1) : h1.marginalsOfJoint n := by
  rcases accumulate_ok_cases ext b point pt h h1 cam hacc with rfl | ⟨a, r, ha, hr, haj, hrj, rfl⟩
  · exact hm
  · obtain ⟨hrow, hcol, hisum, hrsum⟩ := hm
    obtain ⟨-, -, hil, hrl⟩ := hn
    have han : a < n := hil ▸ ha
    have hrn : r < n := hrl ▸ hr
    refine ⟨?_, ?_, ?_, ?_⟩
    · intro i hi
      show (h.intensity_hist.set a (h.intensity_hist.getD a 0 + 1)).getD i 0
        = ((h.joint_hist.set a ((h.joint_hist.getD a []).set r
            ((h.joint_hist.getD a []).getD r 0 + 1))).getD i []).sum
      by_cases hia : i = a
      · subst hia
        rw [getD_set_self _ _ _ _ ha, getD_set_self _ _ _ _ haj, sum_set_add _ _ _ hrj,
          hrow i hi]
      · rw [getD_set_ne _ _ _ _ _ (Ne.symm hia), getD_set_ne _ _ _ _ _ (Ne.symm hia)]
        exact hrow i hi
    · intro j hj
      show (h.reflectance_hist.set r (h.reflectance_hist.getD r 0 + 1)).getD j 0
        = ((h.joint_hist.set a ((h.joint_hist.getD a []).set r
            ((h.joint_hist.getD a []).getD r 0 + 1))).map (fun row => row.getD j 0)).sum
      have hcell : (h.joint_hist.map (fun row => row.getD j 0)).getD a 0
          = (h.joint_hist.getD a []).getD j 0 :=
        getD_map_of_lt (fun row : List F => row.getD j 0) h.joint_hist a [] 0 haj
      rw [List.map_set]
      by_cases hjr : j = r
      · subst hjr
        rw [getD_set_self _ _ _ _ hr, getD_set_self _ _ _ _ hrj, ← hcell,
          sum_set_add _ _ _ (by simpa using haj), hcol j hj]
      · rw [getD_set_ne _ _ _ _ _ (Ne.symm hjr), getD_set_ne _ _ _ _ _ (Ne.symm hjr), ← hcell,
          set_getD_same]
        exact hcol j hj
    · show ((h.intensity_sum + (a : Int) : Int) : F)
        = ∑ i ∈ Finset.range n, (i : F) * (h.intensity_hist.set a
            (h.intensity_hist.getD a 0 + 1)).getD i 0
      rw [weighted_sum_set_add_one _ _ _ ha han, ← hisum]
      push_cast
      ring
    · show ((h.reflectance_sum + (r : Int) : Int) : F)
        = ∑ j ∈ Finset.range n, (j : F) * (h.reflectance_hist.set r
            (h.reflectance_hist.getD r 0 + 1)).getD j 0
      rw [weighted_sum_set_add_one _ _ _ hr hrn, ← hrsum]
      push_cast
      ring

/-- Every histogram that `computeHistogram` returns has marginals matching its joint
array. -/
theorem computeHistogram_marginalsOfJoint [FloorRing F]
    (self : NumericDiffMutualInformationCost F) (ext : Externals F) (T : Affine3 F)
    (h : Histogram F) (hc : self.computeHistogram ext T = .ok h) :
    h.marginalsOfJoint self.bin_count_.toNat := by
  have key : h.hasSide self.bin_count_.toNat ∧ h.marginalsOfJoint self.bin_count_.toNat := by
    unfold NumericDiffMutualInformationCost.computeHistogram at hc
    refine foldlM_except_invariant
      (fun x => Histogram.hasSide x self.bin_count_.toNat ∧
        Histogram.marginalsOfJoint x self.bin_count_.toNat) _ ?_ _ _ h
      ⟨Histogram.new_hasSide _, Histogram.new_marginalsOfJoint _⟩ hc
    intro hist observation hist1 hhist hstep
    unfold accumulateScan at hstep
    refine foldlM_except_invariant
      (fun x => Histogram.hasSide x self.bin_count_.toNat ∧
        Histogram.marginalsOfJoint x self.bin_count_.toNat) _ ?_ _ hist hist1 hhist hstep
    intro hist2 point hist3 hhist2 hstep2
    refine foldlM_except_invariant
      (fun x => Histogram.hasSide x self.bin_count_.toNat ∧
        Histogram.marginalsOfJoint x self.bin_count_.toNat) _ ?_ _ hist2 hist3 hhist2 hstep2
    intro x cam x1 hx hx1
    exact ⟨accumulate_hasSide ext _ point _ _ x cam x1 hx.1 hx1,
      accumulate_marginalsOfJoint ext _ point _ _ x x1 cam hx.1 hx.2 hx1⟩
  exact key.2

end marginals

end camera_lidar_calibration

end hector_calibration

namespace hector_calibration

namespace CalibrationCloudAggregator

/-- Publishing changes neither the counter, the stored roll nor the aggregators. -/
theorem publishClouds_fields {F : Type} [LinearOrderedField F]
    (self : CalibrationCloudAggregator F) :
    (publishClouds self).captured_clouds_ = self.captured_clouds_ ∧
      (publishClouds self).prior_roll_angle_ = self.prior_roll_angle_ ∧
      (publishClouds self).cloud_agg1_ = self.cloud_agg1_ ∧
      (publishClouds self).cloud_agg2_ = self.cloud_agg2_ ∧
      (publishClouds self).p_target_frame_ = self.p_target_frame_ := by
  unfold publishClouds
  split <;> exact ⟨rfl, rfl, rfl, rfl, rfl⟩

section aggregator_facts

variable {F : Type} [LinearOrderedField F]

/-- The outcomes of `cloudCallback`: the state is left as it is, or the counter is raised
on a crossing, or the cloud is appended to the first aggregator while the counter is 1,
or to the second while it is 2. -/
theorem cloudCallback_cases (tfl : TfOps F) (eig : EigenOps F)
    (self : CalibrationCloudAggregator F) (cloud_in : PointCloud2 F) :
    (cloudCallback tfl eig self cloud_in = self ∧
        (processedRoll tfl self cloud_in = none ∨
          (self.captured_clouds_ = 0 ∧ ¬ rollCrossed self.prior_roll_angle_
            (tfl.lookupRoll self.p_target_frame_ cloud_in.frame_id cloud_in.stamp)))) ∨
      (processedRoll tfl self cloud_in
          = some (tfl.lookupRoll self.p_target_frame_ cloud_in.frame_id cloud_in.stamp) ∧
        self.captured_clouds_ ≤ 2 ∧
        rollCrossed self.prior_roll_angle_
          (tfl.lookupRoll self.p_target_frame_ cloud_in.frame_id cloud_in.stamp) ∧
        (cloudCallback tfl eig self cloud_in).captured_clouds_ = self.captured_clouds_ + 1 ∧
        (cloudCallback tfl eig self cloud_in).prior_roll_angle_
          = tfl.lookupRoll self.p_target_frame_ cloud_in.frame_id cloud_in.stamp ∧
        (cloudCallback tfl eig self cloud_in).cloud_agg1_ = self.cloud_agg1_ ∧
        (cloudCallback tfl eig self cloud_in).cloud_agg2_ = self.cloud_agg2_) ∨
      (processedRoll tfl self cloud_in
          = some (tfl.lookupRoll self.p_target_frame_ cloud_in.frame_id cloud_in.stamp) ∧
        ¬ rollCrossed self.prior_roll_angle_
          (tfl.lookupRoll self.p_target_frame_ cloud_in.frame_id cloud_in.stamp) ∧
        self.captured_clouds_ = 1 ∧
        cloudCallback tfl eig self cloud_in
          = { self with
              cloud_agg1_ := self.cloud_agg1_ ++ [(cloud_in.points,
                tfl.lookupRoll self.p_target_frame_ cloud_in.frame_id cloud_in.stamp)]
              prior_roll_angle_ :=
                tfl.lookupRoll self.p_target_frame_ cloud_in.frame_id cloud_in.stamp }) ∨
      (processedRoll tfl self cloud_in
          = some (tfl.lookupRoll self.p_target_frame_ cloud_in.frame_id cloud_in.stamp) ∧
        ¬ rollCrossed self.prior_roll_angle_
          (tfl.lookupRoll self.p_target_frame_ cloud_in.frame_id cloud_in.stamp) ∧
        self.captured_clouds_ = 2 ∧
        cloudCallback tfl eig self cloud_in
          = { self with
              cloud_agg2_ := self.cloud_agg2_ ++ [(cloud_in.points,
                tfl.lookupRoll self.p_target_frame_ cloud_in.frame_id cloud_in.stamp)]
              prior_roll_angle_ :=
                tfl.lookupRoll self.p_target_frame_ cloud_in.frame_id cloud_in.stamp }) := by
  by_cases hc : self.captured_clouds_ > 2
  · left
    simp only [cloudCallback, processedRoll, if_pos hc, true_or, and_self]
  · by_cases ht : tfl.waitForTransform self.p_target_frame_ cloud_in.frame_id cloud_in.stamp
        = true
    · have hp : processedRoll tfl self cloud_in
          = some (tfl.lookupRoll self.p_target_frame_ cloud_in.frame_id cloud_in.stamp) := by
        simp only [processedRoll, if_neg hc, if_pos ht]
      by_cases hx : rollCrossed self.prior_roll_angle_
          (tfl.lookupRoll self.p_target_frame_ cloud_in.frame_id cloud_in.stamp)
      · right
        left
        refine ⟨hp, by omega, hx, ?_, ?_, ?_, ?_⟩
        · simp only [cloudCallback, if_neg hc, if_pos ht, if_pos hx]
          split
          · exact (publishClouds_fields _).1
          · rfl
        · simp only [cloudCallback, if_neg hc, if_pos ht, if_pos hx]
        · simp only [cloudCallback, if_neg hc, if_pos ht, if_pos hx]
          split
          · exact (publishClouds_fields _).2.2.1
          · rfl
        · simp only [cloudCallback, if_neg hc, if_pos ht, if_pos hx]
          split
          · exact (publishClouds_fields _).2.2.2.1
          · rfl
      · by_cases h0 : self.captured_clouds_ = 0
        · left
          refine ⟨?_, Or.inr ⟨h0, hx⟩⟩
          simp only [cloudCallback, if_neg hc, if_pos ht, if_neg hx, if_pos h0]
        · by_cases h1 : self.captured_clouds_ = 1
          · right
            right
            left
            refine ⟨hp, hx, h1, ?_⟩
            simp only [cloudCallback, if_neg hc, if_pos ht, if_neg hx, if_neg h0, if_pos h1]
          · have h2 : self.captured_clouds_ = 2 := by omega
            right
            right
            right
            refine ⟨hp, hx, h2, ?_⟩
            simp only [cloudCallback, if_neg hc, if_pos ht, if_neg hx, if_neg h0, if_neg h1,
              if_pos h2]
    · left
      simp only [cloudCallback, processedRoll, if_neg hc, if_neg ht, true_or, and_self]

/-- The counter stays at most 3, and while it is 0 both aggregators are empty; every
callback keeps this. -/
theorem dispatch_invariant (tfl : TfOps F) (eig : EigenOps F)
    (self : CalibrationCloudAggregator F) (e : Callback F)
    (h : self.captured_clouds_ ≤ 3 ∧
      (self.captured_clouds_ = 0 → self.cloud_agg1_ = [] ∧ self.cloud_agg2_ = [])) :
    (dispatch tfl eig self e).captured_clouds_ ≤ 3 ∧
      ((dispatch tfl eig self e).captured_clouds_ = 0 →
        (dispatch tfl eig self e).cloud_agg1_ = [] ∧ (dispatch tfl eig self e).cloud_agg2_ = []) := by
  cases e with
  | cloud cloud_in =>
    show (cloudCallback tfl eig self cloud_in).captured_clouds_ ≤ 3 ∧
      ((cloudCallback tfl eig self cloud_in).captured_clouds_ = 0 →
        (cloudCallback tfl eig self cloud_in).cloud_agg1_ = [] ∧
          (cloudCallback tfl eig self cloud_in).cloud_agg2_ = [])
    rcases cloudCallback_cases tfl eig self cloud_in with
      ⟨heq, -⟩ | ⟨-, hle, -, hcap, -, -, -⟩ | ⟨-, -, h1, heq⟩ | ⟨-, -, h2, heq⟩
    · rw [heq]
      exact h
    · rw [hcap]
      exact ⟨by omega, fun h0 => by omega⟩
    · rw [heq]
      exact ⟨by show self.captured_clouds_ ≤ 3; omega,
        fun h0 => by have h0 : self.captured_clouds_ = 0 := h0; omega⟩
    · rw [heq]
      exact ⟨by show self.captured_clouds_ ≤ 3; omega,
        fun h0 => by have h0 : self.captured_clouds_ = 0 := h0; omega⟩
  | reset => exact ⟨Nat.zero_le _, fun _ => ⟨rfl, rfl⟩⟩
  | timer =>
    obtain ⟨hc, -, h1, h2, -⟩ := publishClouds_fields self
    show (publishClouds self).captured_clouds_ ≤ 3 ∧
      ((publishClouds self).captured_clouds_ = 0 →
        (publishClouds self).cloud_agg1_ = [] ∧ (publishClouds self).cloud_agg2_ = [])
    rw [hc, h1, h2]
    exact h

/-- Every state reached from the constructor has a counter of at most 3 and, while the
counter is 0, empty aggregators. -/
theorem run_invariant (tfl : TfOps F) (eig : EigenOps F) (events : List (Callback F)) :
    ∀ self : CalibrationCloudAggregator F,
      (self.captured_clouds_ ≤ 3 ∧
        (self.captured_clouds_ = 0 → self.cloud_agg1_ = [] ∧ self.cloud_agg2_ = [])) →
      (run tfl eig self events).captured_clouds_ ≤ 3 ∧
        ((run tfl eig self events).captured_clouds_ = 0 →
          (run tfl eig self events).cloud_agg1_ = [] ∧
            (run tfl eig self events).cloud_agg2_ = []) := by
  induction events with
  | nil => exact fun self h => h
  | cons e rest ih =>
    intro self h
    exact ih (dispatch tfl eig self e) (dispatch_invariant tfl eig self e h)

/-- With the counter at 3, callbacks other than a reset keep the counter, the stored roll
and both aggregators. -/
theorem run_at_three (tfl : TfOps F) (eig : EigenOps F) (further : List (Callback F))
    (hno : ∀ e ∈ further, Callback.isReset e = false) :
    ∀ self : CalibrationCloudAggregator F, self.captured_clouds_ = 3 →
      (run tfl eig self further).cloud_agg1_ = self.cloud_agg1_ ∧
        (run tfl eig self further).cloud_agg2_ = self.cloud_agg2_ ∧
        (run tfl eig self further).captured_clouds_ = 3 ∧
        (run tfl eig self further).prior_roll_angle_ = self.prior_roll_angle_ := by
  induction further with
  | nil => exact fun self h => ⟨rfl, rfl, h, rfl⟩
  | cons e rest ih =>
    intro self h
    have hrest : ∀ e1 ∈ rest, Callback.isReset e1 = false :=
      fun e1 he1 => hno e1 (List.mem_cons_of_mem _ he1)
    have hstep : (dispatch tfl eig self e).cloud_agg1_ = self.cloud_agg1_ ∧
        (dispatch tfl eig self e).cloud_agg2_ = self.cloud_agg2_ ∧
        (dispatch tfl eig self e).captured_clouds_ = 3 ∧
        (dispatch tfl eig self e).prior_roll_angle_ = self.prior_roll_angle_ := by
      cases e with
      | cloud cloud_in =>
        have heq : dispatch tfl eig self (Callback.cloud cloud_in) = self := by
          simp only [dispatch, cloudCallback, if_pos (show self.captured_clouds_ > 2 by omega)]
        rw [heq]
        exact ⟨rfl, rfl, h, rfl⟩
      | reset =>
        have := hno Callback.reset (List.mem_cons_self _ _)
        simp [Callback.isReset] at this
      | timer =>
        obtain ⟨hc, hp, h1, h2, -⟩ := publishClouds_fields self
        exact ⟨h1, h2, hc.trans h, hp⟩
    obtain ⟨h1, h2, h3, h4⟩ := ih hrest (dispatch tfl eig self e) hstep.2.2.1
    have hrun : run tfl eig self (e :: rest) = run tfl eig (dispatch tfl eig self e) rest := rfl
    rw [hrun, h1, h2, h4]
    exact ⟨hstep.1, hstep.2.1, h3, hstep.2.2.2⟩

/-- C22: in every state that the aggregator reaches from its constructor, the counter
`captured_clouds_` is at most 3. Once it is 3, every `cloudCallback` leaves the state as
it is, so the two aggregators, the counter and the stored roll stay unchanged over any
further callbacks other than a reset, and `resetClouds` puts the counter and the stored
roll back to 0 and empties the aggregators. A `cloudCallback` changes `cloud_agg1_` only
by appending the cloud with its roll while the counter is and stays 1, and `cloud_agg2_`
only in the same way while the counter is and stays 2; while the counter is 0 both
aggregators are empty, so the clouds of the first half scan are dropped. -/
theorem aggregator_counter_and_appends (tfl : TfOps F) (eig : EigenOps F)
    (self : CalibrationCloudAggregator F) (hs : Reachable tfl eig self) :
    self.captured_clouds_ ≤ 3 ∧
      (self.captured_clouds_ = 3 →
        (∀ cloud_in, cloudCallback tfl eig self cloud_in = self) ∧
        (∀ further : List (Callback F), (∀ e ∈ further, Callback.isReset e = false) →
          (run tfl eig self further).cloud_agg1_ = self.cloud_agg1_ ∧
            (run tfl eig self further).cloud_agg2_ = self.cloud_agg2_ ∧
            (run tfl eig self further).captured_clouds_ = 3 ∧
            (run tfl eig self further).prior_roll_angle_ = self.prior_roll_angle_)) ∧
      ((resetClouds self).captured_clouds_ = 0 ∧ (resetClouds self).prior_roll_angle_ = 0 ∧
        (resetClouds self).cloud_agg1_ = [] ∧ (resetClouds self).cloud_agg2_ = []) ∧
      (∀ cloud_in,
        (cloudCallback tfl eig self cloud_in).cloud_agg1_ = self.cloud_agg1_ ∨
          (self.captured_clouds_ = 1 ∧
            (cloudCallback tfl eig self cloud_in).captured_clouds_ = 1 ∧
            (cloudCallback tfl eig self cloud_in).cloud_agg1_
              = self.cloud_agg1_ ++ [(cloud_in.points,
                  tfl.lookupRoll self.p_target_frame_ cloud_in.frame_id cloud_in.stamp)])) ∧
      (∀ cloud_in,
        (cloudCallback tfl eig self cloud_in).cloud_agg2_ = self.cloud_agg2_ ∨
          (self.captured_clouds_ = 2 ∧
            (cloudCallback tfl eig self cloud_in).captured_clouds_ = 2 ∧
            (cloudCallback tfl eig self cloud_in).cloud_agg2_
              = self.cloud_agg2_ ++ [(cloud_in.points,
                  tfl.lookupRoll self.p_target_frame_ cloud_in.frame_id cloud_in.stamp)])) ∧
      (self.captured_clouds_ = 0 →
        self.cloud_agg1_ = [] ∧ self.cloud_agg2_ = [] ∧
        ∀ cloud_in, (cloudCallback tfl eig self cloud_in).cloud_agg1_ = [] ∧
          (cloudCallback tfl eig self cloud_in).cloud_agg2_ = []) := by
  obtain ⟨target_frame, events, rfl⟩ := hs
  obtain ⟨hle, hempty⟩ := run_invariant tfl eig events (new target_frame)
    ⟨Nat.zero_le _, fun _ => ⟨rfl, rfl⟩⟩
  refine ⟨hle, ?_, ⟨rfl, rfl, rfl, rfl⟩, ?_, ?_, ?_⟩
  · intro h3
    refine ⟨?_, fun further hno => run_at_three tfl eig further hno _ h3⟩
    intro cloud_in
    simp only [cloudCallback, if_pos (show (run tfl eig (new target_frame) events).captured_clouds_
      > 2 by omega)]
  · intro cloud_in
    rcases cloudCallback_cases tfl eig (run tfl eig (new target_frame) events) cloud_in with
      ⟨heq, -⟩ | ⟨-, -, -, -, -, h1, -⟩ | ⟨-, -, h1, heq⟩ | ⟨-, -, h2, heq⟩
    · exact Or.inl (by rw [heq])
    · exact Or.inl h1
    · exact Or.inr ⟨h1, by rw [heq]; exact h1, by rw [heq]⟩
    · exact Or.inl (by rw [heq])
  · intro cloud_in
    rcases cloudCallback_cases tfl eig (run tfl eig (new target_frame) events) cloud_in with
      ⟨heq, -⟩ | ⟨-, -, -, -, -, -, h2⟩ | ⟨-, -, h1, heq⟩ | ⟨-, -, h2, heq⟩
    · exact Or.inl (by rw [heq])
    · exact Or.inl h2
    · exact Or.inl (by rw [heq])
    · exact Or.inr ⟨h2, by rw [heq]; exact h2, by rw [heq]⟩
  · intro h0
    obtain ⟨he1, he2⟩ := hempty h0
    refine ⟨he1, he2, ?_⟩
    intro cloud_in
    rcases cloudCallback_cases tfl eig (run tfl eig (new target_frame) events) cloud_in with
      ⟨heq, -⟩ | ⟨-, -, -, -, -, h1, h2⟩ | ⟨-, -, h1, -⟩ | ⟨-, -, h2, -⟩
    · rw [heq]
      exact ⟨he1, he2⟩
    · rw [h1, h2]
      exact ⟨he1, he2⟩
    · omega
    · omega

end aggregator_facts

end CalibrationCloudAggregator

end hector_calibration

namespace hector_calibration

namespace CalibrationCloudAggregator

/-- The threshold `M_PI * 0.5` over `ℚ` lies between 1 and 2. -/
theorem half_pi_bounds : (1 : ℚ) < M_PI * 0.5 ∧ (M_PI * 0.5 : ℚ) < 2 := by
  unfold M_PI
  constructor <;> norm_num

/-- The five sample clouds bring the counter to 3: the first, the third and the fifth
cross a threshold, the second and the fourth are appended. -/
theorem run_sampleEvents :
    (run (sampleTf sampleRolls) sampleEigen (new none) sampleEvents).captured_clouds_ = 3 ∧
    (run (sampleTf sampleRolls) sampleEigen (new none) sampleEvents).cloud_agg1_
      = [([{ x := 1, y := 0, z := 0 }], -2)] ∧
    (run (sampleTf sampleRolls) sampleEigen (new none) sampleEvents).cloud_agg2_
      = [([{ x := 1, y := 0, z := 0 }], 0)] ∧
    (run (sampleTf sampleRolls) sampleEigen (new none) sampleEvents).prior_roll_angle_ = 2 := by
  obtain ⟨hlo, hhi⟩ := half_pi_bounds
  have hx0 : rollCrossed (0 : ℚ) 2 := Or.inr ⟨by linarith, hhi⟩
  have hx1 : ¬ rollCrossed (2 : ℚ) (-2) := by
    unfold rollCrossed
    rintro (⟨h, -⟩ | ⟨h, -⟩) <;> linarith
  have hx2 : rollCrossed (-2 : ℚ) (-1) := Or.inl ⟨by linarith, by linarith⟩
  have hx3 : ¬ rollCrossed (-1 : ℚ) 0 := by
    unfold rollCrossed
    rintro (⟨h, -⟩ | ⟨-, h⟩) <;> linarith
  simp [run, sampleEvents, dispatch, cloudCallback, sampleTf, sampleRolls, sampleCloud, new,
    publishClouds, hx0, hx1, hx2, hx3]

/-- C22 on the five sample clouds: the state they lead to is reachable, its counter is 3,
and every further cloud leaves it as it is. -/
theorem aggregator_counter_and_appends_witness :
    Reachable (sampleTf sampleRolls) sampleEigen
        (run (sampleTf sampleRolls) sampleEigen (new none) sampleEvents) ∧
      (run (sampleTf sampleRolls) sampleEigen (new none) sampleEvents).captured_clouds_ = 3 ∧
      ∀ cloud_in,
        cloudCallback (sampleTf sampleRolls) sampleEigen
            (run (sampleTf sampleRolls) sampleEigen (new none) sampleEvents) cloud_in
          = run (sampleTf sampleRolls) sampleEigen (new none) sampleEvents :=
  ⟨⟨none, sampleEvents, rfl⟩, run_sampleEvents.1,
    ((aggregator_counter_and_appends _ _ _ ⟨none, sampleEvents, rfl⟩).2.1
      run_sampleEvents.1).1⟩

end CalibrationCloudAggregator

end hector_calibration

namespace hector_calibration

namespace CalibrationCloudAggregator

section crossing

variable {F : Type} [LinearOrderedField F]

/-- The state of a tracked run is the state of the run. -/
theorem runTracked_fst (tfl : TfOps F) (eig : EigenOps F) (events : List (Callback F)) :
    ∀ p : CalibrationCloudAggregator F × Option F,
      (events.foldl (track tfl eig) p).1 = run tfl eig p.1 events := by
  induction events with
  | nil => exact fun p => rfl
  | cons e rest ih => exact fun p => ih (track tfl eig p e)

/-- Once the counter is at least 1 the stored roll is the roll of the cloud processed
last, and while no cloud was processed the stored roll is 0; every callback keeps
this. -/
theorem track_invariant (tfl : TfOps F) (eig : EigenOps F)
    (p : CalibrationCloudAggregator F × Option F) (e : Callback F)
    (h : (1 ≤ p.1.captured_clouds_ → p.2 = some p.1.prior_roll_angle_) ∧
      (p.2 = none → p.1.prior_roll_angle_ = 0)) :
    (1 ≤ (track tfl eig p e).1.captured_clouds_ →
        (track tfl eig p e).2 = some (track tfl eig p e).1.prior_roll_angle_) ∧
      ((track tfl eig p e).2 = none → (track tfl eig p e).1.prior_roll_angle_ = 0) := by
  obtain ⟨self, last⟩ := p
  cases e with
  | cloud cloud_in =>
    show (1 ≤ (cloudCallback tfl eig self cloud_in).captured_clouds_ →
        (match processedRoll tfl self cloud_in with
          | some roll => some roll
          | none => last) = some (cloudCallback tfl eig self cloud_in).prior_roll_angle_) ∧
      ((match processedRoll tfl self cloud_in with
          | some roll => some roll
          | none => last) = none → (cloudCallback tfl eig self cloud_in).prior_roll_angle_ = 0)
    rcases cloudCallback_cases tfl eig self cloud_in with
      ⟨heq, hp | ⟨h0, -⟩⟩ | ⟨hp, -, -, -, hprior, -, -⟩ | ⟨hp, -, -, heq⟩ | ⟨hp, -, -, heq⟩
    · rw [heq, hp]
      exact h
    · rw [heq]
      refine ⟨fun h1 => by omega, ?_⟩
      cases hpr : processedRoll tfl self cloud_in with
      | none => exact fun hl => h.2 hl
      | some roll => exact fun hl => by cases hl
    · rw [hp, hprior]
      exact ⟨fun _ => rfl, fun hl => by cases hl⟩
    · rw [hp, heq]
      exact ⟨fun _ => rfl, fun hl => by cases hl⟩
    · rw [hp, heq]
      exact ⟨fun _ => rfl, fun hl => by cases hl⟩
  | reset =>
    exact ⟨fun h1 => by have h1 : 1 ≤ 0 := h1; omega, fun _ => rfl⟩
  | timer =>
    obtain ⟨hc, hp, -, -, -⟩ := publishClouds_fields self
    show (1 ≤ (publishClouds self).captured_clouds_ →
        last = some (publishClouds self).prior_roll_angle_) ∧
      (last = none → (publishClouds self).prior_roll_angle_ = 0)
    rw [hc, hp]
    exact h

/-- The relation between the stored roll and the cloud processed last holds after every
sequence of callbacks from the constructor. -/
theorem runTracked_invariant (tfl : TfOps F) (eig : EigenOps F)
    (events : List (Callback F)) :
    ∀ p : CalibrationCloudAggregator F × Option F,
      ((1 ≤ p.1.captured_clouds_ → p.2 = some p.1.prior_roll_angle_) ∧
        (p.2 = none → p.1.prior_roll_angle_ = 0)) →
      (1 ≤ (events.foldl (track tfl eig) p).1.captured_clouds_ →
          (events.foldl (track tfl eig) p).2
            = some (events.foldl (track tfl eig) p).1.prior_roll_angle_) ∧
        ((events.foldl (track tfl eig) p).2 = none →
          (events.foldl (track tfl eig) p).1.prior_roll_angle_ = 0) := by
  induction events with
  | nil => exact fun p h => h
  | cons e rest ih => exact fun p h => ih (track tfl eig p e) (track_invariant tfl eig p e h)

/-- C23, amended: when a `cloudCallback` in a state reached from the constructor changes
`captured_clouds_`, it raises it by one from at most 2, the transform was available, and
the stored `prior_roll_angle_` is below `-M_PI * 0.5` or `M_PI * 0.5` while the roll of
the current cloud is above that same threshold. In a state whose counter is at least 1
the stored roll is the roll of the cloud processed last, so there the counter marks an
upward crossing between two clouds processed one after the other; in a state in which
no cloud was processed since the constructor or the last reset the stored roll is 0. -/
theorem increment_compares_stored_roll (tfl : TfOps F) (eig : EigenOps F)
    (target_frame : Option String) (events : List (Callback F))
    (self : CalibrationCloudAggregator F) (last : Option F) (cloud_in : PointCloud2 F)
    (hs : runTracked tfl eig (new target_frame) events = (self, last))
    (hinc : (cloudCallback tfl eig self cloud_in).captured_clouds_ ≠ self.captured_clouds_) :
    self = run tfl eig (new target_frame) events ∧
      (cloudCallback tfl eig self cloud_in).captured_clouds_ = self.captured_clouds_ + 1 ∧
      self.captured_clouds_ ≤ 2 ∧
      processedRoll tfl self cloud_in
        = some (tfl.lookupRoll self.p_target_frame_ cloud_in.frame_id cloud_in.stamp) ∧
      ((self.prior_roll_angle_ < -M_PI * 0.5 ∧
          tfl.lookupRoll self.p_target_frame_ cloud_in.frame_id cloud_in.stamp
            > -M_PI * 0.5) ∨
        (self.prior_roll_angle_ < M_PI * 0.5 ∧
          tfl.lookupRoll self.p_target_frame_ cloud_in.frame_id cloud_in.stamp
            > M_PI * 0.5)) ∧
      (1 ≤ self.captured_clouds_ → last = some self.prior_roll_angle_) ∧
      (last = none → self.prior_roll_angle_ = 0) := by
  have hrun := runTracked_fst tfl eig events (new target_frame, none)
  have hinv := runTracked_invariant tfl eig events (new target_frame, none)
    ⟨fun h1 => by have h1 : 1 ≤ 0 := h1; omega, fun _ => rfl⟩
  unfold runTracked at hs
  rw [hs] at hrun hinv
  rcases cloudCallback_cases tfl eig self cloud_in with
    ⟨heq, -⟩ | ⟨hp, hle, hx, hcap, -, -, -⟩ | ⟨-, -, -, heq⟩ | ⟨-, -, -, heq⟩
  · exact absurd (by rw [heq]) hinc
  · exact ⟨hrun, hcap, hle, hp, hx, hinv.1, hinv.2⟩
  · exact absurd (by rw [heq]) hinc
  · exact absurd (by rw [heq]) hinc

end crossing

/-- The state after the first two sample clouds: the first raised the counter to 1, the
second was appended with its roll `-2`, which is also the roll processed last. -/
theorem runTracked_two_samples :
    runTracked (sampleTf sampleRolls) sampleEigen (new none)
        [.cloud (sampleCloud 0), .cloud (sampleCloud 1)]
      = ({ p_target_frame_ := "base_link", prior_roll_angle_ := -2, captured_clouds_ := 1,
           cloud_agg1_ := [([{ x := 1, y := 0, z := 0 }], -2)], cloud_agg2_ := [],
           cloud1_ := [], cloud2_ := [], request_scans_srv_ := false,
           point_cloud1_pub_ := [], point_cloud2_pub_ := [] }, some (-2)) := by
  obtain ⟨hlo, hhi⟩ := half_pi_bounds
  have hx0 : rollCrossed (0 : ℚ) 2 := Or.inr ⟨by linarith, hhi⟩
  have hx1 : ¬ rollCrossed (2 : ℚ) (-2) := by
    unfold rollCrossed
    rintro (⟨h, -⟩ | ⟨h, -⟩) <;> linarith
  simp [runTracked, track, processedRoll, dispatch, cloudCallback, sampleTf, sampleRolls,
    sampleCloud, new, hx0, hx1]

/-- The third sample cloud, with roll `-1` after `-2`, raises the counter from 1 to 2. -/
theorem third_sample_marks :
    (cloudCallback (sampleTf sampleRolls) sampleEigen
      { p_target_frame_ := "base_link", prior_roll_angle_ := -2, captured_clouds_ := 1,
        cloud_agg1_ := [([{ x := 1, y := 0, z := 0 }], -2)], cloud_agg2_ := [],
        cloud1_ := [], cloud2_ := [], request_scans_srv_ := false,
        point_cloud1_pub_ := [], point_cloud2_pub_ := [] } (sampleCloud 2)).captured_clouds_
      = 2 := by
  obtain ⟨hlo, hhi⟩ := half_pi_bounds
  have hx2 : rollCrossed (-2 : ℚ) (-1) := Or.inl ⟨by linarith, by linarith⟩
  simp [cloudCallback, sampleTf, sampleRolls, sampleCloud, hx2]

/-- C23, amended, on the third sample cloud: it raises the counter from 1 to 2, the roll
`-2` of the cloud processed before it is the stored roll, and the roll went from below
`-M_PI * 0.5` to above it. -/
theorem increment_compares_stored_roll_witness :
    runTracked (sampleTf sampleRolls) sampleEigen (new none)
        [.cloud (sampleCloud 0), .cloud (sampleCloud 1)]
      = ({ p_target_frame_ := "base_link", prior_roll_angle_ := -2, captured_clouds_ := 1,
           cloud_agg1_ := [([{ x := 1, y := 0, z := 0 }], -2)], cloud_agg2_ := [],
           cloud1_ := [], cloud2_ := [], request_scans_srv_ := false,
           point_cloud1_pub_ := [], point_cloud2_pub_ := [] }, some (-2)) ∧
      (cloudCallback (sampleTf sampleRolls) sampleEigen
        { p_target_frame_ := "base_link", prior_roll_angle_ := -2, captured_clouds_ := 1,
          cloud_agg1_ := [([{ x := 1, y := 0, z := 0 }], -2)], cloud_agg2_ := [],
          cloud1_ := [], cloud2_ := [], request_scans_srv_ := false,
          point_cloud1_pub_ := [], point_cloud2_pub_ := [] } (sampleCloud 2)).captured_clouds_
        = 1 + 1 ∧
      (((-2 : ℚ) < -M_PI * 0.5 ∧ sampleRolls.getD 2 0 > -M_PI * 0.5) ∨
        ((-2 : ℚ) < M_PI * 0.5 ∧ sampleRolls.getD 2 0 > M_PI * 0.5)) ∧
      ((1 : Nat) ≤ 1 → some (-2 : ℚ) = some (-2)) := by
  have h := increment_compares_stored_roll (sampleTf sampleRolls) sampleEigen none
    [.cloud (sampleCloud 0), .cloud (sampleCloud 1)] _ _ (sampleCloud 2)
    runTracked_two_samples (by rw [third_sample_marks]; decide)
  exact ⟨runTracked_two_samples, h.2.1, h.2.2.2.2.1, h.2.2.2.2.2.1⟩

/-- C23 as stated fails in two ways. From the constructor, before any cloud was
processed, a first cloud with roll 2 raises the counter from 0 to 1. And after a first
cloud with roll exactly `M_PI * 0.5`, which is processed and below neither threshold, a
second cloud with roll 2 raises the counter from 0 to 1. -/
theorem half_scan_marked_without_crossing :
    runTracked (sampleTf [2]) sampleEigen (new none) [] = (new none, none) ∧
      (new none : CalibrationCloudAggregator ℚ).captured_clouds_ = 0 ∧
      (cloudCallback (sampleTf [2]) sampleEigen (new none) (sampleCloud 0)).captured_clouds_
        = 1 ∧
      runTracked (sampleTf [M_PI * 0.5, 2]) sampleEigen (new none) [.cloud (sampleCloud 0)]
        = (new none, some (M_PI * 0.5)) ∧
      ¬ ((M_PI * 0.5 : ℚ) < M_PI * 0.5) ∧ ¬ ((M_PI * 0.5 : ℚ) < -M_PI * 0.5) ∧
      (cloudCallback (sampleTf [M_PI * 0.5, 2]) sampleEigen (new none)
        (sampleCloud 1)).captured_clouds_ = 1 := by
  obtain ⟨hlo, hhi⟩ := half_pi_bounds
  have hx0 : rollCrossed (0 : ℚ) 2 := Or.inr ⟨by linarith, hhi⟩
  have hxe : ¬ rollCrossed (0 : ℚ) (M_PI * 0.5) := by
    unfold rollCrossed
    rintro (⟨h, -⟩ | ⟨-, h⟩)
    · linarith
    · exact lt_irrefl _ h
  refine ⟨rfl, rfl, ?_, ?_, lt_irrefl _, by linarith, ?_⟩
  · simp [cloudCallback, sampleTf, sampleCloud, new, hx0]
  · simp [runTracked, track, processedRoll, dispatch, cloudCallback, sampleTf, sampleCloud,
      new, hxe]
  · simp [cloudCallback, sampleTf, sampleCloud, new, hx0]

end CalibrationCloudAggregator

end hector_calibration

namespace hector_calibration

section rounding_facts

variable {F : Type} [LinearOrderedField F] [FloorRing F]

/-- An integer is its own rounding. -/
theorem roundHalfEven_intCast (k : Int) : roundHalfEven (k : F) = k := by
  unfold roundHalfEven
  rw [Int.floor_intCast]
  simp

/-- A number within less than one half of an integer rounds to it. -/
theorem roundHalfEven_of_near (x : F) (k : Int) (h1 : (k : F) - 1 / 2 < x)
    (h2 : x < (k : F) + 1 / 2) : roundHalfEven x = k := by
  unfold roundHalfEven
  by_cases hk : (k : F) ≤ x
  · have hf : Int.floor x = k := by
      rw [Int.floor_eq_iff]
      exact ⟨hk, by linarith⟩
    rw [hf, if_pos (by linarith)]
  · have hf : Int.floor x = k - 1 := by
      rw [Int.floor_eq_iff]
      push_cast
      exact ⟨by linarith, by linarith [not_le.mp hk]⟩
    rw [hf]
    push_cast
    rw [if_neg (by linarith), if_pos (by linarith)]
    omega

/-- A tie above an even integer rounds down to it. -/
theorem roundHalfEven_tie_even (k : Int) (hk : k % 2 = 0) :
    roundHalfEven ((k : F) + 1 / 2) = k := by
  unfold roundHalfEven
  have hf : Int.floor ((k : F) + 1 / 2) = k := by
    rw [Int.floor_eq_iff]
    exact ⟨by linarith, by linarith⟩
  rw [hf, if_neg (by simp), if_neg (by simp), if_pos hk]

/-- Rounding moves a number by at most one half. -/
theorem abs_roundHalfEven_sub_le (x : F) : |(roundHalfEven x : F) - x| ≤ 1 / 2 := by
  have h1 := Int.floor_le x
  have h2 := Int.lt_floor_add_one x
  unfold roundHalfEven
  rw [abs_le]
  split_ifs with ha hb hc
  · constructor <;> linarith
  · push_cast
    constructor <;> linarith
  · constructor <;> linarith
  · push_cast
    constructor <;> linarith

/-- Rounding a non-negative number gives a non-negative integer. -/
theorem roundHalfEven_nonneg (x : F) (h : 0 ≤ x) : 0 ≤ roundHalfEven x := by
  have hf : 0 ≤ Int.floor x := Int.floor_nonneg.mpr h
  unfold roundHalfEven
  split_ifs <;> omega

/-- The binary exponent of a positive number is fixed by the two powers that enclose
it. -/
theorem log2_eq (x : F) (e : Int) (h1 : (2 : F) ^ e ≤ x) (h2 : x < (2 : F) ^ (e + 1)) :
    Int.log 2 x = e := by
  have hx : 0 < x := lt_of_lt_of_le (zpow_pos (by norm_num) e) h1
  have ha : e ≤ Int.log 2 x := by
    rw [← Int.zpow_le_iff_le_log (by norm_num) hx]
    simpa using h1
  have hb : Int.log 2 x < e + 1 := by
    rw [← Int.lt_zpow_iff_log_lt (by norm_num) hx]
    simpa using h2
  omega

/-- A positive number lies between the power of two of its binary exponent and the
next one. -/
theorem log2_bounds (x : F) (hx : 0 < x) :
    (2 : F) ^ Int.log 2 x ≤ x ∧ x < (2 : F) ^ (Int.log 2 x + 1) := by
  have h1 := Int.zpow_log_le_self (b := 2) (by norm_num) hx
  have h2 := Int.lt_zpow_succ_log_self (b := 2) (by norm_num) x
  exact ⟨by simpa using h1, by simpa using h2⟩

/-- Rounding to the nearest integer does not go below the integer part. -/
theorem floor_le_roundHalfEven (x : F) : Int.floor x ≤ roundHalfEven x := by
  unfold roundHalfEven
  split_ifs <;> omega

/-- The exponent of the spacing for a number in the normal range. -/
theorem max_log2_of_le (emin : Int) (x : F) (hx : (2 : F) ^ emin ≤ x) :
    max (Int.log 2 x) emin = Int.log 2 x := by
  have hpos : 0 < x := lt_of_lt_of_le (zpow_pos (by norm_num) emin) hx
  apply max_eq_left
  rw [← Int.zpow_le_iff_le_log (by norm_num) hpos]
  simpa using hx

/-- The exponent of the spacing for a positive number below the normal range. -/
theorem max_log2_of_lt (emin : Int) (x : F) (hpos : 0 < x) (hx : x < (2 : F) ^ emin) :
    max (Int.log 2 x) emin = emin := by
  apply max_eq_right
  have h : Int.log 2 x < emin := by
    rw [← Int.lt_zpow_iff_log_lt (by norm_num) hpos]
    simpa using hx
  omega

/-- The rounding of a positive number in the normal range from its binary exponent and
the rounding of its scaled significand. -/
theorem roundPositive_eq (p : Nat) (emin : Int) (x : F) (e k : Int) (h1 : (2 : F) ^ e ≤ x)
    (h2 : x < (2 : F) ^ (e + 1)) (he : emin ≤ e)
    (hk : roundHalfEven (x / 2 ^ (e - (p : Int) + 1)) = k) :
    roundPositive p emin x = (k : F) * 2 ^ (e - (p : Int) + 1) := by
  unfold roundPositive
  rw [log2_eq x e h1 h2, max_eq_left he, hk]

/-- Rounding a number of the normal range to `p` bits moves it by at most `2 ^ (-p)`
times the number. -/
theorem roundPositive_error (p : Nat) (emin : Int) (x : F) (hx : (2 : F) ^ emin ≤ x) :
    |roundPositive p emin x - x| ≤ 2 ^ (-(p : Int)) * x := by
  have hpos : 0 < x := lt_of_lt_of_le (zpow_pos (by norm_num) emin) hx
  obtain ⟨h1, -⟩ := log2_bounds x hpos
  have hs : (0 : F) < 2 ^ (Int.log 2 x - (p : Int) + 1) := zpow_pos (by norm_num) _
  have hr := abs_roundHalfEven_sub_le (x / 2 ^ (Int.log 2 x - (p : Int) + 1))
  have hmul : |roundPositive p emin x - x|
      = |(roundHalfEven (x / 2 ^ (Int.log 2 x - (p : Int) + 1)) : F)
          - x / 2 ^ (Int.log 2 x - (p : Int) + 1)| * 2 ^ (Int.log 2 x - (p : Int) + 1) := by
    rw [← abs_of_pos hs, ← abs_mul, abs_of_pos hs, sub_mul, div_mul_cancel₀ _ (ne_of_gt hs)]
    unfold roundPositive
    rw [max_log2_of_le emin x hx]
  rw [hmul]
  have hhalf : (1 / 2 : F) * 2 ^ (Int.log 2 x - (p : Int) + 1)
      = 2 ^ (-(p : Int)) * 2 ^ Int.log 2 x := by
    rw [← zpow_add₀ (by norm_num : (2 : F) ≠ 0),
      show Int.log 2 x - (p : Int) + 1 = (-(p : Int) + Int.log 2 x) + 1 by ring,
      zpow_add_one₀ (by norm_num : (2 : F) ≠ 0)]
    ring
  calc _ ≤ (1 / 2 : F) * 2 ^ (Int.log 2 x - (p : Int) + 1) :=
        mul_le_mul_of_nonneg_right hr (le_of_lt hs)
    _ = 2 ^ (-(p : Int)) * 2 ^ Int.log 2 x := hhalf
    _ ≤ 2 ^ (-(p : Int)) * x :=
        mul_le_mul_of_nonneg_left h1 (le_of_lt (zpow_pos (by norm_num) _))

/-- Rounding a positive number gives a non-negative number. -/
theorem roundPositive_nonneg (p : Nat) (emin : Int) (x : F) (hx : 0 < x) :
    0 ≤ roundPositive p emin x := by
  unfold roundPositive
  have hs : (0 : F) < 2 ^ (max (Int.log 2 x) emin - (p : Int) + 1) := zpow_pos (by norm_num) _
  have hq : 0 ≤ x / 2 ^ (max (Int.log 2 x) emin - (p : Int) + 1) := le_of_lt (div_pos hx hs)
  have := roundHalfEven_nonneg _ hq
  exact mul_nonneg (by exact_mod_cast this) (le_of_lt hs)

/-- Rounding does not go below a power of two of the normal range that the number
reaches. -/
theorem pow_le_roundPositive (p : Nat) (emin : Int) (x : F) (k : Int) (hp : 1 ≤ p)
    (hk : emin ≤ k) (h : (2 : F) ^ k ≤ x) : (2 : F) ^ k ≤ roundPositive p emin x := by
  have hpos : 0 < x := lt_of_lt_of_le (zpow_pos (by norm_num) k) h
  obtain ⟨h1, -⟩ := log2_bounds x hpos
  have hke : k ≤ Int.log 2 x := by
    rw [← Int.zpow_le_iff_le_log (by norm_num) hpos]
    simpa using h
  have hmax : max (Int.log 2 x) emin = Int.log 2 x := max_eq_left (by omega)
  unfold roundPositive
  rw [hmax]
  have hs : (0 : F) < 2 ^ (Int.log 2 x - (p : Int) + 1) := zpow_pos (by norm_num) _
  obtain ⟨t, ht⟩ := Int.eq_ofNat_of_zero_le (show 0 ≤ (p : Int) - 1 by omega)
  have hq : (((2 ^ t : Nat) : Int) : F) ≤ x / 2 ^ (Int.log 2 x - (p : Int) + 1) := by
    rw [le_div_iff₀ hs]
    push_cast
    rw [← zpow_natCast (2 : F) t, ← ht, ← zpow_add₀ (by norm_num : (2 : F) ≠ 0)]
    rw [show (p : Int) - 1 + (Int.log 2 x - (p : Int) + 1) = Int.log 2 x by ring]
    exact h1
  have hfl : ((2 ^ t : Nat) : Int) ≤ Int.floor (x / 2 ^ (Int.log 2 x - (p : Int) + 1)) :=
    Int.le_floor.mpr hq
  have hr := floor_le_roundHalfEven (x / 2 ^ (Int.log 2 x - (p : Int) + 1))
  have hcast : (((2 ^ t : Nat) : Int) : F)
      ≤ (roundHalfEven (x / 2 ^ (Int.log 2 x - (p : Int) + 1)) : F) := by
    exact_mod_cast le_trans hfl hr
  calc (2 : F) ^ k ≤ 2 ^ Int.log 2 x := zpow_le_zpow_right₀ (by norm_num) hke
    _ = (((2 ^ t : Nat) : Int) : F) * 2 ^ (Int.log 2 x - (p : Int) + 1) := by
        push_cast
        rw [← zpow_natCast (2 : F) t, ← ht, ← zpow_add₀ (by norm_num : (2 : F) ≠ 0)]
        congr 1
        ring
    _ ≤ _ := mul_le_mul_of_nonneg_right hcast (le_of_lt hs)

/-- A rounded positive number is a whole multiple of the spacing of the subnormal
numbers. -/
theorem roundPositive_multiple (p : Nat) (emin : Int) (x : F) :
    ∃ m : Int, roundPositive p emin x = (m : F) * 2 ^ (emin - (p : Int) + 1) := by
  obtain ⟨t, ht⟩ := Int.eq_ofNat_of_zero_le
    (show 0 ≤ max (Int.log 2 x) emin - emin by have := le_max_right (Int.log 2 x) emin; omega)
  refine ⟨roundHalfEven (x / 2 ^ (max (Int.log 2 x) emin - (p : Int) + 1)) * 2 ^ t, ?_⟩
  unfold roundPositive
  push_cast
  rw [mul_assoc, ← zpow_natCast (2 : F) t, ← ht, ← zpow_add₀ (by norm_num : (2 : F) ≠ 0)]
  congr 2
  ring

/-- Rounding commutes with the change of sign. -/
theorem roundBinary_neg (p : Nat) (emin : Int) (x : F) :
    roundBinary p emin (-x) = -roundBinary p emin x := by
  unfold roundBinary
  rcases lt_trichotomy x 0 with h | h | h
  · rw [if_neg (by linarith [neg_pos.mpr h] : ¬ -x = 0), if_pos (neg_pos.mpr h),
      if_neg (ne_of_lt h), if_neg (not_lt.mpr (le_of_lt h)), neg_neg]
  · subst h
    simp
  · rw [if_neg (by linarith : ¬ -x = 0), if_neg (by linarith : ¬ 0 < -x), neg_neg,
      if_neg (ne_of_gt h), if_pos h]

/-- Rounding to `p` bits moves a number that is zero or of the normal range by at most
`2 ^ (-p)` times its magnitude. -/
theorem roundBinary_error (p : Nat) (emin : Int) (x : F)
    (hx : x = 0 ∨ (2 : F) ^ emin ≤ |x|) :
    |roundBinary p emin x - x| ≤ 2 ^ (-(p : Int)) * |x| := by
  rcases lt_trichotomy x 0 with h | h | h
  · have hx1 : (2 : F) ^ emin ≤ -x := by
      rcases hx with h0 | h1
      · exact absurd h0 (ne_of_lt h)
      · rwa [abs_of_neg h] at h1
    have hn := roundPositive_error p emin (-x) hx1
    unfold roundBinary
    rw [if_neg (ne_of_lt h), if_neg (not_lt.mpr (le_of_lt h)), abs_of_neg h]
    rw [show -roundPositive p emin (-x) - x = -(roundPositive p emin (-x) - -x) by ring,
      abs_neg]
    exact hn
  · subst h
    simp [roundBinary]
  · have hx1 : (2 : F) ^ emin ≤ x := by
      rcases hx with h0 | h1
      · exact absurd h0 (ne_of_gt h)
      · rwa [abs_of_pos h] at h1
    unfold roundBinary
    rw [if_neg (ne_of_gt h), if_pos h, abs_of_pos h]
    exact roundPositive_error p emin x hx1

/-- Rounding keeps a non-negative number non-negative. -/
theorem roundBinary_nonneg (p : Nat) (emin : Int) (x : F) (hx : 0 ≤ x) :
    0 ≤ roundBinary p emin x := by
  rcases eq_or_lt_of_le hx with h | h
  · subst h
    simp [roundBinary]
  · unfold roundBinary
    rw [if_neg (ne_of_gt h), if_pos h]
    exact roundPositive_nonneg p emin x h

/-- Zero is stored as zero. -/
theorem roundBinary_zero (p : Nat) (emin : Int) : roundBinary p emin (0 : F) = 0 := by
  simp [roundBinary]

/-- A rounded number is a whole multiple of the spacing of the subnormal numbers. -/
theorem roundBinary_multiple (p : Nat) (emin : Int) (x : F) :
    ∃ m : Int, roundBinary p emin x = (m : F) * 2 ^ (emin - (p : Int) + 1) := by
  unfold roundBinary
  split_ifs with h0 hpos
  · exact ⟨0, by simp⟩
  · exact roundPositive_multiple p emin x
  · obtain ⟨m, hm⟩ := roundPositive_multiple p emin (-x)
    exact ⟨-m, by rw [hm]; push_cast; ring⟩

/-- A number of the normal range keeps its place above a power of two of that range when
it is rounded. -/
theorem pow_le_abs_roundBinary (p : Nat) (emin : Int) (x : F) (k : Int) (hp : 1 ≤ p)
    (hk : emin ≤ k) (h : (2 : F) ^ k ≤ |x|) : (2 : F) ^ k ≤ |roundBinary p emin x| := by
  have hpk : (0 : F) < 2 ^ k := zpow_pos (by norm_num) k
  rcases lt_trichotomy x 0 with hx | hx | hx
  · rw [abs_of_neg hx] at h
    have := pow_le_roundPositive p emin (-x) k hp hk h
    unfold roundBinary
    rw [if_neg (ne_of_lt hx), if_neg (not_lt.mpr hx.le), abs_neg,
      abs_of_nonneg (le_trans hpk.le this)]
    exact this
  · subst hx
    rw [abs_zero] at h
    exact absurd h (not_le.mpr hpk)
  · rw [abs_of_pos hx] at h
    have := pow_le_roundPositive p emin x k hp hk h
    unfold roundBinary
    rw [if_neg (ne_of_gt hx), if_pos hx, abs_of_nonneg (le_trans hpk.le this)]
    exact this

/-- A whole multiple of the spacing of the subnormal numbers that lies below the normal
range is its own rounding. -/
theorem roundBinary_of_small_multiple (p : Nat) (emin : Int) (m : Int)
    (h : |(m : F) * 2 ^ (emin - (p : Int) + 1)| < (2 : F) ^ emin) :
    roundBinary p emin ((m : F) * 2 ^ (emin - (p : Int) + 1))
      = (m : F) * 2 ^ (emin - (p : Int) + 1) := by
  have hs : (0 : F) < 2 ^ (emin - (p : Int) + 1) := zpow_pos (by norm_num) _
  have key : ∀ n : Int, 0 < n → (n : F) * 2 ^ (emin - (p : Int) + 1) < (2 : F) ^ emin →
      roundPositive p emin ((n : F) * 2 ^ (emin - (p : Int) + 1))
        = (n : F) * 2 ^ (emin - (p : Int) + 1) := by
    intro n hn hlt
    have hpos : (0 : F) < (n : F) * 2 ^ (emin - (p : Int) + 1) :=
      mul_pos (by exact_mod_cast hn) hs
    unfold roundPositive
    rw [max_log2_of_lt emin _ hpos hlt, mul_div_assoc, div_self (ne_of_gt hs), mul_one,
      roundHalfEven_intCast]
  rcases lt_trichotomy m 0 with hm | hm | hm
  · have hneg : (m : F) * 2 ^ (emin - (p : Int) + 1) < 0 :=
      mul_neg_of_neg_of_pos (by exact_mod_cast hm) hs
    rw [abs_of_neg hneg] at h
    unfold roundBinary
    rw [if_neg (ne_of_lt hneg), if_neg (not_lt.mpr hneg.le)]
    have := key (-m) (by omega) (by push_cast; linarith)
    push_cast at this
    rw [show -((m : F) * 2 ^ (emin - (p : Int) + 1)) = -(m : F) * 2 ^ (emin - (p : Int) + 1)
      by ring, this]
    ring
  · subst hm
    simp [roundBinary]
  · have hpos : (0 : F) < (m : F) * 2 ^ (emin - (p : Int) + 1) :=
      mul_pos (by exact_mod_cast hm) hs
    rw [abs_of_pos hpos] at h
    unfold roundBinary
    rw [if_neg (ne_of_gt hpos), if_pos hpos]
    exact key m hm h

end rounding_facts

end hector_calibration

namespace hector_calibration

section dyadic_facts

variable {F : Type} [LinearOrderedField F] [FloorRing F]

/-- A positive number whose scaled significand is an integer is its own rounding. -/
theorem roundPositive_of_int (p : Nat) (emin : Int) (x : F) (m : Int)
    (h : x / 2 ^ (max (Int.log 2 x) emin - (p : Int) + 1) = (m : F)) :
    roundPositive p emin x = x := by
  unfold roundPositive
  rw [h, roundHalfEven_intCast, ← h,
    div_mul_cancel₀ _ (ne_of_gt (zpow_pos (by norm_num : (0 : F) < 2) _))]

/-- A quotient of a natural number of at most `p` bits (or `2 ^ p` itself) by a power of
two that is a multiple of the spacing of the subnormal numbers is its own rounding to `p`
bits. -/
theorem roundBinary_dyadic (p : Nat) (emin : Int) (n k : Nat) (hp : 1 ≤ p) (hn : n ≤ 2 ^ p)
    (hk : (k : Int) ≤ (p : Int) - 1 - emin) :
    roundBinary p emin ((n : F) / 2 ^ k) = (n : F) / 2 ^ k := by
  rcases Nat.eq_zero_or_pos n with h0 | hpos
  · subst h0
    simp [roundBinary]
  · have h2k : (0 : F) < 2 ^ k := pow_pos (by norm_num) k
    have hx : (0 : F) < (n : F) / 2 ^ k := div_pos (by exact_mod_cast hpos) h2k
    unfold roundBinary
    rw [if_neg (ne_of_gt hx), if_pos hx]
    obtain ⟨h1, -⟩ := log2_bounds ((n : F) / 2 ^ k) hx
    set e := Int.log 2 ((n : F) / 2 ^ k) with he
    -- 2 ^ (e + k) ≤ n ≤ 2 ^ p
    have hle : (2 : F) ^ (e + (k : Int)) ≤ (n : F) := by
      rw [zpow_add₀ (by norm_num : (2 : F) ≠ 0), zpow_natCast]
      exact (le_div_iff₀ h2k).mp h1
    have hnp : (n : F) ≤ (2 : F) ^ (p : Int) := by
      rw [zpow_natCast]
      exact_mod_cast hn
    have hek : e + (k : Int) ≤ (p : Int) := by
      have := le_trans hle hnp
      exact (zpow_le_zpow_iff_right₀ (by norm_num : (1 : F) < 2)).mp this
    have hscale : ∀ E : Int, (n : F) / 2 ^ k / 2 ^ (E - (p : Int) + 1)
        = (n : F) * 2 ^ ((p : Int) - 1 - (E + (k : Int))) := by
      intro E
      rw [div_div, ← zpow_natCast (2 : F) k, ← zpow_add₀ (by norm_num : (2 : F) ≠ 0),
        div_eq_mul_inv, ← zpow_neg]
      congr 2
      ring
    rcases le_or_lt emin e with hee | hee
    · have hmax : max e emin = e := max_eq_left hee
      rcases lt_or_eq_of_le hek with hlt | heq
      · obtain ⟨t, ht⟩ := Int.eq_ofNat_of_zero_le
          (show 0 ≤ (p : Int) - 1 - (e + (k : Int)) by omega)
        apply roundPositive_of_int p emin _ ((n * 2 ^ t : Nat) : Int)
        rw [← he, hmax, hscale, ht]
        push_cast
        rw [zpow_natCast]
      · have hn2 : (n : F) = (2 : F) ^ (p : Int) := by
          rw [heq] at hle
          exact le_antisymm hnp hle
        apply roundPositive_of_int p emin _ ((2 ^ (p - 1) : Nat) : Int)
        rw [← he, hmax, hscale, hn2, ← zpow_add₀ (by norm_num : (2 : F) ≠ 0), heq]
        push_cast
        rw [← zpow_natCast (2 : F) (p - 1)]
        congr 1
        omega
    · have hmax : max e emin = emin := max_eq_right (le_of_lt hee)
      obtain ⟨t, ht⟩ := Int.eq_ofNat_of_zero_le
        (show 0 ≤ (p : Int) - 1 - (emin + (k : Int)) by omega)
      apply roundPositive_of_int p emin _ ((n * 2 ^ t : Nat) : Int)
      rw [← he, hmax, hscale, ht]
      push_cast
      rw [zpow_natCast]

/-- A natural number of at most `p` bits (or `2 ^ p` itself) is its own rounding to `p`
bits. -/
theorem roundBinary_natCast (p : Nat) (emin : Int) (n : Nat) (hp : 1 ≤ p) (hn : n ≤ 2 ^ p)
    (he : emin ≤ (p : Int) - 1) : roundBinary p emin (n : F) = (n : F) := by
  have h := roundBinary_dyadic (F := F) p emin n 0 hp hn (by push_cast; omega)
  simpa using h

/-- The successor of a whole number below `2 ^ 24` is stored exactly in a binary32
cell. -/
theorem round32_succ (n : Nat) (hn : n < 16777216) : round32 ((n : F) + 1) = (n : F) + 1 := by
  have h := roundBinary_natCast (F := F) 24 (-126) (n + 1) (by norm_num) (by norm_num; omega)
    (by norm_num)
  unfold round32
  push_cast at h
  exact h

/-- A binary32 cell that holds `2 ^ 24` is left unchanged by the addition of 1. -/
theorem round32_saturated : round32 ((16777216 : F) + 1) = 16777216 := by
  unfold round32 roundBinary
  rw [if_neg (by norm_num), if_pos (by norm_num)]
  rw [roundPositive_eq 24 (-126) ((16777216 : F) + 1) 24 8388608 (by norm_num) (by norm_num)
    (by norm_num)]
  · norm_num
  · have h : ((16777216 : F) + 1) / 2 ^ ((24 : Int) - ((24 : Nat) : Int) + 1)
        = ((8388608 : Int) : F) + 1 / 2 := by
      norm_num
    rw [h]
    exact roundHalfEven_tie_even 8388608 (by decide)

end dyadic_facts

end hector_calibration

namespace hector_calibration

/-- A fold that succeeds keeps an invariant indexed by the weight of the elements
processed. -/
theorem foldlM_except_counted {α β ε : Type} (P : Nat → β → Prop) (w : α → Nat)
    (f : β → α → Except ε β)
    (hf : ∀ k b a b1, P k b → f b a = .ok b1 → P (k + w a) b1) :
    ∀ (l : List α) (k : Nat) (b b1 : β), P k b → l.foldlM f b = .ok b1 →
      P (k + (l.map w).sum) b1 := by
  intro l
  induction l with
  | nil =>
    intro k b b1 hb h
    simp only [List.foldlM_nil, pure, Except.pure, Except.ok.injEq] at h
    simpa [← h] using hb
  | cons a l ih =>
    intro k b b1 hb h
    simp only [List.foldlM_cons, bind, Except.bind] at h
    cases hfa : f b a with
    | error e => rw [hfa] at h; cases h
    | ok b2 =>
      rw [hfa] at h
      have := ih (k + w a) b2 b1 (hf k b a b2 hb hfa) h
      simpa [List.map_cons, List.sum_cons, Nat.add_assoc] using this

namespace camera_lidar_calibration

section machine_histogram_facts

variable {F : Type} [LinearOrderedField F] [FloorRing F]

/-- The conversion to `uchar` yields a value of at most 255. -/
theorem toUcharMachine_le (x : F) : toUcharMachine x ≤ 255 := by
  unfold toUcharMachine
  dsimp only
  split_ifs <;> omega

/-- What a pair that is processed without fault does to the histogram in machine
arithmetic: nothing, or one rounded increment of each array at bins within the arrays and
wrapped additions to the counters. -/
theorem accumulateMachine_cases (ext : Externals F) (b : Int) (point : PointXYZI F)
    (pt : Fin 3 → F) (h h1 : Histogram F) (cam : CameraObservation F)
    (hacc : accumulateMachine ext b point pt h cam = .ok h1) :
    h1 = h ∨ ∃ a r, a ≤ 255 ∧ r ≤ 255 ∧ a < h.intensity_hist.length ∧
      r < h.reflectance_hist.length ∧
      a < h.joint_hist.length ∧ r < (h.joint_hist.getD a []).length ∧
      h1 = { joint_hist := h.joint_hist.set a
               ((h.joint_hist.getD a []).set r
                 (round32 ((h.joint_hist.getD a []).getD r 0 + 1)))
             reflectance_hist := h.reflectance_hist.set r
               (round32 (h.reflectance_hist.getD r 0 + 1))
             intensity_hist := h.intensity_hist.set a
               (round32 (h.intensity_hist.getD a 0 + 1))
             count := wrapInt (h.count + 1)
             intensity_sum := wrapInt (h.intensity_sum + a)
             reflectance_sum := wrapInt (h.reflectance_sum + r) } := by
  unfold accumulateMachine at hacc
  simp only at hacc
  split at hacc
  · cases hacc; exact Or.inl rfl
  · split at hacc
    · simp only [except_bind_eq_ok, pure, Except.pure, Except.ok.injEq] at hacc
      obtain ⟨ih, hA, rh, hB, jh, hC, hacc⟩ := hacc
      right
      unfold incrAtMachine at hA hB
      unfold incrAt2Machine at hC
      split at hA
      · rename_i ha
        split at hB
        · rename_i hr
          split at hC
          · rename_i hj
            cases hA; cases hB; cases hC
            exact ⟨_, _, toUcharMachine_le _, toUcharMachine_le _, ha, hr, hj.1, hj.2,
              hacc.symm⟩
          · cases hC
        · cases hB
      · cases hA
    · cases hacc; exact Or.inl rfl

omit [FloorRing F] in
/-- A non-negative entry is at most the sum of a list of non-negative entries. -/
theorem le_sum_of_mem (l : List F) (h : ∀ x ∈ l, 0 ≤ x) (x : F) (hx : x ∈ l) : x ≤ l.sum := by
  induction l with
  | nil => simp at hx
  | cons a l ih =>
    have hl : ∀ y ∈ l, 0 ≤ y := fun y hy => h y (List.mem_cons_of_mem a hy)
    have hsum : 0 ≤ l.sum := List.sum_nonneg hl
    have ha : 0 ≤ a := h a (List.mem_cons_self a l)
    rw [List.sum_cons]
    rcases List.mem_cons.mp hx with rfl | hmem
    · linarith
    · linarith [ih hl hmem]

omit [FloorRing F] in
/-- In a histogram with whole, consistent counts every cell is a whole number of at most
the count. -/
theorem cell_le_count (h : Histogram F) (hc : h.consistent) (hw : h.whole) :
    (∀ x ∈ h.intensity_hist, ∃ k : Nat, x = (k : F) ∧ (k : Int) ≤ h.count) ∧
      (∀ x ∈ h.reflectance_hist, ∃ k : Nat, x = (k : F) ∧ (k : Int) ≤ h.count) ∧
      (∀ row ∈ h.joint_hist, ∀ x ∈ row, ∃ k : Nat, x = (k : F) ∧ (k : Int) ≤ h.count) := by
  obtain ⟨hi0, hr0, hj0, his, hrs, hjs⟩ := hc
  obtain ⟨hwi, hwr, hwj, -⟩ := hw
  refine ⟨?_, ?_, ?_⟩
  · intro x hx
    obtain ⟨k, hk⟩ := hwi x hx
    refine ⟨k, hk, ?_⟩
    have := le_sum_of_mem _ hi0 x hx
    rw [his, hk] at this
    exact_mod_cast this
  · intro x hx
    obtain ⟨k, hk⟩ := hwr x hx
    refine ⟨k, hk, ?_⟩
    have := le_sum_of_mem _ hr0 x hx
    rw [hrs, hk] at this
    exact_mod_cast this
  · intro row hrow x hx
    obtain ⟨k, hk⟩ := hwj row hrow x hx
    refine ⟨k, hk, ?_⟩
    have h1 := le_sum_of_mem _ (hj0 row hrow) x hx
    have hrs0 : ∀ y ∈ rowSums h.joint_hist, 0 ≤ y := by
      intro y hy
      obtain ⟨row1, hrow1, rfl⟩ := List.mem_map.mp hy
      exact List.sum_nonneg (hj0 row1 hrow1)
    have h2 := le_sum_of_mem _ hrs0 row.sum (List.mem_map.mpr ⟨row, hrow, rfl⟩)
    rw [hjs] at h2
    have h3 : x ≤ (h.count : F) := le_trans h1 h2
    rw [hk] at h3
    exact_mod_cast h3

/-- Below `2 ^ 23` pairs the machine increments are exact: the rounded cells and the
wrapped counters are those of `Histogram.bump`. -/
theorem machine_record_eq_bump (h : Histogram F) (a r : Nat) (ha255 : a ≤ 255)
    (hr255 : r ≤ 255) (ha : a < h.intensity_hist.length) (hr : r < h.reflectance_hist.length)
    (haj : a < h.joint_hist.length) (hrj : r < (h.joint_hist.getD a []).length)
    (hc : h.consistent) (hw : h.whole) (hcount : h.count < 8388608) :
    ({ joint_hist := h.joint_hist.set a
         ((h.joint_hist.getD a []).set r (round32 ((h.joint_hist.getD a []).getD r 0 + 1)))
       reflectance_hist := h.reflectance_hist.set r
         (round32 (h.reflectance_hist.getD r 0 + 1))
       intensity_hist := h.intensity_hist.set a (round32 (h.intensity_hist.getD a 0 + 1))
       count := wrapInt (h.count + 1)
       intensity_sum := wrapInt (h.intensity_sum + a)
       reflectance_sum := wrapInt (h.reflectance_sum + r) } : Histogram F) = h.bump a r := by
  obtain ⟨hci, hcr, hcj⟩ := cell_le_count h hc hw
  obtain ⟨-, -, -, h0, hi0, hi1, hr0, hr1⟩ := hw
  have e1 : round32 (h.intensity_hist.getD a 0 + 1) = h.intensity_hist.getD a 0 + 1 := by
    obtain ⟨k, hk, hkc⟩ := hci _ (getD_mem_of_lt _ 0 a ha)
    rw [hk]
    exact round32_succ k (by omega)
  have e2 : round32 (h.reflectance_hist.getD r 0 + 1) = h.reflectance_hist.getD r 0 + 1 := by
    obtain ⟨k, hk, hkc⟩ := hcr _ (getD_mem_of_lt _ 0 r hr)
    rw [hk]
    exact round32_succ k (by omega)
  have e3 : round32 ((h.joint_hist.getD a []).getD r 0 + 1)
      = (h.joint_hist.getD a []).getD r 0 + 1 := by
    obtain ⟨k, hk, hkc⟩ := hcj _ (getD_mem_of_lt _ [] a haj) _ (getD_mem_of_lt _ 0 r hrj)
    rw [hk]
    exact round32_succ k (by omega)
  have e4 : wrapInt (h.count + 1) = h.count + 1 := by
    unfold wrapInt; omega
  have e5 : wrapInt (h.intensity_sum + a) = h.intensity_sum + a := by
    unfold wrapInt; omega
  have e6 : wrapInt (h.reflectance_sum + r) = h.reflectance_sum + r := by
    unfold wrapInt; omega
  rw [e1, e2, e3, e4, e5, e6]
  rfl

omit [FloorRing F] in
/-- A whole number raised by one in one cell leaves whole numbers. -/
theorem whole_set_add_one (l : List F) (i : Nat) (h : ∀ x ∈ l, ∃ k : Nat, x = (k : F)) :
    ∀ x ∈ l.set i (l.getD i 0 + 1), ∃ k : Nat, x = (k : F) := by
  intro x hx
  rcases List.mem_or_eq_of_mem_set hx with hmem | heq
  · exact h x hmem
  · by_cases hi : i < l.length
    · obtain ⟨k, hk⟩ := h _ (getD_mem_of_lt l 0 i hi)
      exact ⟨k + 1, by rw [heq, hk]; push_cast; rfl⟩
    · exact ⟨1, by rw [heq, List.getD_eq_default _ _ (not_lt.mp hi)]; norm_num⟩

omit [FloorRing F] in
/-- One exact increment keeps a histogram sound. -/
theorem bump_sound (h : Histogram F) (n a r : Nat) (ha255 : a ≤ 255) (hr255 : r ≤ 255)
    (ha : a < h.intensity_hist.length) (hr : r < h.reflectance_hist.length)
    (haj : a < h.joint_hist.length) (hrj : r < (h.joint_hist.getD a []).length)
    (hs : h.sound n) : (h.bump a r).sound n := by
  obtain ⟨hn, hc, hm, hw⟩ := hs
  refine ⟨?_, ?_, ?_, ?_⟩
  · obtain ⟨hjl, hrows, hil, hrl⟩ := hn
    refine ⟨?_, ?_, ?_, ?_⟩
    · show (h.joint_hist.set a _).length = n
      rw [List.length_set]; exact hjl
    · intro row hrow
      rcases List.mem_or_eq_of_mem_set hrow with hmem | heq
      · exact hrows row hmem
      · rw [heq, List.length_set]
        exact hrows _ (getD_mem_of_lt _ [] a haj)
    · show (h.intensity_hist.set a _).length = n
      rw [List.length_set]; exact hil
    · show (h.reflectance_hist.set r _).length = n
      rw [List.length_set]; exact hrl
  · obtain ⟨hi0, hr0, hj0, his, hrs, hjs⟩ := hc
    have hrow0 : ∀ x ∈ h.joint_hist.getD a [], 0 ≤ x := hj0 _ (getD_mem_of_lt _ _ _ haj)
    refine ⟨nonneg_set_add_one _ a hi0, nonneg_set_add_one _ r hr0, ?_, ?_, ?_, ?_⟩
    · intro row hrow
      rcases List.mem_or_eq_of_mem_set hrow with hmem | heq
      · exact hj0 row hmem
      · rw [heq]; exact nonneg_set_add_one _ r hrow0
    · show (h.intensity_hist.set a _).sum = ((h.count + 1 : Int) : F)
      rw [sum_set_add _ _ _ ha, his]; push_cast; ring
    · show (h.reflectance_hist.set r _).sum = ((h.count + 1 : Int) : F)
      rw [sum_set_add _ _ _ hr, hrs]; push_cast; ring
    · show (rowSums (h.joint_hist.set a _)).sum = ((h.count + 1 : Int) : F)
      have hlen : a < (rowSums h.joint_hist).length := by
        simp only [rowSums, List.length_map]; exact haj
      have hget : (rowSums h.joint_hist).getD a 0 = (h.joint_hist.getD a []).sum := by
        rw [List.getD_eq_getElem _ _ hlen, List.getD_eq_getElem _ _ haj]
        simp [rowSums]
      have hset : rowSums (h.joint_hist.set a
          ((h.joint_hist.getD a []).set r ((h.joint_hist.getD a []).getD r 0 + 1)))
          = (rowSums h.joint_hist).set a ((rowSums h.joint_hist).getD a 0 + 1) := by
        rw [hget, ← sum_set_add _ _ _ hrj]
        simp [rowSums, List.map_set]
      rw [hset, sum_set_add _ _ _ hlen, hjs]; push_cast; ring
  · obtain ⟨hrow, hcol, hisum, hrsum⟩ := hm
    obtain ⟨-, -, hil, hrl⟩ := hn
    have han : a < n := hil ▸ ha
    have hrn : r < n := hrl ▸ hr
    refine ⟨?_, ?_, ?_, ?_⟩
    · intro i hi
      show (h.intensity_hist.set a (h.intensity_hist.getD a 0 + 1)).getD i 0
        = ((h.joint_hist.set a ((h.joint_hist.getD a []).set r
            ((h.joint_hist.getD a []).getD r 0 + 1))).getD i []).sum
      by_cases hia : i = a
      · subst hia
        rw [getD_set_self _ _ _ _ ha, getD_set_self _ _ _ _ haj, sum_set_add _ _ _ hrj,
          hrow i hi]
      · rw [getD_set_ne _ _ _ _ _ (Ne.symm hia), getD_set_ne _ _ _ _ _ (Ne.symm hia)]
        exact hrow i hi
    · intro j hj
      show (h.reflectance_hist.set r (h.reflectance_hist.getD r 0 + 1)).getD j 0
        = ((h.joint_hist.set a ((h.joint_hist.getD a []).set r
            ((h.joint_hist.getD a []).getD r 0 + 1))).map (fun row => row.getD j 0)).sum
      have hcell : (h.joint_hist.map (fun row => row.getD j 0)).getD a 0
          = (h.joint_hist.getD a []).getD j 0 :=
        getD_map_of_lt (fun row : List F => row.getD j 0) h.joint_hist a [] 0 haj
      rw [List.map_set]
      by_cases hjr : j = r
      · subst hjr
        rw [getD_set_self _ _ _ _ hr, getD_set_self _ _ _ _ hrj, ← hcell,
          sum_set_add _ _ _ (by simpa using haj), hcol j hj]
      · rw [getD_set_ne _ _ _ _ _ (Ne.symm hjr), getD_set_ne _ _ _ _ _ (Ne.symm hjr), ← hcell,
          set_getD_same]
        exact hcol j hj
    · show ((h.intensity_sum + (a : Int) : Int) : F)
        = ∑ i ∈ Finset.range n, (i : F) * (h.intensity_hist.set a
            (h.intensity_hist.getD a 0 + 1)).getD i 0
      rw [weighted_sum_set_add_one _ _ _ ha han, ← hisum]
      push_cast
      ring
    · show ((h.reflectance_sum + (r : Int) : Int) : F)
        = ∑ j ∈ Finset.range n, (j : F) * (h.reflectance_hist.set r
            (h.reflectance_hist.getD r 0 + 1)).getD j 0
      rw [weighted_sum_set_add_one _ _ _ hr hrn, ← hrsum]
      push_cast
      ring
  · obtain ⟨hwi, hwr, hwj, h0, hi0, hi1, hr0, hr1⟩ := hw
    refine ⟨whole_set_add_one _ a hwi, whole_set_add_one _ r hwr, ?_, ?_, ?_, ?_, ?_, ?_⟩
    · intro row hrow
      rcases List.mem_or_eq_of_mem_set hrow with hmem | heq
      · exact hwj row hmem
      · rw [heq]
        exact whole_set_add_one _ r (hwj _ (getD_mem_of_lt _ [] a haj))
    · show 0 ≤ h.count + 1
      omega
    · show 0 ≤ h.intensity_sum + (a : Int)
      omega
    · show h.intensity_sum + (a : Int) ≤ 255 * (h.count + 1)
      omega
    · show 0 ≤ h.reflectance_sum + (r : Int)
      omega
    · show h.reflectance_sum + (r : Int) ≤ 255 * (h.count + 1)
      omega

omit [FloorRing F] in
/-- The empty histogram is sound. -/
theorem Histogram.new_sound (size : Int) :
    (Histogram.new size : Histogram F).sound size.toNat := by
  refine ⟨Histogram.new_hasSide _, ?_, Histogram.new_marginalsOfJoint _, ?_⟩
  · refine ⟨?_, ?_, ?_, ?_, ?_, ?_⟩
    · intro x hx
      simp only [Histogram.new, List.mem_replicate] at hx
      rw [hx.2]
    · intro x hx
      simp only [Histogram.new, List.mem_replicate] at hx
      rw [hx.2]
    · intro row hrow x hx
      simp only [Histogram.new, List.mem_replicate] at hrow
      rw [hrow.2] at hx
      simp only [List.mem_replicate] at hx
      rw [hx.2]
    · simp [Histogram.new]
    · simp [Histogram.new]
    · simp [Histogram.new, rowSums]
  · refine ⟨?_, ?_, ?_, le_refl _, le_refl _, ?_, le_refl _, ?_⟩
    · intro x hx
      simp only [Histogram.new, List.mem_replicate] at hx
      exact ⟨0, by rw [hx.2]; norm_num⟩
    · intro x hx
      simp only [Histogram.new, List.mem_replicate] at hx
      exact ⟨0, by rw [hx.2]; norm_num⟩
    · intro row hrow x hx
      simp only [Histogram.new, List.mem_replicate] at hrow
      rw [hrow.2] at hx
      simp only [List.mem_replicate] at hx
      exact ⟨0, by rw [hx.2]; norm_num⟩
    · show (0 : Int) ≤ 255 * 0
      norm_num
    · show (0 : Int) ≤ 255 * 0
      norm_num

/-- One pair in machine arithmetic keeps a histogram with fewer than `2 ^ 23` counted
pairs sound and raises its count by at most 1. -/
theorem accumulateMachine_sound (ext : Externals F) (b : Int) (point : PointXYZI F)
    (pt : Fin 3 → F) (n : Nat) (h h1 : Histogram F) (cam : CameraObservation F)
    (hs : h.sound n) (hcount : h.count < 8388608)
    (hacc : accumulateMachine ext b point pt h cam = .ok h1) :
    h1.sound n ∧ h1.count ≤ h.count + 1 := by
  rcases accumulateMachine_cases ext b point pt h h1 cam hacc with
    rfl | ⟨a, r, ha255, hr255, ha, hr, haj, hrj, rfl⟩
  · exact ⟨hs, by omega⟩
  · rw [machine_record_eq_bump h a r ha255 hr255 ha hr haj hrj hs.2.1 hs.2.2.2 hcount]
    exact ⟨bump_sound h n a r ha255 hr255 ha hr haj hrj hs, le_refl _⟩

/-- With at most `2 ^ 23` point/camera pairs, the histogram that `computeHistogram`
returns in machine arithmetic is sound and its count is at most the number of
pairs. -/
theorem computeHistogramMachine_sound (self : NumericDiffMutualInformationCost F)
    (ext : Externals F) (T : Affine3 F) (h : Histogram F)
    (hpairs : self.pairCount ≤ 8388608)
    (hc : self.computeHistogramMachine ext T = .ok h) :
    h.sound self.bin_count_.toNat ∧ h.count ≤ (self.pairCount : Int) := by
  have key := foldlM_except_counted
    (fun k (x : Histogram F) => k ≤ 8388608 →
      x.sound self.bin_count_.toNat ∧ x.count ≤ (k : Int))
    (fun observation : Observation F =>
      observation.scan.length * observation.cam_observations.length)
    (fun hist observation =>
      accumulateScanMachine ext self.bin_fraction_ T observation hist)
    (by
      intro k hist observation hist1 hk hstep
      unfold accumulateScanMachine at hstep
      have inner := foldlM_except_counted
        (fun k (x : Histogram F) => k ≤ 8388608 →
          x.sound self.bin_count_.toNat ∧ x.count ≤ (k : Int))
        (fun _ : PointXYZI F => observation.cam_observations.length)
        _
        (by
          intro k2 hist2 point hist3 hk2 hstep2
          have inner2 := foldlM_except_counted
            (fun k (x : Histogram F) => k ≤ 8388608 →
              x.sound self.bin_count_.toNat ∧ x.count ≤ (k : Int))
            (fun _ : CameraObservation F => 1)
            _
            (by
              intro k3 x cam x1 hk3 hx1 hle
              have hle : k3 + 1 ≤ 8388608 := hle
              obtain ⟨hsx, hcx⟩ := hk3 (by omega)
              obtain ⟨hs1, hc1⟩ := accumulateMachine_sound ext _ point _ _ x x1 cam hsx
                (by omega) hx1
              exact ⟨hs1, by push_cast; omega⟩)
            observation.cam_observations k2 hist2 hist3 hk2 hstep2
          simpa [List.map_const', List.sum_replicate] using inner2)
        observation.scan k hist hist1 hk hstep
      simpa [List.map_const', List.sum_replicate] using inner)
    self.observations_ 0 (Histogram.new self.bin_count_) h
    (fun _ => ⟨Histogram.new_sound _, le_refl _⟩) hc
  simp only [Nat.zero_add] at key
  exact key hpairs

end machine_histogram_facts

end camera_lidar_calibration

end hector_calibration

namespace hector_calibration

namespace camera_lidar_calibration

section machine_quantization_facts

variable {F : Type} [LinearOrderedField F] [FloorRing F]

/-- A whole number of at most `2 ^ 24` is stored exactly in a binary32 cell. -/
theorem round32_natCast (n : Nat) (hn : n ≤ 16777216) : round32 (n : F) = (n : F) :=
  roundBinary_natCast 24 (-126) n (by norm_num) (by norm_num; exact hn) (by norm_num)

/-- The `uchar` obtained from the quotient of two natural numbers is their integer
quotient when that is at most 255. -/
theorem toUcharMachine_natCast_div (v b : Nat) (h : v / b ≤ 255) :
    toUcharMachine ((v : F) / (b : F)) = v / b := by
  have h0 : (0 : F) ≤ (v : F) / (b : F) := by positivity
  have hfl : Int.floor ((v : F) / (b : F)) = ((v / b : Nat) : Int) := by
    rw [← Nat.floor_div_eq_div (α := F), Int.natCast_floor_eq_floor h0]
  have hq : (0 : Int) ≤ ((v / b : Nat) : Int) := Int.natCast_nonneg _
  have hq2 : ((v / b : Nat) : Int) ≤ 255 := by exact_mod_cast h
  unfold toUcharMachine
  simp only [h0, if_true]
  rw [hfl, if_pos (by constructor <;> omega), Int.emod_eq_of_lt hq (by omega),
    Int.toNat_natCast]

/-- With a bin fraction `2 ^ j` a value of `0..255` is quantized in machine arithmetic to
its integer quotient by the bin fraction. -/
theorem quantizeMachine_pow_two (j v : Nat) (hj : j ≤ 24) (hv : v ≤ 255) :
    quantizeMachine (((2 ^ j : Nat) : Int)) ((v : Nat) : F) = v / 2 ^ j := by
  have hpow : (2 : Nat) ^ j ≤ 16777216 := by
    calc (2 : Nat) ^ j ≤ 2 ^ 24 := Nat.pow_le_pow_right (by norm_num) hj
      _ = 16777216 := by norm_num
  unfold quantizeMachine
  rw [Int.cast_natCast, round32_natCast _ hpow]
  have hd : round32 ((v : F) / ((2 ^ j : Nat) : F)) = (v : F) / ((2 ^ j : Nat) : F) := by
    have := roundBinary_dyadic (F := F) 24 (-126) v j (by norm_num) (by norm_num; omega)
      (by push_cast; omega)
    unfold round32
    push_cast
    exact this
  rw [hd]
  exact toUcharMachine_natCast_div v (2 ^ j) (le_trans (Nat.div_le_self _ _) hv)

end machine_quantization_facts

/-- The value 0 falls into bin 0 with bin fraction 256. -/
theorem quantizeMachine_256_zero : quantizeMachine 256 (0 : ℚ) = 0 := by
  have h := quantizeMachine_pow_two (F := ℚ) 8 0 (by norm_num) (by norm_num)
  simpa using h

/-- The value 255 falls into bin 1 with bin fraction 128. -/
theorem quantizeMachine_128_255 : quantizeMachine 128 (255 : ℚ) = 1 := by
  have h := quantizeMachine_pow_two (F := ℚ) 7 255 (by norm_num) (by norm_num)
  simpa using h

/-- The value 7 falls into bin 0 with bin fraction 128. -/
theorem quantizeMachine_128_7 : quantizeMachine 128 (7 : ℚ) = 0 := by
  have h := quantizeMachine_pow_two (F := ℚ) 7 7 (by norm_num) (by norm_num)
  simpa using h

/-- The value 200 falls into bin 1 with bin fraction 128. -/
theorem quantizeMachine_128_200 : quantizeMachine 128 (200 : ℚ) = 1 := by
  have h := quantizeMachine_pow_two (F := ℚ) 7 200 (by norm_num) (by norm_num)
  simpa using h

/-- The value 0 falls into bin 0 with bin fraction 128. -/
theorem quantizeMachine_128_zero : quantizeMachine 128 (0 : ℚ) = 0 := by
  have h := quantizeMachine_pow_two (F := ℚ) 7 0 (by norm_num) (by norm_num)
  simpa using h

/-- A binary32 cell counts up to `2 ^ 24` and stays there. -/
theorem round32_min_succ (k : Nat) :
    round32 (((min k 16777216 : Nat) : ℚ) + 1) = ((min (k + 1) 16777216 : Nat) : ℚ) := by
  by_cases hk : k < 16777216
  · rw [Nat.min_eq_left (le_of_lt hk), Nat.min_eq_left (by omega), round32_succ k hk]
    push_cast
    rfl
  · rw [Nat.min_eq_right (by omega), Nat.min_eq_right (by omega)]
    exact round32_saturated

/-- One more of the equal pairs on the one-bin histogram after `k` of them. -/
theorem accumulateMachine_saturated (k : Nat) (hk : k < 2147483647) (pt : Fin 3 → ℚ) :
    accumulateMachine (sampleExternals 0) 256 ⟨1, 0, 0, 0⟩ pt (saturatedHistogram k)
      sampleCamera = .ok (saturatedHistogram (k + 1)) := by
  have hw : wrapInt ((k : Int) + 1) = ((k + 1 : Nat) : Int) := by
    unfold wrapInt
    omega
  have hw0 : wrapInt (0 + ((0 : Nat) : Int)) = 0 := by decide
  have hq : quantizeMachine 256 ((sampleExternals 0).interpolate sampleCamera.cv_image ![0, 0])
      = 0 := quantizeMachine_256_zero
  unfold accumulateMachine
  simp only [sampleExternals, sampleCamera, Mat.empty, List.map_nil, List.sum_nil,
    decide_True, true_or, if_true, quantizeMachine_256_zero, incrAtMachine, incrAt2Machine,
    saturatedHistogram, List.length_cons, List.length_nil, Nat.zero_add, Nat.lt_one_iff,
    List.getD_cons_zero, List.set_cons_zero, and_self, bind, Except.bind, pure, Except.pure,
    round32_min_succ, hw, hw0]

/-- The loop over `n` equal points on the one-bin histogram after `k` pairs. -/
theorem accumulateScanMachine_saturated (T : Affine3 ℚ) (n : Nat) :
    ∀ k : Nat, k + n ≤ 2147483647 →
      accumulateScanMachine (sampleExternals 0) 256 T
        { scan := List.replicate n ⟨1, 0, 0, 0⟩, cam_observations := [sampleCamera] }
        (saturatedHistogram k) = .ok (saturatedHistogram (k + n)) := by
  induction n with
  | zero => exact fun k _ => rfl
  | succ n ih =>
    intro k hk
    have hstep := accumulateMachine_saturated k (by omega)
      (transformPoint ![(1 : ℚ), 0, 0] T)
    have hrest := ih (k + 1) (by omega)
    unfold accumulateScanMachine at hrest ⊢
    simp only [List.replicate_succ, List.foldlM_cons, List.foldlM_nil, hstep, bind,
      Except.bind, pure, Except.pure] at hrest ⊢
    rw [hrest]
    congr 2
    omega

/-- The histogram of `n` equal pairs with one bin per axis in machine arithmetic: the
cells hold `min n (2 ^ 24)`, the count is `n`. -/
theorem computeHistogramMachine_repeated (T : Affine3 ℚ) (n : Nat) (hn : n ≤ 2147483647) :
    (repeatedPointCost n).computeHistogramMachine (sampleExternals 0) T
      = .ok (saturatedHistogram n) := by
  have h := accumulateScanMachine_saturated T n 0 (by omega)
  have h0 : (Histogram.new 1 : Histogram ℚ) = saturatedHistogram 0 := by
    simp [Histogram.new, saturatedHistogram]
  unfold NumericDiffMutualInformationCost.computeHistogramMachine repeatedPointCost
  simp only [List.foldlM_cons, List.foldlM_nil, h0, h, bind, Except.bind, pure, Except.pure,
    Nat.zero_add]

end camera_lidar_calibration

end hector_calibration

namespace hector_calibration

namespace camera_lidar_calibration

/-- C11 as stated fails once a cell has reached `2 ^ 24`. The one-bin histogram with all
three cells at 16777216 is what `computeHistogram` returns in machine arithmetic after
16777216 equal pairs; one more accepted pair raises the count to 16777217 and leaves the
three cells at 16777216. -/
theorem saturated_cell_is_not_incremented :
    (repeatedPointCost 16777216).computeHistogramMachine (sampleExternals 0) ⟨1, 0⟩
        = .ok (saturatedHistogram 16777216) ∧
      accumulateMachine (sampleExternals 0) 256 ⟨1, 0, 0, 0⟩ ![1, 0, 0]
        (saturatedHistogram 16777216) sampleCamera = .ok (saturatedHistogram 16777217) ∧
      (saturatedHistogram 16777216).intensity_hist = [16777216] ∧
      (saturatedHistogram 16777217).intensity_hist = [16777216] ∧
      (saturatedHistogram 16777217).reflectance_hist = [16777216] ∧
      (saturatedHistogram 16777217).joint_hist = [[16777216]] ∧
      (saturatedHistogram 16777216).count = 16777216 ∧
      (saturatedHistogram 16777217).count = 16777217 := by
  refine ⟨computeHistogramMachine_repeated _ 16777216 (by norm_num),
    accumulateMachine_saturated 16777216 (by norm_num) _, ?_, ?_, ?_, ?_, rfl, rfl⟩ <;>
    norm_num [saturatedHistogram]

/-- C11, amended: an accepted pair whose intensity bin `a` and reflectance bin `r` lie
within a grid of side `n` is processed without fault. When the three cells
`intensity_hist(a)`, `reflectance_hist(r)` and `joint_hist(a, r)` hold whole numbers below
`2 ^ 24 = 16777216` and the three `int` counters are non-negative and below
`2 ^ 31 - 256`, the count grows by 1, the intensity sum by `a`, the reflectance sum by
`r`, the three cells grow by 1, every other cell of the three arrays keeps its value, and
the arrays keep their side. Cells are binary32 numbers and counters 32-bit integers. -/
theorem accepted_pair_increments_machine {F : Type} [LinearOrderedField F] [FloorRing F]
    (ext : Externals F) (bin_fraction_ : Int) (point : PointXYZI F)
    (point_transformed : Fin 3 → F) (histogram : Histogram F) (cam_obs : CameraObservation F)
    (pixel : Fin 2 → F) (a r n ki kr kj : Nat)
    (hpixel : ext.worldToPixel cam_obs.name
      (transformPoint point_transformed cam_obs.transform) = some pixel)
    (hmask : cam_obs.cv_mask.empty = true ∨ ext.interpolate cam_obs.cv_mask pixel > 0)
    (ha : quantizeMachine bin_fraction_ (ext.interpolate cam_obs.cv_image pixel) = a)
    (hr : quantizeMachine bin_fraction_ point.intensity = r)
    (hside : histogram.hasSide n) (han : a < n) (hrn : r < n)
    (hki : histogram.intensity_hist.getD a 0 = (ki : F)) (hki24 : ki < 16777216)
    (hkr : histogram.reflectance_hist.getD r 0 = (kr : F)) (hkr24 : kr < 16777216)
    (hkj : (histogram.joint_hist.getD a []).getD r 0 = (kj : F)) (hkj24 : kj < 16777216)
    (hcount : 0 ≤ histogram.count ∧ histogram.count < 2147483392)
    (hisum : 0 ≤ histogram.intensity_sum ∧ histogram.intensity_sum < 2147483392)
    (hrsum : 0 ≤ histogram.reflectance_sum ∧ histogram.reflectance_sum < 2147483392) :
    ∃ h1, accumulateMachine ext bin_fraction_ point point_transformed histogram cam_obs
        = .ok h1 ∧
      h1.count = histogram.count + 1 ∧
      h1.intensity_sum = histogram.intensity_sum + a ∧
      h1.reflectance_sum = histogram.reflectance_sum + r ∧
      (∀ i, h1.intensity_hist.getD i 0 =
        if i = a then histogram.intensity_hist.getD i 0 + 1
        else histogram.intensity_hist.getD i 0) ∧
      (∀ j, h1.reflectance_hist.getD j 0 =
        if j = r then histogram.reflectance_hist.getD j 0 + 1
        else histogram.reflectance_hist.getD j 0) ∧
      (∀ i j, (h1.joint_hist.getD i []).getD j 0 =
        if i = a ∧ j = r then (histogram.joint_hist.getD i []).getD j 0 + 1
        else (histogram.joint_hist.getD i []).getD j 0) ∧
      h1.hasSide n := by
  obtain ⟨hj, hrows, hi, hre⟩ := hside
  have hai : a < histogram.intensity_hist.length := by rw [hi]; exact han
  have hrr : r < histogram.reflectance_hist.length := by rw [hre]; exact hrn
  have haj : a < histogram.joint_hist.length := by rw [hj]; exact han
  have hrow : (histogram.joint_hist.getD a []).length = n :=
    hrows _ (getD_mem_of_lt _ _ _ haj)
  have hrj : r < (histogram.joint_hist.getD a []).length := by rw [hrow]; exact hrn
  have ha255 : a ≤ 255 := ha ▸ toUcharMachine_le _
  have hr255 : r ≤ 255 := hr ▸ toUcharMachine_le _
  have e1 : round32 (histogram.intensity_hist.getD a 0 + 1)
      = histogram.intensity_hist.getD a 0 + 1 := by
    rw [hki]; exact round32_succ ki hki24
  have e2 : round32 (histogram.reflectance_hist.getD r 0 + 1)
      = histogram.reflectance_hist.getD r 0 + 1 := by
    rw [hkr]; exact round32_succ kr hkr24
  have e3 : round32 ((histogram.joint_hist.getD a []).getD r 0 + 1)
      = (histogram.joint_hist.getD a []).getD r 0 + 1 := by
    rw [hkj]; exact round32_succ kj hkj24
  have e4 : wrapInt (histogram.count + 1) = histogram.count + 1 := by
    unfold wrapInt; omega
  have e5 : wrapInt (histogram.intensity_sum + a) = histogram.intensity_sum + a := by
    unfold wrapInt; omega
  have e6 : wrapInt (histogram.reflectance_sum + r) = histogram.reflectance_sum + r := by
    unfold wrapInt; omega
  have hacc : accumulateMachine ext bin_fraction_ point point_transformed histogram cam_obs
      = .ok (histogram.bump a r) := by
    unfold accumulateMachine
    simp only [hpixel, if_pos hmask, ha, hr, incrAtMachine, incrAt2Machine, if_pos hai,
      if_pos hrr, if_pos (And.intro haj hrj), bind, Except.bind, pure, Except.pure, e1, e2, e3,
      e4, e5, e6]
    rfl
  refine ⟨_, hacc, rfl, rfl, rfl, ?_, ?_, ?_, ?_⟩
  · intro i
    show (histogram.intensity_hist.set a _).getD i 0 = _
    by_cases hia : i = a
    · subst hia; rw [if_pos rfl, getD_set_self _ _ _ _ hai]
    · rw [if_neg hia, getD_set_ne _ _ _ _ _ (Ne.symm hia)]
  · intro j
    show (histogram.reflectance_hist.set r _).getD j 0 = _
    by_cases hjr : j = r
    · subst hjr; rw [if_pos rfl, getD_set_self _ _ _ _ hrr]
    · rw [if_neg hjr, getD_set_ne _ _ _ _ _ (Ne.symm hjr)]
  · intro i j
    show ((histogram.joint_hist.set a _).getD i []).getD j 0 = _
    by_cases hia : i = a
    · subst hia
      rw [getD_set_self _ _ _ _ haj]
      by_cases hjr : j = r
      · subst hjr; rw [if_pos ⟨rfl, rfl⟩, getD_set_self _ _ _ _ hrj]
      · rw [if_neg (fun h => hjr h.2), getD_set_ne _ _ _ _ _ (Ne.symm hjr)]
    · rw [if_neg (fun h => hia h.1), getD_set_ne _ _ _ _ _ (Ne.symm hia)]
  · refine ⟨?_, ?_, ?_, ?_⟩
    · show (histogram.joint_hist.set a _).length = n
      rw [List.length_set]; exact hj
    · intro row hrow1
      rcases List.mem_or_eq_of_mem_set hrow1 with hmem | heq
      · exact hrows row hmem
      · rw [heq, List.length_set]; exact hrow
    · show (histogram.intensity_hist.set a _).length = n
      rw [List.length_set]; exact hi
    · show (histogram.reflectance_hist.set r _).length = n
      rw [List.length_set]; exact hre

/-- C11, amended, on one pair: intensity 255 and reflectance 0 with bin fraction 128 on
the empty histogram of side 2. -/
theorem accepted_pair_increments_machine_witness :
    ∃ h1, accumulateMachine (sampleExternals 255) 128 ⟨1, 0, 0, 0⟩ ![1, 0, 0] (Histogram.new 2)
        sampleCamera = .ok h1 ∧
      h1.count = 1 ∧ h1.intensity_sum = 1 ∧ h1.reflectance_sum = 0 ∧
      h1.intensity_hist.getD 1 0 = 1 ∧ h1.intensity_hist.getD 0 0 = 0 ∧
      h1.reflectance_hist.getD 0 0 = 1 ∧ (h1.joint_hist.getD 1 []).getD 0 0 = 1 ∧
      (h1.joint_hist.getD 0 []).getD 0 0 = 0 := by
  obtain ⟨h1, hacc, hc, hi, hr, hih, hrh, hjh, -⟩ :=
    accepted_pair_increments_machine (sampleExternals 255) 128 ⟨1, 0, 0, 0⟩ ![1, 0, 0]
      (Histogram.new 2) sampleCamera ![0, 0] 1 0 2 0 0 0 rfl (Or.inl (by decide))
      (by simpa [sampleExternals] using quantizeMachine_128_255)
      (by simpa using quantizeMachine_128_zero)
      (Histogram.new_hasSide 2) (by decide) (by decide)
      (by simp [Histogram.new]) (by decide) (by simp [Histogram.new]) (by decide)
      (by simp [Histogram.new]) (by decide)
      (by constructor <;> decide) (by constructor <;> decide) (by constructor <;> decide)
  refine ⟨h1, hacc, ?_, ?_, ?_, ?_, ?_, ?_, ?_, ?_⟩
  · rw [hc]; rfl
  · rw [hi]; rfl
  · rw [hr]; rfl
  · rw [hih 1]; simp [Histogram.new]
  · rw [hih 0]; simp [Histogram.new]
  · rw [hrh 0]; simp [Histogram.new]
  · rw [hjh 1 0]; simp [Histogram.new]
  · rw [hjh 0 0]; simp [Histogram.new]

/-- C21 as stated fails on a large scan: after 16777217 equal pairs with one bin per axis
the histogram that `computeHistogram` returns in machine arithmetic has the count
16777217 while its three arrays total 16777216, because a binary32 cell at `2 ^ 24` no
longer grows. -/
theorem histogram_totals_miss_count :
    (repeatedPointCost 16777217).computeHistogramMachine (sampleExternals 0) ⟨1, 0⟩
        = .ok (saturatedHistogram 16777217) ∧
      (saturatedHistogram 16777217).count = 16777217 ∧
      (saturatedHistogram 16777217).intensity_hist.sum = 16777216 ∧
      (saturatedHistogram 16777217).reflectance_hist.sum = 16777216 ∧
      (rowSums (saturatedHistogram 16777217).joint_hist).sum = 16777216 ∧
      ((saturatedHistogram 16777217).intensity_hist.sum
        ≠ (((saturatedHistogram 16777217).count : Int) : ℚ)) := by
  refine ⟨computeHistogramMachine_repeated _ 16777217 (by norm_num), rfl, ?_, ?_, ?_, ?_⟩ <;>
    norm_num [saturatedHistogram, rowSums]

section machine_invariants

variable {F : Type} [LinearOrderedField F] [FloorRing F]

/-- C21, amended: for an input of at most `2 ^ 23 = 8388608` point/camera pairs, a
histogram that `computeHistogram` returns in machine arithmetic, which it does when every
quantized bin lies inside the grid, has `bin_count_` bins per axis; its intensity array is
the list of the row sums of the joint array and its reflectance array the list of the
column sums; the joint array, the intensity array and the reflectance array all total
`count`; `intensity_sum` and `reflectance_sum` are the sums over the bins `i` of `i` times
the cell `i` of the intensity and of the reflectance array; and `count` is at most the
number of pairs. Cells are binary32 numbers and counters 32-bit integers. -/
theorem histogram_marginals_match_joint_machine
    (self : NumericDiffMutualInformationCost F) (ext : Externals F) (T : Affine3 F)
    (h : Histogram F) (hpairs : self.pairCount ≤ 8388608)
    (hc : self.computeHistogramMachine ext T = .ok h) :
    h.hasSide self.bin_count_.toNat ∧
      rowSums h.joint_hist = h.intensity_hist ∧
      colSums self.bin_count_.toNat h.joint_hist = h.reflectance_hist ∧
      (rowSums h.joint_hist).sum = (h.count : F) ∧
      h.intensity_hist.sum = (h.count : F) ∧
      h.reflectance_hist.sum = (h.count : F) ∧
      (h.intensity_sum : F)
        = ∑ i ∈ Finset.range self.bin_count_.toNat, (i : F) * h.intensity_hist.getD i 0 ∧
      (h.reflectance_sum : F)
        = ∑ j ∈ Finset.range self.bin_count_.toNat, (j : F) * h.reflectance_hist.getD j 0 ∧
      0 ≤ h.count ∧ h.count ≤ (self.pairCount : Int) := by
  obtain ⟨⟨hside, hcons, hmarg, hwhole⟩, hcount⟩ :=
    computeHistogramMachine_sound self ext T h hpairs hc
  obtain ⟨-, -, -, his, hrs, hjs⟩ := hcons
  obtain ⟨hrow, hcol, hisum, hrsum⟩ := hmarg
  have hside1 := hside
  obtain ⟨hjl, -, hil, hrl⟩ := hside
  refine ⟨hside1, ?_, ?_, hjs, his, hrs, hisum, hrsum, hwhole.2.2.2.1, hcount⟩
  · refine List.ext_getElem (by simp [rowSums, hjl, hil]) ?_
    intro i h1 h2
    have hi : i < self.bin_count_.toNat := hil ▸ h2
    have hcell := hrow i hi
    rw [List.getD_eq_getElem _ _ h2, List.getD_eq_getElem _ _ (hjl ▸ hi)] at hcell
    simp [rowSums, hcell]
  · refine List.ext_getElem (by simp [colSums, hrl]) ?_
    intro j h1 h2
    have hj : j < self.bin_count_.toNat := hrl ▸ h2
    have hcell := hcol j hj
    rw [List.getD_eq_getElem _ _ h2] at hcell
    simp [colSums, hcell]

end machine_invariants

/-- The histogram of two accepted pairs with bin fraction 128 in machine arithmetic:
intensities 255 and 255, reflectances 7 and 200. -/
theorem computeHistogramMachine_two_samples :
    (NumericDiffMutualInformationCost.computeHistogramMachine
      { observations_ := [sampleObservation 7, sampleObservation 200], bin_count_ := 2,
        bin_fraction_ := 128 }
      (sampleExternals 255) ⟨1, 0⟩)
    = .ok { joint_hist := [[0, 0], [1, 1]], reflectance_hist := [1, 1],
            intensity_hist := [0, 2], count := 2, intensity_sum := 2, reflectance_sum := 1 } := by
  have r1 : round32 (1 : ℚ) = 1 := by
    have := round32_natCast (F := ℚ) 1 (by norm_num)
    simpa using this
  have r2 : round32 ((1 : ℚ) + 1) = 2 := by
    have := round32_natCast (F := ℚ) 2 (by norm_num)
    norm_num at this ⊢
    exact this
  have w0 : wrapInt 0 = 0 := by decide
  have w1 : wrapInt 1 = 1 := by decide
  have w2 : wrapInt 2 = 2 := by decide
  simp only [NumericDiffMutualInformationCost.computeHistogramMachine, accumulateScanMachine,
    sampleObservation, accumulateMachine, sampleExternals, sampleCamera, Mat.empty,
    List.map_nil, List.sum_nil, decide_True, true_or, if_true, quantizeMachine_128_255,
    quantizeMachine_128_7, quantizeMachine_128_200, incrAtMachine, incrAt2Machine,
    Histogram.new, List.foldlM_cons, List.foldlM_nil, bind, Except.bind, pure, Except.pure]
  simp [r1, r2, w0, w1, w2]

/-- C21, amended, on two accepted pairs at bin fraction 128: the histogram with joint
array `[[0, 0], [1, 1]]` has the intensity array `[0, 2]` of its row sums and the
reflectance array `[1, 1]` of its column sums. -/
theorem histogram_marginals_match_joint_machine_witness :
    NumericDiffMutualInformationCost.pairCount
        ({ observations_ := [sampleObservation 7, sampleObservation 200], bin_count_ := 2,
           bin_fraction_ := 128 } : NumericDiffMutualInformationCost ℚ) ≤ 8388608 ∧
    (NumericDiffMutualInformationCost.computeHistogramMachine
      { observations_ := [sampleObservation 7, sampleObservation 200], bin_count_ := 2,
        bin_fraction_ := 128 }
      (sampleExternals 255) ⟨1, 0⟩)
    = .ok { joint_hist := [[0, 0], [1, 1]], reflectance_hist := [1, 1],
            intensity_hist := [0, 2], count := 2, intensity_sum := 2, reflectance_sum := 1 } ∧
    rowSums [[(0 : ℚ), 0], [1, 1]] = [0, 2] ∧ colSums 2 [[(0 : ℚ), 0], [1, 1]] = [1, 1] ∧
    ((2 : Int) : ℚ) = ∑ i ∈ Finset.range 2, (i : ℚ) * ([0, 2] : List ℚ).getD i 0 ∧
    ((1 : Int) : ℚ) = ∑ j ∈ Finset.range 2, (j : ℚ) * ([1, 1] : List ℚ).getD j 0 := by
  have hp : NumericDiffMutualInformationCost.pairCount
      ({ observations_ := [sampleObservation 7, sampleObservation 200], bin_count_ := 2,
         bin_fraction_ := 128 } : NumericDiffMutualInformationCost ℚ) ≤ 8388608 := by
    simp [NumericDiffMutualInformationCost.pairCount, sampleObservation]
  have h := histogram_marginals_match_joint_machine _ _ _ _ hp
    computeHistogramMachine_two_samples
  exact ⟨hp, computeHistogramMachine_two_samples, h.2.1, h.2.2.1, h.2.2.2.2.2.2.1,
    h.2.2.2.2.2.2.2.1⟩

end camera_lidar_calibration

end hector_calibration

namespace hector_calibration

namespace camera_lidar_calibration

section normalize_machine_facts

variable {F : Type} [LinearOrderedField F] [FloorRing F]

/-- The inner loop of `computeProbability` in machine arithmetic on row `i`: the row
receives the binary32 quotients of the counts of row `i` of the joint histogram by the
count, the other rows stay. -/
theorem normalizeJointRowMachine (histogram : Histogram F) (i n : Nat) (dst : Mat F) (hi : i < n)
    (hh : histogram.joint_hist.length = n ∧ ∀ r ∈ histogram.joint_hist, r.length = n)
    (hd : dst.length = n ∧ ∀ r ∈ dst, r.length = n) :
    ∃ d, (List.range n).foldlM (normalizeJointCellMachine histogram i) dst = .ok d ∧
      (d.length = n ∧ ∀ r ∈ d, r.length = n) ∧
      (∀ i1, i1 ≠ i → d.getD i1 [] = dst.getD i1 []) ∧
      ∀ j < n, (d.getD i []).getD j 0
        = quotient32 ((histogram.joint_hist.getD i []).getD j 0) histogram.count := by
  have hhi : i < histogram.joint_hist.length := by rw [hh.1]; exact hi
  have hhrow : (histogram.joint_hist.getD i []).length = n :=
    hh.2 _ (getD_mem_of_lt _ _ _ hhi)
  obtain ⟨d, hd1, hside, hother, hrow⟩ := foldlM_range_invariant
    (fun k (d : Mat F) => (d.length = n ∧ ∀ r ∈ d, r.length = n) ∧
      (∀ i1, i1 ≠ i → d.getD i1 [] = dst.getD i1 []) ∧
      ∀ j < k, (d.getD i []).getD j 0
        = quotient32 ((histogram.joint_hist.getD i []).getD j 0) histogram.count)
    (normalizeJointCellMachine histogram i) n
    (by
      intro k hk d ⟨hside, hother, hrow⟩
      have hdi : i < d.length := by rw [hside.1]; exact hi
      have hdrow : (d.getD i []).length = n := hside.2 _ (getD_mem_of_lt _ _ _ hdi)
      have hkd : k < (d.getD i []).length := by rw [hdrow]; exact hk
      refine ⟨d.set i ((d.getD i []).set k
        (quotient32 ((histogram.joint_hist.getD i []).getD k 0) histogram.count)), ?_, ?_, ?_, ?_⟩
      · unfold normalizeJointCellMachine
        rw [readAt2_of_lt _ _ _ hhi (by rw [hhrow]; exact hk)]
        exact writeAt2_of_lt _ _ _ _ hdi hkd
      · exact set_row_side d i n _ hside (by rw [List.length_set]; exact hdrow)
      · intro i1 hi1
        rw [getD_set_ne _ _ _ _ _ (Ne.symm hi1)]
        exact hother i1 hi1
      · intro j hj
        rw [getD_set_self _ _ _ _ hdi]
        by_cases hjk : j = k
        · subst hjk
          rw [getD_set_self _ _ _ _ hkd]
        · rw [getD_set_ne _ _ _ _ _ (Ne.symm hjk)]
          exact hrow j (by omega))
    dst ⟨hd, fun _ _ => rfl, fun j hj => absurd hj (Nat.not_lt_zero j)⟩
  exact ⟨d, hd1, hside, hother, hrow⟩

/-- One pass of the loop of `computeProbability` in machine arithmetic. -/
theorem normalizeBinMachine_step (ext : Externals F) (bin_count_ : Int) (histogram : Histogram F)
    (mu_intensity mu_reflectance : F) (k : Nat) (hk : k < bin_count_.toNat)
    (hside : histogram.hasSide bin_count_.toNat) (st : F × F × Probability F)
    (hst : normalizedUpToMachine histogram bin_count_.toNat k st) :
    ∃ st1, normalizeBinMachine ext bin_count_ histogram mu_intensity mu_reflectance st k = .ok st1 ∧
      normalizedUpToMachine histogram bin_count_.toNat (k + 1) st1 := by
  obtain ⟨si, sr, prob⟩ := st
  obtain ⟨hpi, hpr, hpj, hci, hcr, hcj⟩ := hst
  simp only at hpi hpr hpj hci hcr hcj
  obtain ⟨hj, hrows, hi, hr⟩ := hside
  have hki : k < histogram.intensity_hist.length := by rw [hi]; exact hk
  have hkr : k < histogram.reflectance_hist.length := by rw [hr]; exact hk
  have hkpi : k < prob.intensity_prob.length := by rw [hpi]; exact hk
  have hkpr : k < prob.reflectance_prob.length := by rw [hpr]; exact hk
  obtain ⟨d, hd, hdside, hdother, hdrow⟩ :=
    normalizeJointRowMachine histogram k bin_count_.toNat prob.joint_prob hk ⟨hj, hrows⟩ hpj
  refine ⟨(round64 (si + round64 (histogram.intensity_hist[k]
      * ext.pow (round32 ((k : F) - mu_intensity)) 2)),
    round64 (sr + round64 (histogram.reflectance_hist[k]
      * ext.pow (round32 ((k : F) - mu_reflectance)) 2)),
    { prob with
      intensity_prob := prob.intensity_prob.set k
        (quotient32 histogram.intensity_hist[k] histogram.count)
      reflectance_prob := prob.reflectance_prob.set k
        (quotient32 histogram.reflectance_hist[k] histogram.count)
      joint_prob := d }), ?_, ?_⟩
  · unfold normalizeBinMachine
    simp only [readAt_of_lt _ _ hki, readAt_of_lt _ _ hkr, writeAt, if_pos hkpi, if_pos hkpr,
      hd, bind, Except.bind, pure, Except.pure]
  · refine ⟨?_, ?_, hdside, ?_, ?_, ?_⟩
    · show (prob.intensity_prob.set k _).length = _
      rw [List.length_set]; exact hpi
    · show (prob.reflectance_prob.set k _).length = _
      rw [List.length_set]; exact hpr
    · intro i hik
      show (prob.intensity_prob.set k _).getD i 0 = _
      by_cases h : i = k
      · subst h
        rw [getD_set_self _ _ _ _ hkpi, List.getD_eq_getElem _ _ hki]
      · rw [getD_set_ne _ _ _ _ _ (Ne.symm h)]
        exact hci i (by omega)
    · intro i hik
      show (prob.reflectance_prob.set k _).getD i 0 = _
      by_cases h : i = k
      · subst h
        rw [getD_set_self _ _ _ _ hkpr, List.getD_eq_getElem _ _ hkr]
      · rw [getD_set_ne _ _ _ _ _ (Ne.symm h)]
        exact hcr i (by omega)
    · intro i hik j hjn
      show (d.getD i []).getD j 0 = _
      by_cases h : i = k
      · subst h
        exact hdrow j hjn
      · rw [hdother i h]
        exact hcj i (by omega) j hjn

/-- The loop of `computeProbability` in machine arithmetic on a histogram of side
`bin_count_` returns, and all cells then hold the binary32 quotients of the counts by the
count. -/
theorem normalizeHistogramMachine_spec (self : NumericDiffMutualInformationCost F)
    (ext : Externals F) (histogram : Histogram F) (mu_intensity mu_reflectance : F)
    (hside : histogram.hasSide self.bin_count_.toNat) :
    ∃ st, self.normalizeHistogramMachine ext histogram mu_intensity mu_reflectance = .ok st ∧
      normalizedUpToMachine histogram self.bin_count_.toNat self.bin_count_.toNat st := by
  unfold NumericDiffMutualInformationCost.normalizeHistogramMachine
  apply foldlM_range_invariant (fun k st => normalizedUpToMachine histogram self.bin_count_.toNat k st)
  · intro k hk st hst
    exact normalizeBinMachine_step ext self.bin_count_ histogram mu_intensity mu_reflectance k hk
      hside st hst
  · refine ⟨?_, ?_, ⟨?_, ?_⟩, ?_, ?_, ?_⟩
    · simp [Probability.new]
    · simp [Probability.new]
    · simp [Probability.new]
    · intro r hr
      simp only [Probability.new, List.mem_replicate] at hr
      rw [hr.2, List.length_replicate]
    · intro i hi; exact absurd hi (Nat.not_lt_zero i)
    · intro i hi; exact absurd hi (Nat.not_lt_zero i)
    · intro i hi; exact absurd hi (Nat.not_lt_zero i)

end normalize_machine_facts

end camera_lidar_calibration

end hector_calibration

namespace hector_calibration

namespace camera_lidar_calibration

section machine_normalized_sums

variable {F : Type} [LinearOrderedField F] [FloorRing F]

omit [FloorRing F] in
/-- A list whose cells are within a relative distance `e` of the cells of another list
has its sum within the relative distance `e` of the other sum. -/
theorem sum_near (l y : List F) (n : Nat) (e : F) (hl : l.length = n) (hy : y.length = n)
    (h : ∀ i < n, |l.getD i 0 - y.getD i 0| ≤ e * y.getD i 0) :
    |l.sum - y.sum| ≤ e * y.sum := by
  rw [sum_eq_sum_range_getD l, sum_eq_sum_range_getD y, hl, hy, ← Finset.sum_sub_distrib,
    Finset.mul_sum]
  exact le_trans (Finset.abs_sum_le_sum_abs _ _)
    (Finset.sum_le_sum (fun i hi => h i (Finset.mem_range.mp hi)))

/-- A count of at most `2 ^ 24` is converted to `float` exactly. -/
theorem round32_count (count : Int) (h0 : 0 ≤ count) (h1 : count ≤ 16777216) :
    round32 ((count : Int) : F) = (count : F) := by
  obtain ⟨m, rfl⟩ := Int.eq_ofNat_of_zero_le h0
  rw [Int.cast_natCast]
  exact round32_natCast m (by omega)

/-- A binary32 quotient of a cell that holds a whole number by a positive count of at
most `2 ^ 24` is non-negative and within `2 ^ (-24)` times the exact quotient of it: the
quotient is zero or at least `2 ^ (-24)`, so it lies in the normal range. -/
theorem quotient32_near (cell : F) (count : Int) (hw : ∃ k : Nat, cell = (k : F))
    (h0 : 0 < count) (h1 : count ≤ 16777216) :
    0 ≤ quotient32 cell count ∧
      |quotient32 cell count - cell / (count : F)| ≤ 2 ^ (-(24 : Int)) * (cell / (count : F)) := by
  obtain ⟨k, rfl⟩ := hw
  have hc : (0 : F) < (count : F) := by exact_mod_cast h0
  have hq : 0 ≤ (k : F) / (count : F) := div_nonneg (Nat.cast_nonneg k) (le_of_lt hc)
  have hnormal : (k : F) / (count : F) = 0 ∨ (2 : F) ^ (-126 : Int) ≤ |(k : F) / (count : F)| := by
    rcases Nat.eq_zero_or_pos k with hk | hk
    · left
      rw [hk]
      simp
    · right
      rw [abs_of_nonneg hq, le_div_iff₀ hc]
      have hk1 : (1 : F) ≤ (k : F) := by exact_mod_cast hk
      have hc1 : (count : F) ≤ 16777216 := by exact_mod_cast h1
      have hp : (2 : F) ^ (-126 : Int) * 16777216 ≤ 1 := by norm_num
      calc (2 : F) ^ (-126 : Int) * (count : F)
          ≤ (2 : F) ^ (-126 : Int) * 16777216 :=
            mul_le_mul_of_nonneg_left hc1 (le_of_lt (zpow_pos (by norm_num) _))
        _ ≤ 1 := hp
        _ ≤ (k : F) := hk1
  unfold quotient32
  rw [round32_count count (le_of_lt h0) h1]
  refine ⟨roundBinary_nonneg 24 (-126) _ hq, ?_⟩
  have h := roundBinary_error 24 (-126) ((k : F) / (count : F)) hnormal
  rw [abs_of_nonneg hq] at h
  exact h

/-- A list of binary32 quotients of cells that hold whole numbers by a positive count of
at most `2 ^ 24` is non-negative, and its sum is within `2 ^ (-24)` times the exact
quotient of the sum of the cells by the count. -/
theorem quotients_sum_near (l a : List F) (n : Nat) (count : Int) (h0 : 0 < count)
    (h1 : count ≤ 16777216) (hl : l.length = n) (ha : a.length = n)
    (ha0 : ∀ x ∈ a, ∃ k : Nat, x = (k : F))
    (h : ∀ i < n, l.getD i 0 = quotient32 (a.getD i 0) count) :
    (∀ x ∈ l, 0 ≤ x) ∧
      |l.sum - a.sum / (count : F)| ≤ 2 ^ (-(24 : Int)) * (a.sum / (count : F)) := by
  constructor
  · apply forall_mem_of_forall_getD l 0
    intro i hi
    rw [hl] at hi
    rw [h i hi]
    exact (quotient32_near _ count (ha0 _ (getD_mem_of_lt a 0 i (by rw [ha]; exact hi)))
      h0 h1).1
  · have hy : (a.map (fun x => x / (count : F))).length = n := by
      rw [List.length_map]; exact ha
    have hyi : ∀ i < n, (a.map (fun x => x / (count : F))).getD i 0
        = a.getD i 0 / (count : F) := fun i hi =>
      getD_map_of_lt (fun x => x / (count : F)) a i 0 0 (by rw [ha]; exact hi)
    have hsum : (a.map (fun x => x / (count : F))).sum = a.sum / (count : F) :=
      sum_of_getD_div _ a n _ hy ha hyi
    rw [← hsum]
    apply sum_near l _ n _ hl hy
    intro i hi
    rw [h i hi, hyi i hi]
    exact (quotient32_near _ count (ha0 _ (getD_mem_of_lt a 0 i (by rw [ha]; exact hi)))
      h0 h1).2

/-- The arrays after the loop of `computeProbability` in machine arithmetic on a
consistent histogram of whole numbers with a positive count of at most `2 ^ 24`:
non-negative, each of a total within `2 ^ (-24)` of 1. -/
theorem normalizedUpToMachine_sums (histogram : Histogram F) (n : Nat)
    (st : F × F × Probability F) (hside : histogram.hasSide n) (hcons : histogram.consistent)
    (hwhole : histogram.whole) (hcount : 0 < histogram.count) (hcount24 : histogram.count ≤ 16777216)
    (hst : normalizedUpToMachine histogram n n st) :
    (∀ x ∈ st.2.2.intensity_prob, 0 ≤ x) ∧ (∀ x ∈ st.2.2.reflectance_prob, 0 ≤ x) ∧
    (∀ row ∈ st.2.2.joint_prob, ∀ x ∈ row, 0 ≤ x) ∧
    |st.2.2.intensity_prob.sum - 1| ≤ 2 ^ (-(24 : Int)) ∧
    |st.2.2.reflectance_prob.sum - 1| ≤ 2 ^ (-(24 : Int)) ∧
    |(rowSums st.2.2.joint_prob).sum - 1| ≤ 2 ^ (-(24 : Int)) := by
  obtain ⟨hj, hrows, hi, hr⟩ := hside
  obtain ⟨-, -, -, his, hrs, hjs⟩ := hcons
  obtain ⟨hi0, hr0, hj0, -⟩ := hwhole
  obtain ⟨hpi, hpr, hpj, hci, hcr, hcj⟩ := hst
  have hc : (0 : F) < (histogram.count : F) := by exact_mod_cast hcount
  have hcne : (histogram.count : F) ≠ 0 := ne_of_gt hc
  have hrowlen : ∀ i < n, (st.2.2.joint_prob.getD i []).length = n := fun i hi1 =>
    hpj.2 _ (getD_mem_of_lt _ _ _ (by rw [hpj.1]; exact hi1))
  have hhrowlen : ∀ i < n, (histogram.joint_hist.getD i []).length = n := fun i hi1 =>
    hrows _ (getD_mem_of_lt _ _ _ (by rw [hj]; exact hi1))
  have hI := quotients_sum_near _ _ n histogram.count hcount hcount24 hpi hi hi0 hci
  have hR := quotients_sum_near _ _ n histogram.count hcount hcount24 hpr hr hr0 hcr
  have hrow : ∀ i < n, (∀ x ∈ st.2.2.joint_prob.getD i [], 0 ≤ x) ∧
      |(st.2.2.joint_prob.getD i []).sum
          - (histogram.joint_hist.getD i []).sum / (histogram.count : F)|
        ≤ 2 ^ (-(24 : Int)) * ((histogram.joint_hist.getD i []).sum / (histogram.count : F)) :=
    fun i hi1 => quotients_sum_near _ _ n histogram.count hcount hcount24 (hrowlen i hi1)
      (hhrowlen i hi1) (hj0 _ (getD_mem_of_lt _ _ _ (by rw [hj]; exact hi1))) (hcj i hi1)
  refine ⟨hI.1, hR.1, ?_, ?_, ?_, ?_⟩
  · apply forall_mem_of_forall_getD st.2.2.joint_prob []
    intro i hi1
    rw [hpj.1] at hi1
    exact (hrow i hi1).1
  · have h := hI.2
    rw [his, div_self hcne, mul_one] at h
    exact h
  · have h := hR.2
    rw [hrs, div_self hcne, mul_one] at h
    exact h
  · have hrs1 : (rowSums st.2.2.joint_prob).length = n := by
      simp only [rowSums, List.length_map]; exact hpj.1
    have hrs2 : (rowSums histogram.joint_hist).length = n := by
      simp only [rowSums, List.length_map]; exact hj
    have hy : ((rowSums histogram.joint_hist).map (fun x => x / (histogram.count : F))).length
        = n := by
      rw [List.length_map]; exact hrs2
    have hyi : ∀ i < n,
        ((rowSums histogram.joint_hist).map (fun x => x / (histogram.count : F))).getD i 0
          = (histogram.joint_hist.getD i []).sum / (histogram.count : F) := by
      intro i hi1
      rw [getD_map_of_lt (fun x => x / (histogram.count : F)) _ i 0 0 (by rw [hrs2]; exact hi1),
        List.getD_eq_getElem _ _ (by rw [hrs2]; exact hi1),
        List.getD_eq_getElem _ _ (by rw [hj]; exact hi1)]
      simp [rowSums]
    have hsum : ((rowSums histogram.joint_hist).map (fun x => x / (histogram.count : F))).sum
        = 1 := by
      rw [sum_of_getD_div _ (rowSums histogram.joint_hist) n (histogram.count : F) hy hrs2
        (fun i hi1 => getD_map_of_lt (fun x => x / (histogram.count : F)) _ i 0 0
          (by rw [hrs2]; exact hi1)), hjs, div_self hcne]
    have h := sum_near (rowSums st.2.2.joint_prob)
      ((rowSums histogram.joint_hist).map (fun x => x / (histogram.count : F))) n
      (2 ^ (-(24 : Int))) hrs1 hy (by
        intro i hi1
        have h1 : (rowSums st.2.2.joint_prob).getD i 0
            = (st.2.2.joint_prob.getD i []).sum := by
          rw [List.getD_eq_getElem _ _ (by rw [hrs1]; exact hi1),
            List.getD_eq_getElem _ _ (by rw [hpj.1]; exact hi1)]
          simp [rowSums]
        rw [h1, hyi i hi1]
        exact (hrow i hi1).2)
    rw [hsum, mul_one] at h
    exact h

end machine_normalized_sums

end camera_lidar_calibration

end hector_calibration

namespace hector_calibration

section concrete_rounding

variable {F : Type} [LinearOrderedField F] [FloorRing F]

/-- The binary32 rounding of a positive number from its binary exponent `e` and the
integer `k` nearest to its significand scaled by `2 ^ (23 - e)`. -/
theorem round32_eq (x : F) (e k : Int) (h1 : (2 : F) ^ e ≤ x) (h2 : x < (2 : F) ^ (e + 1))
    (he : -126 ≤ e) (hk1 : (k : F) - 1 / 2 < x / 2 ^ (e - 23)) (hk2 : x / 2 ^ (e - 23) < (k : F) + 1 / 2) :
    round32 x = (k : F) * 2 ^ (e - 23) := by
  have hx : 0 < x := lt_of_lt_of_le (zpow_pos (by norm_num) e) h1
  have he1 : e - ((24 : Nat) : Int) + 1 = e - 23 := by push_cast; ring
  unfold round32 roundBinary
  rw [if_neg (ne_of_gt hx), if_pos hx, roundPositive_eq 24 (-126) x e k h1 h2 he, he1]
  rw [he1]
  exact roundHalfEven_of_near _ k hk1 hk2

end concrete_rounding

namespace camera_lidar_calibration

/-- The binary32 quotient 1 / 3. -/
theorem quotient32_one_three : quotient32 (1 : ℚ) 3 = 11184811 / 33554432 := by
  have h3 : round32 (((3 : Int) : ℚ)) = 3 := by
    have := round32_natCast (F := ℚ) 3 (by norm_num)
    simpa using this
  unfold quotient32
  rw [h3, round32_eq (1 / 3 : ℚ) (-2) 11184811 (by norm_num) (by norm_num) (by norm_num) (by norm_num)
    (by norm_num)]
  norm_num

/-- The binary32 quotient 2 / 3. -/
theorem quotient32_two_three : quotient32 (2 : ℚ) 3 = 11184811 / 16777216 := by
  have h3 : round32 (((3 : Int) : ℚ)) = 3 := by
    have := round32_natCast (F := ℚ) 3 (by norm_num)
    simpa using this
  unfold quotient32
  rw [h3, round32_eq (2 / 3 : ℚ) (-1) 11184811 (by norm_num) (by norm_num) (by norm_num) (by norm_num)
    (by norm_num)]
  norm_num

/-- The histogram of three accepted pairs with bin fraction 128 in machine arithmetic:
intensities 255, reflectances 7, 200 and 200. -/
theorem computeHistogramMachine_three_samples :
    (NumericDiffMutualInformationCost.computeHistogramMachine
      { observations_ := [sampleObservation 7, sampleObservation 200, sampleObservation 200],
        bin_count_ := 2, bin_fraction_ := 128 }
      (sampleExternals 255) ⟨1, 0⟩)
    = .ok { joint_hist := [[0, 0], [1, 2]], reflectance_hist := [1, 2],
            intensity_hist := [0, 3], count := 3, intensity_sum := 3, reflectance_sum := 2 } := by
  have r1 : round32 (1 : ℚ) = 1 := by
    have := round32_natCast (F := ℚ) 1 (by norm_num)
    simpa using this
  have r2 : round32 ((1 : ℚ) + 1) = 2 := by
    have := round32_natCast (F := ℚ) 2 (by norm_num)
    norm_num at this ⊢
    exact this
  have r3 : round32 ((2 : ℚ) + 1) = 3 := by
    have := round32_natCast (F := ℚ) 3 (by norm_num)
    norm_num at this ⊢
    exact this
  have w0 : wrapInt 0 = 0 := by decide
  have w1 : wrapInt 1 = 1 := by decide
  have w2 : wrapInt 2 = 2 := by decide
  have w3 : wrapInt 3 = 3 := by decide
  simp only [NumericDiffMutualInformationCost.computeHistogramMachine, accumulateScanMachine,
    sampleObservation, accumulateMachine, sampleExternals, sampleCamera, Mat.empty,
    List.map_nil, List.sum_nil, decide_True, true_or, if_true, quantizeMachine_128_255,
    quantizeMachine_128_7, quantizeMachine_128_200, incrAtMachine, incrAt2Machine,
    Histogram.new, List.foldlM_cons, List.foldlM_nil, bind, Except.bind, pure, Except.pure]
  simp [r1, r2, r3, w0, w1, w2, w3]

/-- C13 as stated fails: on the histogram of three accepted pairs that `computeHistogram`
returns in machine arithmetic, with reflectance counts 1 and 2 of 3, the reflectance array
that the loop of `computeProbability` builds holds the binary32 quotients 1/3 and 2/3, and
their sum is `33554433 / 33554432`, not 1. -/
theorem normalized_reflectance_sum_exceeds_one :
    (NumericDiffMutualInformationCost.computeHistogramMachine
      { observations_ := [sampleObservation 7, sampleObservation 200, sampleObservation 200],
        bin_count_ := 2, bin_fraction_ := 128 }
      (sampleExternals 255) ⟨1, 0⟩)
    = .ok { joint_hist := [[0, 0], [1, 2]], reflectance_hist := [1, 2],
            intensity_hist := [0, 3], count := 3, intensity_sum := 3, reflectance_sum := 2 } ∧
    ∀ mu_intensity mu_reflectance : ℚ, ∃ st,
      NumericDiffMutualInformationCost.normalizeHistogramMachine
        { observations_ := [sampleObservation 7, sampleObservation 200, sampleObservation 200],
          bin_count_ := 2, bin_fraction_ := 128 } (sampleExternals 255)
        { joint_hist := [[0, 0], [1, 2]], reflectance_hist := [1, 2],
          intensity_hist := [0, 3], count := 3, intensity_sum := 3, reflectance_sum := 2 }
        mu_intensity mu_reflectance = .ok st ∧
      st.2.2.reflectance_prob.getD 0 0 = 11184811 / 33554432 ∧
      st.2.2.reflectance_prob.getD 1 0 = 11184811 / 16777216 ∧
      st.2.2.reflectance_prob.sum = 33554433 / 33554432 ∧
      st.2.2.reflectance_prob.sum ≠ 1 := by
  refine ⟨computeHistogramMachine_three_samples, ?_⟩
  intro mu_intensity mu_reflectance
  obtain ⟨st, hst, -, hlen, -, -, hcr, -⟩ := normalizeHistogramMachine_spec
    ({ observations_ := [sampleObservation 7, sampleObservation 200, sampleObservation 200],
       bin_count_ := 2, bin_fraction_ := 128 } : NumericDiffMutualInformationCost ℚ)
    (sampleExternals 255)
    { joint_hist := [[0, 0], [1, 2]], reflectance_hist := [1, 2],
      intensity_hist := [0, 3], count := 3, intensity_sum := 3, reflectance_sum := 2 }
    mu_intensity mu_reflectance
    ⟨rfl, by
      intro row hrow
      simp only [List.mem_cons, List.mem_singleton, List.not_mem_nil, or_false] at hrow
      rcases hrow with rfl | rfl <;> rfl, rfl, rfl⟩
  have h0 : st.2.2.reflectance_prob.getD 0 0 = 11184811 / 33554432 := by
    rw [hcr 0 (by decide)]
    exact quotient32_one_three
  have h1 : st.2.2.reflectance_prob.getD 1 0 = 11184811 / 16777216 := by
    rw [hcr 1 (by decide)]
    exact quotient32_two_three
  have hsum : st.2.2.reflectance_prob.sum = 33554433 / 33554432 := by
    rw [sum_eq_sum_range_getD, hlen]
    show ∑ i ∈ Finset.range 2, st.2.2.reflectance_prob.getD i 0 = _
    rw [Finset.sum_range_succ, Finset.sum_range_one, h0, h1]
    norm_num
  exact ⟨st, hst, h0, h1, hsum, by rw [hsum]; norm_num⟩

/-- C13, amended: for an input of at most `2 ^ 23` point/camera pairs and a histogram that
`computeHistogram` returns in machine arithmetic with a positive count, the loop of
`computeProbability` returns; each cell of the three arrays it has built before the
smoothing is the binary32 quotient of the count cell by the count, all cells are
non-negative, and the intensity marginal, the reflectance marginal and the joint array
each have a total within `2 ^ (-24)` of 1. -/
theorem normalized_arrays_sum_near_one {F : Type} [LinearOrderedField F] [FloorRing F]
    (self : NumericDiffMutualInformationCost F) (ext : Externals F) (T : Affine3 F)
    (histogram : Histogram F) (mu_intensity mu_reflectance : F)
    (hpairs : self.pairCount ≤ 8388608)
    (hhist : self.computeHistogramMachine ext T = .ok histogram)
    (hcount : 0 < histogram.count) :
    ∃ st, self.normalizeHistogramMachine ext histogram mu_intensity mu_reflectance = .ok st ∧
      normalizedUpToMachine histogram self.bin_count_.toNat self.bin_count_.toNat st ∧
      (∀ x ∈ st.2.2.intensity_prob, 0 ≤ x) ∧ (∀ x ∈ st.2.2.reflectance_prob, 0 ≤ x) ∧
      (∀ row ∈ st.2.2.joint_prob, ∀ x ∈ row, 0 ≤ x) ∧
      |st.2.2.intensity_prob.sum - 1| ≤ 2 ^ (-(24 : Int)) ∧
      |st.2.2.reflectance_prob.sum - 1| ≤ 2 ^ (-(24 : Int)) ∧
      |(rowSums st.2.2.joint_prob).sum - 1| ≤ 2 ^ (-(24 : Int)) := by
  obtain ⟨⟨hside, hcons, -, hwhole⟩, hle⟩ :=
    computeHistogramMachine_sound self ext T histogram hpairs hhist
  obtain ⟨st, hst, hnorm⟩ := normalizeHistogramMachine_spec self ext histogram mu_intensity
    mu_reflectance hside
  have h24 : histogram.count ≤ 16777216 := by
    have : (self.pairCount : Int) ≤ 8388608 := by exact_mod_cast hpairs
    omega
  exact ⟨st, hst, hnorm,
    normalizedUpToMachine_sums histogram _ st hside hcons hwhole hcount h24 hnorm⟩

/-- C13, amended, on the histogram of three accepted pairs: the loop returns and the
reflectance array has a total within `2 ^ (-24)` of 1. -/
theorem normalized_arrays_sum_near_one_witness :
    NumericDiffMutualInformationCost.pairCount
        ({ observations_ := [sampleObservation 7, sampleObservation 200, sampleObservation 200],
           bin_count_ := 2, bin_fraction_ := 128 } : NumericDiffMutualInformationCost ℚ)
        ≤ 8388608 ∧
    ∃ st, NumericDiffMutualInformationCost.normalizeHistogramMachine
        { observations_ := [sampleObservation 7, sampleObservation 200, sampleObservation 200],
          bin_count_ := 2, bin_fraction_ := 128 } (sampleExternals 255)
        { joint_hist := [[0, 0], [1, 2]], reflectance_hist := [1, 2],
          intensity_hist := [0, 3], count := 3, intensity_sum := 3, reflectance_sum := 2 }
        1 0 = .ok st ∧
      |st.2.2.intensity_prob.sum - 1| ≤ 2 ^ (-(24 : Int)) ∧
      |st.2.2.reflectance_prob.sum - 1| ≤ 2 ^ (-(24 : Int)) ∧
      |(rowSums st.2.2.joint_prob).sum - 1| ≤ 2 ^ (-(24 : Int)) := by
  have hp : NumericDiffMutualInformationCost.pairCount
      ({ observations_ := [sampleObservation 7, sampleObservation 200, sampleObservation 200],
         bin_count_ := 2, bin_fraction_ := 128 } : NumericDiffMutualInformationCost ℚ)
      ≤ 8388608 := by
    simp [NumericDiffMutualInformationCost.pairCount, sampleObservation]
  obtain ⟨st, hst, -, -, -, -, h1, h2, h3⟩ :=
    normalized_arrays_sum_near_one _ (sampleExternals 255) ⟨1, 0⟩ _ 1 0 hp
      computeHistogramMachine_three_samples (by decide)
  exact ⟨hp, st, hst, h1, h2, h3⟩

end camera_lidar_calibration

end hector_calibration

namespace hector_calibration

namespace camera_lidar_calibration

section machine_entropy_facts

variable {F : Type} [LinearOrderedField F] [FloorRing F]

/-- The value `1e-7` stored in a `float` is positive and at most 1. -/
theorem round32_eps_bounds : (0 : F) < round32 (1e-7 : F) ∧ round32 (1e-7 : F) ≤ 1 := by
  have hpos : (0 : F) < 1e-7 := by norm_num
  have h := roundBinary_error 24 (-126) (1e-7 : F) (Or.inr (by
    rw [abs_of_pos hpos]
    norm_num))
  rw [abs_of_pos hpos, abs_le] at h
  have h24 : (2 : F) ^ (-(24 : Int)) ≤ 1 / 2 := by
    rw [zpow_neg, zpow_ofNat]
    norm_num
  have h24' : (0 : F) < 2 ^ (-(24 : Int)) := zpow_pos (by norm_num) _
  unfold round32
  constructor
  · nlinarith [h.1]
  · have : (1e-7 : F) ≤ 1 / 2 := by norm_num
    nlinarith [h.2]

/-- The copy without zeros holds a positive cell of at most 1 for every cell of
`[0, 1]`. -/
theorem noZero_bounds (p : F) (h0 : 0 ≤ p) (h1 : p ≤ 1) :
    0 < (if p = 0 then round32 (1e-7 : F) else p) ∧
      (if p = 0 then round32 (1e-7 : F) else p) ≤ 1 := by
  split_ifs with hp
  · exact round32_eps_bounds
  · exact ⟨lt_of_le_of_ne h0 (Ne.symm hp), h1⟩

/-- For a cell of `[0, 1]` the product of the entropy is a number. -/
theorem entropyCellMachine_eq (ext : Externals F) (p : F) (h0 : 0 ≤ p) (h1 : p ≤ 1) :
    entropyCellMachine ext p = some (entropyTermMachine ext.log p) := by
  unfold entropyCellMachine logCell entropyTermMachine
  rw [if_pos (noZero_bounds p h0 h1).1]
  rfl

/-- For a row of cells in `[0, 1]` all products of the entropy are numbers. -/
theorem rowEntropyMachine_eq (ext : Externals F) (row : List F)
    (h01 : ∀ p ∈ row, 0 ≤ p ∧ p ≤ 1) :
    rowEntropyMachine ext row = some (row.map (entropyTermMachine ext.log)) := by
  induction row with
  | nil => rfl
  | cons p row ih =>
    have hp := h01 p (List.mem_cons_self p row)
    have hrest := ih (fun q hq => h01 q (List.mem_cons_of_mem p hq))
    simp only [rowEntropyMachine, entropyCellMachine_eq ext p hp.1 hp.2, hrest, List.map_cons,
      bind, Option.bind, pure]

/-- For a joint array of cells in `[0, 1]` all products of the entropy are numbers. -/
theorem matEntropyMachine_eq (ext : Externals F) (m : Mat F)
    (h01 : ∀ row ∈ m, ∀ p ∈ row, 0 ≤ p ∧ p ≤ 1) :
    matEntropyMachine ext m = some (m.map (fun row => row.map (entropyTermMachine ext.log))) := by
  induction m with
  | nil => rfl
  | cons row m ih =>
    have hrow := rowEntropyMachine_eq ext row (h01 row (List.mem_cons_self row m))
    have hrest := ih (fun r hr => h01 r (List.mem_cons_of_mem row hr))
    simp only [matEntropyMachine, hrow, hrest, List.map_cons, bind, Option.bind, pure]

/-- A zero probability contributes the product 0. -/
theorem entropyTermMachine_zero (log : F → F) : entropyTermMachine log (0 : F) = 0 := by
  unfold entropyTermMachine round32
  rw [zero_mul]
  exact roundBinary_zero 24 (-126)

end machine_entropy_facts

end camera_lidar_calibration

end hector_calibration

namespace hector_calibration

section concrete_rounding_ties

variable {F : Type} [LinearOrderedField F] [FloorRing F]

/-- A tie above an odd integer rounds up to the next integer. -/
theorem roundHalfEven_tie_odd (k : Int) (hk : k % 2 = 1) :
    roundHalfEven ((k : F) + 1 / 2) = k + 1 := by
  unfold roundHalfEven
  have hf : Int.floor ((k : F) + 1 / 2) = k := by
    rw [Int.floor_eq_iff]
    exact ⟨by linarith, by linarith⟩
  rw [hf, if_neg (by simp), if_neg (by simp), if_neg (by omega)]

/-- The binary32 rounding of a positive number from its binary exponent `e` and the
rounding `k` of its significand scaled by `2 ^ (23 - e)`. -/
theorem round32_of_scaled (x : F) (e k : Int) (h1 : (2 : F) ^ e ≤ x)
    (h2 : x < (2 : F) ^ (e + 1)) (he : -126 ≤ e)
    (hk : roundHalfEven (x / 2 ^ (e - 23)) = k) :
    round32 x = (k : F) * 2 ^ (e - 23) := by
  have hx : 0 < x := lt_of_lt_of_le (zpow_pos (by norm_num) e) h1
  have he1 : e - ((24 : Nat) : Int) + 1 = e - 23 := by push_cast; ring
  unfold round32 roundBinary
  rw [if_neg (ne_of_gt hx), if_pos hx, roundPositive_eq 24 (-126) x e k h1 h2 he, he1]
  rw [he1]
  exact hk

/-- The binary32 rounding of a positive number from its binary exponent `e` and bounds
that place it within half a unit in the last place of `k * 2 ^ (e - 23)`. -/
theorem round32_of_bounds (x : F) (e k : Int) (h1 : (2 : F) ^ e ≤ x)
    (h2 : x < (2 : F) ^ (e + 1)) (he : -126 ≤ e)
    (hk1 : ((k : F) - 1 / 2) * 2 ^ (e - 23) < x)
    (hk2 : x < ((k : F) + 1 / 2) * 2 ^ (e - 23)) :
    round32 x = (k : F) * 2 ^ (e - 23) := by
  have hs : (0 : F) < 2 ^ (e - 23) := zpow_pos (by norm_num) _
  exact round32_of_scaled x e k h1 h2 he
    (roundHalfEven_of_near _ k ((lt_div_iff₀ hs).mpr hk1) ((div_lt_iff₀ hs).mpr hk2))

/-- The binary32 rounding of a positive number with binary exponent `e` that lies halfway
between `f * 2 ^ (e - 23)` and the next `float`: the one with the even significand. -/
theorem round32_of_tie (x : F) (e f k : Int) (h1 : (2 : F) ^ e ≤ x)
    (h2 : x < (2 : F) ^ (e + 1)) (he : -126 ≤ e)
    (hx : x = ((f : F) + 1 / 2) * 2 ^ (e - 23))
    (hk : k = if f % 2 = 0 then f else f + 1) :
    round32 x = (k : F) * 2 ^ (e - 23) := by
  have hs : (0 : F) < 2 ^ (e - 23) := zpow_pos (by norm_num) _
  apply round32_of_scaled x e k h1 h2 he
  have hq : x / 2 ^ (e - 23) = (f : F) + 1 / 2 := by
    rw [hx, mul_div_assoc, div_self (ne_of_gt hs), mul_one]
  rw [hq, hk]
  split_ifs with hf
  · exact roundHalfEven_tie_even f hf
  · exact roundHalfEven_tie_odd f (by omega)

/-- Binary32 rounding is symmetric in the sign. -/
theorem round32_neg (x : F) : round32 (-x) = -round32 x :=
  roundBinary_neg 24 (-126) x

/-- A `double` holds `n / 2 ^ k` exactly when `n` has at most 53 bits and `k` is at most
1074. -/
theorem round64_exact (n k : Nat) (hn : n ≤ 2 ^ 53) (hk : k ≤ 1074) (x : F)
    (hx : x = (n : F) / 2 ^ k) : round64 x = x := by
  rw [hx]
  exact roundBinary_dyadic 53 (-1022) n k (by norm_num) hn (by push_cast; omega)

end concrete_rounding_ties

end hector_calibration


namespace hector_calibration

section float_logarithms

/-- Bounds of the natural logarithm of 3/4 from sixteen terms of its series. -/
theorem log_three_quarters_bounds :
    (-11507282901 / 40000000000 : ℝ) < Real.log (3 / 4) ∧
      Real.log (3 / 4) < (-179801295231 / 625000000000 : ℝ) := by
  have h := Real.abs_log_sub_add_sum_range_le (x := 1 / 4) (by rw [abs_of_pos] <;> norm_num) 16
  rw [show (1 : ℝ) - 1 / 4 = 3 / 4 by norm_num, abs_of_pos (by norm_num : (0 : ℝ) < 1 / 4),
    abs_le] at h
  simp only [Finset.sum_range_succ, Finset.sum_range_zero] at h
  norm_num at h
  constructor <;> linarith [h.1, h.2]

/-- Bounds of the natural logarithm of 15/16 from eight terms of its series. -/
theorem log_fifteen_sixteenths_bounds :
    (-322692605757 / 5000000000000 : ℝ) < Real.log (15 / 16) ∧
      Real.log (15 / 16) < (-645385211203 / 10000000000000 : ℝ) := by
  have h := Real.abs_log_sub_add_sum_range_le (x := 1 / 16) (by rw [abs_of_pos] <;> norm_num) 8
  rw [show (1 : ℝ) - 1 / 16 = 15 / 16 by norm_num, abs_of_pos (by norm_num : (0 : ℝ) < 1 / 16),
    abs_le] at h
  simp only [Finset.sum_range_succ, Finset.sum_range_zero] at h
  norm_num at h
  constructor <;> linarith [h.1, h.2]

/-- The natural logarithm of 1/64 as a `float`. -/
theorem round32_log_1_64 : round32 (Real.log (1 / 64 : ℝ)) = -(4360905 / 1048576) := by
  have hl : Real.log (1 / 64 : ℝ) = -(6 * Real.log 2) := by
    rw [show (1 / 64 : ℝ) = (2 ^ 6)⁻¹ by norm_num,
      Real.log_inv, Real.log_pow]
    push_cast
    ring
  have h2a := Real.log_two_gt_d9
  have h2b := Real.log_two_lt_d9
  obtain ⟨h3a, h3b⟩ := log_three_quarters_bounds
  obtain ⟨h5a, h5b⟩ := log_fifteen_sixteenths_bounds
  rw [hl, round32_neg, round32_of_bounds (6 * Real.log 2) (2) 8721810
    (by norm_num; linarith) (by norm_num; linarith) (by norm_num) (by norm_num; linarith)
    (by norm_num; linarith)]
  norm_num

/-- The natural logarithm of 3/64 as a `float`. -/
theorem round32_log_3_64 : round32 (Real.log (3 / 64 : ℝ)) = -(6417853 / 2097152) := by
  have hl : Real.log (3 / 64 : ℝ) = -(4 * Real.log 2 - Real.log (3 / 4)) := by
    rw [show (3 / 64 : ℝ) = (3 / 4) * (2 ^ 4)⁻¹ by norm_num,
      Real.log_mul (by norm_num) (by norm_num), Real.log_inv, Real.log_pow]
    push_cast
    ring
  have h2a := Real.log_two_gt_d9
  have h2b := Real.log_two_lt_d9
  obtain ⟨h3a, h3b⟩ := log_three_quarters_bounds
  obtain ⟨h5a, h5b⟩ := log_fifteen_sixteenths_bounds
  rw [hl, round32_neg, round32_of_bounds (4 * Real.log 2 - Real.log (3 / 4)) (1) 12835706
    (by norm_num; linarith) (by norm_num; linarith) (by norm_num) (by norm_num; linarith)
    (by norm_num; linarith)]
  norm_num

/-- The natural logarithm of 15/64 as a `float`. -/
theorem round32_log_15_64 : round32 (Real.log (15 / 64 : ℝ)) = -(3042617 / 2097152) := by
  have hl : Real.log (15 / 64 : ℝ) = -(2 * Real.log 2 - Real.log (15 / 16)) := by
    rw [show (15 / 64 : ℝ) = (15 / 16) * (2 ^ 2)⁻¹ by norm_num,
      Real.log_mul (by norm_num) (by norm_num), Real.log_inv, Real.log_pow]
    push_cast
    ring
  have h2a := Real.log_two_gt_d9
  have h2b := Real.log_two_lt_d9
  obtain ⟨h3a, h3b⟩ := log_three_quarters_bounds
  obtain ⟨h5a, h5b⟩ := log_fifteen_sixteenths_bounds
  rw [hl, round32_neg, round32_of_bounds (2 * Real.log 2 - Real.log (15 / 16)) (0) 12170468
    (by norm_num; linarith) (by norm_num; linarith) (by norm_num) (by norm_num; linarith)
    (by norm_num; linarith)]
  norm_num

/-- The natural logarithm of 45/64 as a `float`. -/
theorem round32_log_45_64 : round32 (Real.log (45 / 64 : ℝ)) = -(5909281 / 16777216) := by
  have hl : Real.log (45 / 64 : ℝ) = -(-Real.log (3 / 4) - Real.log (15 / 16)) := by
    rw [show (45 / 64 : ℝ) = (3 / 4) * (15 / 16) by norm_num,
      Real.log_mul (by norm_num) (by norm_num)]
    ring
  have h2a := Real.log_two_gt_d9
  have h2b := Real.log_two_lt_d9
  obtain ⟨h3a, h3b⟩ := log_three_quarters_bounds
  obtain ⟨h5a, h5b⟩ := log_fifteen_sixteenths_bounds
  rw [hl, round32_neg, round32_of_bounds (-Real.log (3 / 4) - Real.log (15 / 16)) (-2) 11818562
    (by norm_num; linarith) (by norm_num; linarith) (by norm_num) (by norm_num; linarith)
    (by norm_num; linarith)]
  norm_num

/-- The natural logarithm of 1/16 as a `float`. -/
theorem round32_log_1_16 : round32 (Real.log (1 / 16 : ℝ)) = -(1453635 / 524288) := by
  have hl : Real.log (1 / 16 : ℝ) = -(4 * Real.log 2) := by
    rw [show (1 / 16 : ℝ) = (2 ^ 4)⁻¹ by norm_num,
      Real.log_inv, Real.log_pow]
    push_cast
    ring
  have h2a := Real.log_two_gt_d9
  have h2b := Real.log_two_lt_d9
  obtain ⟨h3a, h3b⟩ := log_three_quarters_bounds
  obtain ⟨h5a, h5b⟩ := log_fifteen_sixteenths_bounds
  rw [hl, round32_neg, round32_of_bounds (4 * Real.log 2) (1) 11629080
    (by norm_num; linarith) (by norm_num; linarith) (by norm_num) (by norm_num; linarith)
    (by norm_num; linarith)]
  norm_num

/-- The natural logarithm of 15/16 as a `float`. -/
theorem round32_log_15_16 : round32 (Real.log (15 / 16 : ℝ)) = -(4331107 / 67108864) := by
  have hl : Real.log (15 / 16 : ℝ) = -(-Real.log (15 / 16)) := by ring
  have h2a := Real.log_two_gt_d9
  have h2b := Real.log_two_lt_d9
  obtain ⟨h3a, h3b⟩ := log_three_quarters_bounds
  obtain ⟨h5a, h5b⟩ := log_fifteen_sixteenths_bounds
  rw [hl, round32_neg, round32_of_bounds (-Real.log (15 / 16)) (-4) 8662214
    (by norm_num; linarith) (by norm_num; linarith) (by norm_num) (by norm_num; linarith)
    (by norm_num; linarith)]
  norm_num

/-- The natural logarithm of 1/4 as a `float`. -/
theorem round32_log_1_4 : round32 (Real.log (1 / 4 : ℝ)) = -(1453635 / 1048576) := by
  have hl : Real.log (1 / 4 : ℝ) = -(2 * Real.log 2) := by
    rw [show (1 / 4 : ℝ) = (2 ^ 2)⁻¹ by norm_num,
      Real.log_inv, Real.log_pow]
    push_cast
    ring
  have h2a := Real.log_two_gt_d9
  have h2b := Real.log_two_lt_d9
  obtain ⟨h3a, h3b⟩ := log_three_quarters_bounds
  obtain ⟨h5a, h5b⟩ := log_fifteen_sixteenths_bounds
  rw [hl, round32_neg, round32_of_bounds (2 * Real.log 2) (0) 11629080
    (by norm_num; linarith) (by norm_num; linarith) (by norm_num) (by norm_num; linarith)
    (by norm_num; linarith)]
  norm_num

/-- The natural logarithm of 3/4 as a `float`. -/
theorem round32_log_3_4 : round32 (Real.log (3 / 4 : ℝ)) = -(9653009 / 33554432) := by
  have hl : Real.log (3 / 4 : ℝ) = -(-Real.log (3 / 4)) := by ring
  have h2a := Real.log_two_gt_d9
  have h2b := Real.log_two_lt_d9
  obtain ⟨h3a, h3b⟩ := log_three_quarters_bounds
  obtain ⟨h5a, h5b⟩ := log_fifteen_sixteenths_bounds
  rw [hl, round32_neg, round32_of_bounds (-Real.log (3 / 4)) (-2) 9653009
    (by norm_num; linarith) (by norm_num; linarith) (by norm_num) (by norm_num; linarith)
    (by norm_num; linarith)]
  norm_num

end float_logarithms

end hector_calibration

namespace hector_calibration

namespace camera_lidar_calibration

/-- The product of the entropy for the cell 1/16. -/
theorem entropyTermMachine_float_1_16 :
    entropyTermMachine (fun x => round32 (Real.log x)) (1 / 16 : ℝ)
      = -(1453635 / 8388608) := by
  have hp : round32 (1453635 / 8388608 : ℝ) = 1453635 / 8388608 := by
    rw [round32_of_bounds (1453635 / 8388608 : ℝ) (-3) 11629080
      (by norm_num) (by norm_num) (by norm_num) (by norm_num) (by norm_num)]
    norm_num
  have hne : (1 / 16 : ℝ) ≠ 0 := by norm_num
  simp only [entropyTermMachine, hne, if_false, round32_log_1_16]
  rw [show (1 / 16 : ℝ) * -(1453635 / 524288) = -(1453635 / 8388608) by norm_num,
    round32_neg, hp]

/-- The product of the entropy for the cell 15/16. -/
theorem entropyTermMachine_float_15_16 :
    entropyTermMachine (fun x => round32 (Real.log x)) (15 / 16 : ℝ)
      = -(16241651 / 268435456) := by
  have hp : round32 (64966605 / 1073741824 : ℝ) = 16241651 / 268435456 := by
    rw [round32_of_bounds (64966605 / 1073741824 : ℝ) (-5) 16241651
      (by norm_num) (by norm_num) (by norm_num) (by norm_num) (by norm_num)]
    norm_num
  have hne : (15 / 16 : ℝ) ≠ 0 := by norm_num
  simp only [entropyTermMachine, hne, if_false, round32_log_15_16]
  rw [show (15 / 16 : ℝ) * -(4331107 / 67108864) = -(64966605 / 1073741824) by norm_num,
    round32_neg, hp]

/-- The entropy of the intensity marginal of `dyadicProbability`. -/
theorem normL1Machine_float_intensity :
    normL1Machine ([1 / 16, 15 / 16].map (entropyTermMachine (fun x => round32 (Real.log x))))
      = 15689493 / 67108864 := by
  have hs : sumAbs64 ([1 / 16, 15 / 16].map (entropyTermMachine (fun x => round32 (Real.log x))))
      = 62757971 / 268435456 := by
    simp only [sumAbs64, List.map_cons, List.map_nil, List.foldl_cons, List.foldl_nil,
      entropyTermMachine_float_1_16,
      entropyTermMachine_float_15_16,
      abs_neg, zero_add]
    rw [abs_of_pos (by norm_num : (0 : ℝ) < 1453635 / 8388608),
      round64_exact 1453635 23 (by norm_num) (by norm_num)
        (1453635 / 8388608 : ℝ)
        (by norm_num)]
    rw [abs_of_pos (by norm_num : (0 : ℝ) < 16241651 / 268435456),
      round64_exact 62757971 28 (by norm_num) (by norm_num)
        (1453635 / 8388608 + 16241651 / 268435456 : ℝ)
        (by norm_num)]
    norm_num
  unfold normL1Machine
  rw [hs, round32_of_bounds (62757971 / 268435456 : ℝ) (-3) 15689493
    (by norm_num) (by norm_num) (by norm_num) (by norm_num) (by norm_num)]
  norm_num

/-- The product of the entropy for the cell 1/4. -/
theorem entropyTermMachine_float_1_4 :
    entropyTermMachine (fun x => round32 (Real.log x)) (1 / 4 : ℝ)
      = -(1453635 / 4194304) := by
  have hp : round32 (1453635 / 4194304 : ℝ) = 1453635 / 4194304 := by
    rw [round32_of_bounds (1453635 / 4194304 : ℝ) (-2) 11629080
      (by norm_num) (by norm_num) (by norm_num) (by norm_num) (by norm_num)]
    norm_num
  have hne : (1 / 4 : ℝ) ≠ 0 := by norm_num
  simp only [entropyTermMachine, hne, if_false, round32_log_1_4]
  rw [show (1 / 4 : ℝ) * -(1453635 / 1048576) = -(1453635 / 4194304) by norm_num,
    round32_neg, hp]

/-- The product of the entropy for the cell 3/4. -/
theorem entropyTermMachine_float_3_4 :
    entropyTermMachine (fun x => round32 (Real.log x)) (3 / 4 : ℝ)
      = -(7239757 / 33554432) := by
  have hp : round32 (28959027 / 134217728 : ℝ) = 7239757 / 33554432 := by
    rw [round32_of_tie (28959027 / 134217728 : ℝ) (-3) 14479513 14479514
      (by norm_num) (by norm_num) (by norm_num) (by norm_num) (by decide)]
    norm_num
  have hne : (3 / 4 : ℝ) ≠ 0 := by norm_num
  simp only [entropyTermMachine, hne, if_false, round32_log_3_4]
  rw [show (3 / 4 : ℝ) * -(9653009 / 33554432) = -(28959027 / 134217728) by norm_num,
    round32_neg, hp]

/-- The entropy of the reflectance marginal of `dyadicProbability`. -/
theorem normL1Machine_float_reflectance :
    normL1Machine ([1 / 4, 3 / 4].map (entropyTermMachine (fun x => round32 (Real.log x))))
      = 4717209 / 8388608 := by
  have hs : sumAbs64 ([1 / 4, 3 / 4].map (entropyTermMachine (fun x => round32 (Real.log x))))
      = 18868837 / 33554432 := by
    simp only [sumAbs64, List.map_cons, List.map_nil, List.foldl_cons, List.foldl_nil,
      entropyTermMachine_float_1_4,
      entropyTermMachine_float_3_4,
      abs_neg, zero_add]
    rw [abs_of_pos (by norm_num : (0 : ℝ) < 1453635 / 4194304),
      round64_exact 1453635 22 (by norm_num) (by norm_num)
        (1453635 / 4194304 : ℝ)
        (by norm_num)]
    rw [abs_of_pos (by norm_num : (0 : ℝ) < 7239757 / 33554432),
      round64_exact 18868837 25 (by norm_num) (by norm_num)
        (1453635 / 4194304 + 7239757 / 33554432 : ℝ)
        (by norm_num)]
    norm_num
  unfold normL1Machine
  rw [hs, round32_of_tie (18868837 / 33554432 : ℝ) (-1) 9434418 9434418
    (by norm_num) (by norm_num) (by norm_num) (by norm_num) (by decide)]
  norm_num

/-- The product of the entropy for the cell 1/64. -/
theorem entropyTermMachine_float_1_64 :
    entropyTermMachine (fun x => round32 (Real.log x)) (1 / 64 : ℝ)
      = -(4360905 / 67108864) := by
  have hp : round32 (4360905 / 67108864 : ℝ) = 4360905 / 67108864 := by
    rw [round32_of_bounds (4360905 / 67108864 : ℝ) (-4) 8721810
      (by norm_num) (by norm_num) (by norm_num) (by norm_num) (by norm_num)]
    norm_num
  have hne : (1 / 64 : ℝ) ≠ 0 := by norm_num
  simp only [entropyTermMachine, hne, if_false, round32_log_1_64]
  rw [show (1 / 64 : ℝ) * -(4360905 / 1048576) = -(4360905 / 67108864) by norm_num,
    round32_neg, hp]

/-- The product of the entropy for the cell 3/64. -/
theorem entropyTermMachine_float_3_64 :
    entropyTermMachine (fun x => round32 (Real.log x)) (3 / 64 : ℝ)
      = -(2406695 / 16777216) := by
  have hp : round32 (19253559 / 134217728 : ℝ) = 2406695 / 16777216 := by
    rw [round32_of_tie (19253559 / 134217728 : ℝ) (-3) 9626779 9626780
      (by norm_num) (by norm_num) (by norm_num) (by norm_num) (by decide)]
    norm_num
  have hne : (3 / 64 : ℝ) ≠ 0 := by norm_num
  simp only [entropyTermMachine, hne, if_false, round32_log_3_64]
  rw [show (3 / 64 : ℝ) * -(6417853 / 2097152) = -(19253559 / 134217728) by norm_num,
    round32_neg, hp]

/-- The product of the entropy for the cell 15/64. -/
theorem entropyTermMachine_float_15_64 :
    entropyTermMachine (fun x => round32 (Real.log x)) (15 / 64 : ℝ)
      = -(5704907 / 16777216) := by
  have hp : round32 (45639255 / 134217728 : ℝ) = 5704907 / 16777216 := by
    rw [round32_of_bounds (45639255 / 134217728 : ℝ) (-2) 11409814
      (by norm_num) (by norm_num) (by norm_num) (by norm_num) (by norm_num)]
    norm_num
  have hne : (15 / 64 : ℝ) ≠ 0 := by norm_num
  simp only [entropyTermMachine, hne, if_false, round32_log_15_64]
  rw [show (15 / 64 : ℝ) * -(3042617 / 2097152) = -(45639255 / 134217728) by norm_num,
    round32_neg, hp]

/-- The product of the entropy for the cell 45/64. -/
theorem entropyTermMachine_float_45_64 :
    entropyTermMachine (fun x => round32 (Real.log x)) (45 / 64 : ℝ)
      = -(16619853 / 67108864) := by
  have hp : round32 (265917645 / 1073741824 : ℝ) = 16619853 / 67108864 := by
    rw [round32_of_bounds (265917645 / 1073741824 : ℝ) (-3) 16619853
      (by norm_num) (by norm_num) (by norm_num) (by norm_num) (by norm_num)]
    norm_num
  have hne : (45 / 64 : ℝ) ≠ 0 := by norm_num
  simp only [entropyTermMachine, hne, if_false, round32_log_45_64]
  rw [show (45 / 64 : ℝ) * -(5909281 / 16777216) = -(265917645 / 1073741824) by norm_num,
    round32_neg, hp]

/-- The entropy of the joint array of `dyadicProbability`. -/
theorem normL1Machine_float_joint :
    normL1Machine ([1 / 64, 3 / 64, 15 / 64, 45 / 64].map
        (entropyTermMachine (fun x => round32 (Real.log x))))
      = 1669599 / 2097152 := by
  have hs : sumAbs64 ([1 / 64, 3 / 64, 15 / 64, 45 / 64].map
        (entropyTermMachine (fun x => round32 (Real.log x))))
      = 26713583 / 33554432 := by
    simp only [sumAbs64, List.map_cons, List.map_nil, List.foldl_cons, List.foldl_nil,
      entropyTermMachine_float_1_64,
      entropyTermMachine_float_3_64,
      entropyTermMachine_float_15_64,
      entropyTermMachine_float_45_64,
      abs_neg, zero_add]
    rw [abs_of_pos (by norm_num : (0 : ℝ) < 4360905 / 67108864),
      round64_exact 4360905 26 (by norm_num) (by norm_num)
        (4360905 / 67108864 : ℝ)
        (by norm_num)]
    rw [abs_of_pos (by norm_num : (0 : ℝ) < 2406695 / 16777216),
      round64_exact 13987685 26 (by norm_num) (by norm_num)
        (4360905 / 67108864 + 2406695 / 16777216 : ℝ)
        (by norm_num)]
    rw [abs_of_pos (by norm_num : (0 : ℝ) < 5704907 / 16777216),
      round64_exact 36807313 26 (by norm_num) (by norm_num)
        (4360905 / 67108864 + 2406695 / 16777216 + 5704907 / 16777216 : ℝ)
        (by norm_num)]
    rw [abs_of_pos (by norm_num : (0 : ℝ) < 16619853 / 67108864),
      round64_exact 26713583 25 (by norm_num) (by norm_num)
        (4360905 / 67108864 + 2406695 / 16777216 + 5704907 / 16777216 + 16619853 / 67108864 : ℝ)
        (by norm_num)]
    norm_num
  unfold normL1Machine
  rw [hs, round32_of_tie (26713583 / 33554432 : ℝ) (-1) 13356791 13356792
    (by norm_num) (by norm_num) (by norm_num) (by norm_num) (by decide)]
  norm_num

/-- The sum `Hx + Hy` of `dyadicProbability` stored in a `float`. -/
theorem float_entropy_sum :
    round32 ((15689493 / 67108864 : ℝ) + 4717209 / 8388608) = 13356791 / 16777216 := by
  rw [show ((15689493 / 67108864 : ℝ) + 4717209 / 8388608) = 53427165 / 67108864 by norm_num,
    round32_of_bounds (53427165 / 67108864 : ℝ) (-1) 13356791
    (by norm_num) (by norm_num) (by norm_num) (by norm_num) (by norm_num)]
  norm_num

/-- The difference `(Hx + Hy) - Hxy` of `dyadicProbability` stored in a `float`. -/
theorem float_mutual_information :
    round32 ((13356791 / 16777216 : ℝ) - 1669599 / 2097152) = -(1 / 16777216) := by
  rw [show ((13356791 / 16777216 : ℝ) - 1669599 / 2097152) = -(1 / 16777216) by norm_num,
    round32_neg,
    round32_of_bounds (1 / 16777216 : ℝ) (-24) 8388608
    (by norm_num) (by norm_num) (by norm_num) (by norm_num) (by norm_num)]
  norm_num

end camera_lidar_calibration

end hector_calibration

namespace hector_calibration

namespace camera_lidar_calibration

section float_entropy_bounds

variable {F : Type} [LinearOrderedField F] [FloorRing F]

omit [FloorRing F] in
/-- A value within the relative error `e` of `x` has a magnitude within the factors
`1 - e` and `1 + e` of that of `x`. -/
theorem abs_bounds_of_error (r x e : F) (h : |r - x| ≤ e * |x|) :
    (1 - e) * |x| ≤ |r| ∧ |r| ≤ (1 + e) * |x| := by
  have h1 := abs_sub_abs_le_abs_sub x r
  have h2 := abs_sub_abs_le_abs_sub r x
  rw [abs_sub_comm x r] at h1
  constructor <;> linarith

omit [FloorRing F] in
theorem eps32_bounds : (0 : F) ≤ eps32 ∧ (eps32 : F) ≤ 1 := by
  unfold eps32
  constructor
  · exact le_of_lt (zpow_pos (by norm_num) _)
  · exact zpow_le_one_of_nonpos₀ (by norm_num) (by norm_num)

omit [FloorRing F] in
theorem eps64_bounds : (0 : F) ≤ eps64 ∧ (eps64 : F) ≤ 1 := by
  unfold eps64
  constructor
  · exact le_of_lt (zpow_pos (by norm_num) _)
  · exact zpow_le_one_of_nonpos₀ (by norm_num) (by norm_num)

/-- The error of a result that is zero or of the normal range stored in a `float`. -/
theorem round32_error (x : F) (hx : x = 0 ∨ (2 : F) ^ (-(126 : Int)) ≤ |x|) :
    |round32 x - x| ≤ eps32 * |x| := by
  have h := roundBinary_error 24 (-126) x hx
  simpa [round32, eps32] using h

/-- The magnitude of a result that is zero or of the normal range stored in a `float`. -/
theorem round32_abs_bounds (x : F) (hx : x = 0 ∨ (2 : F) ^ (-(126 : Int)) ≤ |x|) :
    (1 - eps32) * |x| ≤ |round32 x| ∧ |round32 x| ≤ (1 + eps32) * |x| :=
  abs_bounds_of_error _ _ _ (round32_error x hx)

/-- A result that is zero or of the normal range of `float` stays so when it is stored in
a `float`. -/
theorem round32_normal (x : F) (hx : x = 0 ∨ (2 : F) ^ (-(126 : Int)) ≤ |x|) :
    round32 x = 0 ∨ (2 : F) ^ (-(126 : Int)) ≤ |round32 x| := by
  rcases hx with h0 | h1
  · left
    rw [h0]
    exact roundBinary_zero 24 (-126)
  · right
    exact pow_le_abs_roundBinary 24 (-126) x (-126) (by norm_num) (le_refl _) h1

/-- A non-negative result that is zero or at least `2 ^ (-126)` stored in a `double`. -/
theorem round64_bounds_of_nonneg (x : F) (hx0 : 0 ≤ x)
    (hx : x = 0 ∨ (2 : F) ^ (-(126 : Int)) ≤ x) :
    (1 - eps64) * x ≤ round64 x ∧ round64 x ≤ (1 + eps64) * x ∧ 0 ≤ round64 x ∧
      (round64 x = 0 ∨ (2 : F) ^ (-(126 : Int)) ≤ round64 x) := by
  have hr : 0 ≤ round64 x := roundBinary_nonneg 53 (-1022) x hx0
  have hnormal : x = 0 ∨ (2 : F) ^ (-(1022 : Int)) ≤ |x| := by
    rcases hx with h0 | h1
    · exact Or.inl h0
    · right
      rw [abs_of_nonneg hx0]
      exact le_trans (zpow_le_zpow_right₀ (by norm_num) (by norm_num)) h1
  have h := abs_bounds_of_error (round64 x) x eps64 (by
    have h := roundBinary_error 53 (-1022) x hnormal
    simpa [round64, eps64] using h)
  rw [abs_of_nonneg hx0, abs_of_nonneg hr] at h
  refine ⟨h.1, h.2, hr, ?_⟩
  rcases hx with h0 | h1
  · left
    rw [h0]
    exact roundBinary_zero 53 (-1022)
  · right
    have := pow_le_abs_roundBinary 53 (-1022) x (-126) (by norm_num) (by norm_num)
      (by rw [abs_of_nonneg hx0]; exact h1)
    rw [show roundBinary 53 (-1022) x = round64 x from rfl, abs_of_nonneg hr] at this
    exact this

/-- The accumulation in a `double` of magnitudes that are zero or at least `2 ^ (-126)`
against their exact sum. -/
theorem foldl_round64_bounds (cells : List F)
    (hcells : ∀ v ∈ cells, v = 0 ∨ (2 : F) ^ (-(126 : Int)) ≤ |v|) (s : F) (hs : 0 ≤ s)
    (hs1 : s = 0 ∨ (2 : F) ^ (-(126 : Int)) ≤ s) :
    (1 - eps64) ^ cells.length * (s + (cells.map (fun v => |v|)).sum)
        ≤ cells.foldl (fun s v => round64 (s + |v|)) s ∧
      cells.foldl (fun s v => round64 (s + |v|)) s
        ≤ (1 + eps64) ^ cells.length * (s + (cells.map (fun v => |v|)).sum) ∧
      0 ≤ cells.foldl (fun s v => round64 (s + |v|)) s ∧
      (cells.foldl (fun s v => round64 (s + |v|)) s = 0 ∨
        (2 : F) ^ (-(126 : Int)) ≤ cells.foldl (fun s v => round64 (s + |v|)) s) := by
  induction cells generalizing s with
  | nil => exact ⟨by simp, by simp, hs, hs1⟩
  | cons v cells ih =>
    have hd := eps64_bounds (F := F)
    have hS : 0 ≤ (cells.map (fun v => |v|)).sum :=
      List.sum_nonneg (fun x hx => by
        obtain ⟨y, -, rfl⟩ := List.mem_map.mp hx
        exact abs_nonneg y)
    have hsv : 0 ≤ s + |v| := add_nonneg hs (abs_nonneg v)
    have hv := hcells v (List.mem_cons_self v cells)
    have hsv1 : s + |v| = 0 ∨ (2 : F) ^ (-(126 : Int)) ≤ s + |v| := by
      rcases hv with hv0 | hv1
      · rcases hs1 with h0 | h1
        · left
          rw [h0, hv0, abs_zero, add_zero]
        · right
          linarith [abs_nonneg v]
      · right
        linarith
    obtain ⟨h1, h2, h3, h4⟩ := round64_bounds_of_nonneg (s + |v|) hsv hsv1
    obtain ⟨i1, i2, i3, i4⟩ := ih (fun w hw => hcells w (List.mem_cons_of_mem v hw))
      (round64 (s + |v|)) h3 h4
    have hlo : (0 : F) ≤ (1 - eps64) ^ cells.length := pow_nonneg (by linarith [hd.2]) _
    have hhi : (0 : F) ≤ (1 + eps64) ^ cells.length := pow_nonneg (by linarith [hd.1]) _
    simp only [List.foldl_cons, List.length_cons, List.map_cons, List.sum_cons, pow_succ]
    refine ⟨le_trans ?_ i1, le_trans i2 ?_, i3, i4⟩
    · rw [mul_assoc]
      apply mul_le_mul_of_nonneg_left _ hlo
      nlinarith [mul_nonneg hd.1 hS]
    · rw [mul_assoc]
      apply mul_le_mul_of_nonneg_left _ hhi
      nlinarith [mul_nonneg hd.1 hS]

/-- The norm `cv::norm(cells, cv::NORM_L1)` of cells that are zero or of the normal range
of `float`, stored in a `float`, against the exact sum of the magnitudes. -/
theorem normL1Machine_bounds (cells : List F)
    (hcells : ∀ v ∈ cells, v = 0 ∨ (2 : F) ^ (-(126 : Int)) ≤ |v|) :
    (1 - eps32) * (1 - eps64) ^ cells.length * (cells.map (fun v => |v|)).sum
        ≤ normL1Machine cells ∧
      normL1Machine cells
        ≤ (1 + eps32) * (1 + eps64) ^ cells.length * (cells.map (fun v => |v|)).sum ∧
      (normL1Machine cells = 0 ∨ (2 : F) ^ (-(126 : Int)) ≤ normL1Machine cells) := by
  have he := eps32_bounds (F := F)
  obtain ⟨h1, h2, h3, h4⟩ := foldl_round64_bounds cells hcells 0 (le_refl 0) (Or.inl rfl)
  rw [zero_add] at h1 h2
  have h3a : 0 ≤ sumAbs64 cells := h3
  have h4a : sumAbs64 cells = 0 ∨ (2 : F) ^ (-(126 : Int)) ≤ |sumAbs64 cells| := by
    rcases h4 with h0 | h5
    · exact Or.inl h0
    · right
      rw [abs_of_nonneg h3a]
      exact h5
  have hr := round32_abs_bounds (sumAbs64 cells) h4a
  have hn : 0 ≤ round32 (sumAbs64 cells) := roundBinary_nonneg 24 (-126) _ h3a
  have hnorm := round32_normal (sumAbs64 cells) h4a
  rw [abs_of_nonneg h3a, abs_of_nonneg hn] at hr
  rw [abs_of_nonneg hn] at hnorm
  unfold normL1Machine
  refine ⟨?_, ?_, hnorm⟩
  · refine le_trans ?_ hr.1
    rw [mul_assoc]
    exact mul_le_mul_of_nonneg_left h1 (by linarith [he.2])
  · refine le_trans hr.2 ?_
    rw [mul_assoc]
    exact mul_le_mul_of_nonneg_left h2 (by linarith [he.1])

omit [FloorRing F] in
/-- A logarithm with `ln (x * y) = ln x + ln y` vanishes at 1. -/
theorem log_one_of_mul (ln : F → F)
    (hmul : ∀ x y, 0 < x → 0 < y → ln (x * y) = ln x + ln y) : ln 1 = 0 := by
  have h := hmul 1 1 one_pos one_pos
  rw [mul_one] at h
  linarith

/-- One product of the entropy in machine arithmetic against the exact one, for a cell
of the entropy range and a logarithm `log` within the relative error `u ≤ 1/2` of `ln` on
the positive cells of that range: the product is zero or of the normal range of
`float`. -/
theorem entropyTermMachine_bounds (log ln : F → F) (u : F) (hu1 : u ≤ 1 / 2)
    (hmul : ∀ x y, 0 < x → 0 < y → ln (x * y) = ln x + ln y)
    (hle : ∀ x, 0 < x → ln x ≤ x - 1)
    (hlog : ∀ x, inEntropyRange x → 0 < x → |log x - ln x| ≤ u * |ln x|) (p : F)
    (hp : inEntropyRange p) :
    (1 - eps32) * (1 - u) * |entropyTerm ln p| ≤ |entropyTermMachine log p| ∧
      |entropyTermMachine log p| ≤ (1 + eps32) * (1 + u) * |entropyTerm ln p| ∧
      (entropyTermMachine log p = 0 ∨
        (2 : F) ^ (-(126 : Int)) ≤ |entropyTermMachine log p|) := by
  have he := eps32_bounds (F := F)
  rcases hp with h0 | h1 | ⟨hlo, hhi⟩
  · subst h0
    rw [entropyTermMachine_zero, entropyTerm_zero]
    simp
  · subst h1
    have hln : ln 1 = 0 := log_one_of_mul ln hmul
    have hl := hlog 1 (Or.inr (Or.inl rfl)) one_pos
    rw [hln, abs_zero, mul_zero, sub_zero] at hl
    have hl0 : log 1 = 0 := abs_eq_zero.mp (le_antisymm hl (abs_nonneg _))
    have ht : entropyTermMachine log (1 : F) = 0 := by
      unfold entropyTermMachine
      rw [if_neg one_ne_zero, hl0, mul_zero]
      exact roundBinary_zero 24 (-126)
    have hx : entropyTerm ln (1 : F) = 0 := by
      unfold entropyTerm
      rw [if_neg one_ne_zero, hln, mul_zero]
    rw [ht, hx]
    simp
  · have h100 : (0 : F) < 2 ^ (-(100 : Int)) := zpow_pos (by norm_num) _
    have hpos : 0 < p := lt_of_lt_of_le h100 hlo
    have hne : p ≠ 0 := ne_of_gt hpos
    have hlnp : ln p ≤ -(2 : F) ^ (-(24 : Int)) := by linarith [hle p hpos]
    have h24 : (0 : F) < 2 ^ (-(24 : Int)) := zpow_pos (by norm_num) _
    have habsln : (2 : F) ^ (-(24 : Int)) ≤ |ln p| := by
      rw [abs_of_neg (by linarith)]
      linarith
    obtain ⟨l1, l2⟩ := abs_bounds_of_error (log p) (ln p) u
      (hlog p (Or.inr (Or.inr ⟨hlo, hhi⟩)) hpos)
    have hlogp : (2 : F) ^ (-(25 : Int)) ≤ |log p| := by
      have e25 : (2 : F) ^ (-(25 : Int)) = 1 / 2 * 2 ^ (-(24 : Int)) := by
        rw [show (-(25 : Int)) = -(24 : Int) + -1 by norm_num,
          zpow_add₀ (by norm_num : (2 : F) ≠ 0)]
        norm_num
      rw [e25]
      calc (1 / 2 : F) * 2 ^ (-(24 : Int)) ≤ (1 - u) * 2 ^ (-(24 : Int)) :=
            mul_le_mul_of_nonneg_right (by linarith) h24.le
        _ ≤ (1 - u) * |ln p| := mul_le_mul_of_nonneg_left habsln (by linarith)
        _ ≤ |log p| := l1
    have hprod : (2 : F) ^ (-(126 : Int)) ≤ |p * log p| := by
      rw [abs_mul, abs_of_pos hpos]
      calc (2 : F) ^ (-(126 : Int)) ≤ 2 ^ (-(100 : Int)) * 2 ^ (-(25 : Int)) := by
            rw [← zpow_add₀ (by norm_num : (2 : F) ≠ 0)]
            exact zpow_le_zpow_right₀ (by norm_num) (by norm_num)
        _ ≤ p * |log p| :=
            mul_le_mul hlo hlogp (le_of_lt (zpow_pos (by norm_num) _)) hpos.le
    unfold entropyTermMachine entropyTerm
    rw [if_neg hne, if_neg hne]
    obtain ⟨r1, r2⟩ := round32_abs_bounds (p * log p) (Or.inr hprod)
    have r3 := round32_normal (p * log p) (Or.inr hprod)
    rw [abs_mul, abs_of_pos hpos] at r1 r2
    rw [abs_mul, abs_of_pos hpos]
    have m1 : p * ((1 - u) * |ln p|) ≤ p * |log p| := mul_le_mul_of_nonneg_left l1 hpos.le
    have m2 : p * |log p| ≤ p * ((1 + u) * |ln p|) := mul_le_mul_of_nonneg_left l2 hpos.le
    have n1 := mul_le_mul_of_nonneg_left m1 (by linarith [he.2] : (0 : F) ≤ 1 - eps32)
    have n2 := mul_le_mul_of_nonneg_left m2 (by linarith [he.1] : (0 : F) ≤ 1 + eps32)
    refine ⟨?_, ?_, r3⟩
    · calc (1 - eps32) * (1 - u) * (p * |ln p|)
          = (1 - eps32) * (p * ((1 - u) * |ln p|)) := by ring
        _ ≤ (1 - eps32) * (p * |log p|) := n1
        _ ≤ _ := r1
    · calc |round32 (p * log p)| ≤ (1 + eps32) * (p * |log p|) := r2
        _ ≤ (1 + eps32) * (p * ((1 + u) * |ln p|)) := n2
        _ = (1 + eps32) * (1 + u) * (p * |ln p|) := by ring

omit [FloorRing F] in
/-- A bound of every cell by a multiple of another carries over to the sums. -/
theorem sum_map_mul_le {α : Type} (l : List α) (c : F) (f g : α → F)
    (h : ∀ a ∈ l, c * f a ≤ g a) : c * (l.map f).sum ≤ (l.map g).sum := by
  induction l with
  | nil => simp
  | cons a l ih =>
    have ha := h a (List.mem_cons_self a l)
    have hl := ih (fun b hb => h b (List.mem_cons_of_mem a hb))
    simp only [List.map_cons, List.sum_cons]
    linarith

omit [FloorRing F] in
/-- A bound of every cell from above by a multiple of another carries over to the sums. -/
theorem sum_map_le_mul {α : Type} (l : List α) (c : F) (f g : α → F)
    (h : ∀ a ∈ l, g a ≤ c * f a) : (l.map g).sum ≤ c * (l.map f).sum := by
  induction l with
  | nil => simp
  | cons a l ih =>
    have ha := h a (List.mem_cons_self a l)
    have hl := ih (fun b hb => h b (List.mem_cons_of_mem a hb))
    simp only [List.map_cons, List.sum_cons]
    linarith

/-- The entropy of at most `K` cells of the entropy range in machine arithmetic against
the exact one, for a logarithm `log` within the relative error `u ≤ 1/2` of `ln`; it is
zero or of the normal range of `float`. -/
theorem normL1Machine_entropy_bounds (log ln : F → F) (u : F) (hu0 : 0 ≤ u)
    (hu1 : u ≤ 1 / 2) (hmul : ∀ x y, 0 < x → 0 < y → ln (x * y) = ln x + ln y)
    (hle : ∀ x, 0 < x → ln x ≤ x - 1)
    (hlog : ∀ x, inEntropyRange x → 0 < x → |log x - ln x| ≤ u * |ln x|) (cells : List F)
    (hrange : ∀ p ∈ cells, inEntropyRange p) (K : Nat) (hK : cells.length ≤ K) :
    entropyFactorLow u K * (cells.map (fun p => |entropyTerm ln p|)).sum
        ≤ normL1Machine (cells.map (entropyTermMachine log)) ∧
      normL1Machine (cells.map (entropyTermMachine log))
        ≤ entropyFactorHigh u K * (cells.map (fun p => |entropyTerm ln p|)).sum ∧
      (normL1Machine (cells.map (entropyTermMachine log)) = 0 ∨
        (2 : F) ^ (-(126 : Int)) ≤ normL1Machine (cells.map (entropyTermMachine log))) := by
  have he := eps32_bounds (F := F)
  have hd := eps64_bounds (F := F)
  have hE : 0 ≤ (cells.map (fun p => |entropyTerm ln p|)).sum :=
    List.sum_nonneg (fun x hx => by
      obtain ⟨y, -, rfl⟩ := List.mem_map.mp hx
      exact abs_nonneg _)
  have hcell := fun p hp =>
    entropyTermMachine_bounds log ln u hu1 hmul hle hlog p (hrange p hp)
  obtain ⟨n1, n2, n3⟩ := normL1Machine_bounds (cells.map (entropyTermMachine log)) (by
    intro v hv
    obtain ⟨p, hp, rfl⟩ := List.mem_map.mp hv
    exact (hcell p hp).2.2)
  rw [List.map_map, List.length_map] at n1 n2
  have s1 := sum_map_mul_le cells ((1 - eps32) * (1 - u)) (fun p => |entropyTerm ln p|)
    ((fun v => |v|) ∘ entropyTermMachine log) (fun p hp => (hcell p hp).1)
  have s2 := sum_map_le_mul cells ((1 + eps32) * (1 + u)) (fun p => |entropyTerm ln p|)
    ((fun v => |v|) ∘ entropyTermMachine log) (fun p hp => (hcell p hp).2.1)
  have p1 : (1 - eps64 : F) ^ K ≤ (1 - eps64) ^ cells.length :=
    pow_le_pow_of_le_one (by linarith [hd.2]) (by linarith [hd.1]) hK
  have p2 : (1 + eps64 : F) ^ cells.length ≤ (1 + eps64) ^ K :=
    pow_le_pow_right₀ (by linarith [hd.1]) hK
  have q1 : (0 : F) ≤ (1 - eps64) ^ K := pow_nonneg (by linarith [hd.2]) _
  have q2 : (0 : F) ≤ (1 + eps64) ^ cells.length := pow_nonneg (by linarith [hd.1]) _
  have a1 : (0 : F) ≤ 1 - eps32 := by linarith [he.2]
  have a2 : (0 : F) ≤ 1 + eps32 := by linarith [he.1]
  have b1 : (0 : F) ≤ 1 - u := by linarith
  have b2 : (0 : F) ≤ 1 + u := by linarith
  unfold entropyFactorLow entropyFactorHigh
  refine ⟨?_, ?_, n3⟩
  · refine le_trans ?_ n1
    calc (1 - eps32) ^ 2 * (1 - u) * (1 - eps64) ^ K * (cells.map (fun p => |entropyTerm ln p|)).sum
        = (1 - eps32) * ((1 - eps64) ^ K *
            ((1 - eps32) * (1 - u) * (cells.map (fun p => |entropyTerm ln p|)).sum)) := by ring
      _ ≤ (1 - eps32) * ((1 - eps64) ^ K *
            (cells.map ((fun v => |v|) ∘ entropyTermMachine log)).sum) :=
          mul_le_mul_of_nonneg_left (mul_le_mul_of_nonneg_left s1 q1) a1
      _ ≤ (1 - eps32) * ((1 - eps64) ^ cells.length *
            (cells.map ((fun v => |v|) ∘ entropyTermMachine log)).sum) := by
          apply mul_le_mul_of_nonneg_left _ a1
          apply mul_le_mul_of_nonneg_right p1
          exact le_trans (mul_nonneg (mul_nonneg a1 b1) hE) s1
      _ = _ := by ring
  · refine le_trans n2 ?_
    calc (1 + eps32) * (1 + eps64) ^ cells.length *
            (cells.map ((fun v => |v|) ∘ entropyTermMachine log)).sum
        ≤ (1 + eps32) * (1 + eps64) ^ cells.length *
            ((1 + eps32) * (1 + u) * (cells.map (fun p => |entropyTerm ln p|)).sum) :=
          mul_le_mul_of_nonneg_left s2 (mul_nonneg a2 q2)
      _ = (1 + eps64) ^ cells.length *
            ((1 + eps32) ^ 2 * (1 + u) * (cells.map (fun p => |entropyTerm ln p|)).sum) := by
          ring
      _ ≤ (1 + eps64) ^ K *
            ((1 + eps32) ^ 2 * (1 + u) * (cells.map (fun p => |entropyTerm ln p|)).sum) :=
          mul_le_mul_of_nonneg_right p2
            (mul_nonneg (mul_nonneg (pow_nonneg a2 2) b2) hE)
      _ = _ := by ring

/-- The error of the difference of two `float`s stored in a `float`: a difference below
the normal range is stored exactly. -/
theorem round32_sub_error (a b : F) :
    |round32 (round32 a - round32 b) - (round32 a - round32 b)|
      ≤ eps32 * |round32 a - round32 b| := by
  rcases le_or_lt ((2 : F) ^ (-(126 : Int))) |round32 a - round32 b| with h | h
  · exact round32_error _ (Or.inr h)
  · obtain ⟨ma, hma⟩ := roundBinary_multiple 24 (-126) a
    obtain ⟨mb, hmb⟩ := roundBinary_multiple 24 (-126) b
    have hd : round32 a - round32 b
        = ((ma - mb : Int) : F) * 2 ^ ((-126 : Int) - ((24 : Nat) : Int) + 1) := by
      unfold round32
      rw [hma, hmb]
      push_cast
      ring
    have hex : round32 (round32 a - round32 b) = round32 a - round32 b := by
      rw [hd]
      unfold round32
      apply roundBinary_of_small_multiple
      rw [← hd]
      exact h
    rw [hex, sub_self, abs_zero]
    exact mul_nonneg (eps32_bounds (F := F)).1 (abs_nonneg _)

end float_entropy_bounds

end camera_lidar_calibration

end hector_calibration

namespace hector_calibration

namespace camera_lidar_calibration

section float_mutual_information

variable {F : Type} [LinearOrderedField F] [FloorRing F]

omit [FloorRing F] in
/-- The arithmetic of `mi = Hx + Hy - Hxy` with three entropies known up to the factors
`A ≤ 1 ≤ B` and two results stored with relative error `e`. -/
theorem float_difference_bounds (e A B X Y Z hx hy hz s m : F)
    (he0 : 0 ≤ e) (he1 : e ≤ 1) (hA0 : 0 ≤ A) (hA1 : A ≤ 1) (hB : 1 ≤ B)
    (hX : 0 ≤ X) (hY : 0 ≤ Y) (hZ : 0 ≤ Z) (hmi : Z ≤ X + Y)
    (hx1 : A * X ≤ hx) (hx2 : hx ≤ B * X) (hy1 : A * Y ≤ hy) (hy2 : hy ≤ B * Y)
    (hz1 : A * Z ≤ hz) (hz2 : hz ≤ B * Z)
    (hs : |s - (hx + hy)| ≤ e * |hx + hy|) (hm : |m - (s - hz)| ≤ e * |s - hz|) :
    -((1 + e) * (B - (1 - e) * A) * Z) ≤ m ∧
      |m - (X + Y - Z)| ≤ ((1 + e) * (1 + ((1 + e) * B - (1 - e) * A)) - 1) * (X + Y + Z) := by
  have hAX : 0 ≤ A * X := mul_nonneg hA0 hX
  have hAY : 0 ≤ A * Y := mul_nonneg hA0 hY
  have hxy0 : 0 ≤ hx + hy := by linarith
  rw [abs_of_nonneg hxy0, abs_le] at hs
  have e1 : (0 : F) ≤ 1 - e := by linarith
  have e2 : (0 : F) ≤ 1 + e := by linarith
  have k1 : (1 - e) * (A * (X + Y)) ≤ (1 - e) * (hx + hy) :=
    mul_le_mul_of_nonneg_left (by linarith [mul_add A X Y]) e1
  have k2 : (1 + e) * (hx + hy) ≤ (1 + e) * (B * (X + Y)) :=
    mul_le_mul_of_nonneg_left (by linarith [mul_add B X Y]) e2
  have k3 : (1 - e) * A * Z ≤ (1 - e) * A * (X + Y) :=
    mul_le_mul_of_nonneg_left hmi (mul_nonneg e1 hA0)
  have hc : 0 ≤ B - (1 - e) * A := by linarith [mul_nonneg he0 hA0]
  have hcZ : 0 ≤ (B - (1 - e) * A) * Z := mul_nonneg hc hZ
  have d1 : -((B - (1 - e) * A) * Z) ≤ s - hz := by
    have : (1 - e) * A * (X + Y) ≤ s := by linarith [k1, hs.1]
    linarith
  have d2 : s - hz ≤ (1 + e) * B * (X + Y) - A * Z := by
    have : s ≤ (1 + e) * B * (X + Y) := by linarith [k2, hs.2]
    linarith
  have d3 : (1 - e) * A * (X + Y) - B * Z ≤ s - hz := by
    have : (1 - e) * A * (X + Y) ≤ s := by linarith [k1, hs.1]
    linarith
  have hm1 := (abs_le.mp hm).1
  have hm2 := (abs_le.mp hm).2
  have hXY : 0 ≤ X + Y := add_nonneg hX hY
  have hT : 0 ≤ X + Y + Z := add_nonneg hXY hZ
  have t1 : ((1 + e) * B - 1) * (X + Y) ≤ ((1 + e) * B - (1 - e) * A) * (X + Y) :=
    mul_le_mul_of_nonneg_right (by linarith [mul_nonneg he0 hA0]) hXY
  have t2 : (1 - A) * Z ≤ ((1 + e) * B - (1 - e) * A) * Z :=
    mul_le_mul_of_nonneg_right (by linarith [mul_nonneg he0 hA0, mul_nonneg he0 (le_trans zero_le_one hB)]) hZ
  have t3 : (1 - (1 - e) * A) * (X + Y) ≤ ((1 + e) * B - (1 - e) * A) * (X + Y) :=
    mul_le_mul_of_nonneg_right (by linarith [mul_nonneg he0 (le_trans zero_le_one hB)]) hXY
  have t4 : (B - 1) * Z ≤ ((1 + e) * B - (1 - e) * A) * Z :=
    mul_le_mul_of_nonneg_right (by linarith [mul_nonneg he0 (le_trans zero_le_one hB), mul_nonneg he0 hA0]) hZ
  have hth : 0 ≤ (1 + e) * B - (1 - e) * A := by
    linarith [mul_nonneg he0 (le_trans zero_le_one hB), mul_nonneg he0 hA0]
  have hdm : |s - hz - (X + Y - Z)| ≤ ((1 + e) * B - (1 - e) * A) * (X + Y + Z) := by
    rw [abs_le]
    constructor <;> linarith
  have hd : |s - hz| ≤ (1 + ((1 + e) * B - (1 - e) * A)) * (X + Y + Z) := by
    have h1 : |s - hz| ≤ |s - hz - (X + Y - Z)| + |X + Y - Z| := by
      have := abs_add (s - hz - (X + Y - Z)) (X + Y - Z)
      simpa using this
    have h2 : |X + Y - Z| ≤ X + Y + Z := by
      rw [abs_le]
      constructor <;> linarith
    linarith
  constructor
  · rcases le_or_lt 0 (s - hz) with hd0 | hd0
    · rw [abs_of_nonneg hd0] at hm1
      have : 0 ≤ (1 - e) * (s - hz) := mul_nonneg e1 hd0
      have : 0 ≤ (1 + e) * ((B - (1 - e) * A) * Z) := mul_nonneg e2 hcZ
      linarith
    · rw [abs_of_neg hd0] at hm1
      have : (1 + e) * -((B - (1 - e) * A) * Z) ≤ (1 + e) * (s - hz) :=
        mul_le_mul_of_nonneg_left d1 e2
      linarith
  · have h1 : |m - (X + Y - Z)| ≤ |m - (s - hz)| + |s - hz - (X + Y - Z)| := by
      have := abs_add (m - (s - hz)) (s - hz - (X + Y - Z))
      simpa using this
    have h2 : e * |s - hz| ≤ e * ((1 + ((1 + e) * B - (1 - e) * A)) * (X + Y + Z)) :=
      mul_le_mul_of_nonneg_left hd he0
    linarith

end float_mutual_information

end camera_lidar_calibration

end hector_calibration

namespace hector_calibration

namespace camera_lidar_calibration

section exact_mutual_information

variable {F : Type} [LinearOrderedField F]

/-- In exact arithmetic, with a logarithm with `log (x * y) = log x + log y` and
`log x ≤ x - 1` on the positive numbers, the mutual information of a rectangular joint
array with non-negative cells of total 1 and its row and column sums is not negative. -/
theorem exact_mutual_information_nonneg (ext : Externals F)
    (hmul : ∀ x y, 0 < x → 0 < y → ext.log (x * y) = ext.log x + ext.log y)
    (hle : ∀ x, 0 < x → ext.log x ≤ x - 1) (prob : Probability F) (n : ℕ)
    (hrect : ∀ row ∈ prob.joint_prob, row.length = n)
    (hnonneg : ∀ row ∈ prob.joint_prob, ∀ p ∈ row, 0 ≤ p)
    (htotal : (rowSums prob.joint_prob).sum = 1)
    (hint : prob.intensity_prob = rowSums prob.joint_prob)
    (hrefl : prob.reflectance_prob = colSums n prob.joint_prob) :
    0 ≤ Hx ext prob + Hy ext prob - Hxy ext prob := by
  obtain ⟨hx, hy, hxy, hsum⟩ := entropies_as_grid_sums ext prob n hrect hint hrefl
  have hJ : ∀ i < prob.joint_prob.length, ∀ j < n,
      0 ≤ (prob.joint_prob.getD i []).getD j 0 := by
    intro i hi j hj
    have hmem := getD_mem_of_lt prob.joint_prob [] i hi
    have hlen := hrect _ hmem
    exact hnonneg _ hmem _ (getD_mem_of_lt _ _ j (by rw [hlen]; exact hj))
  have hcore := mutual_information_core ext.log hmul hle prob.joint_prob.length n
    (fun i j => (prob.joint_prob.getD i []).getD j 0) hJ (by rw [← hsum]; exact htotal)
  rw [hx, hy, hxy]
  exact hcore

/-- The row sums of an array with non-negative cells are not negative. -/
theorem rowSums_nonneg (m : Mat F) (hnonneg : ∀ row ∈ m, ∀ p ∈ row, 0 ≤ p) :
    ∀ q ∈ rowSums m, 0 ≤ q := by
  intro q hq
  obtain ⟨row, hrow, rfl⟩ := List.mem_map.mp hq
  exact List.sum_nonneg (hnonneg row hrow)

/-- The cells of an array with non-negative cells of total 1 lie in `[0, 1]`. -/
theorem joint_cells_unit (m : Mat F) (hnonneg : ∀ row ∈ m, ∀ p ∈ row, 0 ≤ p)
    (htotal : (rowSums m).sum = 1) : ∀ row ∈ m, ∀ p ∈ row, 0 ≤ p ∧ p ≤ 1 := by
  intro row hrow p hp
  refine ⟨hnonneg row hrow p hp, ?_⟩
  have h1 : p ≤ row.sum := List.single_le_sum (hnonneg row hrow) p hp
  have h2 : row.sum ≤ (rowSums m).sum :=
    List.single_le_sum (rowSums_nonneg m hnonneg) _ (List.mem_map_of_mem _ hrow)
  linarith

/-- The row sums of an array with non-negative cells of total 1 lie in `[0, 1]`. -/
theorem rowSums_unit (m : Mat F) (hnonneg : ∀ row ∈ m, ∀ p ∈ row, 0 ≤ p)
    (htotal : (rowSums m).sum = 1) : ∀ q ∈ rowSums m, 0 ≤ q ∧ q ≤ 1 := by
  intro q hq
  refine ⟨rowSums_nonneg m hnonneg q hq, ?_⟩
  rw [← htotal]
  exact List.single_le_sum (rowSums_nonneg m hnonneg) q hq

/-- A cell read with the default 0 from a row of non-negative cells lies between 0 and
the sum of the row. -/
theorem getD_bounds (row : List F) (hnonneg : ∀ p ∈ row, 0 ≤ p) (j : ℕ) :
    0 ≤ row.getD j 0 ∧ row.getD j 0 ≤ row.sum := by
  rcases lt_or_le j row.length with hj | hj
  · have hmem := getD_mem_of_lt row 0 j hj
    exact ⟨hnonneg _ hmem, List.single_le_sum hnonneg _ hmem⟩
  · rw [List.getD_eq_default _ _ hj]
    exact ⟨le_refl 0, List.sum_nonneg hnonneg⟩

/-- The column sums of an array with non-negative cells of total 1 lie in `[0, 1]`. -/
theorem colSums_unit (n : ℕ) (m : Mat F) (hnonneg : ∀ row ∈ m, ∀ p ∈ row, 0 ≤ p)
    (htotal : (rowSums m).sum = 1) : ∀ q ∈ colSums n m, 0 ≤ q ∧ q ≤ 1 := by
  intro q hq
  obtain ⟨j, -, rfl⟩ := List.mem_map.mp hq
  constructor
  · apply List.sum_nonneg
    intro x hx
    obtain ⟨row, hrow, rfl⟩ := List.mem_map.mp hx
    exact (getD_bounds row (hnonneg row hrow) j).1
  · rw [← htotal]
    exact List.sum_le_sum (fun row hrow => (getD_bounds row (hnonneg row hrow) j).2)

omit [LinearOrderedField F] in
/-- The number of cells of a rectangular array. -/
theorem length_flatten_of_rect (m : Mat F) (n : ℕ) (hrect : ∀ row ∈ m, row.length = n) :
    m.flatten.length = m.length * n := by
  induction m with
  | nil => simp
  | cons row m ih =>
    rw [List.flatten_cons, List.length_append, hrect row (List.mem_cons_self row m),
      ih (fun r hr => hrect r (List.mem_cons_of_mem row hr)), List.length_cons]
    ring

/-- The exact entropy of a row as the sum of the magnitudes of its summands. -/
theorem rowNormL1_rowEntropy_eq (ext : Externals F) (row : List F) :
    rowNormL1 (rowEntropy ext row) = (row.map (fun p => |entropyTerm ext.log p|)).sum := by
  unfold rowNormL1
  rw [rowEntropy_eq_map, List.map_map]
  rfl

/-- The exact entropy of an array as the sum over its cells row by row. -/
theorem matNormL1_eq_flatten (ext : Externals F) (m : Mat F) :
    matNormL1 (matEntropy ext m) = (m.flatten.map (fun p => |entropyTerm ext.log p|)).sum := by
  induction m with
  | nil => simp [matNormL1, matEntropy]
  | cons row m ih =>
    simp only [matNormL1, matEntropy, List.map_cons, List.sum_cons, List.flatten_cons,
      List.map_append, List.sum_append] at ih ⊢
    rw [ih, rowNormL1_rowEntropy_eq]

/-- The factors of the entropy bounds: the lower one lies in `[0, 1]`, the upper one is at
least 1. -/
theorem entropyFactor_bounds (u : F) (hu0 : 0 ≤ u) (hu1 : u ≤ 1)
    (K : ℕ) :
    0 ≤ entropyFactorLow u K ∧ entropyFactorLow u K ≤ 1 ∧ 1 ≤ entropyFactorHigh u K := by
  have he := eps32_bounds (F := F)
  have hd := eps64_bounds (F := F)
  have a1 : (0 : F) ≤ 1 - eps32 := by linarith [he.2]
  have a2 : (1 - eps32 : F) ≤ 1 := by linarith [he.1]
  have d1 : (0 : F) ≤ 1 - eps64 := by linarith [hd.2]
  have d2 : (1 - eps64 : F) ≤ 1 := by linarith [hd.1]
  have b1 : (0 : F) ≤ 1 - u := by linarith
  have b2 : (1 - u : F) ≤ 1 := by linarith
  have p1 : (0 : F) ≤ (1 - eps32) ^ 2 := pow_nonneg a1 2
  have p2 : ((1 - eps32) ^ 2 : F) ≤ 1 := pow_le_one₀ a1 a2
  have q1 : (0 : F) ≤ (1 - eps64) ^ K := pow_nonneg d1 K
  have q2 : ((1 - eps64) ^ K : F) ≤ 1 := pow_le_one₀ d1 d2
  have r1 : (1 : F) ≤ (1 + eps32) ^ 2 := one_le_pow₀ (by linarith [he.1])
  have r2 : (1 : F) ≤ (1 + eps64) ^ K := one_le_pow₀ (by linarith [hd.1])
  unfold entropyFactorLow entropyFactorHigh
  refine ⟨mul_nonneg (mul_nonneg p1 b1) q1, ?_, ?_⟩
  · exact mul_le_one₀ (mul_le_one₀ p2 b1 b2) q1 q2
  · exact one_le_mul_of_one_le_of_one_le
      (one_le_mul_of_one_le_of_one_le r1 (by linarith)) r2

end exact_mutual_information

section machine_mutual_information

variable {F : Type} [LinearOrderedField F] [FloorRing F]

/-- The value that the evaluator returns in machine arithmetic when all cells lie in
`[0, 1]`: every product of the entropy is a number. -/
theorem costOfProbabilityMachine_eq (ext : Externals F) (prob : Probability F)
    (hx : ∀ p ∈ prob.intensity_prob, 0 ≤ p ∧ p ≤ 1)
    (hy : ∀ p ∈ prob.reflectance_prob, 0 ≤ p ∧ p ≤ 1)
    (hj : ∀ row ∈ prob.joint_prob, ∀ p ∈ row, 0 ≤ p ∧ p ≤ 1) :
    costOfProbabilityMachine ext prob
      = some (-round32 (round32
          (normL1Machine (prob.intensity_prob.map (entropyTermMachine ext.log))
            + normL1Machine (prob.reflectance_prob.map (entropyTermMachine ext.log)))
          - normL1Machine (prob.joint_prob.flatten.map (entropyTermMachine ext.log)))) := by
  simp only [costOfProbabilityMachine, rowEntropyMachine_eq ext _ hx,
    rowEntropyMachine_eq ext _ hy, matEntropyMachine_eq ext _ hj, bind, Option.bind, pure,
    List.map_flatten]

end machine_mutual_information

/-- C7, amended: the mutual information that the evaluator computes in machine arithmetic
need not be non-negative, but it is so up to rounding. Let `ln` be a logarithm with
`ln (x * y) = ln x + ln y` and `ln x ≤ x - 1` on the positive numbers, let the logarithm
of the evaluator lie within the relative error `u ≤ 1/2` of `ln` on the positive cells of
the entropy range, and take an `n x n` joint probability array with non-negative cells of
total 1 whose intensity and reflectance marginals are its row sums and column sums, all
cells of the three arrays being zero, one, or between `2 ^ (-100)` and `1 - 2 ^ (-24)`.
Then every product of the entropy is a number and the evaluator returns `-mi`, where `mi`
is `Hx + Hy - Hxy` with each entropy and both results stored in a `float`; the exact
mutual information is not negative; `mi` is at least `-miTolerance u (n * n)` times the
exact joint entropy, so the returned cost is at most that multiple of it; and `mi`
differs from the exact mutual information by at most `miError u (n * n)` times the sum of
the three exact entropies. -/
theorem mutual_information_float_bound {F : Type} [LinearOrderedField F] [FloorRing F]
    (ext : Externals F) (ln : F → F) (u : F)
    (hmul : ∀ x y, 0 < x → 0 < y → ln (x * y) = ln x + ln y)
    (hle : ∀ x, 0 < x → ln x ≤ x - 1) (hu0 : 0 ≤ u) (hu1 : u ≤ 1 / 2)
    (hlog : ∀ x, inEntropyRange x → 0 < x → |ext.log x - ln x| ≤ u * |ln x|)
    (prob : Probability F) (n : ℕ) (hsquare : prob.joint_prob.length = n)
    (hrect : ∀ row ∈ prob.joint_prob, row.length = n)
    (hnonneg : ∀ row ∈ prob.joint_prob, ∀ p ∈ row, 0 ≤ p)
    (htotal : (rowSums prob.joint_prob).sum = 1)
    (hint : prob.intensity_prob = rowSums prob.joint_prob)
    (hrefl : prob.reflectance_prob = colSums n prob.joint_prob)
    (hjoint : ∀ row ∈ prob.joint_prob, ∀ p ∈ row, inEntropyRange p)
    (hintensity : ∀ p ∈ prob.intensity_prob, inEntropyRange p)
    (hreflectance : ∀ p ∈ prob.reflectance_prob, inEntropyRange p) :
    ∃ mi : F, costOfProbabilityMachine ext prob = some (-mi) ∧
      0 ≤ Hx (externalsOfLog ln) prob + Hy (externalsOfLog ln) prob
            - Hxy (externalsOfLog ln) prob ∧
      -(miTolerance u (n * n) * Hxy (externalsOfLog ln) prob) ≤ mi ∧
      -mi ≤ miTolerance u (n * n) * Hxy (externalsOfLog ln) prob ∧
      |mi - (Hx (externalsOfLog ln) prob + Hy (externalsOfLog ln) prob
              - Hxy (externalsOfLog ln) prob)|
        ≤ miError u (n * n) * (Hx (externalsOfLog ln) prob + Hy (externalsOfLog ln) prob
            + Hxy (externalsOfLog ln) prob) := by
  have hjc := joint_cells_unit prob.joint_prob hnonneg htotal
  have hxc : ∀ p ∈ prob.intensity_prob, 0 ≤ p ∧ p ≤ 1 := by
    rw [hint]; exact rowSums_unit prob.joint_prob hnonneg htotal
  have hyc : ∀ p ∈ prob.reflectance_prob, 0 ≤ p ∧ p ≤ 1 := by
    rw [hrefl]; exact colSums_unit n prob.joint_prob hnonneg htotal
  have hfc : ∀ p ∈ prob.joint_prob.flatten, 0 ≤ p ∧ p ≤ 1 := by
    intro p hp
    obtain ⟨row, hrow, hpr⟩ := List.mem_flatten.mp hp
    exact hjc row hrow p hpr
  have hn : 1 ≤ n := by
    rcases Nat.eq_zero_or_pos n with h0 | h0
    · exfalso
      have hnil : prob.joint_prob = [] := List.length_eq_zero.mp (by rw [hsquare, h0])
      rw [hnil] at htotal
      simp [rowSums] at htotal
    · exact h0
  have hnn : n ≤ n * n := Nat.le_mul_of_pos_left n hn
  have lx : prob.intensity_prob.length ≤ n * n := by
    rw [hint, rowSums, List.length_map, hsquare]; exact hnn
  have ly : prob.reflectance_prob.length ≤ n * n := by
    rw [hrefl, colSums, List.length_map, List.length_range]; exact hnn
  have lj : prob.joint_prob.flatten.length ≤ n * n := by
    rw [length_flatten_of_rect prob.joint_prob n hrect, hsquare]
  have hfr : ∀ p ∈ prob.joint_prob.flatten, inEntropyRange p := by
    intro p hp
    obtain ⟨row, hrow, hpr⟩ := List.mem_flatten.mp hp
    exact hjoint row hrow p hpr
  obtain ⟨x1, x2, x3⟩ := normL1Machine_entropy_bounds ext.log ln u hu0 hu1 hmul hle hlog
    prob.intensity_prob hintensity (n * n) lx
  obtain ⟨y1, y2, y3⟩ := normL1Machine_entropy_bounds ext.log ln u hu0 hu1 hmul hle hlog
    prob.reflectance_prob hreflectance (n * n) ly
  obtain ⟨z1, z2, -⟩ := normL1Machine_entropy_bounds ext.log ln u hu0 hu1 hmul hle hlog
    prob.joint_prob.flatten hfr (n * n) lj
  have eX : Hx (externalsOfLog ln) prob
      = (prob.intensity_prob.map (fun p => |entropyTerm ln p|)).sum :=
    rowNormL1_rowEntropy_eq (externalsOfLog ln) prob.intensity_prob
  have eY : Hy (externalsOfLog ln) prob
      = (prob.reflectance_prob.map (fun p => |entropyTerm ln p|)).sum :=
    rowNormL1_rowEntropy_eq (externalsOfLog ln) prob.reflectance_prob
  have eZ : Hxy (externalsOfLog ln) prob
      = (prob.joint_prob.flatten.map (fun p => |entropyTerm ln p|)).sum :=
    matNormL1_eq_flatten (externalsOfLog ln) prob.joint_prob
  have hmi := exact_mutual_information_nonneg (externalsOfLog ln) hmul hle prob n hrect
    hnonneg htotal hint hrefl
  have hsum0 : ∀ cells : List F, 0 ≤ (cells.map (fun p => |entropyTerm ln p|)).sum :=
    fun cells => List.sum_nonneg (fun x hx => by
      obtain ⟨y, -, rfl⟩ := List.mem_map.mp hx
      exact abs_nonneg _)
  obtain ⟨hA0, hA1, hB⟩ := entropyFactor_bounds u hu0 (by linarith) (n * n)
  have he := eps32_bounds (F := F)
  rw [← eX] at x1 x2
  rw [← eY] at y1 y2
  rw [← eZ] at z1 z2
  have hX0 : 0 ≤ Hx (externalsOfLog ln) prob := by rw [eX]; exact hsum0 _
  have hY0 : 0 ≤ Hy (externalsOfLog ln) prob := by rw [eY]; exact hsum0 _
  have hx0 : 0 ≤ normL1Machine (prob.intensity_prob.map (entropyTermMachine ext.log)) :=
    le_trans (mul_nonneg hA0 hX0) x1
  have hy0 : 0 ≤ normL1Machine (prob.reflectance_prob.map (entropyTermMachine ext.log)) :=
    le_trans (mul_nonneg hA0 hY0) y1
  have hsum : normL1Machine (prob.intensity_prob.map (entropyTermMachine ext.log))
        + normL1Machine (prob.reflectance_prob.map (entropyTermMachine ext.log)) = 0 ∨
      (2 : F) ^ (-(126 : Int))
        ≤ |normL1Machine (prob.intensity_prob.map (entropyTermMachine ext.log))
          + normL1Machine (prob.reflectance_prob.map (entropyTermMachine ext.log))| := by
    rw [abs_of_nonneg (add_nonneg hx0 hy0)]
    rcases x3 with a0 | a1
    · rcases y3 with b0 | b1
      · left
        rw [a0, b0, add_zero]
      · right
        linarith
    · right
      linarith
  have hdiff : ∀ s : F,
      |round32 (round32 s
            - normL1Machine (prob.joint_prob.flatten.map (entropyTermMachine ext.log)))
          - (round32 s
            - normL1Machine (prob.joint_prob.flatten.map (entropyTermMachine ext.log)))|
        ≤ eps32 * |round32 s
            - normL1Machine (prob.joint_prob.flatten.map (entropyTermMachine ext.log))| :=
    fun s => round32_sub_error s
      (sumAbs64 (prob.joint_prob.flatten.map (entropyTermMachine ext.log)))
  obtain ⟨b1, b2⟩ := float_difference_bounds eps32 (entropyFactorLow u (n * n))
    (entropyFactorHigh u (n * n)) (Hx (externalsOfLog ln) prob) (Hy (externalsOfLog ln) prob)
    (Hxy (externalsOfLog ln) prob) _ _ _ _ _ he.1 he.2 hA0 hA1 hB
    hX0 hY0 (by rw [eZ]; exact hsum0 _)
    (by linarith) x1 x2 y1 y2 z1 z2 (round32_error _ hsum)
    (hdiff _)
  refine ⟨_, costOfProbabilityMachine_eq ext prob hxc hyc hjc, hmi, ?_, ?_, ?_⟩
  · unfold miTolerance
    linarith
  · unfold miTolerance
    linarith
  · unfold miError
    exact b2

/-- C7, amended, with the real logarithm stored in a `float` on the joint array
`[[1/64, 3/64], [15/64, 45/64]]` of `dyadicProbability`. -/
theorem mutual_information_float_bound_witness :
    ∃ mi : ℝ, costOfProbabilityMachine (externalsOfLog (fun x => round32 (Real.log x)))
        dyadicProbability = some (-mi) ∧
      0 ≤ Hx (externalsOfLog Real.log) dyadicProbability
            + Hy (externalsOfLog Real.log) dyadicProbability
            - Hxy (externalsOfLog Real.log) dyadicProbability ∧
      -(miTolerance (2 ^ (-(24 : Int))) (2 * 2) * Hxy (externalsOfLog Real.log) dyadicProbability)
        ≤ mi ∧
      -mi ≤ miTolerance (2 ^ (-(24 : Int))) (2 * 2)
        * Hxy (externalsOfLog Real.log) dyadicProbability ∧
      |mi - (Hx (externalsOfLog Real.log) dyadicProbability
              + Hy (externalsOfLog Real.log) dyadicProbability
              - Hxy (externalsOfLog Real.log) dyadicProbability)|
        ≤ miError (2 ^ (-(24 : Int))) (2 * 2)
          * (Hx (externalsOfLog Real.log) dyadicProbability
            + Hy (externalsOfLog Real.log) dyadicProbability
            + Hxy (externalsOfLog Real.log) dyadicProbability) := by
  apply mutual_information_float_bound (externalsOfLog (fun x => round32 (Real.log x)))
    Real.log (2 ^ (-(24 : Int)))
    (fun x y hx hy => Real.log_mul (ne_of_gt hx) (ne_of_gt hy))
    (fun x hx => Real.log_le_sub_one_of_pos hx)
    (le_of_lt (zpow_pos (by norm_num) _))
    (le_trans (zpow_le_zpow_right₀ (by norm_num) (by norm_num : (-(24 : Int)) ≤ -1))
      (by norm_num))
    (fun x hr hx => by
      have h := round32_error (Real.log x) (by
        rcases hr with h0 | h1 | ⟨-, hhi⟩
        · exact absurd h0 (ne_of_gt hx)
        · left
          rw [h1, Real.log_one]
        · right
          have hl := Real.log_le_sub_one_of_pos hx
          have h24 : (0 : ℝ) < 2 ^ (-(24 : Int)) := zpow_pos (by norm_num) _
          rw [abs_of_neg (by linarith)]
          have h126 : (2 : ℝ) ^ (-(126 : Int)) ≤ 2 ^ (-(24 : Int)) :=
            zpow_le_zpow_right₀ (by norm_num) (by norm_num)
          linarith)
      simpa [externalsOfLog, eps32] using h)
    dyadicProbability 2 rfl
  · intro row hrow
    simp only [dyadicProbability, List.mem_cons, List.mem_singleton, List.not_mem_nil,
      or_false] at hrow
    rcases hrow with rfl | rfl <;> rfl
  · intro row hrow p hp
    simp only [dyadicProbability, List.mem_cons, List.mem_singleton, List.not_mem_nil,
      or_false] at hrow
    rcases hrow with rfl | rfl <;>
      · simp only [List.mem_cons, List.mem_singleton, List.not_mem_nil, or_false] at hp
        rcases hp with rfl | rfl <;> norm_num
  · norm_num [dyadicProbability, rowSums]
  · norm_num [dyadicProbability, rowSums]
  · norm_num [dyadicProbability, colSums, List.range_succ]
  · intro row hrow p hp
    simp only [dyadicProbability, List.mem_cons, List.mem_singleton, List.not_mem_nil,
      or_false] at hrow
    rcases hrow with rfl | rfl <;>
      · simp only [List.mem_cons, List.mem_singleton, List.not_mem_nil, or_false] at hp
        rcases hp with rfl | rfl <;> exact Or.inr (Or.inr (by norm_num))
  · intro p hp
    simp only [dyadicProbability, List.mem_cons, List.mem_singleton, List.not_mem_nil,
      or_false] at hp
    rcases hp with rfl | rfl <;> exact Or.inr (Or.inr (by norm_num))
  · intro p hp
    simp only [dyadicProbability, List.mem_cons, List.mem_singleton, List.not_mem_nil,
      or_false] at hp
    rcases hp with rfl | rfl <;> exact Or.inr (Or.inr (by norm_num))

/-- C7 as stated fails: the joint array `[[1/64, 3/64], [15/64, 45/64]]` has non-negative
cells of total 1, and its marginals `[1/16, 15/16]` and `[1/4, 3/4]` are its row sums and
column sums; every cell is a `float`. With the real logarithm rounded to the nearest
`float`, every product and the three entropies stored in a `float` and the sums of
`cv::norm` accumulated in a `double` (each of them is exact here, in any order), the
evaluator returns the cost `1 / 16777216`: the mutual information it computes is `-2^-24`,
which is negative. -/
theorem mutual_information_negative_in_float :
    (∀ row ∈ (dyadicProbability : Probability ℝ).joint_prob, ∀ p ∈ row, 0 ≤ p) ∧
      (rowSums (dyadicProbability : Probability ℝ).joint_prob).sum = 1 ∧
      (dyadicProbability : Probability ℝ).intensity_prob
        = rowSums (dyadicProbability : Probability ℝ).joint_prob ∧
      (dyadicProbability : Probability ℝ).reflectance_prob
        = colSums 2 (dyadicProbability : Probability ℝ).joint_prob ∧
      costOfProbabilityMachine (externalsOfLog (fun x => round32 (Real.log x)))
        (dyadicProbability : Probability ℝ) = some (1 / 16777216) := by
  have hj : ∀ row ∈ (dyadicProbability : Probability ℝ).joint_prob, ∀ p ∈ row,
      0 ≤ p ∧ p ≤ 1 := by
    intro row hrow p hp
    simp only [dyadicProbability, List.mem_cons, List.mem_singleton, List.not_mem_nil,
      or_false] at hrow
    rcases hrow with rfl | rfl <;>
      · simp only [List.mem_cons, List.mem_singleton, List.not_mem_nil, or_false] at hp
        rcases hp with rfl | rfl <;> norm_num
  have hx : ∀ p ∈ (dyadicProbability : Probability ℝ).intensity_prob, 0 ≤ p ∧ p ≤ 1 := by
    intro p hp
    simp only [dyadicProbability, List.mem_cons, List.mem_singleton, List.not_mem_nil,
      or_false] at hp
    rcases hp with rfl | rfl <;> norm_num
  have hy : ∀ p ∈ (dyadicProbability : Probability ℝ).reflectance_prob, 0 ≤ p ∧ p ≤ 1 := by
    intro p hp
    simp only [dyadicProbability, List.mem_cons, List.mem_singleton, List.not_mem_nil,
      or_false] at hp
    rcases hp with rfl | rfl <;> norm_num
  refine ⟨fun row hrow p hp => (hj row hrow p hp).1, ?_, ?_, ?_, ?_⟩
  · norm_num [dyadicProbability, rowSums]
  · norm_num [dyadicProbability, rowSums]
  · norm_num [dyadicProbability, colSums, List.range_succ]
  · rw [costOfProbabilityMachine_eq _ _ hx hy hj]
    have hflat : (dyadicProbability : Probability ℝ).joint_prob.flatten
        = [1 / 64, 3 / 64, 15 / 64, 45 / 64] := rfl
    have hi : (dyadicProbability : Probability ℝ).intensity_prob = [1 / 16, 15 / 16] := rfl
    have hr : (dyadicProbability : Probability ℝ).reflectance_prob = [1 / 4, 3 / 4] := rfl
    have hlogf : (externalsOfLog (fun x : ℝ => round32 (Real.log x))).log
        = fun x => round32 (Real.log x) := rfl
    rw [hflat, hi, hr, hlogf, normL1Machine_float_intensity, normL1Machine_float_reflectance,
      normL1Machine_float_joint, float_entropy_sum, float_mutual_information]
    norm_num

end camera_lidar_calibration

end hector_calibration

namespace hector_calibration

section power_of_two_scaling

variable {F : Type} [LinearOrderedField F] [FloorRing F]

end power_of_two_scaling

namespace camera_lidar_calibration

section stored_reflectance

variable {F : Type} [LinearOrderedField F] [FloorRing F]

end stored_reflectance

end camera_lidar_calibration

end hector_calibration

namespace hector_calibration

namespace camera_lidar_calibration

section bins_within_grid

variable {F : Type} [LinearOrderedField F] [FloorRing F]

end bins_within_grid

end camera_lidar_calibration

end hector_calibration

namespace hector_calibration

namespace camera_lidar_calibration

end camera_lidar_calibration

end hector_calibration

namespace hector_calibration

namespace LidarCalibration

section registration_bound_facts

variable {F : Type} [Field F]

/-- The loop of `calibrate` is the loop with the convergence test as a parameter, taken
at `check_convergence`. -/
theorem calibrateLoopWith_check_convergence (ext : PclExternals F) (max_iterations : Nat) :
    ∀ (k c : Nat) (st : CalibrateState F), max_iterations - c = k →
      calibrateLoopWith check_convergence ext max_iterations c st
        = calibrateLoop ext max_iterations c st := by
  intro k
  induction k using Nat.strong_induction_on with
  | _ k ih =>
    intro c st hk
    rw [calibrateLoop, calibrateLoopWith]
    cases hit : iteration ext st with
    | error e => rfl
    | ok st1 =>
      simp only
      by_cases hlt : c + 1 < max_iterations
      · simp only [hlt, dite_true]
        by_cases h2 : c + 1 < 2
        · simp only [h2, if_true]
          exact ih (max_iterations - (c + 1)) (by omega) (c + 1) st1 rfl
        · simp only [h2, if_false]
          rw [ih (max_iterations - (c + 1)) (by omega) (c + 1) _ rfl]
      · simp only [hlt, dite_false]

/-- Whatever the convergence test answers, the loop of `calibrate` entered with counter
`c` returns with a counter `n` between `c + 1` and `max (c + 1) max_iterations`, having
called `optimize_calibration` once per pass. -/
theorem calibrateLoopWith_spec (conv : Calibration F → Calibration F → Bool)
    (ext : PclExternals F) (max_iterations : Nat) :
    ∀ (k c : Nat) (st : CalibrateState F), max_iterations - c = k → st.calibrations ≠ [] →
      ∃ n st1, calibrateLoopWith conv ext max_iterations c st = .ok (n, st1) ∧
        c + 1 ≤ n ∧ n ≤ max (c + 1) max_iterations ∧
        st1.calls.count Call.optimize_calibration
          = st.calls.count Call.optimize_calibration + (n - c) := by
  intro k
  induction k using Nat.strong_induction_on with
  | _ k ih =>
    intro c st hk hne
    obtain ⟨st1, hit, hcal, hcount⟩ := iteration_spec ext st hne
    rw [calibrateLoopWith, hit]
    simp only
    have hne1 : st1.calibrations ≠ [] := by rw [hcal]; simp
    by_cases hlt : c + 1 < max_iterations
    · simp only [hlt, dite_true]
      by_cases h2 : c + 1 < 2
      · simp only [h2, if_true]
        obtain ⟨n, st3, hrun, h1, h3, hc3⟩ :=
          ih (max_iterations - (c + 1)) (by omega) (c + 1) st1 rfl hne1
        exact ⟨n, st3, hrun, by omega, by omega, by rw [hc3, hcount]; omega⟩
      · simp only [h2, if_false]
        have hl1 : st1.calibrations.length = st.calibrations.length + 1 := by
          rw [hcal]; simp
        have hpos := List.length_pos.mpr hne
        rw [readAt_of_lt _ _ (by omega : st1.calibrations.length - 2 < st1.calibrations.length),
          readAt_of_lt _ _ (by omega : st1.calibrations.length - 1 < st1.calibrations.length)]
        simp only
        have hc2 : (st1.calls ++ [Call.check_convergence]).count Call.optimize_calibration
            = st.calls.count Call.optimize_calibration + 1 := by
          rw [List.count_append, hcount]
          simp
        split_ifs with hconv
        · exact ⟨c + 1, _, rfl, le_refl _, by omega, by rw [hc2]; omega⟩
        · obtain ⟨n, st3, hrun, h1, h3, hc3⟩ := ih (max_iterations - (c + 1)) (by omega) (c + 1)
            { st1 with calls := st1.calls ++ [Call.check_convergence] } rfl hne1
          exact ⟨n, st3, hrun, by omega, by omega, by rw [hc3, hc2]; omega⟩
    · simp only [hlt, dite_false]
      exact ⟨c + 1, st1, rfl, le_refl _, by omega, by rw [hcount]; omega⟩

end registration_bound_facts

/-- C2, amended: `calibrate` always returns, and whatever the convergence test answers
it calls `optimize_calibration` at least once and at most `max 1 max_iterations` times:
at most `max_iterations` times whenever `max_iterations ≥ 1`, and once when
`max_iterations = 0`, because the body of the `do ... while` loop runs before the bound
is tested. The number of calls is the final value of `iteration_counter`. The loop with
the convergence test as a parameter is the loop of `calibrate` at `check_convergence`. -/
theorem calibrate_optimize_calls_at_most {F : Type} [Field F]
    (conv : Calibration F → Calibration F → Bool) (ext : PclExternals F)
    (options_ : CalibrationOptions F) (cloud1 cloud2 : List (PointXYZ F))
    (init_calibration : Calibration F) :
    calibrateWith check_convergence ext options_ cloud1 cloud2 init_calibration
        = calibrate ext options_ cloud1 cloud2 init_calibration ∧
      ∃ n st, calibrateWith conv ext options_ cloud1 cloud2 init_calibration = .ok (n, st) ∧
        st.calls.count Call.optimize_calibration = n ∧
        1 ≤ n ∧ n ≤ max 1 options_.max_iterations ∧
        (1 ≤ options_.max_iterations → n ≤ options_.max_iterations) ∧
        (options_.max_iterations = 0 → n = 1) := by
  refine ⟨calibrateLoopWith_check_convergence ext options_.max_iterations _ 0 _ rfl, ?_⟩
  obtain ⟨n, st, hrun, h1, h2, hcount⟩ := calibrateLoopWith_spec conv ext
    options_.max_iterations (options_.max_iterations - 0) 0
    { cloud1 := cloud1, cloud2 := cloud2, calibrations := [init_calibration], calls := [] }
    rfl (by simp)
  refine ⟨n, st, hrun, ?_, by omega, by omega, fun h => by omega, fun h => by omega⟩
  simpa using hcount

/-- C2, amended, with a convergence test that always answers true, the default bound of
20 passes and two one-point clouds. -/
theorem calibrate_optimize_calls_at_most_witness :
    ∃ n st, calibrateWith (fun _ _ => true) samplePcl (sampleOptions 20) [⟨1, 0, 0⟩]
        [⟨0, 1, 0⟩] Calibration.default = .ok (n, st) ∧
      st.calls.count Call.optimize_calibration = n ∧ 1 ≤ n ∧ n ≤ 20 := by
  obtain ⟨n, st, hrun, hcount, h1, -, h20, -⟩ :=
    (calibrate_optimize_calls_at_most (fun _ _ => true) samplePcl (sampleOptions 20)
      [⟨1, 0, 0⟩] [⟨0, 1, 0⟩] Calibration.default).2
  exact ⟨n, st, hrun, hcount, h1, h20 (by decide)⟩

end LidarCalibration

end hector_calibration

namespace hector_calibration

namespace camera_lidar_calibration

end camera_lidar_calibration

end hector_calibration
